import Mathlib

/-!
# GPU kernel code generation (`ir_emitter_unnested.cc`): a shallow embedding

The definitions below follow the functions of
`tensorflow/compiler/xla/service/gpu/ir_emitter_unnested.cc`.  Values that the
emitter only passes on to the IR builder are kept abstract; everything the
emitter itself decides (index widths, launch schedules, thunk order, index
arithmetic) is a computable definition.
-/

namespace XlaGpu

/-! ## Shapes and instructions -/

/-- Element types of arrays; only the byte width matters to the emitter. -/
inductive PrimitiveType where
  | PRED | S8 | S16 | S32 | S64 | U8 | U16 | U32 | U64 | F16 | F32 | F64 | C64 | C128
  deriving DecidableEq, Repr

/-- The `Shape` of XLA: an array with its dimension extents, a tuple of shapes,
or one of the two non-array leaf kinds. -/
inductive Shape where
  | array (element_type : PrimitiveType) (dimensions : List Nat)
  | tuple (tuple_shapes : List Shape)
  | token
  | opaqueType

/-- `Shape::IsArray`. -/
def Shape.IsArray : Shape → Bool
  | .array _ _ => true
  | _ => false

/-- `ShapeUtil::ElementsIn`: the product of the dimension extents of an array
shape (an `int64`; shape validation keeps the product in range). -/
def ElementsIn : Shape → Int
  | .array _ dimensions => (dimensions.prod : Nat)
  | _ => 0

mutual
/-- `ShapeUtil::ForEachSubshape`: the shape itself followed, for a tuple, by the
subshapes of each of its elements in order. -/
def Shape.subshapes : Shape → List Shape
  | .tuple tuple_shapes => .tuple tuple_shapes :: subshapesOfList tuple_shapes
  | .array element_type dimensions => [.array element_type dimensions]
  | .token => [.token]
  | .opaqueType => [.opaqueType]
/-- The subshapes of a list of tuple elements, concatenated in order. -/
def subshapesOfList : List Shape → List Shape
  | [] => []
  | s :: rest => s.subshapes ++ subshapesOfList rest
end

/-- Modelled from the spec: `IsInt32` (declared outside this file) holds of an
integer exactly when it is representable in 32 bits as a signed integer. -/
def IsInt32 (x : Int) : Bool :=
  decide (-(2 : Int) ^ 31 ≤ x ∧ x ≤ (2 : Int) ^ 31 - 1)

/-- Opcodes that the functions embedded here distinguish. -/
inductive HloOpcode where
  | kFusion | kReduce | kBroadcast | kConstant | kParameter | kTuple | kOther
  | kGetDimensionSize | kGetTupleElement | kMap | kTupleSelect | kBitcast | kSlice | kAdd
  | kSelect | kCopy | kScatter
  deriving DecidableEq, Repr

/-- The part of an `HloInstruction` read by the emitter: opcode, result shape,
operands and, for a fusion, the instructions of the fused computation. -/
inductive HloInstruction where
  | mk (opcode : HloOpcode) (shape : Shape) (operands : List HloInstruction)
      (fused_instructions : List HloInstruction)

/-- `HloInstruction::opcode`. -/
def HloInstruction.opcode : HloInstruction → HloOpcode
  | .mk o _ _ _ => o

/-- `HloInstruction::shape`. -/
def HloInstruction.shape : HloInstruction → Shape
  | .mk _ s _ _ => s

/-- `HloInstruction::operands`. -/
def HloInstruction.operands : HloInstruction → List HloInstruction
  | .mk _ _ ops _ => ops

/-- `fused_instructions_computation()->instructions()`. -/
def HloInstruction.fused_instructions : HloInstruction → List HloInstruction
  | .mk _ _ _ fused => fused

/-- The computation an instruction lives in: `FusionInstruction` is present
exactly when `IsFusionComputation()` holds. -/
structure HloComputation where
  FusionInstruction : Option HloInstruction

/-- `HloComputation::IsFusionComputation`. -/
def HloComputation.IsFusionComputation (c : HloComputation) : Bool :=
  c.FusionInstruction.isSome

/-- The two index types a kernel can use. -/
inductive IndexType where
  | i32 | i64
  deriving DecidableEq, Repr

/-- The lambda `shape_in_range` of `GetIndexTypeForKernel`: a flag that starts
true and is cleared by every array subshape whose element count is not an
`int32`. -/
def shape_in_range (s : Shape) : Bool :=
  s.subshapes.foldl
    (fun in_range sub_shape =>
      if sub_shape.IsArray && !IsInt32 (ElementsIn sub_shape) then false else in_range)
    true

/-- The instruction the kernel is generated for: the fusion instruction when
the given instruction lives in a fusion computation. -/
def unnested_hlo (hlo : HloInstruction) (computation : HloComputation) : HloInstruction :=
  match computation.FusionInstruction with
  | some fusion => fusion
  | none => hlo

/-- `GetIndexTypeForKernel`. -/
def GetIndexTypeForKernel (hlo : HloInstruction) (computation : HloComputation)
    (launch_size : Int) : IndexType :=
  let unnested := unnested_hlo hlo computation
  if !IsInt32 launch_size then .i64
  else if !shape_in_range unnested.shape then .i64
  else if !unnested.operands.all (fun operand => shape_in_range operand.shape) then .i64
  else if unnested.opcode = .kFusion &&
      !unnested.fused_instructions.all (fun instr => shape_in_range instr.shape) then .i64
  else .i32

/-! ### The statement of the index-width policy -/

/-- Subshape relation: `IsSubshape sub s` when `sub` is `s` or lies inside one
of the elements of the tuple `s`. -/
inductive IsSubshape : Shape → Shape → Prop where
  | self (s : Shape) : IsSubshape s s
  | inTuple (sub elem : Shape) (tuple_shapes : List Shape) :
      elem ∈ tuple_shapes → IsSubshape sub elem → IsSubshape sub (.tuple tuple_shapes)

/-- Representable as a signed 32-bit integer. -/
def FitsInt32 (x : Int) : Prop := -(2 : Int) ^ 31 ≤ x ∧ x < (2 : Int) ^ 31

/-- Every array subshape of `s` has an element count that fits in 32 bits. -/
def ArraysFitInt32 (s : Shape) : Prop :=
  ∀ sub, IsSubshape sub s → sub.IsArray = true → FitsInt32 (ElementsIn sub)

/-- The policy as the specification words it, for the unnested instruction `u`. -/
def UsesInt32Policy (u : HloInstruction) (launch_size : Int) : Prop :=
  FitsInt32 launch_size ∧ ArraysFitInt32 u.shape ∧
    (∀ operand ∈ u.operands, ArraysFitInt32 operand.shape) ∧
    (u.opcode = .kFusion → ∀ instr ∈ u.fused_instructions, ArraysFitInt32 instr.shape)

/-- The largest element count among a list of array shapes (0 for none). -/
def maxElementCount (arrays : List Shape) : Int :=
  (arrays.map ElementsIn).foldl max 0

/-- The array shapes a kernel touches: the array subshapes of the result, of
the operands and, for a fusion, of the fused instructions. -/
def touchedArrays (u : HloInstruction) : List Shape :=
  ((u.shape.subshapes ++ u.operands.flatMap (fun operand => operand.shape.subshapes)) ++
    (if u.opcode = .kFusion then
      u.fused_instructions.flatMap (fun instr => instr.shape.subshapes)
    else [])).filter Shape.IsArray

/-! ## Sort: `EmitSortFromMlir` -/

/-- `BufferAllocation::Slice`: an allocation (by index) with a byte offset and a
byte size; two slices are equal when all three agree. -/
structure Slice where
  allocation : Nat
  offset : Int
  size : Int
  deriving DecidableEq, Repr

/-- `LaunchDimensions`: the block count and the threads per block. -/
structure LaunchDimensions where
  block_count : Nat
  threads_per_block : Nat
  deriving DecidableEq, Repr

/-- The fields of `GpuDeviceInfo` read by the sort emitter. -/
structure GpuDeviceInfo where
  threads_per_block_limit : Nat
  shared_memory_per_block : Nat

/-- The thunks built for a sort: a device-to-device copy, a kernel running
`EmitSortInPlace` for a list of xor masks, and the sequential thunk. -/
inductive Thunk where
  | DeviceToDeviceCopy (source_address destination_buffer : Slice) (mem_size : Int)
  | SortKernel (xor_masks : List Nat) (launch_dimensions : LaunchDimensions)
      (num_iterations_in_sort_dim : Nat) (tile_size : Nat)
  | Sequential (thunks : List Thunk)

/-- A thunk is a sort kernel. -/
def Thunk.isSortKernel : Thunk → Bool
  | .SortKernel _ _ _ _ => true
  | _ => false

/-- A thunk is a device-to-device copy. -/
def Thunk.isCopy : Thunk → Bool
  | .DeviceToDeviceCopy _ _ _ => true
  | _ => false

/-- The xor masks of a sort kernel (empty for the other thunks). -/
def Thunk.xorMasks : Thunk → List Nat
  | .SortKernel xor_masks _ _ _ => xor_masks
  | _ => []

/-- Ways in which emission stops without a thunk. -/
inductive EmitError where
  | retCheckFailed
  | checkFailed
  | undefinedOperation
  deriving DecidableEq, Repr

/-- One sorted operand with its output: the two layouts, the two resolved
buffer slices, the byte size of the operand and of one element. -/
structure SortOperand where
  operand_layout : List Nat
  output_layout : List Nat
  source_address : Slice
  destination_buffer : Slice
  byte_size : Int
  element_byte_size : Nat

/-- The search behind `Log2Ceiling`: the first `s`, counting up, with `n ≤ 2^s`. -/
def log2CeilingFrom (n : Nat) : Nat → Nat → Nat
  | 0, s => s
  | fuel + 1, s => if n ≤ 2 ^ s then s else log2CeilingFrom n fuel (s + 1)

/-- Modelled from the spec: `tensorflow::Log2Ceiling` (defined outside this
file) returns `ceil(log2(n))`, the least `s` with `n ≤ 2^s`, for an unsigned
64-bit `n`. -/
def Log2Ceiling (n : Nat) : Int :=
  (log2CeilingFrom n 64 0 : Nat)

/-- The C++ expression `1ULL << k` for a signed shift count `k`: defined only
for `0 ≤ k < 64`. -/
def shiftLeftOne (k : Int) : Option Nat :=
  if 0 ≤ k ∧ k < 64 then some (2 ^ k.toNat) else none

/-- `CeilOfRatio` on unsigned integers; division by zero is undefined. -/
def CeilOfRatio (numerator denominator : Nat) : Option Nat :=
  if denominator = 0 then none else some ((numerator + denominator - 1) / denominator)

/-- `RoundUpToNearest(value, divisor)`, which is `CeilOfRatio * divisor`. -/
def RoundUpToNearest (value divisor : Nat) : Option Nat :=
  (CeilOfRatio value divisor).map (fun q => q * divisor)

/-- The first loop of `EmitSortFromMlir`: both layouts of every operand must
equal the layout of the keys, and a copy is pushed for every operand whose
destination slice differs from its source slice. -/
def emitSortCopies (keys_layout : List Nat) :
    List SortOperand → Except EmitError (List Thunk)
  | [] => .ok []
  | op :: rest =>
    if keys_layout ≠ op.operand_layout then .error .retCheckFailed
    else if keys_layout ≠ op.output_layout then .error .retCheckFailed
    else
      match emitSortCopies keys_layout rest with
      | .error e => .error e
      | .ok thunks =>
        if op.destination_buffer ≠ op.source_address then
          .ok (.DeviceToDeviceCopy op.source_address op.destination_buffer op.byte_size :: thunks)
        else .ok thunks

/-- The mask of the inner loop for the pair `(stage, mask)`:
`(1 << (stage + 1)) - 1` when `mask == stage` and `1 << mask` otherwise. The
shifts are on `int64` and stay in range for `stage ≤ 61`. -/
def xorMaskAt (stage mask : Nat) : Nat :=
  if mask = stage then 2 ^ (stage + 1) - 1 else 2 ^ mask

/-- The values of `mask` in `for (mask = stage; mask >= 0; --mask)`. -/
def maskCountdown : Nat → List Nat
  | 0 => [0]
  | m + 1 => (m + 1) :: maskCountdown m

/-- The xor masks in the order in which the two nested loops produce them,
starting at stage `stage` and running `remaining` stages. -/
def xorMasksFrom (stage : Nat) : Nat → List Nat
  | 0 => []
  | remaining + 1 =>
    (maskCountdown stage).map (xorMaskAt stage) ++ xorMasksFrom (stage + 1) remaining

/-- All xor masks of `for (stage = 0; stage < num_stages; ++stage)`. -/
def allXorMasks (num_stages : Nat) : List Nat :=
  xorMasksFrom 0 num_stages

/-- The state of the mask loop: the mask lists already handed to `emit_kernel`
and the vector `xor_masks` of masks collected for the next tiled kernel. -/
structure MaskLoopState where
  emitted : List (List Nat)
  xor_masks : List Nat

/-- One iteration of the loop body on `xor_mask`. -/
def maskLoopStep (kTileSize : Nat) (no_tiling : Bool) (st : MaskLoopState) (xor_mask : Nat) :
    MaskLoopState :=
  if decide (xor_mask ≥ kTileSize) || no_tiling then
    if st.xor_masks ≠ [] then
      { emitted := st.emitted ++ [st.xor_masks] ++ [[xor_mask]], xor_masks := [] }
    else
      { emitted := st.emitted ++ [[xor_mask]], xor_masks := [] }
  else
    { emitted := st.emitted, xor_masks := st.xor_masks ++ [xor_mask] }

/-- The mask lists handed to `emit_kernel`, in launch order: the loop followed
by the final flush of a non-empty `xor_masks`. -/
def emittedMaskLists (kTileSize : Nat) (no_tiling : Bool) (num_stages : Nat) : List (List Nat) :=
  let st := (allXorMasks num_stages).foldl (maskLoopStep kTileSize no_tiling) ⟨[], []⟩
  if st.xor_masks ≠ [] then st.emitted ++ [st.xor_masks] else st.emitted

/-- The lambda `emit_kernel`: the launch dimensions and the iteration count
depend on whether more than one mask is passed. -/
def emit_kernel (tiled_launch_dimensions standard_launch_dimensions : LaunchDimensions)
    (num_iterations_in_sort_dim standard_num_iterations_in_sort_dim kTileSize : Nat)
    (xor_masks : List Nat) : Thunk :=
  .SortKernel xor_masks
    (if xor_masks.length > 1 then tiled_launch_dimensions else standard_launch_dimensions)
    (if xor_masks.length > 1 then num_iterations_in_sort_dim
      else standard_num_iterations_in_sort_dim)
    kTileSize

/-- The flag `no_tiling`: tiling is not used when the tile is smaller than 128,
when `kTileSize / 2` threads exceed the block limit, or when `kTileSize`
elements of all operands together exceed the shared memory of a block. -/
def sortNoTiling (kTileSize : Nat) (operands : List SortOperand) (device : GpuDeviceInfo) :
    Bool :=
  let kThreadsPerBlock := kTileSize / 2
  let total_shared_memory_needed :=
    (operands.map (fun op => kTileSize * op.element_byte_size)).sum
  decide (kTileSize < 128) ||
  decide (kThreadsPerBlock > device.threads_per_block_limit) ||
  decide (total_shared_memory_needed > device.shared_memory_per_block)

/-- `EmitSortFromMlir`: the sequential thunk added to the thunk sequence, or the
way in which emission stops. `standard_launch_dimensions` is the value the
collaborator `CalculateLaunchDimensions` returns for the standard iteration
shape. -/
def EmitSortFromMlir (operands : List SortOperand) (keys_dimensions : List Nat)
    (dimension_to_sort : Nat) (device : GpuDeviceInfo)
    (standard_launch_dimensions : LaunchDimensions) : Except EmitError Thunk :=
  match operands with
  | [] => .error .undefinedOperation
  | keys :: _ =>
    match emitSortCopies keys.operand_layout operands with
    | .error e => .error e
    | .ok copies =>
      let dimension_to_sort_bound := keys_dimensions.getD dimension_to_sort 0
      let num_stages := Log2Ceiling dimension_to_sort_bound
      match shiftLeftOne num_stages, shiftLeftOne (num_stages - 1) with
      | some pow_stages, some pow_stages_minus_one =>
        if ¬ (pow_stages ≥ dimension_to_sort_bound) then .error .checkFailed
        else if ¬ (pow_stages_minus_one < dimension_to_sort_bound) then .error .checkFailed
        else
          let kTileSize := min 2048 pow_stages
          let standard_num_iterations_in_sort_dim := pow_stages_minus_one
          match RoundUpToNearest dimension_to_sort_bound kTileSize with
          | none => .error .undefinedOperation
          | some rounded_bound =>
            let num_iterations_in_sort_dim := rounded_bound / 2
            let num_iterations :=
              (keys_dimensions.set dimension_to_sort num_iterations_in_sort_dim).prod
            let kThreadsPerBlock := kTileSize / 2
            let no_tiling := sortNoTiling kTileSize operands device
            match CeilOfRatio num_iterations kThreadsPerBlock with
            | none => .error .undefinedOperation
            | some num_blocks =>
              let tiled_launch_dimensions : LaunchDimensions := ⟨num_blocks, kThreadsPerBlock⟩
              let kernels :=
                (emittedMaskLists kTileSize no_tiling num_stages.toNat).map
                  (emit_kernel tiled_launch_dimensions standard_launch_dimensions
                    num_iterations_in_sort_dim standard_num_iterations_in_sort_dim kTileSize)
              .ok (.Sequential (copies ++ kernels))
      | _, _ => .error .undefinedOperation

/-- The schedule as the specification words it: for `s = 0, ..., stages - 1`
in order, the mask `2^(s+1) - 1` followed by `2^(s-1), ..., 2^0`. -/
def bitonicSchedule (stages : Nat) : List Nat :=
  (List.range stages).flatMap
    (fun s => (2 ^ (s + 1) - 1) :: (List.range s).reverse.map (fun m => 2 ^ m))

/-- An operand that is sorted in place, with one four-byte element type. -/
def inPlaceOperand : SortOperand :=
  { operand_layout := [0], output_layout := [0],
    source_address := ⟨0, 0, 4⟩, destination_buffer := ⟨0, 0, 4⟩,
    byte_size := 4, element_byte_size := 4 }

/-- A launch for a single mask that is at least the tile size. -/
def IsSoloLaunch (T : Nat) (l : List Nat) : Prop := ∃ m, l = [m] ∧ T ≤ m

/-- A launch for a non-empty run of masks that are all below the tile size. -/
def IsRunLaunch (T : Nat) (l : List Nat) : Prop := l ≠ [] ∧ ∀ m ∈ l, m < T

/-- The launch list splits a schedule into solo launches and maximal runs: every
launch is a solo launch or a run, and no two neighbouring launches are both
runs (so no run can be extended). -/
def IsMaximalRunBatching (T : Nat) (launches : List (List Nat)) : Prop :=
  (∀ l ∈ launches, IsSoloLaunch T l ∨ IsRunLaunch T l) ∧
    List.Chain' (fun a b => ¬ (IsRunLaunch T a ∧ IsRunLaunch T b)) launches

/-- An operand whose output lies in the same allocation at another offset. -/
def sameAllocationOperand : SortOperand :=
  { operand_layout := [0], output_layout := [0],
    source_address := ⟨0, 0, 8⟩, destination_buffer := ⟨0, 8, 8⟩,
    byte_size := 8, element_byte_size := 4 }

/-- The copy pushed for an operand, if any. -/
def sortCopyFor (op : SortOperand) : Option Thunk :=
  if op.destination_buffer ≠ op.source_address then
    some (.DeviceToDeviceCopy op.source_address op.destination_buffer op.byte_size)
  else none

/-- A second operand whose output lives in another allocation. -/
def copiedOperand : SortOperand :=
  { operand_layout := [0], output_layout := [0],
    source_address := ⟨1, 0, 8⟩, destination_buffer := ⟨2, 0, 8⟩,
    byte_size := 8, element_byte_size := 4 }

/-! ## Scatter: `EmitScatter` -/

/-- The width in bits of an index type. -/
def IndexType.bits : IndexType → Nat
  | .i32 => 32
  | .i64 => 64

/-- The value of a signed integer as a bit pattern of the given width (the
result of truncating or sign-extending it), read as an unsigned number. -/
def wrapToWidth (bits : Nat) (x : Int) : Nat :=
  (x % (2 : Int) ^ bits).toNat

/-- `GetIndexTypeForKernelFromMlir` for an operation without nested region: the
32-bit type when the launch size and the shapes of all results and operands are
in the `int32` range. -/
def GetIndexTypeForKernelFromMlir (results operands : List Shape) (launch_size : Int) :
    IndexType :=
  if !IsInt32 launch_size then .i64
  else if !results.all shape_in_range then .i64
  else if !operands.all shape_in_range then .i64
  else .i32

/-- `scatter_dimension_numbers` of a scatter. -/
structure ScatterDimensionNumbers where
  update_window_dims : List Nat
  inserted_window_dims : List Nat
  scatter_dims_to_operand_dims : List Nat
  index_vector_dim : Nat

/-- `ScatterDescriptor`: the dimension extents of the three shapes, the dimension
numbers and the flag `unique_indices`. -/
structure ScatterDescriptor where
  operand_shape : List Nat
  scatter_indices_shape : List Nat
  updates_shape : List Nat
  dim_numbers : ScatterDimensionNumbers
  unique_indices : Bool

/-- `BinarySearchDenseElementsAttr`: `std::binary_search` over the sorted
attribute, which finds `v` exactly when it occurs. -/
def BinarySearchDenseElementsAttr (elements : List Nat) (v : Nat) : Bool :=
  elements.contains v

/-- How the update is combined into the output element. -/
inductive CombineKind where
  | atomicOperation
  | directCall
  deriving DecidableEq, Repr

/-- What the loop body does for one update element. -/
inductive ScatterAction where
  | skip
  | combine (kind : CombineKind) (output_index : List Nat)
  deriving DecidableEq, Repr

/-- The window coordinates of the update index: `raw_window_multidim`. -/
def raw_window_multidim (desc : ScatterDescriptor) (index : List Nat) : List Nat :=
  ((List.range index.length).filter
    (BinarySearchDenseElementsAttr desc.dim_numbers.update_window_dims)).map
    (fun i => index.getD i 0)

/-- The extents of the window dimensions of the updates: `raw_window_bounds`. -/
def raw_window_bounds (desc : ScatterDescriptor) (index : List Nat) : List Nat :=
  ((List.range index.length).filter
    (BinarySearchDenseElementsAttr desc.dim_numbers.update_window_dims)).map
    (fun i => desc.updates_shape.getD i 0)

/-- The remaining coordinates of the update index: `input_scatter_multidim`. -/
def input_scatter_multidim (desc : ScatterDescriptor) (index : List Nat) : List Nat :=
  ((List.range index.length).filter
    (fun i => !BinarySearchDenseElementsAttr desc.dim_numbers.update_window_dims i)).map
    (fun i => index.getD i 0)

/-- The loop that applies `inserted_window_dims`: for the operand dimensions
`dims` (in order) and the running counter `raw_window_multidim_idx`, the pairs
of window bound and window coordinate; `none` when a vector is read past its
end. -/
def applyInsertedWindowDims (inserted_window_dims bounds multidim : List Nat) :
    List Nat → Nat → Option (List (Nat × Nat))
  | [], _ => some []
  | i :: dims, raw_window_multidim_idx =>
    if BinarySearchDenseElementsAttr inserted_window_dims i then
      (applyInsertedWindowDims inserted_window_dims bounds multidim dims
        raw_window_multidim_idx).map (fun rest => (1, 0) :: rest)
    else
      match bounds[raw_window_multidim_idx]?, multidim[raw_window_multidim_idx]? with
      | some bound, some coordinate =>
        (applyInsertedWindowDims inserted_window_dims bounds multidim dims
          (raw_window_multidim_idx + 1)).map (fun rest => (bound, coordinate) :: rest)
      | _, _ => none

/-- Modelled from the spec: `SourceIndexOfReshape` (defined outside this file)
from the shape with the added trailing axis of extent 1 back to the shape of
`scatter_indices`: the trailing coordinate is dropped when the axis was added. -/
def SourceIndexOfReshape (desc : ScatterDescriptor) (fixed_index : List Nat) : List Nat :=
  if desc.dim_numbers.index_vector_dim = desc.scatter_indices_shape.length then
    fixed_index.dropLast
  else fixed_index

/-- The index into the fixed scatter-indices shape for component `i`:
`raw_scatter_index_multidim` with the constant `i` at `index_vector_dim`. -/
def raw_scatter_index_multidim (desc : ScatterDescriptor) (ty : IndexType)
    (index : List Nat) (i : Nat) : List Nat :=
  (input_scatter_multidim desc index).take desc.dim_numbers.index_vector_dim ++
    wrapToWidth ty.bits i ::
      (input_scatter_multidim desc index).drop desc.dim_numbers.index_vector_dim

/-- The state carried through the loop over `scatter_dims_to_operand_dims`. -/
structure ScatterLoopState where
  input_window_multidim : List Nat
  is_in_bounds : Bool
  deriving DecidableEq, Repr

/-- One iteration of the loop over `scatter_dims_to_operand_dims`, for component
`i` with operand dimension `operand_dim`; `none` when `operand_dim` is not a
dimension of the operand. -/
def scatterLoopStep (desc : ScatterDescriptor) (ty : IndexType)
    (scatter_indices_gen : List Nat → Int) (input_window_bounds : List Nat)
    (index : List Nat) (st : ScatterLoopState) (i operand_dim : Nat) :
    Option ScatterLoopState :=
  match st.input_window_multidim[operand_dim]?, input_window_bounds[operand_dim]?,
      desc.operand_shape[operand_dim]? with
  | some window_coordinate, some window_bound, some operand_extent =>
    let loaded_scatter_index :=
      scatter_indices_gen (SourceIndexOfReshape desc (raw_scatter_index_multidim desc ty index i))
    let casted_scatter_index := wrapToWidth ty.bits loaded_scatter_index
    let dim_offset := (window_coordinate + casted_scatter_index) % 2 ^ ty.bits
    let max_index : Int := (operand_extent : Int) - (window_bound : Int) + 1
    some
      { input_window_multidim := st.input_window_multidim.set operand_dim dim_offset
        is_in_bounds :=
          st.is_in_bounds && decide (casted_scatter_index < wrapToWidth ty.bits max_index) }
  | _, _, _ => none

/-- The loop over `scatter_dims_to_operand_dims`, from component `i` on. -/
def scatterLoop (desc : ScatterDescriptor) (ty : IndexType)
    (scatter_indices_gen : List Nat → Int) (input_window_bounds : List Nat)
    (index : List Nat) : List Nat → Nat → ScatterLoopState → Option ScatterLoopState
  | [], _, st => some st
  | operand_dim :: rest, i, st =>
    match scatterLoopStep desc ty scatter_indices_gen input_window_bounds index st i
        operand_dim with
    | some st1 =>
      scatterLoop desc ty scatter_indices_gen input_window_bounds index rest (i + 1) st1
    | none => none

/-- The lambda `loop_body_emitter` of `EmitScatter` for the update element at
`index`: the final loop state (window index and bounds flag). -/
def scatterLoopResult (desc : ScatterDescriptor) (ty : IndexType)
    (scatter_indices_gen : List Nat → Int) (index : List Nat) : Option ScatterLoopState :=
  match applyInsertedWindowDims desc.dim_numbers.inserted_window_dims
      (raw_window_bounds desc index) (raw_window_multidim desc index)
      (List.range desc.operand_shape.length) 0 with
  | none => none
  | some window =>
    if desc.dim_numbers.index_vector_dim > (input_scatter_multidim desc index).length then none
    else
      scatterLoop desc ty scatter_indices_gen (window.map Prod.fst) index
        desc.dim_numbers.scatter_dims_to_operand_dims 0
        { input_window_multidim := window.map Prod.snd, is_in_bounds := true }

/-- The combine emitted inside the bounds check: an atomic operation unless
`unique_indices` is set, in which case the update computation is called
directly. -/
def scatterCombineKind (desc : ScatterDescriptor) : CombineKind :=
  if !desc.unique_indices then .atomicOperation else .directCall

/-- The action of `loop_body_emitter` for the update element at `index`. -/
def loop_body_emitter (desc : ScatterDescriptor) (ty : IndexType)
    (scatter_indices_gen : List Nat → Int) (index : List Nat) : Option ScatterAction :=
  (scatterLoopResult desc ty scatter_indices_gen index).map
    (fun st =>
      if st.is_in_bounds then .combine (scatterCombineKind desc) st.input_window_multidim
      else .skip)

/-- A scatter of one-element windows into an operand of extent 4: one scatter
index per update, stored along an implicit trailing index-vector axis. -/
def pointScatter : ScatterDescriptor :=
  { operand_shape := [4], scatter_indices_shape := [1], updates_shape := [1],
    dim_numbers :=
      { update_window_dims := [], inserted_window_dims := [0],
        scatter_dims_to_operand_dims := [0], index_vector_dim := 1 },
    unique_indices := false }

/-- `KernelMappingScheme::IndexingOrder`. -/
inductive IndexingOrder where
  | LinearIndexingX
  | StridedIndexingX
  | StridedLinearIndexingX
  deriving DecidableEq, Repr

/-- Three values indexed by `kDimZ`, `kDimY`, `kDimX`. -/
structure Dim3 where
  z : Nat
  y : Nat
  x : Nat
  deriving DecidableEq, Repr

/-- `KernelMappingScheme`: the normalized dimensions, the tile sizes, the thread
counts, the indexing order and the vector size; `row_contiguous` is the value of
`GetRowContiguous()`. -/
structure KernelMappingScheme where
  dims_in_elems : Dim3
  tile_sizes : Dim3
  num_threads_y : Nat
  num_threads_x : Nat
  indexing_order : IndexingOrder
  vector_size : Nat
  row_contiguous : Bool

/-- `CeilOfRatio` for a positive divisor. -/
def ceilOfRatio (numerator denominator : Nat) : Nat :=
  (numerator + denominator - 1) / denominator

/-- `dims_in_blocks` of `EmitTilingKernel`. -/
def KernelMappingScheme.dims_in_blocks (scheme : KernelMappingScheme) : Dim3 :=
  ⟨ceilOfRatio scheme.dims_in_elems.z scheme.tile_sizes.z,
   ceilOfRatio scheme.dims_in_elems.y scheme.tile_sizes.y,
   ceilOfRatio scheme.dims_in_elems.x scheme.tile_sizes.x⟩

/-- `GetNumberOfBlocks`: the number of tiles of the scheme. -/
def KernelMappingScheme.GetNumberOfBlocks (scheme : KernelMappingScheme) : Nat :=
  scheme.dims_in_blocks.z * scheme.dims_in_blocks.y * scheme.dims_in_blocks.x

/-- `GetThreadsPerBlock`. -/
def KernelMappingScheme.GetThreadsPerBlock (scheme : KernelMappingScheme) : Nat :=
  scheme.num_threads_x * scheme.num_threads_y

/-- The warp size. -/
def kWarpSize : Nat := 32

/-- `ThreadIdInfo`. -/
structure ThreadIdInfo where
  thread_id : Nat
  thread_id_x : Nat
  thread_id_y : Nat
  lane_id : Nat
  deriving DecidableEq, Repr

/-- `EmitThreadIdInfo`. -/
def EmitThreadIdInfo (num_threads_x thread_id : Nat) : ThreadIdInfo :=
  { thread_id := thread_id
    thread_id_x := thread_id % num_threads_x
    thread_id_y := thread_id / num_threads_x
    lane_id := thread_id % kWarpSize }

/-- `GetStartOffsetX`. -/
def GetStartOffsetX (scheme : KernelMappingScheme) (thread_id_x : Nat) : Nat :=
  match scheme.indexing_order with
  | .StridedIndexingX => thread_id_x
  | .StridedLinearIndexingX => thread_id_x * scheme.vector_size
  | .LinearIndexingX => thread_id_x * (scheme.tile_sizes.x / scheme.num_threads_x)

/-- `UnrollInnerTileLoop`: the pairs `(x_loc, linear_index)` for which the
element function is called, in order. -/
def UnrollInnerTileLoop (check_x_tile_bounds : Bool) (x_num_steps step_x vector_size : Nat)
    (start_offset_x tile_width : Nat) : List (Nat × Nat) :=
  (List.range (x_num_steps / vector_size)).flatMap (fun j =>
    (List.range vector_size).filterMap (fun i =>
      let linear_index := j * vector_size + i
      let x_loc := j * step_x * vector_size + i + start_offset_x
      if check_x_tile_bounds && !decide (x_loc < tile_width) then none
      else some (x_loc, linear_index)))

/-- The lambda `ceil_of_ratio` of `EmitTile`: `(a + b + (-1)) udiv b` in the
index type. -/
def ceil_of_ratio (ty : IndexType) (a b : Nat) : Nat :=
  ((((a + b) % 2 ^ ty.bits) + (2 ^ ty.bits - 1)) % 2 ^ ty.bits) / b

/-- The subtraction `tile_height - thread_id_y` in the index type. -/
def subWrapped (ty : IndexType) (a b : Nat) : Nat :=
  (a + (2 ^ ty.bits - b % 2 ^ ty.bits)) % 2 ^ ty.bits

/-- One call of the element function: the position in the normalized tensor and
the arguments `y_loc`, `x_loc`, `x_iter_num`. -/
structure TileElement where
  index : Dim3
  y_loc : Nat
  x_loc : Nat
  x_iter_num : Nat
  deriving DecidableEq, Repr

/-- `EmitTile`: the calls of the element function made by one thread for the
tile at `tile_origin_index`, in order. -/
def EmitTile (scheme : KernelMappingScheme) (ty : IndexType) (tile_origin_index : Dim3)
    (thread_id_info : ThreadIdInfo) (tile_height tile_width : Nat) : List TileElement :=
  let num_threads_x := scheme.num_threads_x
  let num_threads_y := scheme.num_threads_y
  let tile_size_x := scheme.tile_sizes.x
  let x_num_steps := tile_size_x / num_threads_x
  let start_offset_x := GetStartOffsetX scheme thread_id_info.thread_id_x
  let step_x := if scheme.indexing_order = .LinearIndexingX then 1 else num_threads_x
  let vector_size := scheme.vector_size
  let x_tile_fits := decide (scheme.dims_in_elems.x % tile_size_x = 0) && scheme.row_contiguous
  let y_bound := ceil_of_ratio ty (subWrapped ty tile_height thread_id_info.thread_id_y)
    num_threads_y
  (List.range y_bound).flatMap (fun y_indvar =>
    let y_loc := (thread_id_info.thread_id_y + (y_indvar * num_threads_y) % 2 ^ ty.bits)
      % 2 ^ ty.bits
    let unroll_inner_tile_loop := fun (check_x_tile_bounds : Bool) =>
      (UnrollInnerTileLoop check_x_tile_bounds x_num_steps step_x vector_size start_offset_x
        tile_width).map (fun e =>
          ({ index := ⟨tile_origin_index.z, tile_origin_index.y + y_loc,
                tile_origin_index.x + e.1⟩,
             y_loc := y_loc, x_loc := e.1, x_iter_num := e.2 } : TileElement))
    if !x_tile_fits && decide (scheme.indexing_order = .StridedLinearIndexingX) then
      if tile_size_x = tile_width then unroll_inner_tile_loop false
      else unroll_inner_tile_loop true
    else unroll_inner_tile_loop (!x_tile_fits))

/-- `TilingKernelInfo` together with the tiles handed to the tile generator. -/
structure TilingKernelInfo where
  output_tile_bounds_y : Nat
  output_tile_bounds_x : Nat
  tile_origin : Dim3
  tiles : List Dim3
  deriving DecidableEq, Repr

/-- `EmitTilingKernel` for the block `block_id`: the block coordinates are the
row-major coordinates of `block_id` in `dims_in_blocks`, the last tile of a
dimension may be partial, and a block runs through `tile_sizes.z` tiles in Z. -/
def EmitTilingKernel (scheme : KernelMappingScheme) (block_id : Nat) : TilingKernelInfo :=
  let dims_in_elems := scheme.dims_in_elems
  let dims_in_blocks := scheme.dims_in_blocks
  let starting_block : Dim3 :=
    ⟨block_id / (dims_in_blocks.y * dims_in_blocks.x),
     (block_id / dims_in_blocks.x) % dims_in_blocks.y,
     block_id % dims_in_blocks.x⟩
  let block_coords : Dim3 :=
    ⟨starting_block.z * scheme.tile_sizes.z, starting_block.y, starting_block.x⟩
  let tile_bound := fun (coord blocks elems tile_size : Nat) =>
    if coord = blocks - 1 then elems - (blocks - 1) * tile_size else tile_size
  let tile_origin : Dim3 :=
    ⟨block_coords.z, block_coords.y * scheme.tile_sizes.y, block_coords.x * scheme.tile_sizes.x⟩
  let tiles :=
    if scheme.tile_sizes.z = 1 then [tile_origin]
    else
      let block_id_for_dim := tile_origin.z / scheme.tile_sizes.z
      let last_block_for_dim := dims_in_blocks.z - 1
      let last_block_size_for_dim :=
        dims_in_elems.z - (dims_in_blocks.z - 1) * scheme.tile_sizes.z
      let num_tiles_in_block :=
        if last_block_for_dim = block_id_for_dim then last_block_size_for_dim
        else scheme.tile_sizes.z
      (List.range num_tiles_in_block).map (fun block_dim_induction_var =>
        (⟨tile_origin.z + block_dim_induction_var, tile_origin.y, tile_origin.x⟩ : Dim3))
  { output_tile_bounds_y :=
      tile_bound block_coords.y dims_in_blocks.y dims_in_elems.y scheme.tile_sizes.y
    output_tile_bounds_x :=
      tile_bound block_coords.x dims_in_blocks.x dims_in_elems.x scheme.tile_sizes.x
    tile_origin := tile_origin
    tiles := tiles }

/-! ## Reduction -/

/-- `tensorflow::NextPowerOfTwo64` (defined outside this file): the least power
of two that is not below `v`. -/
def NextPowerOfTwo64 (v : Nat) : Nat :=
  2 ^ log2CeilingFrom v 64 0

/-- `NearestPowerOfTwo`. -/
def NearestPowerOfTwo (v : Int) : Int :=
  if v < 0 then 0
  else
    let upper : Int := (NextPowerOfTwo64 v.toNat : Nat)
    let lower : Int := upper / 2
    if upper - v < v - lower then upper else lower

/-- `ReductionCodegenInfo`: the mapping scheme, the number of partial results per
thread and the kind of reduction. -/
structure ReductionCodegenInfo where
  mapping_scheme : KernelMappingScheme
  num_partial_results : Nat
  is_row_reduction : Bool

/-- `ComputeReductionCodegenInfo`. The reduction kind with its three contiguous
components, the tiling returned by `GetReductionTiling`, the results of
`IsUnrollingColumnReductionBeneficial` and `MayPreventVectorization` and the
row-contiguity flag of the scheme are inputs; `none` stands for the division by
`NearestPowerOfTwo(fan_out) = 0`. -/
def ComputeReductionCodegenInfo (is_row_reduction : Bool) (dimensions reduction_tiling : Dim3)
    (fan_out : Int) (smallest_input_dtype_bits cc_major : Nat)
    (unrolling_column_reduction_beneficial may_prevent_vectorization row_contiguous : Bool) :
    Option ReductionCodegenInfo :=
  let num_threads_y := if is_row_reduction then 1 else kWarpSize
  let num_threads_x_opt : Option Nat :=
    if is_row_reduction then
      if NearestPowerOfTwo fan_out = 0 then none
      else
        let max_block_size : Int := max 64 (512 / NearestPowerOfTwo fan_out)
        some (min max_block_size.toNat
          (ceilOfRatio (ceilOfRatio dimensions.x reduction_tiling.x) kWarpSize * kWarpSize))
    else some kWarpSize
  match num_threads_x_opt with
  | none => none
  | some num_threads_x =>
    let tile_fit := decide (dimensions.x % (reduction_tiling.x * num_threads_x) = 0)
    let first_choice : IndexingOrder × Nat × Nat :=
      if is_row_reduction &&
          ((decide (cc_major = 6) && decide (smallest_input_dtype_bits ≤ 32) && tile_fit) ||
           (decide (cc_major ≥ 7) && decide (dimensions.x % 2 = 0))) then
        (.StridedLinearIndexingX, 1, reduction_tiling.x)
      else if !is_row_reduction && unrolling_column_reduction_beneficial then
        (.LinearIndexingX, 2, reduction_tiling.x * 2)
      else (.StridedIndexingX, 1, reduction_tiling.x)
    let num_partial_results := first_choice.2.1
    let tiling_x := first_choice.2.2
    let second_choice : IndexingOrder × Nat :=
      if first_choice.1 = .StridedLinearIndexingX then
        if decide (dimensions.x % 2 = 0) && !may_prevent_vectorization then
          (.StridedLinearIndexingX, 2)
        else (.StridedIndexingX, 1)
      else (first_choice.1, 1)
    some
      { mapping_scheme :=
          { dims_in_elems := dimensions
            tile_sizes := ⟨reduction_tiling.z, reduction_tiling.y * num_threads_y,
              tiling_x * num_threads_x⟩
            num_threads_y := num_threads_y
            num_threads_x := num_threads_x
            indexing_order := second_choice.1
            vector_size := second_choice.2
            row_contiguous := row_contiguous }
        num_partial_results := num_partial_results
        is_row_reduction := is_row_reduction }

/-- One step of the shuffle loop on the values held by the 32 lanes of a warp:
`EmitFullWarpShuffleDown` (defined outside this file) hands lane `l` the value of
lane `l + distance` of its warp, or its own value when there is no such lane,
and the reducer combines the lane's value with it. -/
def shuffleDownStep {α : Type} (reducer : α → α → α) (distance : Nat) (lanes : Nat → α) :
    Nat → α :=
  fun lane =>
    reducer (lanes lane) (if lane + distance < kWarpSize then lanes (lane + distance)
      else lanes lane)

/-- The loop `for (distance = start; distance >= 1; distance /= 2)` of
`EmitFullWarpShuffleDownLoopForReduce`. -/
def shuffleDownLoop {α : Type} (reducer : α → α → α) (distance : Nat) (lanes : Nat → α) :
    Nat → α :=
  if h : distance ≥ 1 then
    shuffleDownLoop reducer (distance / 2) (shuffleDownStep reducer distance lanes)
  else lanes
termination_by distance
decreasing_by omega

/-- `EmitFullWarpShuffleDownLoopForReduce`: the values of the 32 lanes of a warp
after the loop, which starts at distance 16. -/
def EmitFullWarpShuffleDownLoopForReduce {α : Type} (reducer : α → α → α)
    (lanes : Nat → α) : Nat → α :=
  shuffleDownLoop reducer 16 lanes

/-- The row branch of `EmitEpilogueForReduction` for one block of a row
reduction (`num_threads_y = 1`, so `thread_id_x` is the thread id): the value at
`block_accum_addr` that thread 0 combines atomically into the output.
Every warp reduces its partial results by shuffles and its lane 0 stores the
result in slot `warp_id` of the shared cache; after the barrier the lanes of
warp 0 select slot `lane_id` when `thread_id_x < num_threads_x / kWarpSize` and
a copy of the initial value otherwise, and reduce again by shuffles into the
selected address. -/
def rowEpilogueBlockAccum {α : Type} (num_threads_x : Nat) (reducer : α → α → α)
    (initial_value : α) (partial_result : Nat → α) : α :=
  let current_output := fun (warp_id : Nat) =>
    EmitFullWarpShuffleDownLoopForReduce reducer
      (fun lane => partial_result (warp_id * kWarpSize + lane))
  let shared_cache := fun (warp_id : Nat) => current_output warp_id 0
  let warp_exists := fun (thread_id_x : Nat) => decide (thread_id_x < num_threads_x / kWarpSize)
  let selected_value := fun (lane : Nat) =>
    if warp_exists lane then shared_cache lane else initial_value
  let inter_warp := EmitFullWarpShuffleDownLoopForReduce reducer selected_value
  if warp_exists 0 then inter_warp 0 else shared_cache 0

/-- The calls of the element function made by thread `thread_id` of block
`block_id`: `EmitTile` for every tile that `EmitTilingKernel` hands out. -/
def reductionThreadElements (scheme : KernelMappingScheme) (ty : IndexType)
    (block_id thread_id : Nat) : List TileElement :=
  let info := EmitTilingKernel scheme block_id
  info.tiles.flatMap (fun tile =>
    EmitTile scheme ty tile (EmitThreadIdInfo scheme.num_threads_x thread_id)
      info.output_tile_bounds_y info.output_tile_bounds_x)

/-- The partial result of a thread of a row reduction: seeded with the initial
value by `EmitPrologueForReduction` and combined with one input element per
call of `EmitTileElementForReduction`. The input is read at the position with
the same linear offset as the normalized index. -/
def partialResultOfThread {α : Type} (scheme : KernelMappingScheme) (ty : IndexType)
    (reducer : α → α → α) (initial_value : α) (input : Dim3 → α)
    (block_id thread_id : Nat) : α :=
  (reductionThreadElements scheme ty block_id thread_id).foldl
    (fun partial_result e => reducer partial_result (input e.index)) initial_value

/-- The atomic update made by thread 0 of a block of a row reduction: the output
row (the Y coordinate of the tile origin plus `thread_id_y = 0`) and the value
combined into it. -/
def rowReductionBlock {α : Type} (scheme : KernelMappingScheme) (ty : IndexType)
    (reducer : α → α → α) (initial_value : α) (input : Dim3 → α) (block_id : Nat) :
    Nat × α :=
  ((EmitTilingKernel scheme block_id).tile_origin.y + 0 / scheme.num_threads_x,
   rowEpilogueBlockAccum scheme.num_threads_x reducer initial_value
     (partialResultOfThread scheme ty reducer initial_value input block_id))

/-- The output of the row-reduction kernel when the atomic updates of the blocks
take effect in the order `block_order`. -/
def rowReductionKernel {α : Type} (scheme : KernelMappingScheme) (ty : IndexType)
    (reducer : α → α → α) (initial_value : α) (input : Dim3 → α) (block_order : List Nat)
    (output : Nat → α) : Nat → α :=
  block_order.foldl
    (fun out block_id =>
      let update := rowReductionBlock scheme ty reducer initial_value input block_id
      Function.update out update.1 (reducer (out update.1) update.2))
    output

/-- The reducer is commutative and associative and the initial value is its
identity. -/
structure ReducerLaws {α : Type} (reducer : α → α → α) (initial_value : α) : Prop where
  comm : ∀ a b, reducer a b = reducer b a
  assoc : ∀ a b c, reducer (reducer a b) c = reducer a (reducer b c)
  identity : ∀ a, reducer initial_value a = a

/-- The mapping scheme of a row reduction over a single row of `N` elements:
`num_warps * 32` threads in X, one thread in Y, and `tile_x` steps per thread. -/
def rowScheme (N tile_z tile_y tile_x num_warps : Nat) (indexing_order : IndexingOrder)
    (vector_size : Nat) (row_contiguous : Bool) : KernelMappingScheme :=
  { dims_in_elems := ⟨1, 1, N⟩
    tile_sizes := ⟨tile_z, tile_y, tile_x * (num_warps * kWarpSize)⟩
    num_threads_y := 1
    num_threads_x := num_warps * kWarpSize
    indexing_order := indexing_order
    vector_size := vector_size
    row_contiguous := row_contiguous }

/-- The width of the tile of block `b` when `N` elements are cut into tiles of
`tile_size` elements. -/
def tileWidth (N tile_size block : Nat) : Nat :=
  if block = ceilOfRatio N tile_size - 1 then N - (ceilOfRatio N tile_size - 1) * tile_size
  else tile_size

/-- The window coordinate `w_d` of operand dimension `d` for the update index
`u`: 0 for an inserted window dimension, and otherwise the component of `u` at
the next update-window dimension, counting the operand dimensions before `d`
that are not inserted. -/
def windowCoordinate (desc : ScatterDescriptor) (u : List Nat) (d : Nat) : Nat :=
  if BinarySearchDenseElementsAttr desc.dim_numbers.inserted_window_dims d then 0
  else
    (raw_window_multidim desc u).getD
      ((List.range d).filter
        (fun d1 => !BinarySearchDenseElementsAttr desc.dim_numbers.inserted_window_dims d1)).length
      0

/-- The scatter index `I_k` for the update index `u`: the element of
`scatter_indices` at the non-window components of `u` with `k` inserted at
position `index_vector_dim`. -/
def scatterIndexAt (desc : ScatterDescriptor) (scatter_indices : List Nat → Int)
    (u : List Nat) (k : Nat) : Int :=
  scatter_indices (SourceIndexOfReshape desc
    ((input_scatter_multidim desc u).take desc.dim_numbers.index_vector_dim ++
      k :: (input_scatter_multidim desc u).drop desc.dim_numbers.index_vector_dim))

/-- The sum of the scatter indices `I_k` over all `k` with
`scatter_dims_to_operand_dims[k] = d`. -/
def scatterIndexSum (desc : ScatterDescriptor) (scatter_indices : List Nat → Int)
    (u : List Nat) (d : Nat) : Int :=
  ((desc.dim_numbers.scatter_dims_to_operand_dims.enum.filter (fun p => decide (p.2 = d))).map
    (fun p => scatterIndexAt desc scatter_indices u p.1)).sum

/-- The scatter index for component `k` as the loop uses it: loaded from
`scatter_indices` and cast to the kernel's index type. -/
def castedScatterIndex (desc : ScatterDescriptor) (ty : IndexType)
    (scatter_indices_gen : List Nat → Int) (index : List Nat) (k : Nat) : Nat :=
  wrapToWidth ty.bits
    (scatter_indices_gen (SourceIndexOfReshape desc (raw_scatter_index_multidim desc ty index k)))

/-- The window extent of operand dimension `d`: 1 for an inserted window
dimension, and otherwise the extent of the updates in the next update-window
dimension. -/
def windowBound (desc : ScatterDescriptor) (u : List Nat) (d : Nat) : Nat :=
  if BinarySearchDenseElementsAttr desc.dim_numbers.inserted_window_dims d then 1
  else
    (raw_window_bounds desc u).getD
      ((List.range d).filter
        (fun d1 => !BinarySearchDenseElementsAttr desc.dim_numbers.inserted_window_dims d1)).length
      0

/-- The bound `operand_extent[d] - window_extent[d] + 1` on a scatter index for
operand dimension `d`. -/
def scatterMaxIndex (desc : ScatterDescriptor) (u : List Nat) (d : Nat) : Int :=
  (desc.operand_shape.getD d 0 : Int) - (windowBound desc u d : Int) + 1

/-! ## Sort: executing a mask schedule -/

/-- One compare-exchange between positions `p` and `q` seen from position `p`,
which holds `x` while `q` holds `y`: the lower position keeps or receives the
element that the comparator orders first. -/
def exchanged {α : Type} (lt : α → α → Bool) (p q : Nat) (x y : α) : α :=
  if p < q then (if lt y x then y else x) else (if lt x y then y else x)

/-- Modelled from the spec: the reference comparator that executes one xor mask
(the kernel body `EmitSortInPlace` is defined outside this file). Every pair of
positions `p < p xor m` that both lie below the length is compare-exchanged; a
position whose partner lies outside the sequence keeps its element. -/
def compareExchange {α : Type} (lt : α → α → Bool) (m : Nat) (l : List α) : List α :=
  l.enum.map (fun px =>
    match l[px.1 ^^^ m]? with
    | none => px.2
    | some y => exchanged lt px.1 (px.1 ^^^ m) px.2 y)

/-- Executing a mask schedule in order. -/
def executeMasks {α : Type} (lt : α → α → Bool) (masks : List Nat) (l : List α) : List α :=
  masks.foldl (fun l m => compareExchange lt m l) l

/-- A comparator that is a strict weak order: irreflexive, transitive, and with
a transitive incomparability relation. -/
structure StrictWeakOrder {α : Type} (lt : α → α → Bool) : Prop where
  irrefl : ∀ x, lt x x = false
  trans : ∀ x y z, lt x y = true → lt y z = true → lt x z = true
  incomp_trans : ∀ x y z, lt x y = false → lt y x = false → lt y z = false → lt z y = false →
    lt x z = false ∧ lt z x = false

/-- The position whose element `compareExchange` leaves at position `i`. -/
def exchangeSource {α : Type} (lt : α → α → Bool) (m : Nat) (l : List α)
    (i : Fin l.length) : Fin l.length :=
  if h : i.1 ^^^ m < l.length then
    if (if i.1 < i.1 ^^^ m then lt l[i.1 ^^^ m] l[i.1] else lt l[i.1] l[i.1 ^^^ m]) then
      ⟨i.1 ^^^ m, h⟩
    else i
  else i

/-- The order `false < true` on truth values. -/
def boolLt (x y : Bool) : Bool := !x && y

/-- A sequence of truth values read at any position, with `true` beyond its end. -/
def bitsOf (l : List Bool) (p : Nat) : Bool := l.getD p true

/-- One xor mask executed on an unbounded sequence of truth values: the lower
position of a pair receives the conjunction, the higher one the disjunction. -/
def exchangeBits (m : Nat) (a : Nat → Bool) (p : Nat) : Bool :=
  if p < p ^^^ m then a p && a (p ^^^ m) else a p || a (p ^^^ m)

/-- A mask schedule executed on an unbounded sequence of truth values. -/
def runBits (masks : List Nat) (a : Nat → Bool) : Nat → Bool :=
  masks.foldl (fun a m => exchangeBits m a) a

/-- The block of `len` positions from `o` is sorted: no `true` before a `false`. -/
def SortedOn (a : Nat → Bool) (o len : Nat) : Prop :=
  ∀ i j, i ≤ j → j < len → a (o + i) = true → a (o + j) = true

/-- The block holds `false`, then a run of `true`, then `false`. -/
def Mountain (a : Nat → Bool) (o len : Nat) : Prop :=
  ∃ x y, ∀ i, i < len → a (o + i) = decide (x ≤ i ∧ i < y)

/-- The block holds `true`, then a run of `false`, then `true`. -/
def Valley (a : Nat → Bool) (o len : Nat) : Prop :=
  ∃ x y, ∀ i, i < len → a (o + i) = !decide (x ≤ i ∧ i < y)

/-- Every position of the block holds `false`. -/
def AllFalseOn (a : Nat → Bool) (o len : Nat) : Prop := ∀ i, i < len → a (o + i) = false

/-- Every position of the block holds `true`. -/
def AllTrueOn (a : Nat → Bool) (o len : Nat) : Prop := ∀ i, i < len → a (o + i) = true

/-! ## Reduction emitter: output groups and thunks -/

/-- `ShapeUtil::IsScalar`: an array shape of rank 0. -/
def IsScalar : Shape → Bool
  | .array _ [] => true
  | _ => false

/-- An instruction of a fused computation as the grouping reads it: its opcode,
its shape and its operands. An instruction is named by its position in the fused
computation, and that position plays the part of the `HloInstruction*`. -/
structure FusedInstruction where
  opcode : HloOpcode
  shape : Shape
  operands : List Nat

/-- The instruction at a position of the fused computation. -/
def instructionAt (computation : List FusedInstruction) (instr : Nat) : FusedInstruction :=
  computation.getD instr ⟨.kOther, .token, []⟩

/-- `HloInstruction::IsConstant`. -/
def FusedInstruction.IsConstant (instr : FusedInstruction) : Bool :=
  decide (instr.opcode = .kConstant)

/-- `IsBroadcastedConstantOrScalar`: a constant, a scalar, or a broadcast whose
operand 0 is a constant or a scalar. -/
def IsBroadcastedConstantOrScalar (computation : List FusedInstruction)
    (instr : FusedInstruction) : Bool :=
  instr.IsConstant || IsScalar instr.shape ||
    (decide (HloOpcode.kBroadcast = instr.opcode) &&
      ((instructionAt computation (instr.operands.getD 0 0)).IsConstant ||
        IsScalar (instructionAt computation (instr.operands.getD 0 0)).shape))

/-- Modelled from the spec: `HloReachabilityMap::IsReachable(a, b)` (built outside
this file) holds when `a` is `b` or `b` is reached from `a` along operand edges.
The search follows the operands of `b` for at most `fuel` edges; the length of
the computation is enough fuel for an acyclic computation. -/
def operandReachable (computation : List FusedInstruction) : Nat → Nat → Nat → Bool
  | 0, a, b => decide (a = b)
  | fuel + 1, a, b =>
    decide (a = b) ||
      (instructionAt computation b).operands.any (fun operand =>
        operandReachable computation fuel a operand)

/-- Modelled from the spec: `UnionFind::Merge` (defined outside this file) on the
sets `disjoint_sets[0..n)`. The state holds, for every set, the position whose
instruction `Get()` returns for it; merging two different classes gives every
set of both classes the value of the receiver. -/
def UnionFind.Merge (disjoint_sets : List Nat) (receiver other : Nat) : List Nat :=
  let a := disjoint_sets.getD receiver receiver
  let b := disjoint_sets.getD other other
  if a = b then disjoint_sets else disjoint_sets.map (fun r => if r = b then a else r)

/-- The vector `reached_output_ids` for one fused instruction: the output ids,
in order, that are not skipped (a reduce output with a broadcasted constant or
scalar) and that the instruction reaches. -/
def reached_output_ids (computation : List FusedInstruction) (IsReachable : Nat → Nat → Bool)
    (output_instructions : List Nat) (instr : Nat) : List Nat :=
  (List.range output_instructions.length).filter (fun oid =>
    if decide (HloOpcode.kReduce =
          (instructionAt computation (output_instructions.getD oid 0)).opcode) &&
        IsBroadcastedConstantOrScalar computation (instructionAt computation instr) then false
    else IsReachable instr (output_instructions.getD oid 0))

/-- The loop `for (j = 1; j < reached_output_ids.size(); ++j)` that merges every
reached set into the first one. -/
def mergeReached (disjoint_sets : List Nat) : List Nat → List Nat
  | [] => disjoint_sets
  | first :: rest => rest.foldl (fun sets other => UnionFind.Merge sets first other) disjoint_sets

/-- The hash map `groups`: the keys present, in insertion order, and the vector
stored under every key (empty for an absent key). -/
structure GroupMap where
  keys : List Nat
  members : Nat → List Nat

/-- The statement `groups[key].push_back(instr)`. -/
def GroupMap.push_back (groups : GroupMap) (key instr : Nat) : GroupMap :=
  { keys := if key ∈ groups.keys then groups.keys else groups.keys ++ [key]
    members := Function.update groups.members key (groups.members key ++ [instr]) }

/-- The state of `disjoint_sets` after the loop over the fused instructions. -/
def mergedOutputSets (computation : List FusedInstruction) (IsReachable : Nat → Nat → Bool)
    (output_instructions : List Nat) : List Nat :=
  (List.range computation.length).foldl
    (fun sets instr =>
      mergeReached sets (reached_output_ids computation IsReachable output_instructions instr))
    (List.range output_instructions.length)

/-- The map `groups` after the loop over the output ids. -/
def outputGroupMap (output_instructions : List Nat) (disjoint_sets : List Nat) : GroupMap :=
  (List.range output_instructions.length).foldl
    (fun groups oid =>
      groups.push_back (output_instructions.getD (disjoint_sets.getD oid oid) 0)
        (output_instructions.getD oid 0))
    ⟨[], fun _ => []⟩

/-- `DivideOutputInstructionsIntoGroups`. The result is `none` when the `CHECK`
on a non-empty list fails. `iteration_order` is the order in which the hash map
hands out its keys, which the source leaves open. -/
def DivideOutputInstructionsIntoGroups (computation : List FusedInstruction)
    (IsReachable : Nat → Nat → Bool) (iteration_order : List Nat → List Nat)
    (output_instructions : List Nat) : Option (List (List Nat)) :=
  match output_instructions with
  | [] => none
  | [output] => some [[output]]
  | _ =>
    let disjoint_sets := mergedOutputSets computation IsReachable output_instructions
    let groups := outputGroupMap output_instructions disjoint_sets
    some ((iteration_order groups.keys).map groups.members)

/-- Block and thread counts of a launch in three dimensions. -/
structure LaunchDimensions3 where
  block_x : Nat
  block_y : Nat
  block_z : Nat
  thread_x : Nat
  thread_y : Nat
  thread_z : Nat
  deriving DecidableEq, Repr

/-- The thunks built by the reduction emitter and by the tiled transpose: an
initializer for the output at a shape index, the reduction kernel with its launch
dimensions and its guarded groups (the value compared with the block index in Y
and the group emitted under that guard), the tiled transpose kernel with its
reduced dimensions and the parameters that get a shared-memory tile, and the
sequential thunk. -/
inductive EmittedThunk where
  | Initializer (index : List Nat)
  | ReductionKernel (launch_dimensions : LaunchDimensions3)
      (guarded_groups : List (Nat × List Nat))
  | Hlo021TileKernel (reduced_dims_021 : List Nat) (tiled_param_ids : List Nat)
  | Sequential (thunks : List EmittedThunk)

/-- How a handler returns: `OK`, one of the error statuses, an error status
handed up from a collaborator, or a failed `CHECK` (which ends the process). -/
inductive EmitStatus where
  | OK
  | InternalError
  | Unimplemented
  | collaboratorError
  | checkFailure
  deriving DecidableEq, Repr

/-- What the emitter has done so far: the thunk sequence, the shape indices of
the initializer thunks built by `BuildInitializerThunk`, and the number of kernel
thunks built by `BuildKernelThunk`. -/
structure EmitterState where
  thunk_sequence : List EmittedThunk
  initializers_built : List (List Nat)
  kernels_built : Nat

/-- The first loop of `EmitReductionFromOrToContiguousDimensions` from output
`i` on: an initializer thunk is built for every reduction output, and a status
of `BuildInitializerThunk` other than `OK` ends the loop and is returned. The
second component lists the shape indices of the thunks built. -/
def buildInitializers (IsReductionFromOrToContiguousDimensions : Nat → Bool)
    (BuildInitializerThunk : List Nat → EmitStatus) (returns_tuple : Bool) :
    List Nat → Nat → List (List Nat) → EmitStatus × List (List Nat)
  | [], _, built => (.OK, built)
  | output :: rest, i, built =>
    if !IsReductionFromOrToContiguousDimensions output then
      buildInitializers IsReductionFromOrToContiguousDimensions BuildInitializerThunk
        returns_tuple rest (i + 1) built
    else
      let idx := if returns_tuple then [i] else []
      if BuildInitializerThunk idx = .OK then
        buildInitializers IsReductionFromOrToContiguousDimensions BuildInitializerThunk
          returns_tuple rest (i + 1) (built ++ [idx])
      else (BuildInitializerThunk idx, built)

/-- The collaborators of `EmitReductionFromOrToContiguousDimensions` for one
call: the fused computation with its reachability map and the iteration order of
the hash map, `IsReductionFromOrToContiguousDimensions` on an output, the status
of `BuildInitializerThunk` for a shape index, the value of
`AreFusedReductionOutputsConsistent`, whether the input shape has a layout, and
the result of `ComputeReductionCodegenInfo` (absent when one of its checks
fails). -/
structure ReductionCollaborators where
  computation : List FusedInstruction
  IsReachable : Nat → Nat → Bool
  iteration_order : List Nat → List Nat
  IsReductionFromOrToContiguousDimensions : Nat → Bool
  BuildInitializerThunk : List Nat → EmitStatus
  AreFusedReductionOutputsConsistent : Bool
  input_shape_has_layout : Bool
  reduction_info : Option ReductionCodegenInfo

/-- `EmitReductionFromOrToContiguousDimensions`: the status returned and the
state of the emitter at that point. -/
def EmitReductionFromOrToContiguousDimensions (c : ReductionCollaborators)
    (output_instructions : List Nat) (state : EmitterState) : EmitStatus × EmitterState :=
  let returns_tuple := decide (output_instructions.length > 1)
  let built := buildInitializers c.IsReductionFromOrToContiguousDimensions
    c.BuildInitializerThunk returns_tuple output_instructions 0 []
  let state1 : EmitterState :=
    { state with initializers_built := state.initializers_built ++ built.2 }
  if built.1 ≠ .OK then (built.1, state1)
  else
    match output_instructions.find? c.IsReductionFromOrToContiguousDimensions with
    | none => (.checkFailure, state1)
    | some _ =>
      if decide (output_instructions.length > 1) && !c.AreFusedReductionOutputsConsistent then
        (.InternalError, state1)
      else if !c.input_shape_has_layout then (.checkFailure, state1)
      else
        match DivideOutputInstructionsIntoGroups c.computation c.IsReachable c.iteration_order
            output_instructions with
        | none => (.checkFailure, state1)
        | some instr_groups =>
          let state2 : EmitterState := { state1 with kernels_built := state1.kernels_built + 1 }
          match c.reduction_info with
          | none => (.checkFailure, state2)
          | some reduction_info =>
            if !instr_groups.all
                (fun group => group.any c.IsReductionFromOrToContiguousDimensions) then
              (.checkFailure, state2)
            else
              let mapping_scheme := reduction_info.mapping_scheme
              let launch_dimensions : LaunchDimensions3 :=
                { block_x := mapping_scheme.GetNumberOfBlocks
                  block_y := instr_groups.length
                  block_z := 1
                  thread_x := mapping_scheme.GetThreadsPerBlock
                  thread_y := 1
                  thread_z := 1 }
              let kernel_thunk :=
                EmittedThunk.ReductionKernel launch_dimensions instr_groups.enum
              let thunks := built.2.map EmittedThunk.Initializer ++ [kernel_thunk]
              (.OK, { state2 with
                thunk_sequence := state2.thunk_sequence ++ [.Sequential thunks] })

/-- A fused instruction counts as reaching the output with id `oid`: the output
is not a reduce skipped for a broadcasted constant or scalar, and the
reachability map says that the instruction reaches it. -/
def ReachesOutput (computation : List FusedInstruction) (IsReachable : Nat → Nat → Bool)
    (output_instructions : List Nat) (instr oid : Nat) : Prop :=
  oid < output_instructions.length ∧
    ¬ (HloOpcode.kReduce =
        (instructionAt computation (output_instructions.getD oid 0)).opcode ∧
      IsBroadcastedConstantOrScalar computation (instructionAt computation instr) = true) ∧
    IsReachable instr (output_instructions.getD oid 0) = true

/-- Two outputs are linked when some fused instruction counts as reaching both. -/
def LinkedOutputs (computation : List FusedInstruction) (IsReachable : Nat → Nat → Bool)
    (output_instructions : List Nat) (a b : Nat) : Prop :=
  ∃ instr, instr < computation.length ∧
    ReachesOutput computation IsReachable output_instructions instr a ∧
    ReachesOutput computation IsReachable output_instructions instr b

/-- The sets represent the classes of an equivalence on the ids below `n`. -/
def SetsRepresent (n : Nat) (disjoint_sets : List Nat) (E : Nat → Nat → Prop) : Prop :=
  disjoint_sets.length = n ∧ (∀ i, i < n → disjoint_sets.getD i i < n) ∧
    ∀ i j, i < n → j < n → (disjoint_sets.getD i i = disjoint_sets.getD j j ↔ E i j)

/-- The shape indices of the initializer thunks for the outputs from position `i`
on: one for every reduction output, in output order. -/
def initializerIndices (IsReductionFromOrToContiguousDimensions : Nat → Bool)
    (returns_tuple : Bool) (output_instructions : List Nat) (i : Nat) : List (List Nat) :=
  ((output_instructions.enumFrom i).filter
    (fun p => IsReductionFromOrToContiguousDimensions p.2)).map
    (fun p => if returns_tuple then [p.1] else [])

/-- A fused computation with three outputs: two reduces of different parameters
and the sum of the two parameters. Positions: 0 and 1 the parameters, 2 the sum,
3 and 4 the reduces, 5 the scalar constant both reduces start from, 6 the root
tuple. -/
def twoReducesAndSum : List FusedInstruction :=
  [⟨.kParameter, .array .F32 [64, 64], []⟩,
   ⟨.kParameter, .array .F32 [64, 64], []⟩,
   ⟨.kAdd, .array .F32 [64, 64], [0, 1]⟩,
   ⟨.kReduce, .array .F32 [64], [0, 5]⟩,
   ⟨.kReduce, .array .F32 [64], [1, 5]⟩,
   ⟨.kConstant, .array .F32 [], []⟩,
   ⟨.kTuple, .tuple [.array .F32 [64], .array .F32 [64], .array .F32 [64, 64]], [3, 4, 2]⟩]

/-- The collaborators for `twoReducesAndSum`: every initializer builds, the
outputs are consistent, and the mapping scheme is one for a row reduction. -/
def twoReducesAndSumCollaborators (consistent : Bool) : ReductionCollaborators :=
  { computation := twoReducesAndSum
    IsReachable := operandReachable twoReducesAndSum twoReducesAndSum.length
    iteration_order := fun keys => keys
    IsReductionFromOrToContiguousDimensions := fun output => output == 3 || output == 4
    BuildInitializerThunk := fun _ => .OK
    AreFusedReductionOutputsConsistent := consistent
    input_shape_has_layout := true
    reduction_info := some
      { mapping_scheme := ⟨⟨1, 64, 64⟩, ⟨1, 1, 64⟩, 1, 32, .StridedIndexingX, 1, false⟩
        num_partial_results := 1
        is_row_reduction := true } }

/-- The kinds of operation of a fusion region that the walk over the users tells
apart: a store at the root, a load of a captured buffer, or an `mhlo` operation
with its opcode. -/
inductive MlirOpKind where
  | TensorStoreOp
  | TensorLoadOp
  | Mhlo (opcode : HloOpcode)
  deriving DecidableEq, Repr

/-- An operation of a fusion region: its kind and the owners of the uses of its
results, in order. An operation is named by its position in the region. -/
structure MlirOperation where
  kind : MlirOpKind
  users : List Nat

/-- The operation at a position of the region. -/
def operationAt (region : List MlirOperation) (op : Nat) : MlirOperation :=
  region.getD op ⟨.TensorStoreOp, []⟩

/-- The loops over the users of an operation: `false` at the first user that is
not safe. The answer for a user is absent when the recursion does not return. -/
def allUsersSafe (safe : Nat → Option Bool) : List Nat → Option Bool
  | [] => some true
  | user :: rest =>
    match safe user with
    | none => none
    | some false => some false
    | some true => allUsersSafe safe rest

/-- The opcode that `IsInstructionSafeForShmemTranspose` assigns to an operation
that is not a store: `kParameter` for a load and the `mhlo` opcode otherwise. -/
def opcodeOfKind : MlirOpKind → HloOpcode
  | .Mhlo opcode => opcode
  | _ => .kParameter

/-- `IsInstructionSafeForShmemTranspose`, with the depth of the recursion bounded
by `fuel`; the result is absent when the bound is reached.
`HloInstruction::IsOpElementwise` is a parameter. -/
def IsInstructionSafeForShmemTranspose (IsOpElementwise : HloOpcode → Bool)
    (region : List MlirOperation) : Nat → Nat → Option Bool
  | 0, _ => none
  | fuel + 1, op =>
    match (operationAt region op).kind with
    | .TensorStoreOp => some true
    | kind =>
      if IsOpElementwise (opcodeOfKind kind) then
        allUsersSafe (IsInstructionSafeForShmemTranspose IsOpElementwise region fuel)
          (operationAt region op).users
      else
        match opcodeOfKind kind with
        | .kGetDimensionSize => some true
        | .kGetTupleElement | .kMap | .kParameter | .kTuple | .kTupleSelect =>
          allUsersSafe (IsInstructionSafeForShmemTranspose IsOpElementwise region fuel)
            (operationAt region op).users
        | _ => some false

/-- The vector `params` of `FilterInputsForShmemTranspose`: the loads of the
region in the order of the walk. -/
def regionParams (region : List MlirOperation) : List Nat :=
  (List.range region.length).filter (fun op =>
    decide ((operationAt region op).kind = .TensorLoadOp))

/-- The loop of `FilterInputsForShmemTranspose` over `input_ids`. The result is
absent when `params.at(input_id)` is out of range or the recursion does not
return. -/
def filterInputIds (IsOpElementwise : HloOpcode → Bool) (region : List MlirOperation)
    (fuel : Nat) (params : List Nat) : List Nat → Option (List Nat)
  | [] => some []
  | input_id :: rest =>
    match params[input_id]? with
    | none => none
    | some input =>
      match IsInstructionSafeForShmemTranspose IsOpElementwise region fuel input with
      | none => none
      | some safe =>
        match filterInputIds IsOpElementwise region fuel params rest with
        | none => none
        | some filtered_input_ids =>
          some (if safe then input_id :: filtered_input_ids else filtered_input_ids)

/-- `FilterInputsForShmemTranspose`. -/
def FilterInputsForShmemTranspose (IsOpElementwise : HloOpcode → Bool)
    (region : List MlirOperation) (fuel : Nat) (input_ids : List Nat) : Option (List Nat) :=
  filterInputIds IsOpElementwise region fuel (regionParams region) input_ids

/-- The users of an operation of this kind are inspected: the operation is
elementwise or one of get-tuple-element, map, parameter, tuple and
tuple-select (a store and a get-dimension-size end the walk). -/
def usersInspected (IsOpElementwise : HloOpcode → Bool) : MlirOpKind → Bool
  | .TensorStoreOp => false
  | kind =>
    IsOpElementwise (opcodeOfKind kind) ||
      decide (opcodeOfKind kind ∈ [HloOpcode.kGetTupleElement, .kMap, .kParameter, .kTuple,
        .kTupleSelect])

/-- An operation of this kind does not make the input unsafe: a store, an
elementwise operation, or one of get-dimension-size, get-tuple-element, map,
parameter, tuple and tuple-select. -/
def kindAllowed (IsOpElementwise : HloOpcode → Bool) : MlirOpKind → Bool
  | .TensorStoreOp => true
  | kind =>
    IsOpElementwise (opcodeOfKind kind) ||
      decide (opcodeOfKind kind ∈ [HloOpcode.kGetDimensionSize, .kGetTupleElement, .kMap,
        .kParameter, .kTuple, .kTupleSelect])

/-- The operations that the walk from `op` inspects: `op` itself and, for every
inspected operation whose users are inspected, the operations inspected from
its users. -/
inductive Inspected (IsOpElementwise : HloOpcode → Bool) (region : List MlirOperation) :
    Nat → Nat → Prop where
  | start (op : Nat) : Inspected IsOpElementwise region op op
  | user (op u c : Nat) :
      usersInspected IsOpElementwise (operationAt region op).kind = true →
      u ∈ (operationAt region op).users →
      Inspected IsOpElementwise region u c → Inspected IsOpElementwise region op c

/-- The transitive consumers of an operation: the operations reached from it
along one or more user edges, up to the stores (which have no users). -/
inductive TransitiveConsumer (region : List MlirOperation) : Nat → Nat → Prop where
  | direct (op u : Nat) : u ∈ (operationAt region op).users → TransitiveConsumer region op u
  | later (op u c : Nat) : u ∈ (operationAt region op).users →
      TransitiveConsumer region u c → TransitiveConsumer region op c

/-- `HloInstruction::IsOpElementwise` on the opcodes named here: of these only
add and select are elementwise. -/
def elementwiseOpcodes (opcode : HloOpcode) : Bool :=
  decide (opcode = .kAdd ∨ opcode = .kSelect)

/-- A fusion region in which the only input feeds a get-dimension-size, whose
result is bitcast and stored. -/
def dimensionSizeRegion : List MlirOperation :=
  [⟨.TensorLoadOp, [1]⟩, ⟨.Mhlo .kGetDimensionSize, [2]⟩, ⟨.Mhlo .kBitcast, [3]⟩,
   ⟨.TensorStoreOp, []⟩]

/-- The shared-memory budget loop of `CheckAndEmitHloWithTile021` from position
`i` on: the size to which `params_012` is cut. `element_byte_size` gives
`ByteSizeOfPrimitiveType` of the element type of an operand. -/
def shmemBudgetLoop (element_byte_size : Nat → Nat) : List Nat → Nat → Nat → Nat
  | [], i, _ => i
  | param :: rest, i, shmem_used =>
    if 3 * (shmem_used + 32 * 33 * element_byte_size param) > 48 * 1024 then i
    else shmemBudgetLoop element_byte_size rest (i + 1)
      (shmem_used + 32 * 33 * element_byte_size param)

/-- The value of `kMinDimensionToTransposeTiled`. -/
def kMinDimensionToTransposeTiled : Nat := 16

/-- The first loop of `CheckAndEmitHloWithTile021` from operand `operand_idx` on:
the operands whose shape is a 0-2-1 transpose of the first output together with
the reduced dimensions, or nothing when two operands disagree on the reduced
dimensions. -/
def findParams012 (FindTranspose021 : Shape → Shape → Option (List Nat)) (output_shape : Shape) :
    List Shape → Nat → List Nat → Option (List Nat) → Option (List Nat × Option (List Nat))
  | [], _, params_012, reduced_dims_021 => some (params_012, reduced_dims_021)
  | operand_shape :: rest, operand_idx, params_012, reduced_dims_021 =>
    match FindTranspose021 operand_shape output_shape with
    | none =>
      findParams012 FindTranspose021 output_shape rest (operand_idx + 1) params_012
        reduced_dims_021
    | some curr_reduced_dims_021 =>
      let dims := reduced_dims_021.getD curr_reduced_dims_021
      if dims ≠ curr_reduced_dims_021 then none
      else
        findParams012 FindTranspose021 output_shape rest (operand_idx + 1)
          (params_012 ++ [operand_idx]) (some dims)

/-- `ByteSizeOfPrimitiveType(operand_shape.element_type())` for an operand. -/
def operandElementByteSize (ByteSizeOfPrimitiveType : PrimitiveType → Nat)
    (operand_shapes : List Shape) (operand_idx : Nat) : Nat :=
  match operand_shapes[operand_idx]? with
  | some (.array element_type _) => ByteSizeOfPrimitiveType element_type
  | _ => 0

/-- The collaborators of `CheckAndEmitHloWithTile021`: `ShapeUtil::FindTranspose021`,
`ShapeUtil::ByteSizeOfPrimitiveType`, `HloInstruction::IsOpElementwise`, the
region of the fusion (absent for a copy) with the bound on the recursion depth,
and the status of `BuildKernelThunkForMlir`. -/
structure Tile021Collaborators where
  FindTranspose021 : Shape → Shape → Option (List Nat)
  ByteSizeOfPrimitiveType : PrimitiveType → Nat
  IsOpElementwise : HloOpcode → Bool
  fusion_region : Option (List MlirOperation)
  fuel : Nat
  BuildKernelThunkForMlir : EmitStatus

/-- How `CheckAndEmitHloWithTile021` goes up to the shared-memory budget:
`decline` when it returns `false`, `abort` when a check or an access fails, and
otherwise the reduced dimensions with the eligible parameters. -/
inductive Tile021Candidates where
  | decline
  | abort
  | eligible (reduced_dims_021 : List Nat) (params_012 : List Nat)

/-- The part of `CheckAndEmitHloWithTile021` before the shared-memory budget. -/
def tile021Candidates (c : Tile021Collaborators) (operand_shapes output_shapes : List Shape) :
    Tile021Candidates :=
  match output_shapes with
  | [] => .abort
  | output_shape :: _ =>
    match findParams012 c.FindTranspose021 output_shape operand_shapes 0 [] none with
    | none => .decline
    | some (_, none) => .decline
    | some (params_012, some reduced_dims_021) =>
      match reduced_dims_021 with
      | [_, dim1, dim2] =>
        if dim1 < kMinDimensionToTransposeTiled ∨ dim2 < kMinDimensionToTransposeTiled then
          .decline
        else
          match c.fusion_region with
          | none => .eligible reduced_dims_021 params_012
          | some region =>
            match FilterInputsForShmemTranspose c.IsOpElementwise region c.fuel params_012 with
            | none => .abort
            | some filtered =>
              if filtered = [] then .decline else .eligible reduced_dims_021 filtered
      | _ => .abort

/-- `CheckAndEmitHloWithTile021`: the value or status returned and the state of
the emitter at that point. -/
def CheckAndEmitHloWithTile021 (c : Tile021Collaborators)
    (operand_shapes output_shapes : List Shape) (state : EmitterState) :
    Except EmitStatus Bool × EmitterState :=
  match tile021Candidates c operand_shapes output_shapes with
  | .decline => (.ok false, state)
  | .abort => (.error .checkFailure, state)
  | .eligible reduced_dims_021 params_012 =>
    let kept := params_012.take
      (shmemBudgetLoop (operandElementByteSize c.ByteSizeOfPrimitiveType operand_shapes)
        params_012 0 0)
    if kept = [] then (.ok false, state)
    else if c.BuildKernelThunkForMlir ≠ .OK then (.error c.BuildKernelThunkForMlir, state)
    else
      (.ok true,
        { state with
          kernels_built := state.kernels_built + 1
          thunk_sequence := state.thunk_sequence ++
            [.Hlo021TileKernel reduced_dims_021 kept] })

/-- Collaborators for a copy that transposes the two minor dimensions:
`FindTranspose021` recognizes an operand `[d0, d1, d2]` for an output
`[d0, d2, d1]` and gives the dimensions of the output; every element takes four
bytes. -/
def copyTransposeCollaborators : Tile021Collaborators :=
  { FindTranspose021 := fun operand output =>
      match operand, output with
      | .array _ [d0, d1, d2], .array _ [e0, e1, e2] =>
        if d0 = e0 ∧ d1 = e2 ∧ d2 = e1 then some [e0, e1, e2] else none
      | _, _ => none
    ByteSizeOfPrimitiveType := fun _ => 4
    IsOpElementwise := elementwiseOpcodes
    fusion_region := none
    fuel := 0
    BuildKernelThunkForMlir := .OK }

/-- A fusion region with five inputs that are added up and stored: positions 0
to 4 are the loads, 5 to 8 the adds, 9 the store. -/
def fiveInputRegion : List MlirOperation :=
  [⟨.TensorLoadOp, [5]⟩, ⟨.TensorLoadOp, [5]⟩, ⟨.TensorLoadOp, [6]⟩, ⟨.TensorLoadOp, [7]⟩,
   ⟨.TensorLoadOp, [8]⟩, ⟨.Mhlo .kAdd, [6]⟩, ⟨.Mhlo .kAdd, [7]⟩, ⟨.Mhlo .kAdd, [8]⟩,
   ⟨.Mhlo .kAdd, [9]⟩, ⟨.TensorStoreOp, []⟩]

/-- Collaborators for a fusion over `fiveInputRegion` with four-byte elements. -/
def fiveInputCollaborators : Tile021Collaborators :=
  { copyTransposeCollaborators with fusion_region := some fiveInputRegion, fuel := 11 }

/-- The five operand shapes of the fusion over `fiveInputRegion`. -/
def fiveOperandShapes : List Shape :=
  [.array .F32 [2, 40, 50], .array .F32 [2, 40, 50], .array .F32 [2, 40, 50],
   .array .F32 [2, 40, 50], .array .F32 [2, 40, 50]]

/-! ## Tiled transpose kernel: `EmitHlo021Tile` -/

/-- The constant `kNumRows` of `EmitHlo021Tile`. -/
def kNumRows : Nat := 4

/-- The mapping scheme built by `EmitHlo021Tile` for the reduced output
dimensions: tiles of `1 x kWarpSize x kWarpSize` elements, `kNumRows` thread
rows of `kWarpSize` threads, linear indexing, vector size 1, not row
contiguous. -/
def hlo021MappingScheme (reduced_output_dims : Dim3) : KernelMappingScheme :=
  { dims_in_elems := reduced_output_dims
    tile_sizes := ⟨1, kWarpSize, kWarpSize⟩
    num_threads_y := kNumRows
    num_threads_x := kWarpSize
    indexing_order := .LinearIndexingX
    vector_size := 1
    row_contiguous := false }

/-- `Permute({0, 2, 1}, v)`. -/
def Permute021 (v : Dim3) : Dim3 := ⟨v.z, v.x, v.y⟩

/-- A shared-memory tile buffer: the value stored in a cell, or `none` for a
cell that has not been stored to. -/
abbrev ShmemTile (α : Type) := Nat → Nat → Option α

/-- The store `Store(value, GEP(shmem_buffer, {zero, y_loc, x_loc}))`. -/
def ShmemTile.Store {α : Type} (shmem_buffer : ShmemTile α) (y_loc x_loc : Nat) (value : α) :
    ShmemTile α :=
  fun row col => if row = y_loc ∧ col = x_loc then some value else shmem_buffer row col

/-- The first `EmitTile` call of the tile generator of `EmitHlo021Tile`, for one
thread: the tile is walked from the permuted origin with height and width
flipped, and every visited input element is stored at `[y_loc][x_loc]` of the
shared-memory buffer. -/
def copyInputToShmem {α : Type} (scheme : KernelMappingScheme) (ty : IndexType)
    (input : Dim3 → α) (index : Dim3) (tile_height tile_width : Nat)
    (shmem_buffer : ShmemTile α) (thread_id : Nat) : ShmemTile α :=
  (EmitTile scheme ty (Permute021 index) (EmitThreadIdInfo scheme.num_threads_x thread_id)
      tile_width tile_height).foldl
    (fun buffer e => buffer.Store e.y_loc e.x_loc (input e.index)) shmem_buffer

/-- The buffer at the barrier `EmitSyncThreads` of a tile: every thread of the
block has run its stores, starting from a buffer with no cell stored. -/
def shmemAtBarrier {α : Type} (scheme : KernelMappingScheme) (ty : IndexType)
    (input : Dim3 → α) (index : Dim3) (tile_height tile_width : Nat) : ShmemTile α :=
  (List.range scheme.GetThreadsPerBlock).foldl
    (copyInputToShmem scheme ty input index tile_height tile_width) (fun _ _ => none)

/-- `EmitTileElementForCopy`: the output position written and the value loaded
from `[x_loc][y_loc]` of the shared-memory buffer. -/
def EmitTileElementForCopy {α : Type} (shmem_buffer : ShmemTile α) (e : TileElement) :
    Dim3 × Option α :=
  (e.index, shmem_buffer e.x_loc e.y_loc)

/-- The second `EmitTile` call of the tile generator, after the barrier: the
writes of all threads of the block for the tile at `index`. -/
def writeOutputTile {α : Type} (scheme : KernelMappingScheme) (ty : IndexType)
    (shmem_buffer : ShmemTile α) (index : Dim3) (tile_height tile_width : Nat) :
    List (Dim3 × Option α) :=
  (List.range scheme.GetThreadsPerBlock).flatMap (fun thread_id =>
    (EmitTile scheme ty index (EmitThreadIdInfo scheme.num_threads_x thread_id)
      tile_height tile_width).map (EmitTileElementForCopy shmem_buffer))

/-- The copy kernel of `EmitHlo021Tile` for a 0-2-1 transpose whose normalized
output has the dimensions `reduced_output_dims`: all writes to the output made by
all blocks, each as the output position in the normalized output and the value
written (`none` when the shared-memory cell read was never stored to). `input`
gives the elements of the operand by their position in the normalized input. -/
def EmitHlo021Tile {α : Type} (reduced_output_dims : Dim3) (ty : IndexType)
    (input : Dim3 → α) : List (Dim3 × Option α) :=
  let mapping_scheme := hlo021MappingScheme reduced_output_dims
  (List.range mapping_scheme.GetNumberOfBlocks).flatMap (fun block_id =>
    let info := EmitTilingKernel mapping_scheme block_id
    info.tiles.flatMap (fun index =>
      writeOutputTile mapping_scheme ty
        (shmemAtBarrier mapping_scheme ty input index info.output_tile_bounds_y
          info.output_tile_bounds_x)
        index info.output_tile_bounds_y info.output_tile_bounds_x))

/-- The call of the element function for row `y` and column `x` of the tile at
`tile_origin_index`. -/
def tileElementAt (tile_origin_index : Dim3) (y x : Nat) : TileElement :=
  { index := ⟨tile_origin_index.z, tile_origin_index.y + y, tile_origin_index.x + x⟩
    y_loc := y
    x_loc := x
    x_iter_num := 0 }

/-- The positions of a normalized tensor with the dimensions `dims`, in row-major
order. -/
def allPositions (dims : Dim3) : List Dim3 :=
  (List.range dims.z).flatMap (fun z =>
    (List.range dims.y).flatMap (fun y =>
      (List.range dims.x).map (fun x => (⟨z, y, x⟩ : Dim3))))

/-! ## Unroll factor: `ComputeMaxUnrollFactor` -/

/-- The loop `for (int i = max_unroll_factor; i > 1; i /= 2)` of
`ComputeMaxUnrollFactor`: the first `i` that divides `num_elements` is returned,
and 1 when the loop ends; `none` when the fuel runs out. -/
def unrollFactorLoop (num_elements : Int) : Nat → Int → Option Int
  | 0, _ => none
  | fuel + 1, i =>
    if i > 1 then
      if num_elements % i = 0 then some i
      else unrollFactorLoop num_elements fuel (i / 2)
    else some 1

/-- `ComputeMaxUnrollFactor(shape, hlo_module_config)`, with the debug option
`xla_gpu_max_kernel_unroll_factor` of the configuration as a parameter. -/
def ComputeMaxUnrollFactor (shape : Shape) (xla_gpu_max_kernel_unroll_factor : Int) :
    Option Int :=
  unrollFactorLoop (ElementsIn shape) (xla_gpu_max_kernel_unroll_factor.toNat + 1)
    xla_gpu_max_kernel_unroll_factor

/-! ## The loops of `EmitTile` -/

/-- The values of `y_loc` for which the body of the loop over `y_indvar` in
`EmitTile` runs, in order: `y_indvar` runs from 0 to
`ceil_of_ratio(tile_height - thread_id_y, num_threads_y)` and
`y_loc = thread_id_y + y_indvar * num_threads_y`, all in the index type. -/
def EmitTile.y_locs (ty : IndexType) (num_threads_y thread_id_y tile_height : Nat) : List Nat :=
  (List.range (ceil_of_ratio ty (subWrapped ty tile_height thread_id_y) num_threads_y)).map
    (fun y_indvar => (thread_id_y + (y_indvar * num_threads_y) % 2 ^ ty.bits) % 2 ^ ty.bits)

/-- The calls of the element function made by `unroll_inner_tile_loop` in the
body of the loop of `EmitTile`, for one value of `y_loc`. -/
def EmitTile.unroll_inner_tile_loop (scheme : KernelMappingScheme) (tile_origin_index : Dim3)
    (thread_id_x tile_width y_loc : Nat) (check_x_tile_bounds : Bool) : List TileElement :=
  (UnrollInnerTileLoop check_x_tile_bounds (scheme.tile_sizes.x / scheme.num_threads_x)
      (if scheme.indexing_order = .LinearIndexingX then 1 else scheme.num_threads_x)
      scheme.vector_size (GetStartOffsetX scheme thread_id_x) tile_width).map (fun e =>
    ({ index := ⟨tile_origin_index.z, tile_origin_index.y + y_loc, tile_origin_index.x + e.1⟩,
       y_loc := y_loc, x_loc := e.1, x_iter_num := e.2 } : TileElement))

/-- The body of the loop over `y_indvar` in `EmitTile` for one value of `y_loc`:
the bound check in X is left out when the tile fits, and for the
strided-vectorized order also when the tile has its full width. -/
def EmitTile.y_body (scheme : KernelMappingScheme) (tile_origin_index : Dim3)
    (thread_id_x tile_width y_loc : Nat) : List TileElement :=
  let x_tile_fits :=
    decide (scheme.dims_in_elems.x % scheme.tile_sizes.x = 0) && scheme.row_contiguous
  if !x_tile_fits && decide (scheme.indexing_order = .StridedLinearIndexingX) then
    if scheme.tile_sizes.x = tile_width then
      EmitTile.unroll_inner_tile_loop scheme tile_origin_index thread_id_x tile_width y_loc false
    else EmitTile.unroll_inner_tile_loop scheme tile_origin_index thread_id_x tile_width y_loc true
  else
    EmitTile.unroll_inner_tile_loop scheme tile_origin_index thread_id_x tile_width y_loc
      (!x_tile_fits)

/-- The loop `for (int y_loc = thread_id_y; y_loc < tile_height; y_loc +=
num_threads_y)` that the comment in `EmitTile` gives as the meaning of its outer
loop: the values of `y_loc` from `y_loc` on, in order. The fuel bounds the number
of iterations. -/
def yLoopReference (num_threads_y tile_height : Nat) : Nat → Nat → List Nat
  | 0, _ => []
  | fuel + 1, y_loc =>
    if y_loc < tile_height then
      y_loc :: yLoopReference num_threads_y tile_height fuel (y_loc + num_threads_y)
    else []

/-- The extents of the shared cache that `EmitPrologueForReduction` allocates for
a row reduction: `cache[num_partial_results][kWarpSize]`. -/
def rowSharedCacheExtents (num_partial_results : Nat) : Nat × Nat :=
  (num_partial_results, kWarpSize)

/-- The value `warp_id` of `EmitEpilogueForReduction`:
`thread_id_x udiv kWarpSize`. -/
def EmitEpilogueForReduction.warp_id (thread_id_info : ThreadIdInfo) : Nat :=
  thread_id_info.thread_id_x / kWarpSize

/-- The value `warp_exists` of `EmitEpilogueForReduction`:
`thread_id_x ult num_threads_x / kWarpSize`. -/
def EmitEpilogueForReduction.warp_exists (num_threads_x : Nat) (thread_id_info : ThreadIdInfo) :
    Bool :=
  decide (thread_id_info.thread_id_x < num_threads_x / kWarpSize)

/-- An address a thread of warp 0 reduces from in the second round of shuffles: a
slot of the shared cache or the copy of the initial value. -/
inductive SelectedAddress where
  | sharedCache (partial_result slot : Nat)
  | initialValue
  deriving DecidableEq, Repr

/-- The value `selected_value` of `EmitEpilogueForReduction` for partial result
`j`: `block_accum_addr`, the slot `[j][lane_id]` of the shared cache, when the
warp exists, and `initial_value_addr` otherwise. -/
def EmitEpilogueForReduction.selected_value (num_threads_x j : Nat)
    (thread_id_info : ThreadIdInfo) : SelectedAddress :=
  if EmitEpilogueForReduction.warp_exists num_threads_x thread_id_info then
    .sharedCache j thread_id_info.lane_id
  else .initialValue

/-- The threads that reach `EmitAtomicOperationForNestedComputation` in the row
branch of `EmitEpilogueForReduction`: inside `is_zero(warp_id)` and
`is_zero(thread_id_x)`. -/
def EmitEpilogueForReduction.updates_output (thread_id_info : ThreadIdInfo) : Bool :=
  decide (EmitEpilogueForReduction.warp_id thread_id_info = 0) &&
    decide (thread_id_info.thread_id_x = 0)

/-! ## Normalized and unnormalized indices: `GetUnnormalizedIndex` -/

/-- The part of an array `Shape` read by `GetUnnormalizedIndex`: the dimension
extents, `has_layout()` and `layout().minor_to_major()`. -/
structure LayoutShape where
  dimensions : List Nat
  has_layout : Bool
  minor_to_major : List Nat
  deriving DecidableEq, Repr

/-- `Shape::rank`. -/
def LayoutShape.rank (shape : LayoutShape) : Nat := shape.dimensions.length

/-- An `IrArray::Index` of a normalized tensor: the three coordinates `multidim()`
and the three extents `dims()`. -/
structure IrArrayIndex3 where
  multidim : Dim3
  dims : Dim3
  deriving DecidableEq, Repr

/-- Modelled from the spec: `IrArray::Index::Linearize(dimensions, b)` (defined
outside this file) gives the row-major linear offset of the coordinates in a
tensor with the given extents, `z * dimY * dimX + y * dimX + x`. -/
def IrArrayIndex3.Linearize (index : IrArrayIndex3) (dimensions : Dim3) : Nat :=
  index.multidim.z * dimensions.y * dimensions.x + index.multidim.y * dimensions.x +
    index.multidim.x

/-- Modelled from the spec: the loop that turns a linear offset into coordinates
(`IrArray::Index::Delinearize`, defined outside this file). The dimensions are
walked from the most minor to the most major one of the layout; each coordinate
is the quotient of the linear offset by the product of the extents walked so
far, reduced modulo the extent of the dimension for all but the most major
one. -/
def delinearizeLoop (linear : Nat) (dimensions : List Nat) : List Nat → Nat → List Nat → List Nat
  | [], _, multidim => multidim
  | [dimension], divisor, multidim => multidim.set dimension (linear / divisor)
  | dimension :: next :: rest, divisor, multidim =>
    delinearizeLoop linear dimensions (next :: rest) (divisor * dimensions.getD dimension 0)
      (multidim.set dimension ((linear / divisor) % dimensions.getD dimension 0))

/-- Modelled from the spec: the constructor `IrArray::Index(linear, shape, b)`
(defined outside this file) gives the coordinates in `shape` of the element at
the linear offset `linear`, the inverse of linearization in the order of the
layout of the shape. -/
def Delinearize (linear : Nat) (shape : LayoutShape) : List Nat :=
  delinearizeLoop linear shape.dimensions shape.minor_to_major 1
    (List.replicate shape.rank 0)

/-- `GetUnnormalizedIndex`: the coordinates in the unnormalized shape of the
element at a normalized index. `none` stands for a failed `CHECK`: the one of
the rank-2 branch, and that of the constructor from a linear offset, which needs
a layout. -/
def GetUnnormalizedIndex (normalized_shape_index : IrArrayIndex3)
    (unnormalized_shape : LayoutShape) (dims_in_elems : Dim3) : Option (List Nat) :=
  if unnormalized_shape.rank = 2 ∧ unnormalized_shape.has_layout = true ∧
      unnormalized_shape.dimensions.getD 0 0 = normalized_shape_index.dims.y ∧
      unnormalized_shape.dimensions.getD 1 0 = normalized_shape_index.dims.x ∧
      unnormalized_shape.minor_to_major.getD 1 0 = 0 then
    if normalized_shape_index.dims.z = 1 then
      some [normalized_shape_index.multidim.y, normalized_shape_index.multidim.x]
    else none
  else
    if unnormalized_shape.has_layout then
      some (Delinearize (normalized_shape_index.Linearize dims_in_elems) unnormalized_shape)
    else none

/-- The fused computation of a fusion as read by
`GetConsistentInputShapeForRootSlices`: the instructions by position, the
position of `fused_expression_root()` and `slice_strides()` of an instruction. -/
structure SliceFusion where
  computation : List FusedInstruction
  root : Nat
  slice_strides : Nat → List Int

/-- Modelled from the spec: the lambda `is_slice` of `IsInputFusibleSlices`
(defined outside this file): the instruction is a slice and, when strides are
verified, all its strides are 1. -/
def IsInputFusibleSlices.is_slice (fusion : SliceFusion) (verify_no_strides : Bool)
    (instr : Nat) : Bool :=
  decide ((instructionAt fusion.computation instr).opcode = .kSlice) &&
    (!verify_no_strides || (fusion.slice_strides instr).all (fun stride => decide (stride = 1)))

/-- Modelled from the spec: `IsInputFusibleSlices` (defined outside this file):
the root of the fusion is a slice, or a tuple whose operands are all slices,
non-strided ones when `verify_no_strides` is set. -/
def IsInputFusibleSlices (fusion : SliceFusion) (verify_no_strides : Bool) : Bool :=
  let root := instructionAt fusion.computation fusion.root
  if root.opcode = .kSlice then IsInputFusibleSlices.is_slice fusion verify_no_strides fusion.root
  else if root.opcode ≠ .kTuple then false
  else root.operands.all (IsInputFusibleSlices.is_slice fusion verify_no_strides)

/-- The two messages of the `FailedPrecondition` statuses of
`GetConsistentInputShapeForRootSlices`. -/
inductive RootSlicesMessage where
  | unsupportedRoot
  | differentInputShapes
  deriving DecidableEq, Repr

/-- What `GetConsistentInputShapeForRootSlices` returns: a shape, a
`FailedPrecondition` status, a failed `CHECK`, or no defined result when
`operands()[0]` is read from an instruction without operands. -/
inductive RootSlicesResult where
  | ok (shape : Shape)
  | FailedPrecondition (message : RootSlicesMessage)
  | checkFailure
  | undefinedOperand

/-- The loop of `GetConsistentInputShapeForRootSlices` over the operands of the
root tuple after the first: the first slice whose operand shape differs from
`first_slice_operand_shape`, ignoring the element type, ends it with
`FailedPrecondition`. -/
def rootSlicesLoop (EqualIgnoringElementType : Shape → Shape → Bool)
    (computation : List FusedInstruction) (first_slice_operand_shape : Shape) :
    List Nat → RootSlicesResult
  | [] => .ok first_slice_operand_shape
  | slice :: rest =>
    match (instructionAt computation slice).operands with
    | [] => .undefinedOperand
    | operand :: _ =>
      if !EqualIgnoringElementType first_slice_operand_shape
          (instructionAt computation operand).shape then
        .FailedPrecondition .differentInputShapes
      else rootSlicesLoop EqualIgnoringElementType computation first_slice_operand_shape rest

/-- `GetConsistentInputShapeForRootSlices`, with `ShapeUtil::EqualIgnoringElementType`
(defined outside this file) as a parameter. -/
def GetConsistentInputShapeForRootSlices (EqualIgnoringElementType : Shape → Shape → Bool)
    (fusion : SliceFusion) : RootSlicesResult :=
  if !IsInputFusibleSlices fusion true then .FailedPrecondition .unsupportedRoot
  else
    let root := instructionAt fusion.computation fusion.root
    if root.opcode = .kSlice then
      match root.operands with
      | [] => .undefinedOperand
      | operand :: _ => .ok (instructionAt fusion.computation operand).shape
    else if root.opcode ≠ .kTuple then .checkFailure
    else
      match root.operands with
      | [] => .undefinedOperand
      | first_slice :: rest =>
        match (instructionAt fusion.computation first_slice).operands with
        | [] => .undefinedOperand
        | first_operand :: _ =>
          rootSlicesLoop EqualIgnoringElementType fusion.computation
            (instructionAt fusion.computation first_operand).shape rest

/-- Two array shapes have the same dimensions; a stand-in for
`ShapeUtil::EqualIgnoringElementType` on arrays without layouts. -/
def sameDimensions : Shape → Shape → Bool
  | .array _ d1, .array _ d2 => decide (d1 = d2)
  | _, _ => false

/-- A fusion whose root is a tuple of two non-strided slices of parameters of the
shapes `f32[8]` and `s32[8]`. -/
def twoSlicesFusion : SliceFusion :=
  { computation :=
      [⟨.kParameter, .array .F32 [8], []⟩, ⟨.kParameter, .array .S32 [8], []⟩,
       ⟨.kSlice, .array .F32 [4], [0]⟩, ⟨.kSlice, .array .S32 [2], [1]⟩,
       ⟨.kTuple, .tuple [.array .F32 [4], .array .S32 [2]], [2, 3]⟩]
    root := 4
    slice_strides := fun _ => [1] }

/-- The fusion `twoSlicesFusion` with the second parameter of the shape
`s32[9]`. -/
def mismatchedSlicesFusion : SliceFusion :=
  { computation :=
      [⟨.kParameter, .array .F32 [8], []⟩, ⟨.kParameter, .array .S32 [9], []⟩,
       ⟨.kSlice, .array .F32 [4], [0]⟩, ⟨.kSlice, .array .S32 [2], [1]⟩,
       ⟨.kTuple, .tuple [.array .F32 [4], .array .S32 [2]], [2, 3]⟩]
    root := 4
    slice_strides := fun _ => [1] }

/-- The fusion `twoSlicesFusion` with a stride of 2 in the second slice. -/
def stridedSlicesFusion : SliceFusion :=
  { computation := twoSlicesFusion.computation
    root := 4
    slice_strides := fun instr => if instr = 3 then [2] else [1] }

/-! ## While loops: `HandleWhile` -/

mutual
/-- The shape indices visited by `ShapeUtil::ForEachSubshapeWithStatus`, in
order: the index of the shape itself followed, for a tuple, by the indices inside
each of its elements. -/
def Shape.shapeIndices : Shape → List (List Nat)
  | .tuple tuple_shapes => [] :: shapeIndicesOfList tuple_shapes 0
  | .array _ _ => [[]]
  | .token => [[]]
  | .opaqueType => [[]]
/-- The shape indices inside the elements of a tuple from element `i` on. -/
def shapeIndicesOfList : List Shape → Nat → List (List Nat)
  | [], _ => []
  | s :: rest, i => s.shapeIndices.map (fun index => i :: index) ++ shapeIndicesOfList rest (i + 1)
end

/-- The part of a while instruction read by `HandleWhile` and the functions it
calls: its shape, the instruction itself, `operand(0)`, parameter 0 of the
condition, parameter 0 and the root of the body (instructions are named by
numbers), whether the root of the condition is a scalar `PRED`, and the known
trip count of the backend configuration when there is one. -/
structure WhileInstruction where
  shape : Shape
  xla_while : Nat
  init : Nat
  condition_parameter : Nat
  body_parameter : Nat
  body_result : Nat
  condition_root_is_scalar_pred : Bool
  known_trip_count : Option Int

/-- `CheckHloBuffersShareAllocation`: `ConsumeValueOrDie` ends the process when
an instruction has no unique slice at the index, and two different slices give
an `InternalError`. -/
def CheckHloBuffersShareAllocation (GetUniqueSlice : Nat → List Nat → Option Slice)
    (a b : Nat) (index : List Nat) : EmitStatus :=
  match GetUniqueSlice a index with
  | none => .checkFailure
  | some slice_a =>
    match GetUniqueSlice b index with
    | none => .checkFailure
    | some slice_b => if slice_a ≠ slice_b then .InternalError else .OK

/-- The function that `CheckWhileBuffersShareAllocation` runs at one shape index:
the four checks in order, the first status other than `OK` being returned. -/
def checkWhileBuffersAt (GetUniqueSlice : Nat → List Nat → Option Slice)
    (w : WhileInstruction) (index : List Nat) : EmitStatus :=
  match CheckHloBuffersShareAllocation GetUniqueSlice w.xla_while w.init index with
  | .OK =>
    match CheckHloBuffersShareAllocation GetUniqueSlice w.xla_while w.condition_parameter
        index with
    | .OK =>
      match CheckHloBuffersShareAllocation GetUniqueSlice w.xla_while w.body_parameter index with
      | .OK => CheckHloBuffersShareAllocation GetUniqueSlice w.xla_while w.body_result index
      | status => status
    | status => status
  | status => status

/-- `ShapeUtil::ForEachSubshapeWithStatus` over a list of shape indices: the
first status other than `OK` ends the walk. -/
def forEachIndexWithStatus (f : List Nat → EmitStatus) : List (List Nat) → EmitStatus
  | [] => .OK
  | index :: rest =>
    match f index with
    | .OK => forEachIndexWithStatus f rest
    | status => status

/-- `CheckWhileBuffersShareAllocation`. -/
def CheckWhileBuffersShareAllocation (GetUniqueSlice : Nat → List Nat → Option Slice)
    (w : WhileInstruction) : EmitStatus :=
  forEachIndexWithStatus (checkWhileBuffersAt GetUniqueSlice w) w.shape.shapeIndices

/-- The thunks built for a while instruction, with the thunk sequences of the
nested computations. -/
inductive LoopThunk where
  | WhileThunk (condition_thunk_sequence body_thunk_sequence : List Nat)
  | ForThunk (loop_limit : Int) (body_thunk_sequence : List Nat)
  deriving DecidableEq, Repr

/-- `BuildWhileThunk`: `TF_CHECK_OK` ends the process when the check does not
return `OK`; the thunk sequences of the condition and of the body come from
nested emitters, whose error statuses are returned. -/
def BuildWhileThunk (GetUniqueSlice : Nat → List Nat → Option Slice)
    (emit_condition emit_body : Except EmitStatus (List Nat)) (hlo : WhileInstruction) :
    Except EmitStatus LoopThunk :=
  match CheckWhileBuffersShareAllocation GetUniqueSlice hlo with
  | .OK =>
    match emit_condition with
    | .error status => .error status
    | .ok condition_thunk_sequence =>
      match emit_body with
      | .error status => .error status
      | .ok body_thunk_sequence => .ok (.WhileThunk condition_thunk_sequence body_thunk_sequence)
  | _ => .error .checkFailure

/-- `BuildForThunk`. -/
def BuildForThunk (GetUniqueSlice : Nat → List Nat → Option Slice)
    (emit_body : Except EmitStatus (List Nat)) (hlo : WhileInstruction) (loop_limit : Int) :
    Except EmitStatus LoopThunk :=
  match CheckWhileBuffersShareAllocation GetUniqueSlice hlo with
  | .OK =>
    match emit_body with
    | .error status => .error status
    | .ok body_thunk_sequence => .ok (.ForThunk loop_limit body_thunk_sequence)
  | _ => .error .checkFailure

/-- `HandleWhile`: the status returned and the thunk sequence afterwards.
`TF_RET_CHECK` returns an `InternalError`. -/
def HandleWhile (GetUniqueSlice : Nat → List Nat → Option Slice)
    (emit_condition emit_body : Except EmitStatus (List Nat)) (xla_while : WhileInstruction)
    (thunk_sequence : List LoopThunk) : EmitStatus × List LoopThunk :=
  if !xla_while.condition_root_is_scalar_pred then (.InternalError, thunk_sequence)
  else
    match xla_while.known_trip_count with
    | some n =>
      match BuildForThunk GetUniqueSlice emit_body xla_while n with
      | .error status => (status, thunk_sequence)
      | .ok thunk => (.OK, thunk_sequence ++ [thunk])
    | none =>
      match BuildWhileThunk GetUniqueSlice emit_condition emit_body xla_while with
      | .error status => (status, thunk_sequence)
      | .ok thunk => (.OK, thunk_sequence ++ [thunk])

/-- A while instruction with an array result whose init operand (instruction 1)
lies in another slice than the result (instruction 0). -/
def unsharedWhile : WhileInstruction :=
  { shape := .array .F32 [4]
    xla_while := 0
    init := 1
    condition_parameter := 2
    body_parameter := 3
    body_result := 4
    condition_root_is_scalar_pred := true
    known_trip_count := none }

/-- The slices of `unsharedWhile`: instruction 1 in allocation 1, all others in
allocation 0. -/
def unsharedWhileSlices : Nat → List Nat → Option Slice :=
  fun instr _ => if instr = 1 then some ⟨1, 0, 16⟩ else some ⟨0, 0, 16⟩

/-- Slices that put every instruction in allocation 0. -/
def sharedWhileSlices : Nat → List Nat → Option Slice :=
  fun _ _ => some ⟨0, 0, 16⟩

/-! ## Initializers: `BuildInitializerThunk` -/

/-- The thunk that `BuildInitializerThunk` returns: a memzero, a 32-bit memset
with its value, or the initializer kernel. -/
inductive InitializerThunk where
  | Memzero
  | Memset32BitValue (value : Nat)
  | Kernel
  deriving DecidableEq, Repr

/-- The unsigned integer that `memcpy` reads from bytes on a little-endian
host. -/
def littleEndianValue (bytes : List Nat) : Nat :=
  bytes.foldr (fun byte value => byte + 256 * value) 0

/-- `BuildInitializerThunk` from the test `init_value->IsConstant()` on. The
bytes of the scalar literal (`num_bytes` of them) and the byte size of the output
are inputs; the output buffer slice is left out. -/
def BuildInitializerThunk (init_value_is_constant : Bool) (literal_bytes : List Nat)
    (output_byte_size : Nat) : InitializerThunk :=
  let num_bytes := literal_bytes.length
  if init_value_is_constant then
    if literal_bytes.all (fun byte => decide (byte = 0)) then .Memzero
    else if (num_bytes = 1 ∨ num_bytes = 2) ∧ output_byte_size % 4 = 0 then
      let pattern16 :=
        if num_bytes = 1 then
          (literal_bytes.headD 0 ||| (literal_bytes.headD 0 <<< 8)) % 2 ^ 16
        else littleEndianValue (literal_bytes.take 2)
      .Memset32BitValue ((pattern16 ||| (pattern16 <<< 16)) % 2 ^ 32)
    else if num_bytes ≥ 4 ∧ num_bytes % 4 = 0 ∧
        literal_bytes.take (num_bytes - 4) = (literal_bytes.drop 4).take (num_bytes - 4) then
      .Memset32BitValue (littleEndianValue (literal_bytes.take 4))
    else .Kernel
  else .Kernel

/-- The four bytes of a 32-bit value in memory, least significant first. -/
def wordBytes (value : Nat) : List Nat :=
  [value % 256, value / 256 % 256, value / 65536 % 256, value / 16777216 % 256]

/-- The bytes of a buffer of `num_words` 32-bit words after a 32-bit memset with
`value`. -/
def memset32Buffer (value num_words : Nat) : List Nat :=
  (List.replicate num_words (wordBytes value)).flatten

/-- The bytes of a buffer of `size` bytes after a memzero. -/
def memzeroBuffer (size : Nat) : List Nat :=
  List.replicate size 0

/-- The bytes of a buffer in which each of `num_elements` elements holds the
bytes `literal_bytes`. -/
def elementsBuffer (literal_bytes : List Nat) (num_elements : Nat) : List Nat :=
  (List.replicate num_elements literal_bytes).flatten

/-! ## Kernel arguments: `BuildKernelThunkFromBufferSlices` -/

/-- The part of the buffer assignment read by `BuildKernelThunkFromBufferSlices`:
`Allocations()` are the allocations with the indices `0, ..., num_allocations - 1`
in this order, an allocation being named by its index, with `is_constant()` and
`IsPreallocatedTempBuffer()` of each. -/
structure BufferAssignment where
  num_allocations : Nat
  is_constant : Nat → Bool
  IsPreallocatedTempBuffer : Nat → Bool

/-- `BufferSlice`: the slice of an allocation that holds a buffer or a pointer
chain to it, and the tuple indices to follow from there. -/
structure BufferSlice where
  buffer_slice : Slice
  gte_index : List Nat
  deriving DecidableEq, Repr

/-- The IR value handed to `bind_slice_to_ir_value`: the kernel argument at a
position plus a byte offset, or the global of a constant allocation, in both
cases followed by a load at every index of `gte_index`. -/
inductive BoundValue where
  | kernelArgument (argument : Nat) (offset : Int) (loads : List Nat)
  | constantGlobal (allocation : Nat) (loads : List Nat)
  deriving DecidableEq, Repr

/-- What `BuildKernelThunkFromBufferSlices` builds: the allocations passed as
kernel arguments in order, the value bound to each slice in order, and the
position of the argument that becomes the temp buffer base (`none` for the null
pointer). -/
structure KernelFromSlices where
  non_constant_buffers : List Nat
  bound_values : List BoundValue
  temp_buffer_base : Option Nat
  deriving DecidableEq, Repr

/-- The loop over `buffer_assn.Allocations()`: the first allocation that is a
preallocated temp buffer. -/
def BufferAssignment.temp_buffer (buffer_assn : BufferAssignment) : Option Nat :=
  (List.range buffer_assn.num_allocations).find? buffer_assn.IsPreallocatedTempBuffer

/-- The set `buffers_needed`, as the list of its members without repetition: the
allocations of the slices and the temp buffer. -/
def buffers_needed (buffer_assn : BufferAssignment) (slices : List BufferSlice) : List Nat :=
  (slices.map (fun slice => slice.buffer_slice.allocation) ++
    buffer_assn.temp_buffer.toList).dedup

/-- `kernel_args.at(allocation)`: the position of the allocation among the kernel
arguments; `none` when the map has no such key. -/
def kernelArgAt (non_constant_buffers : List Nat) (allocation : Nat) : Option Nat :=
  if allocation ∈ non_constant_buffers then some (non_constant_buffers.indexOf allocation)
  else none

/-- The value bound to one slice. -/
def bindSlice (buffer_assn : BufferAssignment) (non_constant_buffers : List Nat)
    (slice : BufferSlice) : Option BoundValue :=
  if buffer_assn.is_constant slice.buffer_slice.allocation then
    some (.constantGlobal slice.buffer_slice.allocation slice.gte_index)
  else
    (kernelArgAt non_constant_buffers slice.buffer_slice.allocation).map
      (fun argument => .kernelArgument argument slice.buffer_slice.offset slice.gte_index)

/-- The loop that binds every slice, in order; it stops at a failed lookup. -/
def bindSlices (buffer_assn : BufferAssignment) (non_constant_buffers : List Nat) :
    List BufferSlice → Option (List BoundValue)
  | [] => some []
  | slice :: rest =>
    match bindSlice buffer_assn non_constant_buffers slice with
    | none => none
    | some value =>
      match bindSlices buffer_assn non_constant_buffers rest with
      | none => none
      | some values => some (value :: values)

/-- `BuildKernelThunkFromBufferSlices`. The order in which the unordered set
`buffers_needed` is walked is the parameter `iteration_order`; `none` stands for
a failed lookup `kernel_args.at`. -/
def BuildKernelThunkFromBufferSlices (buffer_assn : BufferAssignment)
    (iteration_order : List Nat → List Nat) (slices : List BufferSlice) :
    Option KernelFromSlices :=
  let temp_buffer := buffer_assn.temp_buffer
  let non_constant_buffers :=
    ((iteration_order (buffers_needed buffer_assn slices)).filter
      (fun allocation => !buffer_assn.is_constant allocation)).insertionSort (fun a b => a ≤ b)
  match bindSlices buffer_assn non_constant_buffers slices with
  | none => none
  | some bound_values =>
    match temp_buffer with
    | some allocation =>
      match kernelArgAt non_constant_buffers allocation with
      | none => none
      | some argument =>
        some { non_constant_buffers := non_constant_buffers
               bound_values := bound_values
               temp_buffer_base := some argument }
    | none =>
      some { non_constant_buffers := non_constant_buffers
             bound_values := bound_values
             temp_buffer_base := none }

/-- The value bound to a slice when the lookup of its allocation succeeds. -/
def boundValueOf (buffer_assn : BufferAssignment) (non_constant_buffers : List Nat)
    (slice : BufferSlice) : BoundValue :=
  if buffer_assn.is_constant slice.buffer_slice.allocation then
    .constantGlobal slice.buffer_slice.allocation slice.gte_index
  else
    .kernelArgument (non_constant_buffers.indexOf slice.buffer_slice.allocation)
      slice.buffer_slice.offset slice.gte_index

/-- A buffer assignment with four allocations: allocation 1 is constant and
allocation 2 is the preallocated temp buffer. -/
def exampleAssignment : BufferAssignment :=
  { num_allocations := 4
    is_constant := fun allocation => decide (allocation = 1)
    IsPreallocatedTempBuffer := fun allocation => decide (allocation = 2) }

/-- Three slices: two in allocation 3, one of them reached through a tuple
index, and one in the constant allocation 1. -/
def exampleSlices : List BufferSlice :=
  [⟨⟨3, 0, 16⟩, []⟩, ⟨⟨1, 8, 4⟩, []⟩, ⟨⟨3, 16, 8⟩, [1]⟩]

/-! ## Buffer lookup: `GetHloBufferSlices` -/

/-- The part of the instructions of a computation read by `GetHloBufferSlices`,
instructions being named by numbers: opcode, shape, operands, `operand(0)`,
`tuple_index()` and `IsEffectiveBitcast()`. -/
structure HloGraph where
  opcode : Nat → HloOpcode
  shape : Nat → Shape
  operands : Nat → List Nat
  operand0 : Nat → Nat
  tuple_index : Nat → Nat
  IsEffectiveBitcast : Nat → Bool

/-- How one of the two loops over `parent` in `find_slice_for` ends: with a
slice, at an instruction that does not continue the chain, or without fuel. -/
inductive WalkResult where
  | found (slice : Slice) (gte_indices : List Nat)
  | stopped (parent : Nat) (gte_indices : List Nat)
  | outOfFuel
  deriving DecidableEq, Repr

/-- The loop `while (parent->IsEffectiveBitcast())` of `find_slice_for`. -/
def walkBitcasts (g : HloGraph) (GetUniqueSlice : Nat → List Nat → Option Slice) :
    Nat → Nat → WalkResult
  | 0, _ => .outOfFuel
  | fuel + 1, parent =>
    if g.IsEffectiveBitcast parent then
      match GetUniqueSlice (g.operand0 parent) [] with
      | some slice => .found slice []
      | none => walkBitcasts g GetUniqueSlice fuel (g.operand0 parent)
    else .stopped parent []

/-- The loop `while (parent->opcode() == HloOpcode::kGetTupleElement)` of
`find_slice_for`: `push_front` puts the tuple index of `parent` before the
indices collected so far. -/
def walkGetTupleElements (g : HloGraph) (GetUniqueSlice : Nat → List Nat → Option Slice) :
    Nat → Nat → List Nat → WalkResult
  | 0, _, _ => .outOfFuel
  | fuel + 1, parent, gte_indices =>
    if g.opcode parent = .kGetTupleElement then
      match GetUniqueSlice (g.operand0 parent) [] with
      | some slice => .found slice (g.tuple_index parent :: gte_indices)
      | none =>
        walkGetTupleElements g GetUniqueSlice fuel (g.operand0 parent)
          (g.tuple_index parent :: gte_indices)
    else .stopped parent gte_indices

/-- The last loop of `find_slice_for`, `while (!new_index.empty())`, on the
reversed `new_index`: the last element of `new_index` is put before
`gte_indices` and removed from `new_index`, and a unique slice of `instr` at the
shortened index ends the loop. -/
def lastElementLoop (GetUniqueSlice : Nat → List Nat → Option Slice) (instr : Nat) :
    List Nat → List Nat → Option (Slice × List Nat)
  | [], _ => none
  | back :: reversed_rest, gte_indices =>
    match GetUniqueSlice instr reversed_rest.reverse with
    | some slice => some (slice, back :: gte_indices)
    | none => lastElementLoop GetUniqueSlice instr reversed_rest (back :: gte_indices)

/-- The lambda `find_slice_for` of `GetHloBufferSlices`: the slice and the tuple
indices to follow from it, or `nullopt`; the outer `none` stands for a walk that
ran out of fuel. The variable `gte_indices` of the walk over the
get-tuple-element instructions is the one the last loop goes on with. -/
def find_slice_for (g : HloGraph) (GetUniqueSlice : Nat → List Nat → Option Slice)
    (fuel instr : Nat) (index : List Nat) : Option (Option (Slice × List Nat)) :=
  match GetUniqueSlice instr index with
  | some slice => some (some (slice, []))
  | none =>
    match walkBitcasts g GetUniqueSlice fuel instr with
    | .outOfFuel => none
    | .found slice gte_indices => some (some (slice, gte_indices))
    | .stopped parent _ =>
      match walkGetTupleElements g GetUniqueSlice fuel parent [] with
      | .outOfFuel => none
      | .found slice gte_indices => some (some (slice, gte_indices))
      | .stopped _ gte_indices =>
        some (lastElementLoop GetUniqueSlice instr index.reverse gte_indices)

/-- `HloBufferSlice`. -/
structure HloBufferSlice where
  instr : Nat
  hlo_index : List Nat
  buffer_slice : Slice
  gte_index : List Nat
  deriving DecidableEq, Repr

/-- The lambda `add_slices_for` of `GetHloBufferSlices` for the shape indices of
one instruction: an index that was inserted before is skipped, and an entry is
added when `find_slice_for` finds a slice. The state is the result so far and
the set of inserted pairs. -/
def add_slices_for (g : HloGraph) (GetUniqueSlice : Nat → List Nat → Option Slice)
    (fuel instr : Nat) :
    List (List Nat) → List HloBufferSlice × List (Nat × List Nat) →
      Option (List HloBufferSlice × List (Nat × List Nat))
  | [], state => some state
  | index :: rest, (result, inserted_buffer_slices) =>
    if (instr, index) ∈ inserted_buffer_slices then
      add_slices_for g GetUniqueSlice fuel instr rest (result, inserted_buffer_slices)
    else
      match find_slice_for g GetUniqueSlice fuel instr index with
      | none => none
      | some none =>
        add_slices_for g GetUniqueSlice fuel instr rest
          (result, (instr, index) :: inserted_buffer_slices)
      | some (some found) =>
        add_slices_for g GetUniqueSlice fuel instr rest
          (result ++ [⟨instr, index, found.1, found.2⟩], (instr, index) :: inserted_buffer_slices)

/-- The loop of `GetHloBufferSlices` over the instruction and its operands. -/
def addSlicesForAll (g : HloGraph) (GetUniqueSlice : Nat → List Nat → Option Slice)
    (fuel : Nat) :
    List Nat → List HloBufferSlice × List (Nat × List Nat) →
      Option (List HloBufferSlice × List (Nat × List Nat))
  | [], state => some state
  | instr :: rest, state =>
    match add_slices_for g GetUniqueSlice fuel instr (g.shape instr).shapeIndices state with
    | none => none
    | some next => addSlicesForAll g GetUniqueSlice fuel rest next

/-- `GetHloBufferSlices`. -/
def GetHloBufferSlices (g : HloGraph) (GetUniqueSlice : Nat → List Nat → Option Slice)
    (fuel hlo : Nat) : Option (List HloBufferSlice) :=
  (addSlicesForAll g GetUniqueSlice fuel (hlo :: g.operands hlo) ([], [])).map Prod.fst

/-- The code that `BuildKernelThunkFromBufferSlices` emits for the tuple indices
of a slice: from the address `loc`, one load per index, `load address i` being
the pointer stored at position `i` of the tuple at `address`. -/
def followGteIndex {α : Type} (load : α → Nat → α) (loc : α) (gte_index : List Nat) : α :=
  gte_index.foldl load loc

/-- A computation with a tuple-shaped select (instruction 2) of two nested tuples
(instructions 0 and 1), a get-tuple-element of its element 1 (instruction 3), and
a consumer of that (instruction 4). -/
def selectGraph : HloGraph :=
  { opcode := fun instr =>
      if instr = 2 then .kTupleSelect else if instr = 3 then .kGetTupleElement else .kOther
    shape := fun instr =>
      if instr = 3 then .tuple [.array .F32 [2], .array .F32 [3]]
      else if instr = 4 then .array .F32 [2]
      else .tuple [.array .F32 [1], .tuple [.array .F32 [2], .array .F32 [3]]]
    operands := fun instr =>
      if instr = 2 then [0, 1] else if instr = 3 then [2] else if instr = 4 then [3] else []
    operand0 := fun instr => if instr = 3 then 2 else if instr = 4 then 3 else 0
    tuple_index := fun instr => if instr = 3 then 1 else 0
    IsEffectiveBitcast := fun _ => false }

/-- The unique slices of `selectGraph`: the select has a buffer of its own at the
top level only (allocation 2), its elements being those of one of the two
operands; the operands have their own top-level buffers and the consumer has
allocation 4. -/
def selectSlices : Nat → List Nat → Option Slice :=
  fun instr index =>
    if instr = 2 ∧ index = [] then some ⟨2, 0, 16⟩
    else if instr = 4 ∧ index = [] then some ⟨4, 0, 8⟩
    else if (instr = 0 ∨ instr = 1) ∧ index = [] then some ⟨instr, 0, 16⟩
    else none

/-- A computation with a get-tuple-element (instruction 1, tuple index 2) of an
instruction without a unique top-level slice (instruction 0). -/
def staleGraph : HloGraph :=
  { opcode := fun instr => if instr = 1 then .kGetTupleElement else .kOther
    shape := fun _ => .tuple [.tuple [.array .F32 [2], .array .F32 [3]]]
    operands := fun instr => if instr = 1 then [0] else []
    operand0 := fun _ => 0
    tuple_index := fun instr => if instr = 1 then 2 else 0
    IsEffectiveBitcast := fun _ => false }

/-- The unique slices of `staleGraph`: only instruction 1 at index `{0}`. -/
def staleSlices : Nat → List Nat → Option Slice :=
  fun instr index => if instr = 1 ∧ index = [0] then some ⟨5, 0, 16⟩ else none


/-- Where buffers lie at run time, over addresses of type `α`: the address of the
buffer of an instruction at a shape index, the address at which a slice starts,
and the pointer loaded from position `i` of the tuple at an address. -/
structure BufferLayout (α : Type) where
  address : Nat → List Nat → α
  slice_address : Slice → α
  load : α → Nat → α

/-- A layout agrees with the computation and the buffer assignment: a unique
slice of an instruction at an index starts at the address of that buffer, the
tuple at an index holds at position `i` the address of the buffer at the index
extended by `i`, a get-tuple-element shares the buffers of the element of its
operand, and an effective bitcast shares the buffer of its operand. -/
def BufferLayout.Consistent {α : Type} (m : BufferLayout α) (g : HloGraph)
    (GetUniqueSlice : Nat → List Nat → Option Slice) : Prop :=
  (∀ instr index slice, GetUniqueSlice instr index = some slice →
    m.slice_address slice = m.address instr index) ∧
  (∀ instr index i, m.load (m.address instr index) i = m.address instr (index ++ [i])) ∧
  (∀ p index, g.opcode p = .kGetTupleElement →
    m.address p index = m.address (g.operand0 p) (g.tuple_index p :: index)) ∧
  (∀ p, g.IsEffectiveBitcast p = true → m.address p [] = m.address (g.operand0 p) [])

/-- A layout for `staleGraph`, an address being named by an instruction and an
index: the buffers of the get-tuple-element (instruction 1) are those of element
2 of instruction 0, and the only slice starts at the buffer of instruction 1 at
index `{0}`. -/
def staleLayout : BufferLayout (Nat × List Nat) :=
  { address := fun instr index => if instr = 1 then (0, 2 :: index) else (instr, index)
    slice_address := fun _ => (0, [2, 0])
    load := fun address i => (address.1, address.2 ++ [i]) }

/-- A layout for `selectGraph` in a run where the select picks instruction 0: the
top-level buffer of the select is its own and holds the pointers of instruction
0, the buffers of the get-tuple-element (instruction 3) are those of element 1 of
the select, and a slice starts at the top-level buffer of the instruction with
the number of its allocation. -/
def selectLayout : BufferLayout (Nat × List Nat) :=
  { address := fun instr index =>
      if instr = 3 then (0, 1 :: index)
      else if instr = 2 then (if index = [] then (2, []) else (0, index))
      else (instr, index)
    slice_address := fun slice => (slice.allocation, [])
    load := fun address i =>
      if address = (2, []) then (0, [i]) else (address.1, address.2 ++ [i]) }

/-! ## Index width: proofs -/

theorem self_mem_subshapes (s : Shape) : s ∈ s.subshapes := by
  cases s <;> simp [Shape.subshapes]

theorem subshapes_subset_ofList (elem : Shape) (l : List Shape) (h : elem ∈ l) :
    ∀ sub, sub ∈ elem.subshapes → sub ∈ subshapesOfList l := by
  induction l with
  | nil => cases h
  | cons a rest ih =>
    intro sub hsub
    simp only [subshapesOfList, List.mem_append]
    rcases List.mem_cons.mp h with rfl | hrest
    · exact Or.inl hsub
    · exact Or.inr (ih hrest sub hsub)

theorem mem_subshapes_of_isSubshape {sub s : Shape} (h : IsSubshape sub s) :
    sub ∈ s.subshapes := by
  induction h with
  | self => exact self_mem_subshapes _
  | inTuple elem ts hmem _ ih =>
    simp only [Shape.subshapes, List.mem_cons]
    exact Or.inr (subshapes_subset_ofList elem ts hmem _ ih)

mutual
theorem isSubshape_of_mem_subshapes : ∀ (s sub : Shape), sub ∈ s.subshapes → IsSubshape sub s
  | .tuple ts, sub, h => by
    simp only [Shape.subshapes, List.mem_cons] at h
    rcases h with rfl | h
    · exact IsSubshape.self _
    · obtain ⟨elem, hmem, hsub⟩ := isSubshape_of_mem_ofList ts sub h
      exact IsSubshape.inTuple sub elem ts hmem hsub
  | .array t d, sub, h => by
    simp only [Shape.subshapes, List.mem_singleton] at h
    subst h; exact IsSubshape.self _
  | .token, sub, h => by
    simp only [Shape.subshapes, List.mem_singleton] at h
    subst h; exact IsSubshape.self _
  | .opaqueType, sub, h => by
    simp only [Shape.subshapes, List.mem_singleton] at h
    subst h; exact IsSubshape.self _
theorem isSubshape_of_mem_ofList : ∀ (l : List Shape) (sub : Shape),
    sub ∈ subshapesOfList l → ∃ elem, elem ∈ l ∧ IsSubshape sub elem
  | [], sub, h => by simp [subshapesOfList] at h
  | s :: rest, sub, h => by
    simp only [subshapesOfList, List.mem_append] at h
    rcases h with h | h
    · exact ⟨s, List.mem_cons_self _ _, isSubshape_of_mem_subshapes s sub h⟩
    · obtain ⟨elem, hmem, hsub⟩ := isSubshape_of_mem_ofList rest sub h
      exact ⟨elem, List.mem_cons_of_mem _ hmem, hsub⟩
end

theorem mem_subshapes_iff (s sub : Shape) : sub ∈ s.subshapes ↔ IsSubshape sub s :=
  ⟨isSubshape_of_mem_subshapes s sub, mem_subshapes_of_isSubshape⟩

theorem IsInt32_iff (x : Int) : IsInt32 x = true ↔ FitsInt32 x := by
  unfold IsInt32 FitsInt32
  simp only [decide_eq_true_eq]
  constructor <;> rintro ⟨h1, h2⟩ <;> exact ⟨h1, by omega⟩

theorem foldl_in_range (p : Shape → Bool) (l : List Shape) (b : Bool) :
    l.foldl (fun in_range sub_shape => if p sub_shape then false else in_range) b =
      (b && l.all (fun sub_shape => !p sub_shape)) := by
  induction l generalizing b with
  | nil => simp
  | cons a rest ih =>
    simp only [List.foldl_cons, List.all_cons, ih]
    cases p a <;> cases b <;> simp

theorem shape_in_range_iff (s : Shape) : shape_in_range s = true ↔ ArraysFitInt32 s := by
  unfold shape_in_range ArraysFitInt32
  rw [foldl_in_range]
  simp only [Bool.true_and, List.all_eq_true]
  constructor
  · intro h sub hsub harr
    have := h sub ((mem_subshapes_iff s sub).mpr hsub)
    rw [harr] at this
    simpa [IsInt32_iff] using this
  · intro h sub hmem
    have := h sub ((mem_subshapes_iff s sub).mp hmem)
    cases harr : sub.IsArray
    · simp
    · simpa [IsInt32_iff] using this harr

theorem GetIndexTypeForKernel_i32_iff_policy (hlo : HloInstruction)
    (computation : HloComputation) (launch_size : Int) :
    GetIndexTypeForKernel hlo computation launch_size = .i32 ↔
      UsesInt32Policy (unnested_hlo hlo computation) launch_size := by
  unfold GetIndexTypeForKernel UsesInt32Policy
  simp only []
  generalize unnested_hlo hlo computation = u
  have hops : (u.operands.all fun operand => shape_in_range operand.shape) = true ↔
      ∀ operand ∈ u.operands, ArraysFitInt32 operand.shape := by
    simp [List.all_eq_true, shape_in_range_iff]
  have hfused : (u.fused_instructions.all fun instr => shape_in_range instr.shape) = true ↔
      ∀ instr ∈ u.fused_instructions, ArraysFitInt32 instr.shape := by
    simp [List.all_eq_true, shape_in_range_iff]
  rw [← IsInt32_iff, ← shape_in_range_iff, ← hops, ← hfused]
  by_cases h1 : IsInt32 launch_size = true <;>
  by_cases h2 : shape_in_range u.shape = true <;>
  by_cases h3 : (u.operands.all fun operand => shape_in_range operand.shape) = true <;>
  by_cases h4 : (u.fused_instructions.all fun instr => shape_in_range instr.shape) = true <;>
  by_cases h5 : u.opcode = .kFusion <;>
  simp [h1, h2, h3, h4, h5]

theorem ElementsIn_nonneg (s : Shape) : 0 ≤ ElementsIn s := by
  cases s with
  | array t d => exact Int.natCast_nonneg _
  | _ => exact le_refl _

theorem foldl_max_ge (l : List Int) (b : Int) :
    b ≤ l.foldl max b ∧ ∀ x ∈ l, x ≤ l.foldl max b := by
  induction l generalizing b with
  | nil => simp
  | cons a rest ih =>
    simp only [List.foldl_cons, List.mem_cons, forall_eq_or_imp]
    obtain ⟨h1, h2⟩ := ih (max b a)
    exact ⟨le_trans (le_max_left b a) h1, le_trans (le_max_right b a) h1, h2⟩

theorem le_maxElementCount (arrays : List Shape) (t : Shape) (h : t ∈ arrays) :
    ElementsIn t ≤ maxElementCount arrays :=
  (foldl_max_ge (arrays.map ElementsIn) 0).2 _ (List.mem_map_of_mem ElementsIn h)

theorem policy_iff_touchedArrays (u : HloInstruction) (launch_size : Int) :
    UsesInt32Policy u launch_size ↔
      FitsInt32 launch_size ∧ ∀ t ∈ touchedArrays u, FitsInt32 (ElementsIn t) := by
  unfold UsesInt32Policy touchedArrays ArraysFitInt32
  simp only [List.mem_filter, List.mem_append, List.mem_flatMap, mem_subshapes_iff]
  constructor
  · rintro ⟨h1, h2, h3, h4⟩
    refine ⟨h1, ?_⟩
    rintro t ⟨(hs | ⟨operand, hop, hs⟩) | hf, harr⟩
    · exact h2 t hs harr
    · exact h3 operand hop t hs harr
    · by_cases hk : u.opcode = .kFusion
      · simp only [hk, if_true, List.mem_flatMap, mem_subshapes_iff] at hf
        obtain ⟨instr, hin, hs⟩ := hf
        exact h4 hk instr hin t hs harr
      · simp [hk] at hf
  · rintro ⟨h1, h⟩
    refine ⟨h1, ?_, ?_, ?_⟩
    · intro sub hs harr
      exact h sub ⟨Or.inl (Or.inl hs), harr⟩
    · intro operand hop sub hs harr
      exact h sub ⟨Or.inl (Or.inr ⟨operand, hop, hs⟩), harr⟩
    · intro hk instr hin sub hs harr
      refine h sub ⟨Or.inr ?_, harr⟩
      simp only [hk, if_true, List.mem_flatMap, mem_subshapes_iff]
      exact ⟨instr, hin, hs⟩

theorem unnested_hlo_eq (hlo : HloInstruction) (computation : HloComputation) :
    unnested_hlo hlo computation = computation.FusionInstruction.getD hlo := by
  unfold unnested_hlo
  cases computation.FusionInstruction <;> rfl

theorem index_type_cases (t : IndexType) : t = .i64 ↔ ¬ t = .i32 := by
  cases t <;> simp

/-- C1: `GetIndexTypeForKernel` returns the 32-bit type exactly when the launch
size and the element count of every array subshape of the result, of every
operand and (for a fusion) of every fused instruction fit in a signed 32-bit
integer, and the 64-bit type in every other case; the instruction examined is
the enclosing fusion instruction when the given one lives in a fusion
computation. -/
theorem GetIndexTypeForKernel_policy (hlo : HloInstruction)
    (computation : HloComputation) (launch_size : Int) :
    (GetIndexTypeForKernel hlo computation launch_size = .i32 ↔
      UsesInt32Policy (computation.FusionInstruction.getD hlo) launch_size) ∧
    (GetIndexTypeForKernel hlo computation launch_size = .i64 ↔
      ¬ UsesInt32Policy (computation.FusionInstruction.getD hlo) launch_size) := by
  rw [← unnested_hlo_eq, index_type_cases, GetIndexTypeForKernel_i32_iff_policy]
  exact ⟨Iff.rfl, Iff.rfl⟩

/-- C2: for a kernel whose launch size fits in 32 bits, the index type is the
32-bit one when the largest element count among the touched arrays is
`2^31 - 1`, and the 64-bit one when some touched array has `2^31` elements. -/
theorem GetIndexTypeForKernel_int32_boundary (hlo : HloInstruction)
    (computation : HloComputation) (launch_size : Int) (hlaunch : FitsInt32 launch_size) :
    (maxElementCount (touchedArrays (computation.FusionInstruction.getD hlo)) = 2 ^ 31 - 1 →
      GetIndexTypeForKernel hlo computation launch_size = .i32) ∧
    ((∃ t ∈ touchedArrays (computation.FusionInstruction.getD hlo), ElementsIn t = 2 ^ 31) →
      GetIndexTypeForKernel hlo computation launch_size = .i64) := by
  rw [index_type_cases, GetIndexTypeForKernel_i32_iff_policy, unnested_hlo_eq,
    policy_iff_touchedArrays]
  constructor
  · intro hmax
    refine ⟨hlaunch, fun t ht => ⟨?_, ?_⟩⟩
    · have := ElementsIn_nonneg t
      omega
    · have := le_maxElementCount _ t ht
      omega
  · rintro ⟨t, ht, hcount⟩ ⟨_, hall⟩
    have := (hall t ht).2
    omega

/-- An unnested instruction whose only array has `2^31 - 1` elements. -/
def hloWithMaxInt32Elements : HloInstruction :=
  .mk .kOther (.array .F32 [2147483647]) [] []

/-- A fusion whose result is small but one fused instruction has `2^31` elements. -/
def fusionWithLargeInternal : HloInstruction :=
  .mk .kFusion (.array .F32 [4])
    [.mk .kParameter (.array .F32 [4]) [] []]
    [.mk .kOther (.array .F32 [32768, 65536]) [] []]

theorem GetIndexTypeForKernel_int32_boundary_witness :
    GetIndexTypeForKernel hloWithMaxInt32Elements ⟨none⟩ 1024 = .i32 ∧
    GetIndexTypeForKernel (.mk .kOther (.array .F32 [4]) [] [])
      ⟨some fusionWithLargeInternal⟩ 1024 = .i64 :=
  ⟨(GetIndexTypeForKernel_int32_boundary hloWithMaxInt32Elements ⟨none⟩ 1024
      (by unfold FitsInt32; omega)).1 (by decide),
   (GetIndexTypeForKernel_int32_boundary (.mk .kOther (.array .F32 [4]) [] [])
      ⟨some fusionWithLargeInternal⟩ 1024 (by unfold FitsInt32; omega)).2
      ⟨.array .F32 [32768, 65536],
        by simp [touchedArrays, fusionWithLargeInternal, HloInstruction.opcode,
          HloInstruction.shape, HloInstruction.operands, HloInstruction.fused_instructions,
          Shape.subshapes, Shape.IsArray],
        by decide⟩⟩

/-! ## Sort: proofs -/

theorem log2CeilingFrom_spec (n : Nat) : ∀ (fuel s : Nat), n ≤ 2 ^ (s + fuel) →
    n ≤ 2 ^ log2CeilingFrom n fuel s ∧ s ≤ log2CeilingFrom n fuel s ∧
      ∀ t, s ≤ t → t < log2CeilingFrom n fuel s → 2 ^ t < n
  | 0, s, h => by
    simp only [log2CeilingFrom]
    exact ⟨by simpa using h, le_refl _, fun t h1 h2 => absurd h1 (not_le.mpr h2)⟩
  | fuel + 1, s, h => by
    simp only [log2CeilingFrom]
    split
    · next hle => exact ⟨hle, le_refl _, fun t h1 h2 => absurd h1 (not_le.mpr h2)⟩
    · next hlt =>
      have h' : n ≤ 2 ^ (s + 1 + fuel) := by
        have : s + 1 + fuel = s + (fuel + 1) := by omega
        rw [this]; exact h
      obtain ⟨h1, h2, h3⟩ := log2CeilingFrom_spec n fuel (s + 1) h'
      refine ⟨h1, by omega, fun t ht1 ht2 => ?_⟩
      rcases Nat.eq_or_lt_of_le ht1 with rfl | hgt
      · exact not_le.mp hlt
      · exact h3 t hgt ht2

theorem Log2Ceiling_eq_clog (n : Nat) (hn : n ≤ 2 ^ 64) :
    Log2Ceiling n = (Nat.clog 2 n : Nat) := by
  unfold Log2Ceiling
  obtain ⟨h1, _, h3⟩ := log2CeilingFrom_spec n 64 0 (by simpa using hn)
  congr 1
  apply le_antisymm
  · by_contra hcon
    have hlt : Nat.clog 2 n < log2CeilingFrom n 64 0 := not_le.mp hcon
    have := h3 (Nat.clog 2 n) (Nat.zero_le _) hlt
    have h4 : n ≤ 2 ^ Nat.clog 2 n := Nat.le_pow_clog (by norm_num) n
    omega
  · exact (Nat.le_pow_iff_clog_le (by norm_num)).mp h1

theorem maskCountdown_eq (stage : Nat) :
    maskCountdown stage = stage :: (List.range stage).reverse := by
  induction stage with
  | zero => rfl
  | succ m ih =>
    simp only [maskCountdown, ih]
    rw [List.range_succ (n := m), List.reverse_append]
    rfl

theorem stage_masks_eq (stage : Nat) :
    (maskCountdown stage).map (xorMaskAt stage) =
      (2 ^ (stage + 1) - 1) :: (List.range stage).reverse.map (fun m => 2 ^ m) := by
  rw [maskCountdown_eq, List.map_cons]
  congr 1
  · simp [xorMaskAt]
  · apply List.map_congr_left
    intro m hm
    have : m < stage := by simpa using hm
    simp [xorMaskAt, Nat.ne_of_lt this]

theorem xorMasksFrom_eq (stage remaining : Nat) :
    xorMasksFrom stage remaining =
      (List.range' stage remaining).flatMap
        (fun s => (2 ^ (s + 1) - 1) :: (List.range s).reverse.map (fun m => 2 ^ m)) := by
  induction remaining generalizing stage with
  | zero => rfl
  | succ r ih =>
    simp only [xorMasksFrom, List.range'_succ, List.flatMap_cons, ih, stage_masks_eq]

theorem allXorMasks_eq_bitonicSchedule (num_stages : Nat) :
    allXorMasks num_stages = bitonicSchedule num_stages := by
  unfold allXorMasks bitonicSchedule
  rw [xorMasksFrom_eq, List.range_eq_range']

/-- Flattened content of the loop state: emitted lists followed by the pending
vector. -/
def MaskLoopState.content (st : MaskLoopState) : List Nat :=
  st.emitted.flatten ++ st.xor_masks

theorem maskLoopStep_content (kTileSize : Nat) (no_tiling : Bool) (st : MaskLoopState)
    (xor_mask : Nat) :
    (maskLoopStep kTileSize no_tiling st xor_mask).content = st.content ++ [xor_mask] := by
  unfold maskLoopStep MaskLoopState.content
  split
  · split
    · simp
    · next hne => simp [not_not.mp hne]
  · simp

theorem maskLoop_content (kTileSize : Nat) (no_tiling : Bool) (masks : List Nat)
    (st : MaskLoopState) :
    (masks.foldl (maskLoopStep kTileSize no_tiling) st).content = st.content ++ masks := by
  induction masks generalizing st with
  | nil => simp
  | cons m rest ih => rw [List.foldl_cons, ih, maskLoopStep_content]; simp

theorem emittedMaskLists_flatten (kTileSize : Nat) (no_tiling : Bool) (num_stages : Nat) :
    (emittedMaskLists kTileSize no_tiling num_stages).flatten = allXorMasks num_stages := by
  have h := maskLoop_content kTileSize no_tiling (allXorMasks num_stages) ⟨[], []⟩
  unfold emittedMaskLists
  simp only [MaskLoopState.content, List.flatten_nil, List.nil_append] at h
  simp only []
  split
  · rw [List.flatten_append]; simpa using h
  · next hne =>
    have : (List.foldl (maskLoopStep kTileSize no_tiling) ⟨[], []⟩
        (allXorMasks num_stages)).xor_masks = [] := by
      simpa using hne
    rw [this] at h; simpa using h

theorem maskLoop_no_tiling (kTileSize : Nat) (masks : List Nat) (emitted : List (List Nat)) :
    masks.foldl (maskLoopStep kTileSize true) ⟨emitted, []⟩ =
      ⟨emitted ++ masks.map (fun m => [m]), []⟩ := by
  induction masks generalizing emitted with
  | nil => simp
  | cons m rest ih =>
    rw [List.foldl_cons]
    have : maskLoopStep kTileSize true ⟨emitted, []⟩ m = ⟨emitted ++ [[m]], []⟩ := by
      simp [maskLoopStep]
    rw [this, ih]
    simp

theorem emittedMaskLists_no_tiling (kTileSize num_stages : Nat) :
    emittedMaskLists kTileSize true num_stages =
      (allXorMasks num_stages).map (fun m => [m]) := by
  unfold emittedMaskLists
  rw [maskLoop_no_tiling]
  simp

theorem not_run_of_solo {T : Nat} {l : List Nat} (h : IsSoloLaunch T l) : ¬ IsRunLaunch T l := by
  obtain ⟨m, rfl, hm⟩ := h
  rintro ⟨_, hlt⟩
  have := hlt m (List.mem_singleton.mpr rfl)
  omega

/-- Invariant of the mask loop when tiling is used. -/
def MaskLoopInv (T : Nat) (st : MaskLoopState) : Prop :=
  IsMaximalRunBatching T st.emitted ∧
    (∀ l, st.emitted.getLast? = some l → IsSoloLaunch T l) ∧
    (∀ m ∈ st.xor_masks, m < T)

theorem chain_append_singleton {R : List Nat → List Nat → Prop} (ls : List (List Nat))
    (x : List Nat) (h : List.Chain' R ls) (hlast : ∀ l, ls.getLast? = some l → R l x) :
    List.Chain' R (ls ++ [x]) := by
  rw [List.chain'_append]
  refine ⟨h, List.chain'_singleton x, ?_⟩
  intro a ha b hb
  simp only [List.head?_cons, Option.mem_def, Option.some.injEq] at hb
  subst hb
  exact hlast a ha

theorem getLast?_append_singleton (ls : List (List Nat)) (x : List Nat) :
    (ls ++ [x]).getLast? = some x := by
  induction ls with
  | nil => rfl
  | cons a rest ih =>
    cases rest with
    | nil => rfl
    | cons b rest2 => simp [List.getLast?]

theorem maskLoopStep_solo_flush (T : Nat) (no_tiling : Bool) (st : MaskLoopState) (m : Nat)
    (hm : (decide (m ≥ T) || no_tiling) = true) (hp : st.xor_masks ≠ []) :
    maskLoopStep T no_tiling st m = ⟨st.emitted ++ [st.xor_masks] ++ [[m]], []⟩ := by
  unfold maskLoopStep
  rw [if_pos hm, if_pos hp]

theorem maskLoopStep_solo (T : Nat) (no_tiling : Bool) (st : MaskLoopState) (m : Nat)
    (hm : (decide (m ≥ T) || no_tiling) = true) (hp : st.xor_masks = []) :
    maskLoopStep T no_tiling st m = ⟨st.emitted ++ [[m]], []⟩ := by
  unfold maskLoopStep
  rw [if_pos hm, if_neg (not_not.mpr hp)]

theorem maskLoopStep_push (T : Nat) (st : MaskLoopState) (m : Nat) (hm : m < T) :
    maskLoopStep T false st m = ⟨st.emitted, st.xor_masks ++ [m]⟩ := by
  unfold maskLoopStep
  rw [if_neg]
  simp [hm]

theorem maskLoopStep_inv (T : Nat) (st : MaskLoopState) (m : Nat) (h : MaskLoopInv T st) :
    MaskLoopInv T (maskLoopStep T false st m) := by
  obtain ⟨⟨hall, hchain⟩, hlast, hpend⟩ := h
  by_cases hm : m ≥ T
  · have hsolo : IsSoloLaunch T [m] := ⟨m, rfl, hm⟩
    have hm' : (decide (m ≥ T) || false) = true := by simp [hm]
    by_cases hp : st.xor_masks ≠ []
    · have hrun : IsRunLaunch T st.xor_masks := ⟨hp, hpend⟩
      rw [maskLoopStep_solo_flush T false st m hm' hp]
      refine ⟨⟨?_, ?_⟩, ?_, ?_⟩
      · intro l hl
        simp only [List.mem_append, List.mem_singleton] at hl
        rcases hl with (hl | rfl) | rfl
        · exact hall l hl
        · exact Or.inr hrun
        · exact Or.inl hsolo
      · apply chain_append_singleton
        · apply chain_append_singleton _ _ hchain
          intro l hl hboth
          exact not_run_of_solo (hlast l hl) hboth.1
        · intro l hl hboth
          exact not_run_of_solo hsolo hboth.2
      · intro l hl
        rw [getLast?_append_singleton] at hl
        cases hl; exact hsolo
      · intro x hx; cases hx
    · rw [maskLoopStep_solo T false st m hm' (not_not.mp hp)]
      refine ⟨⟨?_, ?_⟩, ?_, ?_⟩
      · intro l hl
        simp only [List.mem_append, List.mem_singleton] at hl
        rcases hl with hl | rfl
        · exact hall l hl
        · exact Or.inl hsolo
      · apply chain_append_singleton _ _ hchain
        intro l hl hboth
        exact not_run_of_solo hsolo hboth.2
      · intro l hl
        rw [getLast?_append_singleton] at hl
        cases hl; exact hsolo
      · intro x hx; cases hx
  · have hlt : m < T := not_le.mp hm
    rw [maskLoopStep_push T st m hlt]
    refine ⟨⟨hall, hchain⟩, hlast, ?_⟩
    intro x hx
    simp only [List.mem_append, List.mem_singleton] at hx
    rcases hx with hx | rfl
    · exact hpend x hx
    · exact hlt

theorem maskLoop_inv (T : Nat) (masks : List Nat) (st : MaskLoopState) (h : MaskLoopInv T st) :
    MaskLoopInv T (masks.foldl (maskLoopStep T false) st) := by
  induction masks generalizing st with
  | nil => exact h
  | cons m rest ih => exact ih _ (maskLoopStep_inv T st m h)

theorem emittedMaskLists_tiling (T num_stages : Nat) :
    IsMaximalRunBatching T (emittedMaskLists T false num_stages) := by
  have hinit : MaskLoopInv T ⟨[], []⟩ := by
    refine ⟨⟨?_, List.chain'_nil⟩, ?_, ?_⟩
    · intro l hl; cases hl
    · intro l hl; simp at hl
    · intro m hm; cases hm
  obtain ⟨⟨hall, hchain⟩, hlast, hpend⟩ :=
    maskLoop_inv T (allXorMasks num_stages) _ hinit
  unfold emittedMaskLists
  simp only []
  split
  · next hp =>
    refine ⟨?_, ?_⟩
    · intro l hl
      simp only [List.mem_append, List.mem_singleton] at hl
      rcases hl with hl | rfl
      · exact hall l hl
      · exact Or.inr ⟨hp, hpend⟩
    · apply chain_append_singleton _ _ hchain
      intro l hl hboth
      exact not_run_of_solo (hlast l hl) hboth.1
  · exact ⟨hall, hchain⟩

theorem maskLoop_push_all (T : Nat) (masks : List Nat) (st : MaskLoopState)
    (h : ∀ m ∈ masks, m < T) :
    masks.foldl (maskLoopStep T false) st = ⟨st.emitted, st.xor_masks ++ masks⟩ := by
  induction masks generalizing st with
  | nil => simp
  | cons m rest ih =>
    rw [List.foldl_cons, maskLoopStep_push T st m (h m (List.mem_cons_self _ _)),
      ih _ (fun x hx => h x (List.mem_cons_of_mem _ hx))]
    simp

/-- The masks `2^(j-1), ..., 2^0` that follow the first mask of a stage. -/
def descendingPowers (j : Nat) : List Nat :=
  (List.range j).reverse.map (fun m => 2 ^ m)

theorem descendingPowers_succ (j : Nat) :
    descendingPowers (j + 1) = 2 ^ j :: descendingPowers j := by
  unfold descendingPowers
  rw [List.range_succ, List.reverse_append]
  rfl

theorem descendingPowers_length (j : Nat) : (descendingPowers j).length = j := by
  simp [descendingPowers]

theorem descendingPowers_lt (j m : Nat) (hm : m ∈ descendingPowers j) : m < 2 ^ j := by
  unfold descendingPowers at hm
  simp only [List.mem_map, List.mem_reverse, List.mem_range] at hm
  obtain ⟨i, hi, rfl⟩ := hm
  exact Nat.pow_lt_pow_right (by norm_num) hi

/-- Running the loop over `2^(j-1), ..., 2^0` from an empty vector only adds
solo launches, and leaves at least two collected masks when `j ≥ 2`. -/
theorem maskLoop_descendingPowers (T : Nat) (hT : 4 ≤ T) :
    ∀ (j : Nat) (emitted : List (List Nat)),
      (∀ l ∈ ((descendingPowers j).foldl (maskLoopStep T false) ⟨emitted, []⟩).emitted,
        l ∈ emitted ∨ IsSoloLaunch T l) ∧
      (2 ≤ j → 2 ≤
        ((descendingPowers j).foldl (maskLoopStep T false) ⟨emitted, []⟩).xor_masks.length)
  | 0, emitted => by
    simp only [descendingPowers, List.range_zero, List.reverse_nil, List.map_nil,
      List.foldl_nil]
    exact ⟨fun l hl => Or.inl hl, fun h => by omega⟩
  | j + 1, emitted => by
    by_cases hge : 2 ^ j ≥ T
    · rw [descendingPowers_succ, List.foldl_cons,
        maskLoopStep_solo T false ⟨emitted, []⟩ (2 ^ j) (by simp [hge]) rfl]
      obtain ⟨h1, h2⟩ := maskLoop_descendingPowers T hT j (emitted ++ [[2 ^ j]])
      refine ⟨?_, ?_⟩
      · intro l hl
        rcases h1 l hl with h | h
        · simp only [List.mem_append, List.mem_singleton] at h
          rcases h with h | rfl
          · exact Or.inl h
          · exact Or.inr ⟨2 ^ j, rfl, hge⟩
        · exact Or.inr h
      · intro _
        apply h2
        by_contra hj
        have hj1 : j ≤ 1 := by omega
        have : 2 ^ j ≤ 2 ^ 1 := Nat.pow_le_pow_right (by norm_num) hj1
        omega
    · have hall : ∀ m ∈ descendingPowers (j + 1), m < T := by
        intro m hm
        rw [descendingPowers_succ] at hm
        rcases List.mem_cons.mp hm with rfl | hm
        · exact not_le.mp hge
        · exact lt_trans (descendingPowers_lt j m hm) (not_le.mp hge)
      rw [maskLoop_push_all T _ _ hall]
      refine ⟨fun l hl => Or.inl hl, fun hj => ?_⟩
      simp [descendingPowers_length]
      omega

/-- Invariant between stages: every emitted run has at least two masks, and
from the second stage on the collected vector has at least two masks. -/
def StageInv (T stage : Nat) (st : MaskLoopState) : Prop :=
  (∀ l ∈ st.emitted, IsRunLaunch T l → 2 ≤ l.length) ∧
    (1 ≤ stage → 1 ≤ st.xor_masks.length) ∧ (2 ≤ stage → 2 ≤ st.xor_masks.length)

theorem stage_masks_eq_descending (stage : Nat) :
    (maskCountdown stage).map (xorMaskAt stage) =
      (2 ^ (stage + 1) - 1) :: descendingPowers stage :=
  stage_masks_eq stage

theorem maskLoop_stage (T : Nat) (hT : 4 ≤ T) (stage : Nat) (st : MaskLoopState)
    (h : StageInv T stage st) :
    StageInv T (stage + 1)
      (((maskCountdown stage).map (xorMaskAt stage)).foldl (maskLoopStep T false) st) := by
  obtain ⟨hruns, hone, htwo⟩ := h
  rw [stage_masks_eq_descending, List.foldl_cons]
  by_cases hF : 2 ^ (stage + 1) - 1 ≥ T
  · have hstage : 2 ≤ stage := by
      by_contra hs
      have hs1 : stage + 1 ≤ 2 := by omega
      have : 2 ^ (stage + 1) ≤ 2 ^ 2 := Nat.pow_le_pow_right (by norm_num) hs1
      omega
    have hp : st.xor_masks ≠ [] := by
      intro hnil
      have := htwo hstage
      rw [hnil] at this
      simp at this
    rw [maskLoopStep_solo_flush T false st _ (by simp [hF]) hp]
    obtain ⟨h1, h2⟩ := maskLoop_descendingPowers T hT stage
      (st.emitted ++ [st.xor_masks] ++ [[2 ^ (stage + 1) - 1]])
    refine ⟨?_, fun _ => ?_, fun _ => h2 hstage⟩
    · intro l hl hrun
      rcases h1 l hl with h | h
      · simp only [List.mem_append, List.mem_singleton] at h
        rcases h with (h | rfl) | rfl
        · exact hruns l h hrun
        · exact htwo hstage
        · exact absurd hrun (not_run_of_solo ⟨_, rfl, hF⟩)
      · exact absurd hrun (not_run_of_solo h)
    · have := h2 hstage
      omega
  · have hlt : 2 ^ (stage + 1) - 1 < T := not_le.mp hF
    rw [maskLoopStep_push T st _ hlt]
    have hall : ∀ m ∈ descendingPowers stage, m < T := by
      intro m hm
      have h1 := descendingPowers_lt stage m hm
      have h2 : 2 ^ (stage + 1) = 2 * 2 ^ stage := by rw [pow_succ]; ring
      omega
    rw [maskLoop_push_all T _ _ hall]
    refine ⟨hruns, fun _ => ?_, fun hs => ?_⟩
    · simp only [List.length_append, List.length_singleton, descendingPowers_length]
      omega
    · simp only [List.length_append, List.length_singleton, descendingPowers_length]
      have := hone
      omega

theorem maskLoop_stages (T : Nat) (hT : 4 ≤ T) (remaining : Nat) :
    ∀ (stage : Nat) (st : MaskLoopState), StageInv T stage st →
      StageInv T (stage + remaining)
        ((xorMasksFrom stage remaining).foldl (maskLoopStep T false) st) := by
  induction remaining with
  | zero => intro stage st h; exact h
  | succ r ih =>
    intro stage st h
    simp only [xorMasksFrom, List.foldl_append]
    have := ih (stage + 1) _ (maskLoop_stage T hT stage st h)
    have heq : stage + 1 + r = stage + (r + 1) := by omega
    rw [heq] at this
    exact this

/-- With a tile size of at least 4 and at least two stages, every run launch
has more than one mask. -/
theorem emittedMaskLists_run_length (T num_stages : Nat) (hT : 4 ≤ T) (hS : 2 ≤ num_stages) :
    ∀ l ∈ emittedMaskLists T false num_stages, IsRunLaunch T l → 2 ≤ l.length := by
  have hinit : StageInv T 0 ⟨[], []⟩ := by
    refine ⟨?_, ?_, ?_⟩
    · intro l hl; cases hl
    · intro h; omega
    · intro h; omega
  obtain ⟨hruns, _, htwo⟩ := maskLoop_stages T hT num_stages 0 _ hinit
  unfold emittedMaskLists allXorMasks
  simp only []
  split
  · intro l hl hrun
    simp only [List.mem_append, List.mem_singleton] at hl
    rcases hl with hl | rfl
    · exact hruns l hl hrun
    · exact htwo (by omega)
  · exact hruns

theorem sortNoTiling_eq_false_iff (T : Nat) (operands : List SortOperand)
    (device : GpuDeviceInfo) :
    sortNoTiling T operands device = false ↔
      128 ≤ T ∧ T / 2 ≤ device.threads_per_block_limit ∧
        (operands.map (fun op => T * op.element_byte_size)).sum ≤
          device.shared_memory_per_block := by
  unfold sortNoTiling
  simp only [Bool.or_eq_false_iff, decide_eq_false_iff_not, not_lt, gt_iff_lt]
  tauto

/-- C5: with `T = min(2048, 2^stages)`, tiling is in effect exactly when
`T ≥ 128`, `T/2` threads fit in a block and `T` elements of all operands fit in
the shared memory of a block. With tiling, the launches are the masks `≥ T`,
each alone with the standard launch dimensions, and the maximal runs of
consecutive masks `< T`, each as one launch with `T/2` threads per block;
without tiling every mask is launched alone. In both cases the launches
concatenated in order are the unbatched schedule. -/
theorem EmitSortFromMlir_batching (num_stages : Nat) (operands : List SortOperand)
    (device : GpuDeviceInfo) (num_blocks : Nat) (standard_launch_dimensions : LaunchDimensions)
    (num_iterations_in_sort_dim standard_num_iterations_in_sort_dim : Nat) :
    let T := min 2048 (2 ^ num_stages)
    let no_tiling := sortNoTiling T operands device
    let launches := emittedMaskLists T no_tiling num_stages
    let kernel := emit_kernel ⟨num_blocks, T / 2⟩ standard_launch_dimensions
      num_iterations_in_sort_dim standard_num_iterations_in_sort_dim T
    (no_tiling = false ↔
      128 ≤ T ∧ T / 2 ≤ device.threads_per_block_limit ∧
        (operands.map (fun op => T * op.element_byte_size)).sum ≤
          device.shared_memory_per_block) ∧
    launches.flatten = bitonicSchedule num_stages ∧
    (no_tiling = true → launches = (bitonicSchedule num_stages).map (fun m => [m])) ∧
    (no_tiling = false → IsMaximalRunBatching T launches ∧
      ∀ l ∈ launches, IsRunLaunch T l →
        kernel l = .SortKernel l ⟨num_blocks, T / 2⟩ num_iterations_in_sort_dim T) ∧
    (∀ m, kernel [m] =
      .SortKernel [m] standard_launch_dimensions standard_num_iterations_in_sort_dim T) := by
  intro T no_tiling launches kernel
  refine ⟨sortNoTiling_eq_false_iff T operands device, ?_, ?_, ?_, ?_⟩
  · rw [← allXorMasks_eq_bitonicSchedule]
    exact emittedMaskLists_flatten T no_tiling num_stages
  · intro h
    show emittedMaskLists T no_tiling num_stages = _
    rw [h, emittedMaskLists_no_tiling, allXorMasks_eq_bitonicSchedule]
  · intro h
    have hT : 128 ≤ T := ((sortNoTiling_eq_false_iff T operands device).mp h).1
    have hpow : 128 ≤ 2 ^ num_stages := le_trans hT (min_le_right _ _)
    have hS : 2 ≤ num_stages := by
      by_contra hs
      have hs1 : num_stages ≤ 1 := by omega
      have : 2 ^ num_stages ≤ 2 ^ 1 := Nat.pow_le_pow_right (by norm_num) hs1
      omega
    have hlaunches : launches = emittedMaskLists T false num_stages := by
      show emittedMaskLists T no_tiling num_stages = _
      rw [h]
    refine ⟨?_, ?_⟩
    · rw [hlaunches]; exact emittedMaskLists_tiling T num_stages
    · intro l hl hrun
      rw [hlaunches] at hl
      have hlen := emittedMaskLists_run_length T num_stages (by omega) hS l hl hrun
      show emit_kernel _ _ _ _ _ l = _
      unfold emit_kernel
      rw [if_pos (by omega), if_pos (by omega)]
  · intro m
    show emit_kernel _ _ _ _ _ [m] = _
    unfold emit_kernel
    simp

theorem shiftLeftOne_natCast (k : Nat) (hk : k < 64) : shiftLeftOne (k : Int) = some (2 ^ k) := by
  unfold shiftLeftOne
  rw [if_pos ⟨Int.natCast_nonneg k, by omega⟩]
  simp

theorem shiftLeftOne_pred (k : Nat) (hk1 : 1 ≤ k) (hk : k < 64) :
    shiftLeftOne ((k : Int) - 1) = some (2 ^ (k - 1)) := by
  have : ((k : Int) - 1) = ((k - 1 : Nat) : Int) := by omega
  rw [this]
  exact shiftLeftOne_natCast (k - 1) (by omega)

theorem clog_bounds (n : Nat) (h2 : 2 ≤ n) (h63 : n ≤ 2 ^ 63) :
    1 ≤ Nat.clog 2 n ∧ Nat.clog 2 n ≤ 63 ∧ n ≤ 2 ^ Nat.clog 2 n ∧
      2 ^ (Nat.clog 2 n - 1) < n := by
  refine ⟨Nat.clog_pos (by norm_num) h2, ?_, Nat.le_pow_clog (by norm_num) n, ?_⟩
  · exact (Nat.le_pow_iff_clog_le (by norm_num)).mp h63
  · exact Nat.pow_pred_clog_lt_self (by norm_num) (by omega)

/-- For a sort dimension of extent `2 ≤ n ≤ 2^63` and operands that pass the
layout checks, `EmitSortFromMlir` succeeds with the copies followed by one sort
kernel for each emitted mask list, with `ceil(log2 n)` stages. -/
theorem EmitSortFromMlir_ok (keys : SortOperand) (rest : List SortOperand)
    (keys_dimensions : List Nat) (dimension_to_sort : Nat) (device : GpuDeviceInfo)
    (standard_launch_dimensions : LaunchDimensions) (copies : List Thunk) (n : Nat)
    (hcopies : emitSortCopies keys.operand_layout (keys :: rest) = .ok copies)
    (hn : keys_dimensions.getD dimension_to_sort 0 = n) (h2 : 2 ≤ n) (h63 : n ≤ 2 ^ 63) :
    EmitSortFromMlir (keys :: rest) keys_dimensions dimension_to_sort device
        standard_launch_dimensions =
      .ok (.Sequential (copies ++
        (emittedMaskLists (min 2048 (2 ^ Nat.clog 2 n))
            (sortNoTiling (min 2048 (2 ^ Nat.clog 2 n)) (keys :: rest) device)
            (Nat.clog 2 n)).map
          (emit_kernel
            ⟨((keys_dimensions.set dimension_to_sort
                  ((n + min 2048 (2 ^ Nat.clog 2 n) - 1) / min 2048 (2 ^ Nat.clog 2 n) *
                    min 2048 (2 ^ Nat.clog 2 n) / 2)).prod +
                min 2048 (2 ^ Nat.clog 2 n) / 2 - 1) / (min 2048 (2 ^ Nat.clog 2 n) / 2),
              min 2048 (2 ^ Nat.clog 2 n) / 2⟩
            standard_launch_dimensions
            ((n + min 2048 (2 ^ Nat.clog 2 n) - 1) / min 2048 (2 ^ Nat.clog 2 n) *
              min 2048 (2 ^ Nat.clog 2 n) / 2)
            (2 ^ (Nat.clog 2 n - 1)) (min 2048 (2 ^ Nat.clog 2 n))))) := by
  obtain ⟨hS1, hS63, hle, hlt⟩ := clog_bounds n h2 h63
  have hlog : Log2Ceiling n = (Nat.clog 2 n : Nat) :=
    Log2Ceiling_eq_clog n (le_trans h63 (Nat.pow_le_pow_right (by norm_num) (by norm_num)))
  have hpow2 : 2 ≤ 2 ^ Nat.clog 2 n := by
    calc 2 = 2 ^ 1 := by norm_num
      _ ≤ 2 ^ Nat.clog 2 n := Nat.pow_le_pow_right (by norm_num) hS1
  have hT2 : 2 ≤ min 2048 (2 ^ Nat.clog 2 n) := le_min (by norm_num) hpow2
  have hT0 : min 2048 (2 ^ Nat.clog 2 n) ≠ 0 := by omega
  have hhalf : min 2048 (2 ^ Nat.clog 2 n) / 2 ≠ 0 := by omega
  unfold EmitSortFromMlir
  simp only [hcopies, hn, hlog, shiftLeftOne_natCast _ (show Nat.clog 2 n < 64 by omega),
    shiftLeftOne_pred _ hS1 (show Nat.clog 2 n < 64 by omega), RoundUpToNearest, CeilOfRatio,
    if_neg hT0, if_neg hhalf, Option.map_some', Int.toNat_ofNat, ge_iff_le, hle, hlt,
    not_true_eq_false, if_false]

theorem emitSortCopies_eq (keys_layout : List Nat) :
    ∀ (operands : List SortOperand) (copies : List Thunk),
      emitSortCopies keys_layout operands = .ok copies →
        copies = operands.filterMap sortCopyFor
  | [], copies, h => by
    simp only [emitSortCopies, Except.ok.injEq] at h
    simp [← h]
  | op :: rest, copies, h => by
    simp only [emitSortCopies] at h
    split at h
    · cases h
    · split at h
      · cases h
      · split at h
        · cases h
        · next thunks hrest =>
          have ih := emitSortCopies_eq keys_layout rest thunks hrest
          by_cases hne : op.destination_buffer ≠ op.source_address
          · rw [if_pos hne] at h
            simp only [Except.ok.injEq] at h
            simp [← h, ih, List.filterMap_cons, sortCopyFor, hne]
          · rw [if_neg hne] at h
            simp only [Except.ok.injEq] at h
            simp [← h, ih, List.filterMap_cons, sortCopyFor, hne]

theorem EmitSortFromMlir_inv (operands : List SortOperand) (keys_dimensions : List Nat)
    (dimension_to_sort : Nat) (device : GpuDeviceInfo)
    (standard_launch_dimensions : LaunchDimensions) (thunk : Thunk)
    (h : EmitSortFromMlir operands keys_dimensions dimension_to_sort device
      standard_launch_dimensions = .ok thunk) :
    ∃ kernels, thunk = .Sequential (operands.filterMap sortCopyFor ++ kernels) ∧
      ∀ k ∈ kernels, k.isSortKernel = true := by
  unfold EmitSortFromMlir at h
  split at h
  · cases h
  · next keys rest =>
    split at h
    · cases h
    · next copies hcopies =>
      have hc := emitSortCopies_eq _ _ _ hcopies
      simp only [] at h
      split at h
      · split at h
        · cases h
        · split at h
          · cases h
          · split at h
            · cases h
            · split at h
              · cases h
              · simp only [Except.ok.injEq] at h
                refine ⟨_, by rw [← h, hc], ?_⟩
                intro k hk
                simp only [List.mem_map] at hk
                obtain ⟨l, _, rfl⟩ := hk
                rfl
      · cases h

theorem flatMap_xorMasks_copies (operands : List SortOperand) :
    (operands.filterMap sortCopyFor).flatMap Thunk.xorMasks = [] := by
  induction operands with
  | nil => rfl
  | cons op rest ih =>
    rw [List.filterMap_cons]
    unfold sortCopyFor
    split
    · next h =>
      split at h
      · cases h
      · exact ih
    · next t h =>
      split at h
      · cases h
        simp only [List.flatMap_cons, Thunk.xorMasks, List.nil_append]
        exact ih
      · cases h

theorem flatMap_xorMasks_kernels (tiled standard : LaunchDimensions) (a b T : Nat)
    (launches : List (List Nat)) :
    (launches.map (emit_kernel tiled standard a b T)).flatMap Thunk.xorMasks =
      launches.flatten := by
  induction launches with
  | nil => rfl
  | cons l rest ih =>
    simp only [List.map_cons, List.flatMap_cons, List.flatten_cons, ih]
    rfl

/-- For every extent `2 ≤ n ≤ 2^63` the emitter succeeds with
`stages = ceil(log2 n)`, both CHECKs hold, and the masks of the thunks in launch
order are the bitonic schedule. -/
theorem EmitSortFromMlir_schedule (keys : SortOperand) (rest : List SortOperand)
    (keys_dimensions : List Nat) (dimension_to_sort : Nat) (device : GpuDeviceInfo)
    (standard_launch_dimensions : LaunchDimensions) (copies : List Thunk) (n : Nat)
    (hcopies : emitSortCopies keys.operand_layout (keys :: rest) = .ok copies)
    (hn : keys_dimensions.getD dimension_to_sort 0 = n) (h2 : 2 ≤ n) (h63 : n ≤ 2 ^ 63) :
    Log2Ceiling n = (Nat.clog 2 n : Nat) ∧ n ≤ 2 ^ Nat.clog 2 n ∧
      2 ^ (Nat.clog 2 n - 1) < n ∧
      ∃ thunks, EmitSortFromMlir (keys :: rest) keys_dimensions dimension_to_sort device
          standard_launch_dimensions = .ok (.Sequential thunks) ∧
        thunks.flatMap Thunk.xorMasks = bitonicSchedule (Nat.clog 2 n) := by
  obtain ⟨_, _, hle, hlt⟩ := clog_bounds n h2 h63
  refine ⟨Log2Ceiling_eq_clog n
    (le_trans h63 (Nat.pow_le_pow_right (by norm_num) (by norm_num))), hle, hlt, ?_⟩
  refine ⟨_, EmitSortFromMlir_ok keys rest keys_dimensions dimension_to_sort device
    standard_launch_dimensions copies n hcopies hn h2 h63, ?_⟩
  rw [List.flatMap_append, emitSortCopies_eq _ _ _ hcopies, flatMap_xorMasks_copies,
    flatMap_xorMasks_kernels, emittedMaskLists_flatten, allXorMasks_eq_bitonicSchedule]
  rfl

/-! ### The schedule sorts -/

/-- Xor acts separately on the part above and the part below bit `w`. -/
theorem xor_block (w c d t u : Nat) (ht : t < 2 ^ w) (hu : u < 2 ^ w) :
    (2 ^ w * c + t) ^^^ (2 ^ w * d + u) = 2 ^ w * (c ^^^ d) + (t ^^^ u) := by
  apply Nat.eq_of_testBit_eq
  intro i
  rw [Nat.testBit_xor, Nat.testBit_mul_pow_two_add c ht, Nat.testBit_mul_pow_two_add d hu,
    Nat.testBit_mul_pow_two_add (c ^^^ d) (Nat.xor_lt_two_pow ht hu)]
  split <;> simp [Nat.testBit_xor]

theorem xor_in_block (w c t m : Nat) (ht : t < 2 ^ w) (hm : m < 2 ^ w) :
    (2 ^ w * c + t) ^^^ m = 2 ^ w * c + (t ^^^ m) ∧ t ^^^ m < 2 ^ w := by
  have := xor_block w c 0 t m ht hm
  simp only [Nat.mul_zero, Nat.zero_add, Nat.xor_zero] at this
  exact ⟨this, Nat.xor_lt_two_pow ht hm⟩

theorem xor_low_bit (r c i : Nat) (hi : i < 2 ^ r) :
    (2 ^ r * (2 * c) + i) ^^^ 2 ^ r = 2 ^ r * (2 * c + 1) + i ∧
      (2 ^ r * (2 * c + 1) + i) ^^^ 2 ^ r = 2 ^ r * (2 * c) + i := by
  have h1 : (2 * c) ^^^ 1 = 2 * c + 1 := by
    have := xor_block 1 c 0 0 1 (by norm_num) (by norm_num)
    simpa using this
  have h2 : (2 * c + 1) ^^^ 1 = 2 * c := by
    have := xor_block 1 c 0 1 1 (by norm_num) (by norm_num)
    simpa using this
  have hp : 0 < 2 ^ r := Nat.two_pow_pos _
  constructor
  · have := xor_block r (2 * c) 1 i 0 hi hp
    simpa [h1] using this
  · have := xor_block r (2 * c + 1) 1 i 0 hi hp
    simpa [h2] using this

theorem xor_all_ones (w t : Nat) (ht : t < 2 ^ w) : t ^^^ (2 ^ w - 1) = 2 ^ w - 1 - t := by
  apply Nat.eq_of_testBit_eq
  intro i
  have h : 2 ^ w - 1 - t = 2 ^ w - (t + 1) := by omega
  rw [h, Nat.testBit_xor, Nat.testBit_two_pow_sub_one, Nat.testBit_two_pow_sub_succ ht]
  by_cases hi : i < w
  · simp [hi]
  · have : t.testBit i = false :=
      Nat.testBit_lt_two_pow (lt_of_lt_of_le ht (Nat.pow_le_pow_right (by norm_num) (by omega)))
    simp [hi, this]

theorem xor_flip (w c t : Nat) (ht : t < 2 ^ w) :
    (2 ^ w * c + t) ^^^ (2 ^ w - 1) = 2 ^ w * c + (2 ^ w - 1 - t) := by
  have hp : 0 < 2 ^ w := Nat.two_pow_pos _
  rw [(xor_in_block w c t (2 ^ w - 1) ht (by omega)).1, xor_all_ones w t ht]

/-- One half-cleaner on a block that is a mountain or a valley leaves both halves
mountains or valleys, with the lower half all `false` or the upper half all
`true`. -/
theorem half_clean_core (a b : Nat → Bool) (o h : Nat)
    (hlow : ∀ i, i < h → b (o + i) = (a (o + i) && a (o + h + i)))
    (hhigh : ∀ i, i < h → b (o + h + i) = (a (o + h + i) || a (o + i)))
    (hb : Mountain a o (h + h) ∨ Valley a o (h + h)) :
    (Mountain b o h ∨ Valley b o h) ∧ (Mountain b (o + h) h ∨ Valley b (o + h) h) ∧
      (AllFalseOn b o h ∨ AllTrueOn b (o + h) h) := by
  rcases hb with ⟨x, y, hm⟩ | ⟨x, y, hv⟩
  · have e1 : ∀ i, i < h → a (o + i) = decide (x ≤ i ∧ i < y) := fun i hi => hm i (by omega)
    have e2 : ∀ i, i < h → a (o + h + i) = decide (x ≤ h + i ∧ h + i < y) := fun i hi => by
      rw [Nat.add_assoc]; exact hm (h + i) (by omega)
    refine ⟨Or.inl ⟨x, y - h, fun i hi => ?_⟩, ?_, ?_⟩
    · rw [hlow i hi, e1 i hi, e2 i hi, Bool.eq_iff_iff]
      simp only [Bool.and_eq_true, decide_eq_true_eq]
      omega
    · by_cases hA : y ≤ h ∨ y ≤ x
      · refine Or.inl ⟨x, y, fun i hi => ?_⟩
        rw [hhigh i hi, e1 i hi, e2 i hi, Bool.eq_iff_iff]
        simp only [Bool.or_eq_true, decide_eq_true_eq]
        omega
      · by_cases hB : h ≤ x
        · refine Or.inl ⟨x - h, y - h, fun i hi => ?_⟩
          rw [hhigh i hi, e1 i hi, e2 i hi, Bool.eq_iff_iff]
          simp only [Bool.or_eq_true, decide_eq_true_eq]
          omega
        · refine Or.inr ⟨y - h, x, fun i hi => ?_⟩
          rw [hhigh i hi, e1 i hi, e2 i hi, Bool.eq_iff_iff]
          simp only [Bool.or_eq_true, Bool.not_eq_true', decide_eq_true_eq, decide_eq_false_iff_not]
          omega
    · by_cases hC : ∃ j, j < h ∧ x ≤ j ∧ h + j < y
      · obtain ⟨j, hj, hj1, hj2⟩ := hC
        refine Or.inr fun i hi => ?_
        rw [hhigh i hi, e1 i hi, e2 i hi]
        simp only [Bool.or_eq_true, decide_eq_true_eq]
        omega
      · refine Or.inl fun i hi => ?_
        rw [hlow i hi, e1 i hi, e2 i hi]
        simp only [Bool.and_eq_false_imp, decide_eq_true_eq, decide_eq_false_iff_not]
        intro h1 h2
        exact hC ⟨i, hi, h1.1, h2.2⟩
  · have e1 : ∀ i, i < h → a (o + i) = !decide (x ≤ i ∧ i < y) := fun i hi => hv i (by omega)
    have e2 : ∀ i, i < h → a (o + h + i) = !decide (x ≤ h + i ∧ h + i < y) := fun i hi => by
      rw [Nat.add_assoc]; exact hv (h + i) (by omega)
    refine ⟨?_, Or.inr ⟨x, y - h, fun i hi => ?_⟩, ?_⟩
    · by_cases hA : y ≤ h ∨ y ≤ x
      · refine Or.inr ⟨x, y, fun i hi => ?_⟩
        rw [hlow i hi, e1 i hi, e2 i hi, Bool.eq_iff_iff]
        simp only [Bool.and_eq_true, Bool.not_eq_true', decide_eq_false_iff_not]
        omega
      · by_cases hB : h ≤ x
        · refine Or.inr ⟨x - h, y - h, fun i hi => ?_⟩
          rw [hlow i hi, e1 i hi, e2 i hi, Bool.eq_iff_iff]
          simp only [Bool.and_eq_true, Bool.not_eq_true', decide_eq_false_iff_not]
          omega
        · refine Or.inl ⟨y - h, x, fun i hi => ?_⟩
          rw [hlow i hi, e1 i hi, e2 i hi, Bool.eq_iff_iff]
          simp only [Bool.and_eq_true, Bool.not_eq_true', decide_eq_true_eq,
            decide_eq_false_iff_not]
          omega
    · rw [hhigh i hi, e1 i hi, e2 i hi, Bool.eq_iff_iff]
      simp only [Bool.or_eq_true, Bool.not_eq_true', decide_eq_false_iff_not]
      omega
    · by_cases hC : ∃ j, j < h ∧ x ≤ j ∧ h + j < y
      · obtain ⟨j, hj, hj1, hj2⟩ := hC
        refine Or.inl fun i hi => ?_
        rw [hlow i hi, e1 i hi, e2 i hi]
        simp only [Bool.and_eq_false_imp, Bool.not_eq_true', decide_eq_false_iff_not,
          Bool.not_eq_false', decide_eq_true_eq]
        omega
      · refine Or.inr fun i hi => ?_
        rw [hhigh i hi, e1 i hi, e2 i hi]
        simp only [Bool.or_eq_true, Bool.not_eq_true', decide_eq_false_iff_not]
        by_contra hcon
        exact hC ⟨i, hi, by omega, by omega⟩

theorem sorted_threshold (a : Nat → Bool) (o : Nat) :
    ∀ len, SortedOn a o len → ∃ t, ∀ i, i < len → a (o + i) = decide (t ≤ i) := by
  intro len
  induction len with
  | zero => intro _; exact ⟨0, fun i hi => absurd hi (Nat.not_lt_zero i)⟩
  | succ len ih =>
    intro hs
    obtain ⟨t, ht⟩ := ih (fun i j hij hj => hs i j hij (by omega))
    by_cases hlast : a (o + len) = true
    · by_cases htl : t ≤ len
      · refine ⟨t, fun i hi => ?_⟩
        by_cases hil : i < len
        · exact ht i hil
        · have : i = len := by omega
          subst this
          simp [hlast, htl]
      · refine ⟨len, fun i hi => ?_⟩
        by_cases hil : i < len
        · rw [ht i hil]
          simp only [decide_eq_decide]
          omega
        · have : i = len := by omega
          subst this
          simp [hlast]
    · refine ⟨len + 1, fun i hi => ?_⟩
      have hfalse : a (o + i) = false := by
        by_contra hne
        have htrue : a (o + i) = true := by simpa using hne
        exact hlast (hs i len (by omega) (by omega) htrue)
      rw [hfalse]
      simp only [Bool.false_eq, decide_eq_false_iff_not]
      omega

/-- The first mask of a stage on two sorted neighbouring blocks leaves a mountain
below and a valley above, with the lower half all `false` or the upper half all
`true`. -/
theorem flip_core (a b : Nat → Bool) (o h : Nat)
    (hlow : ∀ i, i < h → b (o + i) = (a (o + i) && a (o + h + (h - 1 - i))))
    (hhigh : ∀ i, i < h → b (o + h + i) = (a (o + h + i) || a (o + (h - 1 - i))))
    (sL : SortedOn a o h) (sH : SortedOn a (o + h) h) :
    (Mountain b o h ∨ Valley b o h) ∧ (Mountain b (o + h) h ∨ Valley b (o + h) h) ∧
      (AllFalseOn b o h ∨ AllTrueOn b (o + h) h) := by
  obtain ⟨x, hx⟩ := sorted_threshold a o h sL
  obtain ⟨y, hy⟩ := sorted_threshold a (o + h) h sH
  refine ⟨Or.inl ⟨x, h - y, fun i hi => ?_⟩, Or.inr ⟨h - x, y, fun i hi => ?_⟩, ?_⟩
  · rw [hlow i hi, hx i hi, hy (h - 1 - i) (by omega), Bool.eq_iff_iff]
    simp only [Bool.and_eq_true, decide_eq_true_eq]
    omega
  · rw [hhigh i hi, hy i hi, hx (h - 1 - i) (by omega), Bool.eq_iff_iff]
    simp only [Bool.or_eq_true, Bool.not_eq_true', decide_eq_true_eq, decide_eq_false_iff_not]
    omega
  · by_cases hC : x + y < h
    · refine Or.inr fun i hi => ?_
      rw [hhigh i hi, hy i hi, hx (h - 1 - i) (by omega)]
      simp only [Bool.or_eq_true, decide_eq_true_eq]
      omega
    · refine Or.inl fun i hi => ?_
      rw [hlow i hi, hx i hi, hy (h - 1 - i) (by omega)]
      simp only [Bool.and_eq_false_imp, decide_eq_true_eq, decide_eq_false_iff_not]
      omega

theorem sorted_combine (a : Nat → Bool) (o h : Nat) (sL : SortedOn a o h)
    (sH : SortedOn a (o + h) h) (hc : AllFalseOn a o h ∨ AllTrueOn a (o + h) h) :
    SortedOn a o (h + h) := by
  intro i j hij hj hi
  by_cases hjl : j < h
  · exact sL i j hij hjl hi
  · have hje : o + j = o + h + (j - h) := by omega
    by_cases hil : i < h
    · rcases hc with hf | ht
      · rw [hf i hil] at hi
        cases hi
      · rw [hje]
        exact ht (j - h) (by omega)
    · have hie : o + i = o + h + (i - h) := by omega
      rw [hje]
      rw [hie] at hi
      exact sH (i - h) (j - h) (by omega) (by omega) hi


theorem exchangeBits_half (r c : Nat) (a : Nat → Bool) (i : Nat) (hi : i < 2 ^ r) :
    exchangeBits (2 ^ r) a (2 ^ r * (2 * c) + i) =
        (a (2 ^ r * (2 * c) + i) && a (2 ^ r * (2 * c) + 2 ^ r + i)) ∧
      exchangeBits (2 ^ r) a (2 ^ r * (2 * c) + 2 ^ r + i) =
        (a (2 ^ r * (2 * c) + 2 ^ r + i) || a (2 ^ r * (2 * c) + i)) := by
  obtain ⟨h1, h2⟩ := xor_low_bit r c i hi
  have e : 2 ^ r * (2 * c) + 2 ^ r + i = 2 ^ r * (2 * c + 1) + i := by ring
  unfold exchangeBits
  rw [e, h1, h2]
  constructor
  · rw [if_pos (by nlinarith [Nat.two_pow_pos r])]
  · rw [if_neg (by nlinarith [Nat.two_pow_pos r])]

theorem exchangeBits_flip (s c : Nat) (a : Nat → Bool) (i : Nat) (hi : i < 2 ^ s) :
    exchangeBits (2 ^ (s + 1) - 1) a (2 ^ (s + 1) * c + i) =
        (a (2 ^ (s + 1) * c + i) && a (2 ^ (s + 1) * c + 2 ^ s + (2 ^ s - 1 - i))) ∧
      exchangeBits (2 ^ (s + 1) - 1) a (2 ^ (s + 1) * c + 2 ^ s + i) =
        (a (2 ^ (s + 1) * c + 2 ^ s + i) || a (2 ^ (s + 1) * c + (2 ^ s - 1 - i))) := by
  have hp : 2 ^ (s + 1) = 2 ^ s + 2 ^ s := by rw [pow_succ]; omega
  have h1 := xor_flip (s + 1) c i (by omega)
  have h2 := xor_flip (s + 1) c (2 ^ s + i) (by omega)
  have e1 : 2 ^ (s + 1) - 1 - i = 2 ^ s + (2 ^ s - 1 - i) := by omega
  have e2 : 2 ^ (s + 1) - 1 - (2 ^ s + i) = 2 ^ s - 1 - i := by omega
  unfold exchangeBits
  constructor
  · rw [h1, e1, if_pos (by omega), Nat.add_assoc]
  · rw [Nat.add_assoc, h2, e2, if_neg (by omega)]

theorem exchangeBits_allTrue (w c m : Nat) (a : Nat → Bool) (hm : m < 2 ^ w)
    (h : AllTrueOn a (2 ^ w * c) (2 ^ w)) : AllTrueOn (exchangeBits m a) (2 ^ w * c) (2 ^ w) := by
  intro i hi
  obtain ⟨e, hlt⟩ := xor_in_block w c i m hi hm
  unfold exchangeBits
  rw [e, h i hi, h _ hlt]
  simp

theorem exchangeBits_allFalse (w c m : Nat) (a : Nat → Bool) (hm : m < 2 ^ w)
    (h : AllFalseOn a (2 ^ w * c) (2 ^ w)) :
    AllFalseOn (exchangeBits m a) (2 ^ w * c) (2 ^ w) := by
  intro i hi
  obtain ⟨e, hlt⟩ := xor_in_block w c i m hi hm
  unfold exchangeBits
  rw [e, h i hi, h _ hlt]
  simp

theorem runBits_allTrue (w c : Nat) :
    ∀ (masks : List Nat) (a : Nat → Bool), (∀ m ∈ masks, m < 2 ^ w) →
      AllTrueOn a (2 ^ w * c) (2 ^ w) → AllTrueOn (runBits masks a) (2 ^ w * c) (2 ^ w) := by
  intro masks
  induction masks with
  | nil => intro a _ h; exact h
  | cons m rest ih =>
    intro a hm h
    exact ih _ (fun m1 h1 => hm m1 (List.mem_cons_of_mem _ h1))
      (exchangeBits_allTrue w c m a (hm m (List.mem_cons_self _ _)) h)

theorem runBits_allFalse (w c : Nat) :
    ∀ (masks : List Nat) (a : Nat → Bool), (∀ m ∈ masks, m < 2 ^ w) →
      AllFalseOn a (2 ^ w * c) (2 ^ w) → AllFalseOn (runBits masks a) (2 ^ w * c) (2 ^ w) := by
  intro masks
  induction masks with
  | nil => intro a _ h; exact h
  | cons m rest ih =>
    intro a hm h
    exact ih _ (fun m1 h1 => hm m1 (List.mem_cons_of_mem _ h1))
      (exchangeBits_allFalse w c m a (hm m (List.mem_cons_self _ _)) h)

theorem runBits_append (xs ys : List Nat) (a : Nat → Bool) :
    runBits (xs ++ ys) a = runBits ys (runBits xs a) := by
  simp [runBits, List.foldl_append]

theorem runBits_cons (m : Nat) (ms : List Nat) (a : Nat → Bool) :
    runBits (m :: ms) a = runBits ms (exchangeBits m a) := rfl

theorem halves_sorted (r c : Nat) (masks : List Nat) (b : Nat → Bool)
    (hmasks : ∀ m ∈ masks, m < 2 ^ r)
    (hlow : SortedOn (runBits masks b) (2 ^ r * (2 * c)) (2 ^ r))
    (hhigh : SortedOn (runBits masks b) (2 ^ r * (2 * c + 1)) (2 ^ r))
    (hc : AllFalseOn b (2 ^ r * (2 * c)) (2 ^ r) ∨ AllTrueOn b (2 ^ r * (2 * c + 1)) (2 ^ r)) :
    SortedOn (runBits masks b) (2 ^ (r + 1) * c) (2 ^ (r + 1)) := by
  have e0 : 2 ^ (r + 1) * c = 2 ^ r * (2 * c) := by ring
  have e1 : 2 ^ r * (2 * c + 1) = 2 ^ r * (2 * c) + 2 ^ r := by ring
  have e2 : 2 ^ (r + 1) = 2 ^ r + 2 ^ r := by ring
  rw [e0, e2]
  apply sorted_combine
  · exact hlow
  · rw [← e1]; exact hhigh
  · rcases hc with hf | ht
    · exact Or.inl (runBits_allFalse r (2 * c) masks b hmasks hf)
    · rw [← e1]
      exact Or.inr (runBits_allTrue r (2 * c + 1) masks b hmasks ht)

/-- The masks `2^(r-1), ..., 2^0` sort every aligned block of size `2^r` that is a
mountain or a valley. -/
theorem merge_sorted : ∀ (r : Nat) (a : Nat → Bool) (c : Nat),
    (Mountain a (2 ^ r * c) (2 ^ r) ∨ Valley a (2 ^ r * c) (2 ^ r)) →
      SortedOn (runBits (descendingPowers r) a) (2 ^ r * c) (2 ^ r) := by
  intro r
  induction r with
  | zero =>
    intro a c _ i j hij hj hi
    have hj0 : j = 0 := by simpa using hj
    have hi0 : i = 0 := by omega
    rw [hj0]
    rw [hi0] at hi
    exact hi
  | succ r ih =>
    intro a c hb
    have e0 : 2 ^ (r + 1) * c = 2 ^ r * (2 * c) := by ring
    have e1 : 2 ^ r * (2 * c + 1) = 2 ^ r * (2 * c) + 2 ^ r := by ring
    have e2 : 2 ^ (r + 1) = 2 ^ r + 2 ^ r := by ring
    rw [e0, e2] at hb
    obtain ⟨hl, hh, hc⟩ := half_clean_core a (exchangeBits (2 ^ r) a) (2 ^ r * (2 * c)) (2 ^ r)
      (fun i hi => (exchangeBits_half r c a i hi).1)
      (fun i hi => (exchangeBits_half r c a i hi).2) hb
    rw [← e1] at hh hc
    rw [descendingPowers_succ, runBits_cons]
    exact halves_sorted r c (descendingPowers r) _ (fun m hm => descendingPowers_lt r m hm) (ih _ (2 * c) hl)
      (ih _ (2 * c + 1) hh) hc

/-- One stage turns sorted aligned blocks of size `2^s` into sorted aligned
blocks of size `2^(s+1)`. -/
theorem stage_sorted (s : Nat) (a : Nat → Bool)
    (h : ∀ c, SortedOn a (2 ^ s * c) (2 ^ s)) (c : Nat) :
    SortedOn (runBits ((2 ^ (s + 1) - 1) :: descendingPowers s) a) (2 ^ (s + 1) * c) (2 ^ (s + 1)) := by
  have e0 : 2 ^ (s + 1) * c = 2 ^ s * (2 * c) := by ring
  have e1 : 2 ^ s * (2 * c + 1) = 2 ^ s * (2 * c) + 2 ^ s := by ring
  have hL := h (2 * c)
  have hH := h (2 * c + 1)
  rw [e1] at hH
  obtain ⟨hl, hh, hc⟩ := flip_core a (exchangeBits (2 ^ (s + 1) - 1) a) (2 ^ s * (2 * c)) (2 ^ s)
    (fun i hi => by rw [← e0]; exact (exchangeBits_flip s c a i hi).1)
    (fun i hi => by rw [← e0]; exact (exchangeBits_flip s c a i hi).2) hL hH
  rw [← e1] at hh hc
  rw [runBits_cons]
  exact halves_sorted s c (descendingPowers s) _ (fun m hm => descendingPowers_lt s m hm) (merge_sorted s _ (2 * c) hl)
    (merge_sorted s _ (2 * c + 1) hh) hc

theorem bitonicSchedule_succ (k : Nat) :
    bitonicSchedule (k + 1) = bitonicSchedule k ++ ((2 ^ (k + 1) - 1) :: descendingPowers k) := by
  simp [bitonicSchedule, descendingPowers, List.range_succ, List.flatMap_append]

/-- After the schedule for `k` stages every aligned block of `2^k` truth values is
sorted. -/
theorem runBits_bitonicSchedule_sorted : ∀ (k : Nat) (a : Nat → Bool) (c : Nat),
    SortedOn (runBits (bitonicSchedule k) a) (2 ^ k * c) (2 ^ k) := by
  intro k
  induction k with
  | zero =>
    intro a c i j hij hj hi
    have hj0 : j = 0 := by simpa using hj
    have hi0 : i = 0 := by omega
    rw [hj0]
    rw [hi0] at hi
    exact hi
  | succ k ih =>
    intro a c
    rw [bitonicSchedule_succ, runBits_append]
    exact stage_sorted k _ (ih a) c

theorem StrictWeakOrder.asymm {α : Type} {lt : α → α → Bool} (h : StrictWeakOrder lt)
    (x y : α) (hxy : lt x y = true) : lt y x = false := by
  by_contra hne
  have hyx : lt y x = true := by simpa using hne
  have := h.trans x y x hxy hyx
  rw [h.irrefl x] at this
  cases this

theorem StrictWeakOrder.neg_trans {α : Type} {lt : α → α → Bool} (h : StrictWeakOrder lt)
    (x y z : α) (hxy : lt x y = false) (hyz : lt y z = false) : lt x z = false := by
  by_contra hne
  have hxz : lt x z = true := by simpa using hne
  cases hyx : lt y x with
  | true =>
    have := h.trans y x z hyx hxz
    rw [hyz] at this
    cases this
  | false =>
    cases hzy : lt z y with
    | true =>
      have := h.trans x z y hxz hzy
      rw [hxy] at this
      cases this
    | false =>
      have := (h.incomp_trans x y z hxy hyx hyz hzy).1
      rw [hxz] at this
      cases this

theorem compareExchange_length {α : Type} (lt : α → α → Bool) (m : Nat) (l : List α) :
    (compareExchange lt m l).length = l.length := by
  simp [compareExchange]

theorem executeMasks_length {α : Type} (lt : α → α → Bool) :
    ∀ (masks : List Nat) (l : List α), (executeMasks lt masks l).length = l.length := by
  intro masks
  induction masks with
  | nil => intro l; rfl
  | cons m rest ih =>
    intro l
    show (executeMasks lt rest (compareExchange lt m l)).length = l.length
    rw [ih, compareExchange_length]

theorem exchanged_map {α : Type} (lt : α → α → Bool)
    (hasymm : ∀ x y, lt x y = true → lt y x = false) (f : α → Bool)
    (hf : ∀ x y, lt y x = false → f x = true → f y = true) (p q : Nat) (x y : α) :
    f (exchanged lt p q x y) = exchanged boolLt p q (f x) (f y) := by
  have key : ∀ u v : α, f (if lt v u then v else u) =
      (if boolLt (f v) (f u) then f v else f u) := by
    intro u v
    cases hvu : lt v u with
    | true =>
      have huv := hasymm v u hvu
      have hm := hf v u huv
      cases hfu : f u <;> cases hfv : f v <;> simp_all [boolLt]
    | false =>
      have hm := hf u v hvu
      cases hfu : f u <;> cases hfv : f v <;> simp_all [boolLt]
  have key2 : ∀ u v : α, f (if lt u v then v else u) =
      (if boolLt (f u) (f v) then f v else f u) := by
    intro u v
    cases huv : lt u v with
    | true =>
      have hvu := hasymm u v huv
      have hm := hf u v hvu
      cases hfu : f u <;> cases hfv : f v <;> simp_all [boolLt]
    | false =>
      have hm := hf v u huv
      cases hfu : f u <;> cases hfv : f v <;> simp_all [boolLt]
  unfold exchanged
  split
  · exact key x y
  · exact key2 x y

/-- A monotone map to truth values commutes with the execution of a mask. -/
theorem compareExchange_map {α : Type} (lt : α → α → Bool)
    (hasymm : ∀ x y, lt x y = true → lt y x = false) (f : α → Bool)
    (hf : ∀ x y, lt y x = false → f x = true → f y = true) (m : Nat) (l : List α) :
    (compareExchange lt m l).map f = compareExchange boolLt m (l.map f) := by
  unfold compareExchange
  rw [List.map_map, List.enum_map, List.map_map]
  apply List.map_congr_left
  rintro ⟨p, x⟩ _
  simp only [Function.comp, Prod.map, id, List.getElem?_map]
  cases l[p ^^^ m]? with
  | none => rfl
  | some y => exact exchanged_map lt hasymm f hf p (p ^^^ m) x y

theorem executeMasks_map {α : Type} (lt : α → α → Bool)
    (hasymm : ∀ x y, lt x y = true → lt y x = false) (f : α → Bool)
    (hf : ∀ x y, lt y x = false → f x = true → f y = true) :
    ∀ (masks : List Nat) (l : List α),
      (executeMasks lt masks l).map f = executeMasks boolLt masks (l.map f) := by
  intro masks
  induction masks with
  | nil => intro l; rfl
  | cons m rest ih =>
    intro l
    show (executeMasks lt rest (compareExchange lt m l)).map f =
      executeMasks boolLt rest (compareExchange boolLt m (l.map f))
    rw [ih, compareExchange_map lt hasymm f hf]

theorem bitsOf_compareExchange (m : Nat) (l : List Bool) :
    bitsOf (compareExchange boolLt m l) = exchangeBits m (bitsOf l) := by
  funext p
  unfold bitsOf exchangeBits compareExchange
  simp only [List.getD_eq_getElem?_getD, List.getElem?_map, List.getElem?_enum,
    Option.map_map]
  cases hp : l[p]? with
  | none =>
    have hlen : l.length ≤ p := by
      by_contra hlt
      rw [List.getElem?_eq_getElem (by omega)] at hp
      cases hp
    by_cases hpq : p < p ^^^ m
    · have hq : l[p ^^^ m]? = none := List.getElem?_eq_none (by omega)
      simp [hpq, hq]
    · simp [hpq]
  | some x =>
    have hlen : p < l.length := by
      by_contra hge
      rw [List.getElem?_eq_none (by omega)] at hp
      cases hp
    cases hq : l[p ^^^ m]? with
    | none =>
      have hqlen : l.length ≤ p ^^^ m := by
        by_contra hlt
        rw [List.getElem?_eq_getElem (by omega)] at hq
        cases hq
      have hpq : p < p ^^^ m := by omega
      simp [hpq, hq]
    | some y =>
      by_cases hpq : p < p ^^^ m
      · cases x <;> cases y <;> simp [hpq, hq, exchanged, boolLt]
      · cases x <;> cases y <;> simp [hpq, hq, exchanged, boolLt]

theorem bitsOf_executeMasks : ∀ (masks : List Nat) (l : List Bool),
    bitsOf (executeMasks boolLt masks l) = runBits masks (bitsOf l) := by
  intro masks
  induction masks with
  | nil => intro l; rfl
  | cons m rest ih =>
    intro l
    show bitsOf (executeMasks boolLt rest (compareExchange boolLt m l)) =
      runBits rest (exchangeBits m (bitsOf l))
    rw [ih, bitsOf_compareExchange]

/-- The schedule for `k` stages sorts every sequence of at most `2^k` elements
under every strict weak order. -/
theorem executeMasks_bitonicSchedule_sorted {α : Type} (lt : α → α → Bool)
    (h : StrictWeakOrder lt) (k : Nat) (l : List α) (hn : l.length ≤ 2 ^ k) :
    (executeMasks lt (bitonicSchedule k) l).Pairwise (fun x y => lt y x = false) := by
  rw [List.pairwise_iff_getElem]
  intro i j hi hj hij
  by_contra hne
  have hlt : lt (executeMasks lt (bitonicSchedule k) l)[j]
      (executeMasks lt (bitonicSchedule k) l)[i] = true := by simpa using hne
  have hlen := executeMasks_length lt (bitonicSchedule k) l
  have hmap := executeMasks_map lt h.asymm
    (fun x => !lt x (executeMasks lt (bitonicSchedule k) l)[i])
    (fun x y hyx hx => by
      simp only [Bool.not_eq_true', Bool.not_eq_true] at hx ⊢
      exact h.neg_trans y x _ hyx hx)
    (bitonicSchedule k) l
  have hsorted := runBits_bitonicSchedule_sorted k
    (bitsOf (l.map (fun x => !lt x (executeMasks lt (bitonicSchedule k) l)[i]))) 0
  rw [← bitsOf_executeMasks, ← hmap] at hsorted
  have hi_true : bitsOf ((executeMasks lt (bitonicSchedule k) l).map
      (fun x => !lt x (executeMasks lt (bitonicSchedule k) l)[i])) (2 ^ k * 0 + i) = true := by
    simp [bitsOf, List.getElem?_eq_getElem hi, h.irrefl]
  have hj_false : bitsOf ((executeMasks lt (bitonicSchedule k) l).map
      (fun x => !lt x (executeMasks lt (bitonicSchedule k) l)[i])) (2 ^ k * 0 + j) = false := by
    simp [bitsOf, List.getElem?_eq_getElem hj, hlt]
  have := hsorted i j (le_of_lt hij) (by omega) hi_true
  rw [hj_false] at this
  cases this

theorem xor_xor_self (p m : Nat) : (p ^^^ m) ^^^ m = p := by
  rw [Nat.xor_assoc, Nat.xor_self, Nat.xor_zero]

theorem exchangeSource_involutive {α : Type} (lt : α → α → Bool) (m : Nat) (l : List α) :
    Function.Involutive (exchangeSource lt m l) := by
  intro i
  by_cases h : i.1 ^^^ m < l.length
  · by_cases hc : (if i.1 < i.1 ^^^ m then lt l[i.1 ^^^ m] l[i.1]
        else lt l[i.1] l[i.1 ^^^ m]) = true
    · have h1 : exchangeSource lt m l i = ⟨i.1 ^^^ m, h⟩ := by
        unfold exchangeSource
        rw [dif_pos h, if_pos hc]
      rw [h1]
      have hback : (i.1 ^^^ m) ^^^ m = i.1 := xor_xor_self i.1 m
      have hlt : (i.1 ^^^ m) ^^^ m < l.length := by rw [hback]; exact i.2
      have hc2 : (if (i.1 ^^^ m) < (i.1 ^^^ m) ^^^ m then
            lt (l[(i.1 ^^^ m) ^^^ m]) (l[i.1 ^^^ m])
          else lt (l[i.1 ^^^ m]) (l[(i.1 ^^^ m) ^^^ m])) = true := by
        simp only [hback]
        by_cases hlt1 : i.1 < i.1 ^^^ m
        · rw [if_pos hlt1] at hc
          rw [if_neg (by omega)]
          exact hc
        · rw [if_neg hlt1] at hc
          by_cases heq : i.1 ^^^ m < i.1
          · rw [if_pos heq]
            exact hc
          · have he : i.1 ^^^ m = i.1 := by omega
            rw [if_neg heq]
            simpa only [he] using hc
      unfold exchangeSource
      rw [dif_pos hlt, if_pos hc2]
      exact Fin.ext hback
    · have h1 : exchangeSource lt m l i = i := by
        unfold exchangeSource
        rw [dif_pos h, if_neg hc]
      rw [h1, h1]
  · have h1 : exchangeSource lt m l i = i := by
      unfold exchangeSource
      rw [dif_neg h]
    rw [h1, h1]

theorem compareExchange_eq_ofFn {α : Type} (lt : α → α → Bool) (m : Nat) (l : List α) :
    compareExchange lt m l = List.ofFn (fun i => l.get (exchangeSource lt m l i)) := by
  apply List.ext_getElem
  · simp [compareExchange]
  · intro p h1 h2
    have hp : p < l.length := by simpa [compareExchange] using h1
    rw [List.getElem_ofFn]
    unfold compareExchange
    rw [List.getElem_map, List.getElem_enum]
    simp only [List.get_eq_getElem]
    by_cases h : p ^^^ m < l.length
    · rw [List.getElem?_eq_getElem h]
      simp only [exchanged, exchangeSource, dif_pos h]
      by_cases hlt : p < p ^^^ m
      · simp only [if_pos hlt]
        by_cases hc : lt l[p ^^^ m] l[p] = true
        · simp only [hc, if_true]
        · simp only [hc, if_false]
          simp
      · simp only [if_neg hlt]
        by_cases hc : lt l[p] l[p ^^^ m] = true
        · simp only [hc, if_true]
        · simp only [hc, if_false]
          simp
    · rw [List.getElem?_eq_none (by omega)]
      simp only [exchangeSource, dif_neg h]

/-- Executing a mask only rearranges the sequence. -/
theorem compareExchange_perm {α : Type} (lt : α → α → Bool) (m : Nat) (l : List α) :
    (compareExchange lt m l).Perm l := by
  rw [compareExchange_eq_ofFn]
  have := Equiv.Perm.ofFn_comp_perm
    (Function.Involutive.toPerm _ (exchangeSource_involutive lt m l)) l.get
  rw [List.ofFn_get] at this
  exact this

theorem executeMasks_perm {α : Type} (lt : α → α → Bool) :
    ∀ (masks : List Nat) (l : List α), (executeMasks lt masks l).Perm l := by
  intro masks
  induction masks with
  | nil => intro l; exact List.Perm.refl l
  | cons m rest ih =>
    intro l
    exact (ih (compareExchange lt m l)).trans (compareExchange_perm lt m l)

/-- For every extent `2 ≤ n ≤ 2^63` the emitter succeeds, and executing the
masks of its kernels in launch order on a sequence of length `n`, with a strict
weak order as comparator, leaves a sorted rearrangement of the sequence. -/
theorem EmitSortFromMlir_schedule_sorts {α : Type} (keys : SortOperand)
    (rest : List SortOperand) (keys_dimensions : List Nat) (dimension_to_sort : Nat)
    (device : GpuDeviceInfo) (standard_launch_dimensions : LaunchDimensions)
    (copies : List Thunk) (n : Nat)
    (hcopies : emitSortCopies keys.operand_layout (keys :: rest) = .ok copies)
    (hn : keys_dimensions.getD dimension_to_sort 0 = n) (h2 : 2 ≤ n) (h63 : n ≤ 2 ^ 63) :
    ∃ thunks, EmitSortFromMlir (keys :: rest) keys_dimensions dimension_to_sort device
        standard_launch_dimensions = .ok (.Sequential thunks) ∧
      ∀ (lt : α → α → Bool) (l : List α), StrictWeakOrder lt → l.length = n →
        (executeMasks lt (thunks.flatMap Thunk.xorMasks) l).Pairwise
            (fun x y => lt y x = false) ∧
          (executeMasks lt (thunks.flatMap Thunk.xorMasks) l).Perm l := by
  obtain ⟨_, hle, _, thunks, hok, hmasks⟩ := EmitSortFromMlir_schedule keys rest
    keys_dimensions dimension_to_sort device standard_launch_dimensions copies n hcopies hn
    h2 h63
  refine ⟨thunks, hok, fun lt l hlt hlen => ?_⟩
  rw [hmasks]
  exact ⟨executeMasks_bitonicSchedule_sorted lt hlt _ l (by rw [hlen]; exact hle),
    executeMasks_perm lt _ l⟩

/-- C3 (failing input): for a sort dimension of extent 1 the stage count is 0,
the second CHECK evaluates `1ULL << (0 - 1)`, which is undefined, and
the emitter produces no thunk and no mask schedule. -/
theorem EmitSortFromMlir_extent_one_undefined :
    Log2Ceiling 1 = 0 ∧ shiftLeftOne (Log2Ceiling 1 - 1) = none ∧
      ∀ (device : GpuDeviceInfo) (standard_launch_dimensions : LaunchDimensions),
        EmitSortFromMlir [inPlaceOperand] [1] 0 device standard_launch_dimensions =
          .error .undefinedOperation :=
  ⟨rfl, rfl, fun _ _ => rfl⟩

/-- C4 (failing input): whenever the sort dimension has extent 1, whatever the
operands, `EmitSortFromMlir` stops before the mask loop; it returns no thunk, so
no mask schedule is emitted and no kernel sorts the sequence. -/
theorem EmitSortFromMlir_extent_one_no_schedule (operands : List SortOperand)
    (keys_dimensions : List Nat) (dimension_to_sort : Nat) (device : GpuDeviceInfo)
    (standard_launch_dimensions : LaunchDimensions)
    (hextent : keys_dimensions.getD dimension_to_sort 0 = 1) :
    (EmitSortFromMlir operands keys_dimensions dimension_to_sort device
      standard_launch_dimensions).toOption = none := by
  unfold EmitSortFromMlir
  split
  · rfl
  · split
    · rfl
    · rw [hextent]
      have hshift : shiftLeftOne (Log2Ceiling 1 - 1) = none := rfl
      simp only [hshift]
      rfl

theorem EmitSortFromMlir_extent_one_no_schedule_witness :
    [3, 1].getD 1 0 = 1 ∧
      (EmitSortFromMlir [inPlaceOperand, copiedOperand] [3, 1] 1 ⟨1024, 49152⟩
        ⟨1, 1⟩).toOption = none :=
  ⟨rfl, EmitSortFromMlir_extent_one_no_schedule [inPlaceOperand, copiedOperand] [3, 1] 1
    ⟨1024, 49152⟩ ⟨1, 1⟩ rfl⟩

/-- C6 (counterexample): an operand whose output is in the same allocation at
another offset still gets a device-to-device copy. -/
theorem EmitSortFromMlir_copy_within_one_allocation :
    sameAllocationOperand.source_address.allocation =
        sameAllocationOperand.destination_buffer.allocation ∧
      EmitSortFromMlir [sameAllocationOperand] [2] 0 ⟨1024, 49152⟩ ⟨1, 1⟩ =
        .ok (.Sequential [.DeviceToDeviceCopy ⟨0, 0, 8⟩ ⟨0, 8, 8⟩ 8,
          .SortKernel [1] ⟨1, 1⟩ 1 2]) :=
  ⟨rfl, rfl⟩

/-- C6 (amended): whenever `EmitSortFromMlir` succeeds, its sequential thunk
consists of the copies followed by sort kernels only; the copies are, in operand
order, one copy from the operand slice to the output slice for exactly those
operands whose two slices (allocation, offset, size) differ. -/
theorem EmitSortFromMlir_copy_iff_slices_differ (operands : List SortOperand)
    (keys_dimensions : List Nat) (dimension_to_sort : Nat) (device : GpuDeviceInfo)
    (standard_launch_dimensions : LaunchDimensions) (thunk : Thunk)
    (h : EmitSortFromMlir operands keys_dimensions dimension_to_sort device
      standard_launch_dimensions = .ok thunk) :
    ∃ kernels, thunk = .Sequential
        (operands.filterMap
            (fun op => if op.destination_buffer ≠ op.source_address then
              some (.DeviceToDeviceCopy op.source_address op.destination_buffer op.byte_size)
            else none) ++ kernels) ∧
      ∀ k ∈ kernels, k.isSortKernel = true :=
  EmitSortFromMlir_inv operands keys_dimensions dimension_to_sort device
    standard_launch_dimensions thunk h

theorem EmitSortFromMlir_copy_iff_slices_differ_witness :
    ∃ kernels, Thunk.Sequential [.DeviceToDeviceCopy ⟨1, 0, 8⟩ ⟨2, 0, 8⟩ 8,
          .SortKernel [1] ⟨1, 1⟩ 2 4, .SortKernel [3] ⟨1, 1⟩ 2 4,
          .SortKernel [1] ⟨1, 1⟩ 2 4] = .Sequential
        ([inPlaceOperand, copiedOperand].filterMap
            (fun op => if op.destination_buffer ≠ op.source_address then
              some (.DeviceToDeviceCopy op.source_address op.destination_buffer op.byte_size)
            else none) ++ kernels) ∧
      ∀ k ∈ kernels, k.isSortKernel = true :=
  EmitSortFromMlir_copy_iff_slices_differ [inPlaceOperand, copiedOperand] [3] 0
    ⟨1024, 49152⟩ ⟨1, 1⟩ _ rfl

/-! ## Scatter: proofs -/

theorem applyInsertedWindowDims_spec (inserted bounds multidim : List Nat) :
    ∀ (dims : List Nat) (idx : Nat) (window : List (Nat × Nat)),
      applyInsertedWindowDims inserted bounds multidim dims idx = some window →
      window.length = dims.length ∧
      ∀ j, j < dims.length →
        (window.map Prod.snd).getD j 0 =
          if BinarySearchDenseElementsAttr inserted (dims.getD j 0) then 0
          else multidim.getD
            (idx + ((dims.take j).filter
              (fun d1 => !BinarySearchDenseElementsAttr inserted d1)).length) 0
  | [], idx, window, h => by
    simp only [applyInsertedWindowDims, Option.some.injEq] at h
    subst h
    exact ⟨rfl, fun j hj => absurd hj (Nat.not_lt_zero j)⟩
  | i :: dims, idx, window, h => by
    simp only [applyInsertedWindowDims] at h
    by_cases hins : BinarySearchDenseElementsAttr inserted i = true
    · rw [if_pos hins] at h
      cases hrec : applyInsertedWindowDims inserted bounds multidim dims idx with
      | none => rw [hrec] at h; cases h
      | some rest =>
        rw [hrec] at h
        simp only [Option.map_some', Option.some.injEq] at h
        subst h
        obtain ⟨hlen, hget⟩ := applyInsertedWindowDims_spec inserted bounds multidim dims idx
          rest hrec
        refine ⟨by simp [hlen], ?_⟩
        intro j hj
        cases j with
        | zero => simp [hins]
        | succ j =>
          have hj' : j < dims.length := by simpa using hj
          have := hget j hj'
          simp only [List.map_cons, List.getD_cons_succ, List.take_succ_cons,
            List.filter_cons, hins, Bool.not_true, Bool.false_eq_true, if_false]
          exact this
    · rw [if_neg hins] at h
      cases hb : bounds[idx]? with
      | none => rw [hb] at h; cases h
      | some bound =>
        cases hm : multidim[idx]? with
        | none => rw [hb, hm] at h; cases h
        | some coordinate =>
          rw [hb, hm] at h
          simp only [] at h
          cases hrec : applyInsertedWindowDims inserted bounds multidim dims (idx + 1) with
          | none => rw [hrec] at h; cases h
          | some rest =>
            rw [hrec] at h
            simp only [Option.map_some', Option.some.injEq] at h
            subst h
            obtain ⟨hlen, hget⟩ := applyInsertedWindowDims_spec inserted bounds multidim dims
              (idx + 1) rest hrec
            refine ⟨by simp [hlen], ?_⟩
            intro j hj
            have hins' : BinarySearchDenseElementsAttr inserted i = false := by
              simpa using hins
            cases j with
            | zero => simp [hins', hm]
            | succ j =>
              have hj' : j < dims.length := by simpa using hj
              have := hget j hj'
              simp only [List.map_cons, List.getD_cons_succ, List.take_succ_cons,
                List.filter_cons, hins', Bool.not_false, if_true, List.length_cons]
              rw [this]
              have harith : idx + 1 + (List.filter
                  (fun d1 => !BinarySearchDenseElementsAttr inserted d1)
                  (List.take j dims)).length =
                  idx + ((List.filter (fun d1 => !BinarySearchDenseElementsAttr inserted d1)
                    (List.take j dims)).length + 1) := by omega
              rw [harith]

theorem getD_set_self (l : List Nat) (i v w : Nat) (h : l[i]? = some w) :
    (l.set i v).getD i 0 = v := by
  have hlt : i < l.length := by
    by_contra hge
    rw [List.getElem?_eq_none (by omega)] at h
    cases h
  simp [List.getD_eq_getElem?_getD, List.getElem?_set_self hlt]

theorem getD_set_ne (l : List Nat) (i j v : Nat) (h : i ≠ j) :
    (l.set i v).getD j 0 = l.getD j 0 := by
  simp [List.getD_eq_getElem?_getD, List.getElem?_set_ne h]

theorem scatterLoop_spec (desc : ScatterDescriptor) (ty : IndexType)
    (scatter_indices_gen : List Nat → Int) (bounds index : List Nat) :
    ∀ (dims : List Nat) (i : Nat) (st st1 : ScatterLoopState),
      scatterLoop desc ty scatter_indices_gen bounds index dims i st = some st1 →
      (∀ d, st.input_window_multidim.getD d 0 < 2 ^ ty.bits) →
      (∀ d, st1.input_window_multidim.getD d 0 < 2 ^ ty.bits) ∧
      ∀ d, st1.input_window_multidim.getD d 0 =
        (st.input_window_multidim.getD d 0 +
          (((dims.enumFrom i).filter (fun p => decide (p.2 = d))).map
            (fun p => castedScatterIndex desc ty scatter_indices_gen index p.1)).sum) %
          2 ^ ty.bits
  | [], i, st, st1, h, hlt => by
    simp only [scatterLoop, Option.some.injEq] at h
    subst h
    refine ⟨hlt, fun d => ?_⟩
    simp only [List.enumFrom_nil, List.filter_nil, List.map_nil, List.sum_nil, Nat.add_zero]
    exact (Nat.mod_eq_of_lt (hlt d)).symm
  | od :: rest, i, st, st1, h, hlt => by
    simp only [scatterLoop] at h
    cases hstep : scatterLoopStep desc ty scatter_indices_gen bounds index st i od with
    | none => rw [hstep] at h; cases h
    | some st2 =>
      rw [hstep] at h
      simp only [] at h
      unfold scatterLoopStep at hstep
      cases hw : st.input_window_multidim[od]? with
      | none => rw [hw] at hstep; cases hstep
      | some wc =>
        cases hb : bounds[od]? with
        | none => rw [hw, hb] at hstep; cases hstep
        | some wb =>
          cases he : desc.operand_shape[od]? with
          | none => rw [hw, hb, he] at hstep; cases hstep
          | some ext =>
            rw [hw, hb, he] at hstep
            simp only [Option.some.injEq] at hstep
            have hwc : st.input_window_multidim.getD od 0 = wc := by
              simp [List.getD_eq_getElem?_getD, hw]
            have hpos : 0 < 2 ^ ty.bits := by positivity
            have hst2 : ∀ d, st2.input_window_multidim.getD d 0 =
                if od = d then
                  (wc + castedScatterIndex desc ty scatter_indices_gen index i) % 2 ^ ty.bits
                else st.input_window_multidim.getD d 0 := by
              intro d
              rw [← hstep]
              by_cases hd : od = d
              · subst hd
                rw [if_pos rfl]
                exact getD_set_self _ _ _ _ hw
              · rw [if_neg hd]
                exact getD_set_ne _ _ _ _ hd
            have hlt2 : ∀ d, st2.input_window_multidim.getD d 0 < 2 ^ ty.bits := by
              intro d
              rw [hst2 d]
              split
              · exact Nat.mod_lt _ hpos
              · exact hlt d
            obtain ⟨hfin, hsum⟩ := scatterLoop_spec desc ty scatter_indices_gen bounds index
              rest (i + 1) st2 st1 h hlt2
            refine ⟨hfin, fun d => ?_⟩
            rw [hsum d, hst2 d]
            simp only [List.enumFrom_cons, List.filter_cons]
            by_cases hd : od = d
            · subst hd
              simp only [if_true, decide_True, List.map_cons, List.sum_cons, hwc]
              rw [Nat.mod_add_mod, Nat.add_assoc]
            · simp only [if_neg hd, decide_eq_true_eq, hd, if_false]

theorem wrapToWidth_cast (bits : Nat) (x : Int) :
    ((wrapToWidth bits x : Nat) : Int) = x % (2 : Int) ^ bits := by
  unfold wrapToWidth
  exact Int.toNat_of_nonneg (Int.emod_nonneg _ (by positivity))

theorem sum_emod_emod (M : Int) (l : List Int) :
    (l.map (fun x => x % M)).sum % M = l.sum % M := by
  induction l with
  | nil => rfl
  | cons x rest ih =>
    rw [List.map_cons, List.sum_cons, List.sum_cons, Int.add_emod, ih, Int.emod_emod,
      ← Int.add_emod]

theorem sum_wrap_cast {β : Type} (bits : Nat) (l : List β) (g : β → Int) (a : Nat) :
    (((a + (l.map (fun p => wrapToWidth bits (g p))).sum) % 2 ^ bits : Nat) : Int) =
      ((a : Int) + (l.map g).sum) % (2 : Int) ^ bits := by
  have hcast : (((l.map (fun p => wrapToWidth bits (g p))).sum : Nat) : Int) =
      ((l.map g).map (fun x => x % (2 : Int) ^ bits)).sum := by
    induction l with
    | nil => rfl
    | cons p rest ih =>
      simp only [List.map_cons, List.sum_cons, Nat.cast_add, ih, wrapToWidth_cast]
  rw [Int.natCast_mod, Nat.cast_add, hcast]
  push_cast
  rw [Int.add_emod, sum_emod_emod, ← Int.add_emod]

theorem wrapToWidth_natCast (bits k : Nat) (hk : k < 2 ^ bits) :
    wrapToWidth bits (k : Int) = k := by
  unfold wrapToWidth
  have h : ((k : Int)) % (2 : Int) ^ bits = k := by
    apply Int.emod_eq_of_lt (Int.natCast_nonneg k)
    exact_mod_cast hk
  rw [h]
  exact Int.toNat_natCast k

theorem mem_enumFrom_lt {β : Type} (l : List β) (i : Nat) (p : Nat × β)
    (h : p ∈ l.enumFrom i) : p.1 < i + l.length := by
  induction l generalizing i with
  | nil => simp at h
  | cons a rest ih =>
    rw [List.enumFrom_cons] at h
    rcases List.mem_cons.mp h with rfl | h
    · simp
    · have := ih (i + 1) h
      simp only [List.length_cons]
      omega

/-- The operand coordinate in the arithmetic of the kernel: whenever the loop
body runs through for the update index `u` (every vector access is in range),
the operand coordinate it computes has, in each operand dimension `d`, the value
`w_d + sum of I_k over the k with scatter_dims_to_operand_dims[k] = d`, reduced
modulo `2^bits` of the kernel's index type; this is the coordinate handed to the
combine when the bounds flag is set. -/
theorem EmitScatter_operand_coordinate (desc : ScatterDescriptor) (ty : IndexType)
    (scatter_indices : List Nat → Int) (u : List Nat) (st : ScatterLoopState)
    (hres : scatterLoopResult desc ty scatter_indices u = some st)
    (hu : ∀ c ∈ u, c < 2 ^ ty.bits)
    (hK : desc.dim_numbers.scatter_dims_to_operand_dims.length ≤ 2 ^ ty.bits)
    (d : Nat) (hd : d < desc.operand_shape.length) :
    ((st.input_window_multidim.getD d 0 : Nat) : Int) =
        ((windowCoordinate desc u d : Nat) + scatterIndexSum desc scatter_indices u d) %
          (2 : Int) ^ ty.bits ∧
      loop_body_emitter desc ty scatter_indices u =
        some (if st.is_in_bounds then
          .combine (scatterCombineKind desc) st.input_window_multidim else .skip) := by
  refine ⟨?_, by simp [loop_body_emitter, hres]⟩
  unfold scatterLoopResult at hres
  cases hwin : applyInsertedWindowDims desc.dim_numbers.inserted_window_dims
      (raw_window_bounds desc u) (raw_window_multidim desc u)
      (List.range desc.operand_shape.length) 0 with
  | none => rw [hwin] at hres; cases hres
  | some window =>
    rw [hwin] at hres
    simp only [] at hres
    split at hres
    · cases hres
    · obtain ⟨hlen, hget⟩ := applyInsertedWindowDims_spec _ _ _ _ _ _ hwin
      have hraw : ∀ r, (raw_window_multidim desc u).getD r 0 < 2 ^ ty.bits := by
        intro r
        rw [List.getD_eq_getElem?_getD]
        cases hr : (raw_window_multidim desc u)[r]? with
        | none => simp
        | some c =>
          have hmem : c ∈ raw_window_multidim desc u := List.getElem?_mem hr
          unfold raw_window_multidim at hmem
          simp only [List.mem_map, List.mem_filter, List.mem_range] at hmem
          obtain ⟨i, ⟨hi, _⟩, rfl⟩ := hmem
          simp only [Option.getD_some]
          apply hu
          rw [List.getD_eq_getElem?_getD, List.getElem?_eq_getElem hi]
          simp
      have hwindow : ∀ j, j < desc.operand_shape.length →
          (window.map Prod.snd).getD j 0 = windowCoordinate desc u j := by
        intro j hj
        have := hget j (by simpa using hj)
        rw [this]
        unfold windowCoordinate
        have h1 : (List.range desc.operand_shape.length).getD j 0 = j := by
          rw [List.getD_eq_getElem?_getD, List.getElem?_range hj]
          rfl
        have h2 : (List.range desc.operand_shape.length).take j = List.range j := by
          rw [List.take_range, min_eq_left (le_of_lt hj)]
        rw [h1, h2, Nat.zero_add]
      have hinit : ∀ j, (window.map Prod.snd).getD j 0 < 2 ^ ty.bits := by
        intro j
        by_cases hj : j < desc.operand_shape.length
        · rw [hwindow j hj]
          unfold windowCoordinate
          split
          · positivity
          · exact hraw _
        · have : (window.map Prod.snd)[j]? = none := by
            apply List.getElem?_eq_none
            simp only [List.length_map, hlen, List.length_range]
            omega
          rw [List.getD_eq_getElem?_getD, this]
          simp
      obtain ⟨_, hsum⟩ := scatterLoop_spec desc ty scatter_indices (window.map Prod.fst) u
        desc.dim_numbers.scatter_dims_to_operand_dims 0
        { input_window_multidim := window.map Prod.snd, is_in_bounds := true } st hres hinit
      rw [hsum d, hwindow d hd]
      have hcasted : ((desc.dim_numbers.scatter_dims_to_operand_dims.enumFrom 0).filter
            (fun p => decide (p.2 = d))).map
            (fun p => castedScatterIndex desc ty scatter_indices u p.1) =
          ((desc.dim_numbers.scatter_dims_to_operand_dims.enumFrom 0).filter
            (fun p => decide (p.2 = d))).map
            (fun p => wrapToWidth ty.bits (scatterIndexAt desc scatter_indices u p.1)) := by
        apply List.map_congr_left
        intro p hp
        have hp' := mem_enumFrom_lt _ _ _ (List.mem_of_mem_filter hp)
        unfold castedScatterIndex scatterIndexAt raw_scatter_index_multidim
        rw [wrapToWidth_natCast ty.bits p.1 (by omega)]
      rw [hcasted, sum_wrap_cast]
      rfl

theorem EmitScatter_operand_coordinate_witness :
    (((⟨[3], true⟩ : ScatterLoopState).input_window_multidim.getD 0 0 : Nat) : Int) =
        ((windowCoordinate pointScatter [0] 0 : Nat) +
          scatterIndexSum pointScatter (fun _ => 3) [0] 0) % (2 : Int) ^ IndexType.i32.bits ∧
      loop_body_emitter pointScatter .i32 (fun _ => 3) [0] =
        some (if (⟨[3], true⟩ : ScatterLoopState).is_in_bounds then
          .combine (scatterCombineKind pointScatter)
            (⟨[3], true⟩ : ScatterLoopState).input_window_multidim else .skip) :=
  EmitScatter_operand_coordinate pointScatter .i32 (fun _ => 3) [0] ⟨[3], true⟩ (by decide)
    (by decide) (by decide) 0 (by decide)

theorem applyInsertedWindowDims_bounds (inserted bounds multidim : List Nat) :
    ∀ (dims : List Nat) (idx : Nat) (window : List (Nat × Nat)),
      applyInsertedWindowDims inserted bounds multidim dims idx = some window →
      ∀ j, j < dims.length →
        (window.map Prod.fst).getD j 0 =
          if BinarySearchDenseElementsAttr inserted (dims.getD j 0) then 1
          else bounds.getD
            (idx + ((dims.take j).filter
              (fun d1 => !BinarySearchDenseElementsAttr inserted d1)).length) 0
  | [], idx, window, h => fun j hj => absurd hj (Nat.not_lt_zero j)
  | i :: dims, idx, window, h => by
    simp only [applyInsertedWindowDims] at h
    by_cases hins : BinarySearchDenseElementsAttr inserted i = true
    · rw [if_pos hins] at h
      cases hrec : applyInsertedWindowDims inserted bounds multidim dims idx with
      | none => rw [hrec] at h; cases h
      | some rest =>
        rw [hrec] at h
        simp only [Option.map_some', Option.some.injEq] at h
        subst h
        have hget := applyInsertedWindowDims_bounds inserted bounds multidim dims idx rest hrec
        intro j hj
        cases j with
        | zero => simp [hins]
        | succ j =>
          have hj' : j < dims.length := by simpa using hj
          have := hget j hj'
          simp only [List.map_cons, List.getD_cons_succ, List.take_succ_cons,
            List.filter_cons, hins, Bool.not_true, Bool.false_eq_true, if_false]
          exact this
    · rw [if_neg hins] at h
      cases hb : bounds[idx]? with
      | none => rw [hb] at h; cases h
      | some bound =>
        cases hm : multidim[idx]? with
        | none => rw [hb, hm] at h; cases h
        | some coordinate =>
          rw [hb, hm] at h
          simp only [] at h
          cases hrec : applyInsertedWindowDims inserted bounds multidim dims (idx + 1) with
          | none => rw [hrec] at h; cases h
          | some rest =>
            rw [hrec] at h
            simp only [Option.map_some', Option.some.injEq] at h
            subst h
            have hget := applyInsertedWindowDims_bounds inserted bounds multidim dims
              (idx + 1) rest hrec
            intro j hj
            have hins' : BinarySearchDenseElementsAttr inserted i = false := by
              simpa using hins
            cases j with
            | zero => simp [hins', hb]
            | succ j =>
              have hj' : j < dims.length := by simpa using hj
              have := hget j hj'
              simp only [List.map_cons, List.getD_cons_succ, List.take_succ_cons,
                List.filter_cons, hins', Bool.not_false, if_true, List.length_cons]
              rw [this]
              have harith : idx + 1 + (List.filter
                  (fun d1 => !BinarySearchDenseElementsAttr inserted d1)
                  (List.take j dims)).length =
                  idx + ((List.filter (fun d1 => !BinarySearchDenseElementsAttr inserted d1)
                    (List.take j dims)).length + 1) := by omega
              rw [harith]

/-- The bounds flag after the loop: the flag before it and the unsigned
comparison of every cast scatter index with its bound. -/
theorem scatterLoop_in_bounds (desc : ScatterDescriptor) (ty : IndexType)
    (scatter_indices_gen : List Nat → Int) (bounds index : List Nat) :
    ∀ (dims : List Nat) (i : Nat) (st st1 : ScatterLoopState),
      scatterLoop desc ty scatter_indices_gen bounds index dims i st = some st1 →
      st1.is_in_bounds =
        (st.is_in_bounds && (dims.enumFrom i).all (fun p =>
          decide (castedScatterIndex desc ty scatter_indices_gen index p.1 <
            wrapToWidth ty.bits
              ((desc.operand_shape.getD p.2 0 : Int) - (bounds.getD p.2 0 : Int) + 1))))
  | [], i, st, st1, h => by
    simp only [scatterLoop, Option.some.injEq] at h
    subst h
    simp
  | od :: rest, i, st, st1, h => by
    simp only [scatterLoop] at h
    cases hstep : scatterLoopStep desc ty scatter_indices_gen bounds index st i od with
    | none => rw [hstep] at h; cases h
    | some st2 =>
      rw [hstep] at h
      simp only [] at h
      have ih := scatterLoop_in_bounds desc ty scatter_indices_gen bounds index rest (i + 1)
        st2 st1 h
      unfold scatterLoopStep at hstep
      cases hw : st.input_window_multidim[od]? with
      | none => rw [hw] at hstep; cases hstep
      | some wc =>
        cases hb : bounds[od]? with
        | none => rw [hw, hb] at hstep; cases hstep
        | some wb =>
          cases he : desc.operand_shape[od]? with
          | none => rw [hw, hb, he] at hstep; cases hstep
          | some ext =>
            rw [hw, hb, he] at hstep
            simp only [Option.some.injEq] at hstep
            rw [ih, ← hstep]
            simp only [List.enumFrom_cons, List.all_cons, List.getD_eq_getElem?_getD, hb, he,
              Option.getD_some, Bool.and_assoc]
            rfl

theorem ult_wrapped_iff (ty : IndexType) (x m : Int)
    (hx : -(2 : Int) ^ (ty.bits - 1) ≤ x ∧ x < (2 : Int) ^ (ty.bits - 1))
    (hm : 0 ≤ m ∧ m ≤ (2 : Int) ^ (ty.bits - 1)) :
    wrapToWidth ty.bits x < wrapToWidth ty.bits m ↔ 0 ≤ x ∧ x < m := by
  rw [← Int.ofNat_lt, wrapToWidth_cast, wrapToWidth_cast]
  cases ty <;> simp only [IndexType.bits] at hx hm ⊢ <;> norm_num at hx hm ⊢ <;> omega

/-- The bounds check is exact when no scatter index is narrowed: if every
scatter index is representable in the kernel's index type (and the window fits
the operand), the bounds flag is set exactly when every scatter index `I_k`
satisfies `0 ≤ I_k < operand_extent[d] - window_extent[d] + 1`. -/
theorem EmitScatter_bounds_check_exact (desc : ScatterDescriptor) (ty : IndexType)
    (scatter_indices : List Nat → Int) (u : List Nat) (st : ScatterLoopState)
    (hres : scatterLoopResult desc ty scatter_indices u = some st)
    (hK : desc.dim_numbers.scatter_dims_to_operand_dims.length ≤ 2 ^ ty.bits)
    (hdims : ∀ p ∈ desc.dim_numbers.scatter_dims_to_operand_dims.enum,
      p.2 < desc.operand_shape.length)
    (hrep : ∀ p ∈ desc.dim_numbers.scatter_dims_to_operand_dims.enum,
      -(2 : Int) ^ (ty.bits - 1) ≤ scatterIndexAt desc scatter_indices u p.1 ∧
        scatterIndexAt desc scatter_indices u p.1 < (2 : Int) ^ (ty.bits - 1))
    (hvalid : ∀ p ∈ desc.dim_numbers.scatter_dims_to_operand_dims.enum,
      0 ≤ scatterMaxIndex desc u p.2 ∧ scatterMaxIndex desc u p.2 ≤ (2 : Int) ^ (ty.bits - 1)) :
    st.is_in_bounds = true ↔
      ∀ p ∈ desc.dim_numbers.scatter_dims_to_operand_dims.enum,
        0 ≤ scatterIndexAt desc scatter_indices u p.1 ∧
          scatterIndexAt desc scatter_indices u p.1 < scatterMaxIndex desc u p.2 := by
  unfold scatterLoopResult at hres
  cases hwin : applyInsertedWindowDims desc.dim_numbers.inserted_window_dims
      (raw_window_bounds desc u) (raw_window_multidim desc u)
      (List.range desc.operand_shape.length) 0 with
  | none => rw [hwin] at hres; cases hres
  | some window =>
    rw [hwin] at hres
    simp only [] at hres
    split at hres
    · cases hres
    · have hbounds := applyInsertedWindowDims_bounds _ _ _ _ _ _ hwin
      have hwb : ∀ j, j < desc.operand_shape.length →
          (window.map Prod.fst).getD j 0 = windowBound desc u j := by
        intro j hj
        have := hbounds j (by simpa using hj)
        rw [this]
        unfold windowBound
        have h1 : (List.range desc.operand_shape.length).getD j 0 = j := by
          rw [List.getD_eq_getElem?_getD, List.getElem?_range hj]
          rfl
        have h2 : (List.range desc.operand_shape.length).take j = List.range j := by
          rw [List.take_range, min_eq_left (le_of_lt hj)]
        rw [h1, h2, Nat.zero_add]
      rw [scatterLoop_in_bounds desc ty scatter_indices (window.map Prod.fst) u _ 0 _ st hres]
      simp only [Bool.true_and, List.all_eq_true, decide_eq_true_eq]
      have hstep : ∀ p ∈ desc.dim_numbers.scatter_dims_to_operand_dims.enum,
          (castedScatterIndex desc ty scatter_indices u p.1 <
            wrapToWidth ty.bits ((desc.operand_shape.getD p.2 0 : Int) -
              ((window.map Prod.fst).getD p.2 0 : Int) + 1) ↔
          0 ≤ scatterIndexAt desc scatter_indices u p.1 ∧
            scatterIndexAt desc scatter_indices u p.1 < scatterMaxIndex desc u p.2) := by
        intro p hp
        have hp' := mem_enumFrom_lt _ _ _ hp
        have hc : castedScatterIndex desc ty scatter_indices u p.1 =
            wrapToWidth ty.bits (scatterIndexAt desc scatter_indices u p.1) := by
          unfold castedScatterIndex scatterIndexAt raw_scatter_index_multidim
          rw [wrapToWidth_natCast ty.bits p.1 (by omega)]
        rw [hc, hwb p.2 (hdims p hp)]
        exact ult_wrapped_iff ty _ _ (hrep p hp) (hvalid p hp)
      constructor
      · intro h p hp
        exact (hstep p hp).mp (h p hp)
      · intro h p hp
        exact (hstep p hp).mpr (h p hp)

/-- C7 (failing input): with 64-bit scatter indices and a kernel that uses
32-bit indices, the scatter index `2^32 + 2` makes the kernel address operand
coordinate `2`, not `0 + (2^32 + 2)`. -/
theorem EmitScatter_coordinate_of_truncated_index :
    GetIndexTypeForKernelFromMlir []
        [.array .F32 [4], .array .S64 [1], .array .F32 [1], .array .F32 [4]] 1 = .i32 ∧
      loop_body_emitter pointScatter .i32 (fun _ => 4294967298) [0] =
        some (.combine .atomicOperation [2]) ∧
      (2 : Int) ≠ 0 + 4294967298 := by
  refine ⟨by decide, by decide, by decide⟩

/-- C8 (failing input): with 64-bit scatter indices and a kernel that uses 32-bit
indices, the scatter index `2^32` lies outside `[0, 4 - 1 + 1)` and is still
combined into the output (at coordinate 0); the same index is skipped by a
kernel that uses 64-bit indices. -/
theorem EmitScatter_out_of_bounds_index_combined :
    ¬ ((0 : Int) ≤ 4294967296 ∧ (4294967296 : Int) < 4 - 1 + 1) ∧
      loop_body_emitter pointScatter .i32 (fun _ => 4294967296) [0] =
        some (.combine .atomicOperation [0]) ∧
      loop_body_emitter pointScatter .i64 (fun _ => 4294967296) [0] = some .skip := by
  refine ⟨by decide, by decide, by decide⟩

theorem shuffleDownLoop_pos {α : Type} (reducer : α → α → α) (distance : Nat)
    (lanes : Nat → α) (h : distance ≥ 1) :
    shuffleDownLoop reducer distance lanes =
      shuffleDownLoop reducer (distance / 2) (shuffleDownStep reducer distance lanes) := by
  rw [shuffleDownLoop, dif_pos h]

theorem shuffleDownLoop_zero {α : Type} (reducer : α → α → α) (lanes : Nat → α) :
    shuffleDownLoop reducer 0 lanes = lanes := by
  rw [shuffleDownLoop, dif_neg (by omega)]

/-- The loop performs the five steps with distances 16, 8, 4, 2, 1 in order. -/
theorem EmitFullWarpShuffleDownLoopForReduce_steps {α : Type} (reducer : α → α → α)
    (lanes : Nat → α) :
    EmitFullWarpShuffleDownLoopForReduce reducer lanes =
      shuffleDownStep reducer 1 (shuffleDownStep reducer 2 (shuffleDownStep reducer 4
        (shuffleDownStep reducer 8 (shuffleDownStep reducer 16 lanes)))) := by
  unfold EmitFullWarpShuffleDownLoopForReduce
  rw [shuffleDownLoop_pos reducer 16 _ (by norm_num),
    shuffleDownLoop_pos reducer (16 / 2) _ (by norm_num),
    shuffleDownLoop_pos reducer (16 / 2 / 2) _ (by norm_num),
    shuffleDownLoop_pos reducer (16 / 2 / 2 / 2) _ (by norm_num),
    shuffleDownLoop_pos reducer (16 / 2 / 2 / 2 / 2) _ (by norm_num)]
  exact shuffleDownLoop_zero reducer _

theorem shuffle_lane_zero {α : Type} (reducer : α → α → α)
    (hcomm : ∀ a b, reducer a b = reducer b a)
    (hassoc : ∀ a b c, reducer (reducer a b) c = reducer a (reducer b c))
    (lanes : Nat → α) :
    EmitFullWarpShuffleDownLoopForReduce reducer lanes 0 =
      ((List.range 31).map (fun l => lanes (l + 1))).foldl reducer (lanes 0) := by
  rw [EmitFullWarpShuffleDownLoopForReduce_steps]
  haveI : Std.Commutative reducer := ⟨hcomm⟩
  haveI : Std.Associative reducer := ⟨hassoc⟩
  simp only [shuffleDownStep, kWarpSize, List.range, List.range.loop, List.map, List.foldl]
  norm_num
  ac_rfl

theorem ReducerLaws.identity_right {α : Type} {reducer : α → α → α} {initial_value : α}
    (h : ReducerLaws reducer initial_value) (a : α) : reducer a initial_value = a := by
  rw [h.comm, h.identity]

theorem foldl_reducer_init {α : Type} {reducer : α → α → α} {initial_value : α}
    (h : ReducerLaws reducer initial_value) (l : List α) (a : α) :
    l.foldl reducer a = reducer a (l.foldl reducer initial_value) := by
  induction l generalizing a with
  | nil => simp [h.identity_right]
  | cons x rest ih =>
    rw [List.foldl_cons, List.foldl_cons, ih, ih (reducer initial_value x), h.identity, h.assoc]

theorem foldl_reducer_append {α : Type} {reducer : α → α → α} {initial_value : α}
    (h : ReducerLaws reducer initial_value) (l1 l2 : List α) :
    (l1 ++ l2).foldl reducer initial_value =
      reducer (l1.foldl reducer initial_value) (l2.foldl reducer initial_value) := by
  rw [List.foldl_append, foldl_reducer_init h]

theorem foldl_reducer_perm {α : Type} {reducer : α → α → α} {initial_value : α}
    (h : ReducerLaws reducer initial_value) {l1 l2 : List α} (hperm : l1.Perm l2) :
    l1.foldl reducer initial_value = l2.foldl reducer initial_value := by
  apply List.Perm.foldl_eq' hperm
  intro x _ y _ z
  rw [h.assoc, h.assoc, h.comm x y]

theorem foldl_reducer_flatten {α : Type} {reducer : α → α → α} {initial_value : α}
    (h : ReducerLaws reducer initial_value) (ls : List (List α)) :
    ls.flatten.foldl reducer initial_value =
      (ls.map (fun l => l.foldl reducer initial_value)).foldl reducer initial_value := by
  induction ls with
  | nil => rfl
  | cons l rest ih =>
    rw [List.flatten_cons, foldl_reducer_append h, ih, List.map_cons, List.foldl_cons,
      h.identity]
    exact (foldl_reducer_init h _ _).symm

theorem foldl_reducer_all_initial {α : Type} {reducer : α → α → α} {initial_value : α}
    (h : ReducerLaws reducer initial_value) (l : List α) (hall : ∀ a ∈ l, a = initial_value) :
    l.foldl reducer initial_value = initial_value := by
  induction l with
  | nil => rfl
  | cons x rest ih =>
    rw [List.foldl_cons, hall x (List.mem_cons_self _ _), h.identity]
    exact ih (fun a ha => hall a (List.mem_cons_of_mem _ ha))

/-- Row-major enumeration: the positions `q * b + i` for `q < a`, `i < b`, listed
by `q` and then `i`, are `0, ..., a * b - 1` in order. -/
theorem range_row_major (a b : Nat) :
    (List.range a).flatMap (fun q => (List.range b).map (fun i => q * b + i)) =
      List.range (a * b) := by
  induction a with
  | zero => simp
  | succ n ih =>
    rw [List.range_succ, List.flatMap_append, ih]
    simp only [List.flatMap_cons, List.flatMap_nil, List.append_nil]
    rw [Nat.succ_mul, List.range_add]

/-- With the initial value as identity, lane 0 of a warp ends the shuffle loop
with the fold of the values of all 32 lanes. -/
theorem shuffle_lane_zero_fold {α : Type} {reducer : α → α → α} {initial_value : α}
    (h : ReducerLaws reducer initial_value) (lanes : Nat → α) :
    EmitFullWarpShuffleDownLoopForReduce reducer lanes 0 =
      ((List.range kWarpSize).map lanes).foldl reducer initial_value := by
  rw [shuffle_lane_zero reducer h.comm h.assoc]
  have hrange : (List.range kWarpSize).map lanes =
      lanes 0 :: (List.range 31).map (fun l => lanes (l + 1)) := by
    rfl
  rw [hrange, List.foldl_cons, h.identity]

/-- The selected values of warp 0 fold to the fold of the slots of the existing
warps. -/
theorem foldl_selected_values {α : Type} {reducer : α → α → α} {initial_value : α}
    (h : ReducerLaws reducer initial_value) (num_warps : Nat) (hle : num_warps ≤ kWarpSize)
    (shared_cache : Nat → α) :
    ((List.range kWarpSize).map (fun lane =>
        if decide (lane < num_warps) then shared_cache lane else initial_value)).foldl
      reducer initial_value =
      ((List.range num_warps).map shared_cache).foldl reducer initial_value := by
  have hsplit : kWarpSize = num_warps + (kWarpSize - num_warps) := by omega
  rw [hsplit, List.range_add, List.map_append, foldl_reducer_append h]
  have h1 : (List.range num_warps).map (fun lane =>
      if decide (lane < num_warps) then shared_cache lane else initial_value) =
      (List.range num_warps).map shared_cache := by
    apply List.map_congr_left
    intro lane hl
    simp [List.mem_range.mp hl]
  have h2 : ((List.map (fun x => num_warps + x) (List.range (kWarpSize - num_warps))).map
      (fun lane => if decide (lane < num_warps) then shared_cache lane else initial_value)).foldl
      reducer initial_value = initial_value := by
    apply foldl_reducer_all_initial h
    intro a ha
    simp only [List.mem_map, List.mem_range] at ha
    obtain ⟨lane, ⟨i, _, rfl⟩, rfl⟩ := ha
    simp
  rw [h1, h2, h.identity_right]

/-- The value that thread 0 combines into the output is the fold of the partial
results of all threads of the block, for every block of `32 * num_warps` threads
with `1 ≤ num_warps ≤ 32`. -/
theorem rowEpilogueBlockAccum_eq_fold {α : Type} {reducer : α → α → α} {initial_value : α}
    (h : ReducerLaws reducer initial_value) (num_warps : Nat) (h1 : 1 ≤ num_warps)
    (h32 : num_warps ≤ kWarpSize) (partial_result : Nat → α) :
    rowEpilogueBlockAccum (num_warps * kWarpSize) reducer initial_value partial_result =
      ((List.range (num_warps * kWarpSize)).map partial_result).foldl reducer initial_value := by
  unfold rowEpilogueBlockAccum
  have hdiv : num_warps * kWarpSize / kWarpSize = num_warps :=
    Nat.mul_div_cancel _ (by norm_num [kWarpSize])
  simp only [hdiv]
  rw [if_pos (by simpa using h1), shuffle_lane_zero_fold h, foldl_selected_values h _ h32]
  simp only [shuffle_lane_zero_fold h]
  rw [← range_row_major, List.map_flatMap, List.flatMap_def, foldl_reducer_flatten h,
    List.map_map]
  congr 1

/-! ### Which elements a thread visits -/

theorem flatMap_nil_fun {β γ : Type} (l : List β) :
    l.flatMap (fun _ => ([] : List γ)) = [] := by
  induction l with
  | nil => rfl
  | cons b rest ih => simp

theorem flatMap_swap_perm {β γ δ : Type} (l1 : List β) (l2 : List γ) (F : β → γ → List δ) :
    (l1.flatMap (fun a => l2.flatMap (F a))).Perm
      (l2.flatMap (fun b => l1.flatMap (fun a => F a b))) := by
  induction l1 with
  | nil => simp [flatMap_nil_fun]
  | cons a rest ih =>
    simp only [List.flatMap_cons]
    exact (List.Perm.append_left _ ih).trans
      (List.flatMap_append_perm l2 (F a) (fun b => rest.flatMap (fun a => F a b)))

/-- The positions visited by the threads of a block with strided indexing, taken
thread by thread, are a rearrangement of `0, ..., steps * threads * vector - 1`. -/
theorem strided_positions_perm (num_threads_x steps vector_size : Nat) :
    ((List.range num_threads_x).flatMap (fun t =>
      (List.range steps).flatMap (fun j =>
        (List.range vector_size).map
          (fun i => j * num_threads_x * vector_size + i + t * vector_size)))).Perm
      (List.range (steps * num_threads_x * vector_size)) := by
  refine (flatMap_swap_perm _ _ _).trans ?_
  have hinner : ∀ j t, (List.range vector_size).map
      (fun i => j * num_threads_x * vector_size + i + t * vector_size) =
      (List.range vector_size).map (fun i => (j * num_threads_x + t) * vector_size + i) := by
    intro j t
    apply List.map_congr_left
    intro i _
    ring
  simp only [hinner]
  have hassoc : ((List.range steps).flatMap (fun j =>
      (List.range num_threads_x).flatMap (fun t =>
        (List.range vector_size).map (fun i => (j * num_threads_x + t) * vector_size + i)))) =
      ((List.range steps).flatMap (fun j =>
        (List.range num_threads_x).map (fun t => j * num_threads_x + t))).flatMap
        (fun q => (List.range vector_size).map (fun i => q * vector_size + i)) := by
    rw [List.flatMap_assoc]
    congr 1
    funext j
    rw [List.flatMap_map]
  rw [hassoc, range_row_major, range_row_major]

theorem filterMap_if_none {β γ : Type} (l : List β) (c : β → Bool) (g : β → γ) :
    l.filterMap (fun i => if c i then none else some (g i)) =
      (l.filter (fun i => !c i)).map g := by
  induction l with
  | nil => rfl
  | cons b rest ih =>
    rw [List.filterMap_cons]
    cases hc : c b
    · simp [List.filter_cons, hc, ih]
    · simp [List.filter_cons, hc, ih]

/-- The `x_loc` values handed out by `UnrollInnerTileLoop`: the positions
`j * step_x * vector_size + i + start_offset_x`, kept when no check is made or
the position lies in the tile. -/
theorem UnrollInnerTileLoop_x_loc (check_x_tile_bounds : Bool)
    (x_num_steps step_x vector_size start_offset_x tile_width : Nat) :
    (UnrollInnerTileLoop check_x_tile_bounds x_num_steps step_x vector_size start_offset_x
        tile_width).map Prod.fst =
      ((List.range (x_num_steps / vector_size)).flatMap (fun j =>
        (List.range vector_size).map
          (fun i => j * step_x * vector_size + i + start_offset_x))).filter
        (fun x => !check_x_tile_bounds || decide (x < tile_width)) := by
  unfold UnrollInnerTileLoop
  rw [List.map_flatMap, List.filter_flatMap]
  congr 1
  funext j
  rw [filterMap_if_none, List.map_map, List.filter_map]
  congr 1
  apply List.filter_congr
  intro i _
  cases check_x_tile_bounds <;> simp

theorem ceilOfRatio_one (t : Nat) (ht : 1 ≤ t) : ceilOfRatio 1 t = 1 := by
  unfold ceilOfRatio
  have : 1 + t - 1 = t := by omega
  rw [this, Nat.div_self (by omega)]

theorem ceilOfRatio_bounds (N T : Nat) (hN : 1 ≤ N) (hT : 1 ≤ T) :
    1 ≤ ceilOfRatio N T ∧ (ceilOfRatio N T - 1) * T < N ∧ N ≤ ceilOfRatio N T * T := by
  unfold ceilOfRatio
  have hdm := Nat.div_add_mod (N + T - 1) T
  have hmod : (N + T - 1) % T < T := Nat.mod_lt _ (by omega)
  have hpos : 1 ≤ (N + T - 1) / T := (Nat.one_le_div_iff (by omega)).mpr (by omega)
  obtain ⟨q, hq⟩ : ∃ q, (N + T - 1) / T = q + 1 := ⟨(N + T - 1) / T - 1, by omega⟩
  rw [hq] at hdm ⊢
  simp only [Nat.add_sub_cancel]
  have h1 : T * (q + 1) = T * q + T := by ring
  have h2 : (q + 1) * T = T * q + T := by ring
  have h3 : q * T = T * q := by ring
  refine ⟨by omega, by omega, by omega⟩

theorem tileWidth_le (N T b : Nat) (hN : 1 ≤ N) (hT : 1 ≤ T) : tileWidth N T b ≤ T := by
  unfold tileWidth
  obtain ⟨h1, h2, h3⟩ := ceilOfRatio_bounds N T hN hT
  split
  · have : ceilOfRatio N T * T = (ceilOfRatio N T - 1) * T + T := by
      have : ceilOfRatio N T = (ceilOfRatio N T - 1) + 1 := by omega
      conv_lhs => rw [this]
      ring
    omega
  · exact le_refl _

theorem tileWidth_of_dvd (N T b : Nat) (hN : 1 ≤ N) (hT : 1 ≤ T) (hdvd : N % T = 0) :
    tileWidth N T b = T := by
  unfold tileWidth
  obtain ⟨h1, h2, h3⟩ := ceilOfRatio_bounds N T hN hT
  split
  · obtain ⟨k, hk⟩ := Nat.dvd_of_mod_eq_zero hdvd
    have hc : ceilOfRatio N T * T = (ceilOfRatio N T - 1) * T + T := by
      have : ceilOfRatio N T = (ceilOfRatio N T - 1) + 1 := by omega
      conv_lhs => rw [this]
      ring
    have hkT : N = k * T := by rw [hk]; ring
    have hlt : (ceilOfRatio N T - 1) * T < k * T := by omega
    have hle : k * T ≤ ((ceilOfRatio N T - 1) + 1) * T := by
      have : ((ceilOfRatio N T - 1) + 1) * T = (ceilOfRatio N T - 1) * T + T := by ring
      omega
    have hk1 : ceilOfRatio N T - 1 < k := lt_of_mul_lt_mul_right hlt (Nat.zero_le _)
    have hk2 : k ≤ (ceilOfRatio N T - 1) + 1 := le_of_mul_le_mul_right hle (by omega)
    have hkeq : k = (ceilOfRatio N T - 1) + 1 := by omega
    have : k * T = (ceilOfRatio N T - 1) * T + T := by rw [hkeq]; ring
    omega
  · rfl

/-- `EmitTilingKernel` for a block of the single-row scheme: one tile, at X
offset `block * tile_size`, of height 1 and of the width of that block. -/
theorem EmitTilingKernel_rowScheme (N tz ty tx W : Nat) (o : IndexingOrder) (v : Nat)
    (rc : Bool) (hz : 1 ≤ tz) (hy : 1 ≤ ty) (b : Nat)
    (hb : b < ceilOfRatio N (tx * (W * kWarpSize))) :
    EmitTilingKernel (rowScheme N tz ty tx W o v rc) b =
      { output_tile_bounds_y := 1
        output_tile_bounds_x := tileWidth N (tx * (W * kWarpSize)) b
        tile_origin := ⟨0, 0, b * (tx * (W * kWarpSize))⟩
        tiles := [⟨0, 0, b * (tx * (W * kWarpSize))⟩] } := by
  have h1z := ceilOfRatio_one tz hz
  have h1y := ceilOfRatio_one ty hy
  unfold EmitTilingKernel
  simp only [rowScheme, KernelMappingScheme.dims_in_blocks, h1z, h1y, Nat.one_mul, Nat.mod_one,
    Nat.div_eq_of_lt hb, Nat.mod_eq_of_lt hb, Nat.zero_mul, Nat.sub_self, Nat.zero_div,
    if_true, Nat.sub_zero, tileWidth]
  congr 1
  split
  · rfl
  · rfl

theorem y_loop_single (ty : IndexType) : ceil_of_ratio ty (subWrapped ty 1 0) 1 = 1 := by
  cases ty <;> norm_num [ceil_of_ratio, subWrapped, IndexType.bits]

/-- The positions of `strided_positions_perm` for one thread lie below the tile
size. -/
theorem strided_position_lt (ntx J v tx t x : Nat) (ht : t < ntx) (hJ : J * v ≤ tx)
    (hx : x ∈ (List.range J).flatMap (fun j =>
      (List.range v).map (fun i => j * ntx * v + i + t * v))) :
    x < tx * ntx := by
  simp only [List.mem_flatMap, List.mem_map, List.mem_range] at hx
  obtain ⟨j, hj, i, hi, rfl⟩ := hx
  have h1 : t * v + v ≤ ntx * v := by
    have : (t + 1) * v ≤ ntx * v := Nat.mul_le_mul_right v (by omega)
    have h2 : (t + 1) * v = t * v + v := by ring
    omega
  have h3 : j * ntx * v + ntx * v ≤ J * ntx * v := by
    have : (j + 1) * (ntx * v) ≤ J * (ntx * v) := Nat.mul_le_mul_right _ (by omega)
    have h4 : (j + 1) * (ntx * v) = j * ntx * v + ntx * v := by ring
    have h5 : J * (ntx * v) = J * ntx * v := by ring
    omega
  have h6 : J * ntx * v ≤ tx * ntx := by
    have : J * v * ntx ≤ tx * ntx := Nat.mul_le_mul_right ntx hJ
    have h7 : J * v * ntx = J * ntx * v := by ring
    omega
  omega

/-- The elements visited by thread `t` in the tile at `origin` of the single-row
scheme: the strided positions of the thread that lie inside the tile width. -/
theorem EmitTile_rowScheme (N tz ty tx W : Nat) (o : IndexingOrder) (v : Nat) (rc : Bool)
    (index_ty : IndexType) (origin : Dim3) (t w : Nat)
    (hW : 1 ≤ W) (ht : t < W * kWarpSize) (ho : o ≠ .LinearIndexingX)
    (hstart : GetStartOffsetX (rowScheme N tz ty tx W o v rc) t = t * v)
    (hJ : tx / v * v ≤ tx)
    (hfit : N % (tx * (W * kWarpSize)) = 0 → w = tx * (W * kWarpSize)) :
    (EmitTile (rowScheme N tz ty tx W o v rc) index_ty origin
        (EmitThreadIdInfo (W * kWarpSize) t) 1 w).map (fun e => e.index) =
      (((List.range (tx / v)).flatMap (fun j =>
          (List.range v).map (fun i => j * (W * kWarpSize) * v + i + t * v))).filter
        (fun x => decide (x < w))).map
        (fun x => (⟨origin.z, origin.y, origin.x + x⟩ : Dim3)) := by
  have hntx : 0 < W * kWarpSize := by
    have : (0 : Nat) < kWarpSize := by norm_num [kWarpSize]
    positivity
  have hsteps : tx * (W * kWarpSize) / (W * kWarpSize) = tx := Nat.mul_div_cancel _ hntx
  have hbound : ∀ x ∈ (List.range (tx / v)).flatMap (fun j =>
      (List.range v).map (fun i => j * (W * kWarpSize) * v + i + t * v)),
      x < tx * (W * kWarpSize) :=
    fun x hx => strided_position_lt (W * kWarpSize) (tx / v) v tx t x ht hJ hx
  have hfilter : ∀ (check : Bool), (check = false → w = tx * (W * kWarpSize)) →
      ((List.range (tx / v)).flatMap (fun j =>
        (List.range v).map (fun i => j * (W * kWarpSize) * v + i + t * v))).filter
        (fun x => !check || decide (x < w)) =
      ((List.range (tx / v)).flatMap (fun j =>
        (List.range v).map (fun i => j * (W * kWarpSize) * v + i + t * v))).filter
        (fun x => decide (x < w)) := by
    intro check hcheck
    apply List.filter_congr
    intro x hx
    cases check
    · have := hbound x hx
      simp [hcheck rfl, this]
    · simp
  have hunroll : ∀ (check : Bool), (check = false → w = tx * (W * kWarpSize)) →
      ((UnrollInnerTileLoop check tx (W * kWarpSize) v (t * v) w).map (fun e =>
        ({ index := ⟨origin.z, origin.y, origin.x + e.1⟩,
           y_loc := 0, x_loc := e.1, x_iter_num := e.2 } : TileElement))).map
        (fun e => e.index) =
      (((List.range (tx / v)).flatMap (fun j =>
          (List.range v).map (fun i => j * (W * kWarpSize) * v + i + t * v))).filter
        (fun x => decide (x < w))).map
        (fun x => (⟨origin.z, origin.y, origin.x + x⟩ : Dim3)) := by
    intro check hcheck
    rw [← hfilter check hcheck, ← UnrollInnerTileLoop_x_loc, List.map_map, List.map_map]
    rfl
  have hnx : (rowScheme N tz ty tx W o v rc).num_threads_x = W * kWarpSize := rfl
  have hny : (rowScheme N tz ty tx W o v rc).num_threads_y = 1 := rfl
  have hts : (rowScheme N tz ty tx W o v rc).tile_sizes.x = tx * (W * kWarpSize) := rfl
  have hvs : (rowScheme N tz ty tx W o v rc).vector_size = v := rfl
  have hio : (rowScheme N tz ty tx W o v rc).indexing_order = o := rfl
  have hdx : (rowScheme N tz ty tx W o v rc).dims_in_elems.x = N := rfl
  have hrc : (rowScheme N tz ty tx W o v rc).row_contiguous = rc := rfl
  have hrange1 : List.range 1 = [0] := rfl
  unfold EmitTile
  simp only [hnx, hny, hts, hvs, hio, hdx, hrc, EmitThreadIdInfo, Nat.mod_eq_of_lt ht,
    Nat.div_eq_of_lt ht, hstart, hsteps, y_loop_single, hrange1, List.flatMap_cons,
    List.flatMap_nil, List.append_nil, Nat.zero_mul, Nat.zero_mod, Nat.add_zero, if_neg ho]
  split
  · next hcond =>
    split
    · next heq => exact hunroll false (fun _ => heq.symm)
    · exact hunroll true (fun h => by cases h)
  · next hcond =>
    apply hunroll
    intro hfalse
    apply hfit
    simp only [Bool.not_eq_false', Bool.and_eq_true, decide_eq_true_eq] at hfalse
    exact hfalse.1

theorem range_filter_lt (n w : Nat) (hw : w ≤ n) :
    (List.range n).filter (fun x => decide (x < w)) = List.range w := by
  obtain ⟨k, rfl⟩ : ∃ k, n = w + k := ⟨n - w, by omega⟩
  rw [List.range_add, List.filter_append]
  have h1 : (List.range w).filter (fun x => decide (x < w)) = List.range w := by
    apply List.filter_eq_self.mpr
    intro x hx
    simpa using List.mem_range.mp hx
  have h2 : ((List.range k).map (fun x => w + x)).filter (fun x => decide (x < w)) = [] := by
    apply List.filter_eq_nil_iff.mpr
    intro x hx
    simp only [List.mem_map, List.mem_range] at hx
    obtain ⟨i, _, rfl⟩ := hx
    simp
  rw [h1, h2, List.append_nil]

/-- The tiles of the blocks, side by side, cover `0, ..., N - 1` in order. -/
theorem blocks_cover_range (N T : Nat) (hN : 1 ≤ N) (hT : 1 ≤ T) :
    (List.range (ceilOfRatio N T)).flatMap (fun b =>
      (List.range (tileWidth N T b)).map (fun x => b * T + x)) = List.range N := by
  obtain ⟨h1, h2, h3⟩ := ceilOfRatio_bounds N T hN hT
  obtain ⟨k, hk⟩ : ∃ k, ceilOfRatio N T = k + 1 := ⟨ceilOfRatio N T - 1, by omega⟩
  have hfirst : (List.range k).flatMap (fun b =>
      (List.range (tileWidth N T b)).map (fun x => b * T + x)) =
      (List.range k).flatMap (fun b => (List.range T).map (fun x => b * T + x)) := by
    apply List.flatMap_congr
    intro b hb
    have hbk : b < k := List.mem_range.mp hb
    have : tileWidth N T b = T := by
      unfold tileWidth
      rw [if_neg (by omega)]
    rw [this]
  have hlast : tileWidth N T k = N - k * T := by
    unfold tileWidth
    rw [if_pos (by omega), hk]
    simp
  rw [hk, List.range_succ, List.flatMap_append, hfirst, range_row_major]
  simp only [List.flatMap_cons, List.flatMap_nil, List.append_nil, hlast]
  have hkT : k * T < N := by rw [hk] at h2; simpa using h2
  have hN' : N = k * T + (N - k * T) := by omega
  conv_rhs => rw [hN', List.range_add]

/-- The atomic update of a block of the single-row scheme: row 0 receives the
fold of the input elements of the block's tile. -/
theorem rowReductionBlock_rowScheme {α : Type} {reducer : α → α → α} {initial_value : α}
    (h : ReducerLaws reducer initial_value) (N tz ty tx W : Nat) (o : IndexingOrder)
    (v : Nat) (rc : Bool) (index_ty : IndexType) (input : Dim3 → α)
    (hN : 1 ≤ N) (hz : 1 ≤ tz) (hy : 1 ≤ ty) (hx : 1 ≤ tx) (hW : 1 ≤ W)
    (hW32 : W ≤ kWarpSize)
    (ho : (o = .StridedIndexingX ∧ v = 1) ∨ (o = .StridedLinearIndexingX ∧ v ∣ tx ∧ 1 ≤ v))
    (b : Nat) (hb : b < ceilOfRatio N (tx * (W * kWarpSize))) :
    rowReductionBlock (rowScheme N tz ty tx W o v rc) index_ty reducer initial_value input b =
      (0, ((List.range (tileWidth N (tx * (W * kWarpSize)) b)).map
        (fun x => input ⟨0, 0, b * (tx * (W * kWarpSize)) + x⟩)).foldl reducer initial_value) := by
  have hntx : 1 ≤ W * kWarpSize := by
    have : 1 ≤ kWarpSize := by norm_num [kWarpSize]
    exact Nat.mul_le_mul hW this
  have hTS : 1 ≤ tx * (W * kWarpSize) := Nat.mul_le_mul hx hntx
  have hlin : o ≠ .LinearIndexingX := by
    rcases ho with ⟨rfl, _⟩ | ⟨rfl, _⟩ <;> simp
  have hv : 1 ≤ v := by
    rcases ho with ⟨_, rfl⟩ | ⟨_, _, hv⟩
    · exact le_refl _
    · exact hv
  have hdvd : v ∣ tx := by
    rcases ho with ⟨_, rfl⟩ | ⟨_, hd, _⟩
    · exact one_dvd _
    · exact hd
  have hJ : tx / v * v = tx := Nat.div_mul_cancel hdvd
  have hstart : ∀ t, GetStartOffsetX (rowScheme N tz ty tx W o v rc) t = t * v := by
    intro t
    rcases ho with ⟨rfl, rfl⟩ | ⟨rfl, _⟩
    · simp [GetStartOffsetX, rowScheme]
    · simp [GetStartOffsetX, rowScheme]
  have hwidth := tileWidth_le N (tx * (W * kWarpSize)) b hN hTS
  unfold rowReductionBlock
  rw [EmitTilingKernel_rowScheme N tz ty tx W o v rc hz hy b hb]
  have hnx : (rowScheme N tz ty tx W o v rc).num_threads_x = W * kWarpSize := rfl
  simp only [hnx, Nat.zero_div, Nat.add_zero]
  rw [rowEpilogueBlockAccum_eq_fold h W hW hW32]
  congr 1
  have hthread : ∀ t ∈ List.range (W * kWarpSize),
      partialResultOfThread (rowScheme N tz ty tx W o v rc) index_ty reducer initial_value
        input b t =
      ((((List.range (tx / v)).flatMap (fun j =>
          (List.range v).map (fun i => j * (W * kWarpSize) * v + i + t * v))).filter
        (fun x => decide (x < tileWidth N (tx * (W * kWarpSize)) b))).map
        (fun x => input ⟨0, 0, b * (tx * (W * kWarpSize)) + x⟩)).foldl reducer
        initial_value := by
    intro t ht
    have ht' : t < W * kWarpSize := List.mem_range.mp ht
    unfold partialResultOfThread reductionThreadElements
    rw [EmitTilingKernel_rowScheme N tz ty tx W o v rc hz hy b hb]
    simp only [hnx, List.flatMap_cons, List.flatMap_nil, List.append_nil]
    have hmap := EmitTile_rowScheme N tz ty tx W o v rc index_ty
      ⟨0, 0, b * (tx * (W * kWarpSize))⟩ t (tileWidth N (tx * (W * kWarpSize)) b) hW ht' hlin
      (hstart t) (le_of_eq hJ)
      (fun hfit => tileWidth_of_dvd N (tx * (W * kWarpSize)) b hN hTS hfit)
    have hfold : ∀ (l : List TileElement) (a : α),
        l.foldl (fun partial_result e => reducer partial_result (input e.index)) a =
          ((l.map (fun e => e.index)).map input).foldl reducer a := by
      intro l
      induction l with
      | nil => intro a; rfl
      | cons e rest ih => intro a; simp only [List.foldl_cons, List.map_cons, ih]
    rw [hfold, hmap, List.map_map]
    rfl
  rw [List.map_congr_left hthread]
  have hflat : ((List.range (W * kWarpSize)).map (fun t =>
      ((((List.range (tx / v)).flatMap (fun j =>
          (List.range v).map (fun i => j * (W * kWarpSize) * v + i + t * v))).filter
        (fun x => decide (x < tileWidth N (tx * (W * kWarpSize)) b))).map
        (fun x => input ⟨0, 0, b * (tx * (W * kWarpSize)) + x⟩)).foldl reducer
        initial_value)).foldl reducer initial_value =
      (((((List.range (W * kWarpSize)).flatMap (fun t =>
        (List.range (tx / v)).flatMap (fun j =>
          (List.range v).map (fun i => j * (W * kWarpSize) * v + i + t * v)))).filter
        (fun x => decide (x < tileWidth N (tx * (W * kWarpSize)) b))).map
        (fun x => input ⟨0, 0, b * (tx * (W * kWarpSize)) + x⟩))).foldl reducer
        initial_value := by
    rw [List.filter_flatMap, List.map_flatMap, List.flatMap_def, foldl_reducer_flatten h,
      List.map_map]
    rfl
  rw [hflat]
  have hperm := ((strided_positions_perm (W * kWarpSize) (tx / v) v).filter
    (fun x => decide (x < tileWidth N (tx * (W * kWarpSize)) b))).map
    (fun x => input ⟨0, 0, b * (tx * (W * kWarpSize)) + x⟩)
  rw [foldl_reducer_perm h hperm]
  have hsize : tx / v * (W * kWarpSize) * v = tx * (W * kWarpSize) := by
    calc tx / v * (W * kWarpSize) * v = (tx / v * v) * (W * kWarpSize) := by ring
      _ = tx * (W * kWarpSize) := by rw [hJ]
  rw [hsize, range_filter_lt _ _ hwidth]

theorem rowReductionKernel_row_zero {α : Type} (scheme : KernelMappingScheme)
    (index_ty : IndexType) (reducer : α → α → α) (initial_value : α) (input : Dim3 → α)
    (value : Nat → α) (block_order : List Nat)
    (hblocks : ∀ b ∈ block_order,
      rowReductionBlock scheme index_ty reducer initial_value input b = (0, value b))
    (output : Nat → α) :
    rowReductionKernel scheme index_ty reducer initial_value input block_order output 0 =
      (block_order.map value).foldl reducer (output 0) := by
  unfold rowReductionKernel
  induction block_order generalizing output with
  | nil => rfl
  | cons b rest ih =>
    have hb := hblocks b (List.mem_cons_self _ _)
    rw [List.foldl_cons, ih (fun b1 hb1 => hblocks b1 (List.mem_cons_of_mem _ hb1))]
    generalize rowReductionBlock scheme index_ty reducer initial_value input b = u at hb
    subst hb
    simp only [Function.update_same, List.map_cons, List.foldl_cons]

/-- The output of the kernel for a single row of `N` elements is the sequential
fold of the row, whatever the order in which the atomic updates of the blocks
take effect. -/
theorem rowReductionKernel_rowScheme {α : Type} {reducer : α → α → α} {initial_value : α}
    (h : ReducerLaws reducer initial_value) (N tz ty tx W : Nat) (o : IndexingOrder)
    (v : Nat) (rc : Bool) (index_ty : IndexType) (input : Dim3 → α)
    (hN : 1 ≤ N) (hz : 1 ≤ tz) (hy : 1 ≤ ty) (hx : 1 ≤ tx) (hW : 1 ≤ W)
    (hW32 : W ≤ kWarpSize)
    (ho : (o = .StridedIndexingX ∧ v = 1) ∨ (o = .StridedLinearIndexingX ∧ v ∣ tx ∧ 1 ≤ v))
    (block_order : List Nat)
    (hperm : block_order.Perm
      (List.range (rowScheme N tz ty tx W o v rc).GetNumberOfBlocks)) :
    rowReductionKernel (rowScheme N tz ty tx W o v rc) index_ty reducer initial_value input
        block_order (fun _ => initial_value) 0 =
      ((List.range N).map (fun x => input ⟨0, 0, x⟩)).foldl reducer initial_value := by
  have hblocks : (rowScheme N tz ty tx W o v rc).GetNumberOfBlocks =
      ceilOfRatio N (tx * (W * kWarpSize)) := by
    simp [KernelMappingScheme.GetNumberOfBlocks, KernelMappingScheme.dims_in_blocks, rowScheme,
      ceilOfRatio_one tz hz, ceilOfRatio_one ty hy]
  rw [hblocks] at hperm
  have hntx : 1 ≤ W * kWarpSize := by
    have : 1 ≤ kWarpSize := by norm_num [kWarpSize]
    exact Nat.mul_le_mul hW this
  have hTS : 1 ≤ tx * (W * kWarpSize) := Nat.mul_le_mul hx hntx
  rw [rowReductionKernel_row_zero (rowScheme N tz ty tx W o v rc) index_ty reducer
    initial_value input
    (fun b => ((List.range (tileWidth N (tx * (W * kWarpSize)) b)).map
      (fun x => input ⟨0, 0, b * (tx * (W * kWarpSize)) + x⟩)).foldl reducer initial_value)
    block_order
    (fun b hb => rowReductionBlock_rowScheme h N tz ty tx W o v rc index_ty input hN hz hy hx
      hW hW32 ho b (List.mem_range.mp (hperm.mem_iff.mp hb)))]
  rw [foldl_reducer_perm h (hperm.map _)]
  have hmap : (List.range (ceilOfRatio N (tx * (W * kWarpSize)))).map (fun b =>
      ((List.range (tileWidth N (tx * (W * kWarpSize)) b)).map
        (fun x => input ⟨0, 0, b * (tx * (W * kWarpSize)) + x⟩)).foldl reducer initial_value) =
      ((List.range (ceilOfRatio N (tx * (W * kWarpSize)))).map (fun b =>
        ((List.range (tileWidth N (tx * (W * kWarpSize)) b)).map
          (fun x => b * (tx * (W * kWarpSize)) + x)).map (fun x => input ⟨0, 0, x⟩))).map
        (fun l => l.foldl reducer initial_value) := by
    rw [List.map_map]
    apply List.map_congr_left
    intro b _
    simp only [Function.comp_def, List.map_map]
  rw [hmap, ← foldl_reducer_flatten h, ← List.flatMap_def, ← List.map_flatMap,
    blocks_cover_range N _ hN hTS]

theorem NextPowerOfTwo64_ge (v : Nat) (hv : v ≤ 2 ^ 64) : v ≤ NextPowerOfTwo64 v :=
  (log2CeilingFrom_spec v 64 0 (by simpa using hv)).1

/-- For a fan-out of at least 1 the nearest power of two is not zero and the
maximal block size `max(64, 512 / NearestPowerOfTwo(fan_out))` is a multiple of
32 between 64 and 512. -/
theorem max_block_size_cases (fan_out : Int) (h1 : 1 ≤ fan_out) (h63 : fan_out < 2 ^ 63) :
    NearestPowerOfTwo fan_out ≠ 0 ∧
      ∃ m, 2 ≤ m ∧ m ≤ 16 ∧ (max 64 (512 / NearestPowerOfTwo fan_out)).toNat = m * 32 := by
  by_cases hsmall : fan_out ≤ 12
  · interval_cases fan_out <;>
      first
      | exact ⟨by decide, 16, by decide, by decide, by decide⟩
      | exact ⟨by decide, 8, by decide, by decide, by decide⟩
      | exact ⟨by decide, 4, by decide, by decide, by decide⟩
      | exact ⟨by decide, 2, by decide, by decide, by decide⟩
  · have hbig : 13 ≤ fan_out := by omega
    have hnat : fan_out.toNat ≤ 2 ^ 64 := by
      have : (fan_out.toNat : Int) = fan_out := Int.toNat_of_nonneg (by omega)
      have h64 : ((2 ^ 64 : Nat) : Int) = 2 ^ 64 := by norm_num
      omega
    have hge := NextPowerOfTwo64_ge fan_out.toNat hnat
    have hge' : fan_out ≤ (NextPowerOfTwo64 fan_out.toNat : Nat) := by
      have : (fan_out.toNat : Int) = fan_out := Int.toNat_of_nonneg (by omega)
      have : (fan_out.toNat : Int) ≤ (NextPowerOfTwo64 fan_out.toNat : Nat) := by
        exact_mod_cast hge
      omega
    have hk : 9 ≤ NearestPowerOfTwo fan_out := by
      unfold NearestPowerOfTwo
      rw [if_neg (by omega)]
      simp only []
      split
      · omega
      · omega
    have hdiv : 512 / NearestPowerOfTwo fan_out < 57 :=
      Int.ediv_lt_of_lt_mul (by omega) (by omega)
    refine ⟨by omega, 2, by decide, by decide, ?_⟩
    rw [max_eq_left (by omega)]
    rfl

/-- The scheme that `ComputeReductionCodegenInfo` builds for a row reduction with
a fan-out of at least 1: one thread in Y, `W * 32` threads in X with
`1 ≤ W ≤ 16`, strided indexing with vector size 1 or strided-linear indexing
with vector size 2, and one partial result per thread. -/
theorem ComputeReductionCodegenInfo_row (dimensions reduction_tiling : Dim3) (fan_out : Int)
    (smallest_input_dtype_bits cc_major : Nat)
    (unrolling_column_reduction_beneficial may_prevent_vectorization row_contiguous : Bool)
    (h1 : 1 ≤ fan_out) (h63 : fan_out < 2 ^ 63) (hdx : 1 ≤ dimensions.x)
    (htx : 1 ≤ reduction_tiling.x) :
    ∃ W o v, 1 ≤ W ∧ W ≤ 16 ∧
      ((o = IndexingOrder.StridedIndexingX ∧ v = 1) ∨
        (o = IndexingOrder.StridedLinearIndexingX ∧ v = 2 ∧
          may_prevent_vectorization = false)) ∧
      ComputeReductionCodegenInfo true dimensions reduction_tiling fan_out
          smallest_input_dtype_bits cc_major unrolling_column_reduction_beneficial
          may_prevent_vectorization row_contiguous =
        some
          { mapping_scheme :=
              { dims_in_elems := dimensions
                tile_sizes := ⟨reduction_tiling.z, reduction_tiling.y * 1,
                  reduction_tiling.x * (W * kWarpSize)⟩
                num_threads_y := 1
                num_threads_x := W * kWarpSize
                indexing_order := o
                vector_size := v
                row_contiguous := row_contiguous }
            num_partial_results := 1
            is_row_reduction := true } := by
  obtain ⟨hne, m, hm2, hm16, hm⟩ := max_block_size_cases fan_out h1 h63
  obtain ⟨hc1, _, _⟩ := ceilOfRatio_bounds dimensions.x reduction_tiling.x hdx htx
  obtain ⟨hr1, _, _⟩ := ceilOfRatio_bounds (ceilOfRatio dimensions.x reduction_tiling.x)
    kWarpSize hc1 (by norm_num [kWarpSize])
  have hmin : min (max 64 (512 / NearestPowerOfTwo fan_out)).toNat
      (ceilOfRatio (ceilOfRatio dimensions.x reduction_tiling.x) kWarpSize * kWarpSize) =
      min m (ceilOfRatio (ceilOfRatio dimensions.x reduction_tiling.x) kWarpSize) *
        kWarpSize := by
    rw [hm]
    exact Nat.mul_min_mul_right _ _ _
  have hW1 : 1 ≤ min m (ceilOfRatio (ceilOfRatio dimensions.x reduction_tiling.x) kWarpSize) :=
    le_min (by omega) hr1
  have hW16 : min m (ceilOfRatio (ceilOfRatio dimensions.x reduction_tiling.x) kWarpSize) ≤ 16 :=
    le_trans (min_le_left _ _) hm16
  refine ⟨min m (ceilOfRatio (ceilOfRatio dimensions.x reduction_tiling.x) kWarpSize), ?_⟩
  unfold ComputeReductionCodegenInfo
  simp only [if_true, if_neg hne, hmin, Bool.true_and, Bool.not_true, Bool.false_and,
    Bool.false_eq_true, if_false]
  split_ifs <;>
    first
    | exact ⟨_, _, hW1, hW16, Or.inl ⟨rfl, rfl⟩, rfl⟩
    | (refine ⟨_, _, hW1, hW16, Or.inr ⟨rfl, rfl, ?_⟩, rfl⟩
       simp_all)
    | (exfalso
       simp_all)

/-- C10: for a row reduction whose reducer is commutative and associative with
the initial value as identity, and for every block size that
`ComputeReductionCodegenInfo` chooses (fan-out at least 1, any tiling), the
value that thread 0 of a block combines atomically into the output in
`EmitEpilogueForReduction` is the fold of the partial results of all threads of
the block; and for an input of shape `[1, 4096]` the output of the kernel, with
the atomic updates of the blocks in any order on top of the initialized output,
is the sequential fold of the 4096 elements. -/
theorem row_reduction_two_phase_combine {α : Type} (reducer : α → α → α) (initial_value : α)
    (h : ReducerLaws reducer initial_value) (input : Dim3 → α)
    (dimensions reduction_tiling : Dim3) (fan_out : Int)
    (smallest_input_dtype_bits cc_major : Nat)
    (unrolling_column_reduction_beneficial may_prevent_vectorization row_contiguous : Bool)
    (index_ty : IndexType)
    (h1 : 1 ≤ fan_out) (h63 : fan_out < 2 ^ 63) (hdx : 1 ≤ dimensions.x)
    (hz : 1 ≤ reduction_tiling.z) (hy : 1 ≤ reduction_tiling.y) (hx : 1 ≤ reduction_tiling.x)
    (hvec : may_prevent_vectorization = false → 2 ∣ reduction_tiling.x) :
    (∃ info, ComputeReductionCodegenInfo true dimensions reduction_tiling fan_out
          smallest_input_dtype_bits cc_major unrolling_column_reduction_beneficial
          may_prevent_vectorization row_contiguous = some info ∧
        kWarpSize ∣ info.mapping_scheme.GetThreadsPerBlock ∧
        32 ≤ info.mapping_scheme.GetThreadsPerBlock ∧
        info.mapping_scheme.GetThreadsPerBlock ≤ 512 ∧
        ∀ partial_result : Nat → α,
          rowEpilogueBlockAccum info.mapping_scheme.num_threads_x reducer initial_value
              partial_result =
            ((List.range info.mapping_scheme.GetThreadsPerBlock).map partial_result).foldl
              reducer initial_value) ∧
    (∃ info, ComputeReductionCodegenInfo true ⟨1, 1, 4096⟩ reduction_tiling fan_out
          smallest_input_dtype_bits cc_major unrolling_column_reduction_beneficial
          may_prevent_vectorization row_contiguous = some info ∧
        ∀ block_order : List Nat,
          block_order.Perm (List.range info.mapping_scheme.GetNumberOfBlocks) →
          rowReductionKernel info.mapping_scheme index_ty reducer initial_value input
              block_order (fun _ => initial_value) 0 =
            ((List.range 4096).map (fun x => input ⟨0, 0, x⟩)).foldl reducer
              initial_value) := by
  constructor
  · obtain ⟨W, o, v, hW1, hW16, _, hinfo⟩ := ComputeReductionCodegenInfo_row dimensions
      reduction_tiling fan_out smallest_input_dtype_bits cc_major
      unrolling_column_reduction_beneficial may_prevent_vectorization row_contiguous h1 h63
      hdx hx
    refine ⟨_, hinfo, ?_, ?_, ?_, ?_⟩
    · exact ⟨W, by simp [KernelMappingScheme.GetThreadsPerBlock, Nat.mul_comm]⟩
    · simp only [KernelMappingScheme.GetThreadsPerBlock, kWarpSize]
      omega
    · simp only [KernelMappingScheme.GetThreadsPerBlock, kWarpSize]
      omega
    · intro partial_result
      simp only [KernelMappingScheme.GetThreadsPerBlock, Nat.mul_one]
      exact rowEpilogueBlockAccum_eq_fold h W hW1
        (le_trans hW16 (by norm_num [kWarpSize])) partial_result
  · obtain ⟨W, o, v, hW1, hW16, ho, hinfo⟩ := ComputeReductionCodegenInfo_row ⟨1, 1, 4096⟩
      reduction_tiling fan_out smallest_input_dtype_bits cc_major
      unrolling_column_reduction_beneficial may_prevent_vectorization row_contiguous h1 h63
      (by norm_num) hx
    refine ⟨_, hinfo, ?_⟩
    intro block_order hperm
    have ho' : (o = .StridedIndexingX ∧ v = 1) ∨
        (o = .StridedLinearIndexingX ∧ v ∣ reduction_tiling.x ∧ 1 ≤ v) := by
      rcases ho with hs | ⟨hl, rfl, hmpv⟩
      · exact Or.inl hs
      · exact Or.inr ⟨hl, hvec hmpv, by norm_num⟩
    exact rowReductionKernel_rowScheme h 4096 reduction_tiling.z (reduction_tiling.y * 1)
      reduction_tiling.x W o v row_contiguous index_ty input (by norm_num) hz (by omega) hx hW1
      (le_trans hW16 (by norm_num [kWarpSize])) ho' block_order hperm

theorem row_reduction_two_phase_combine_witness :
    ∃ info, ComputeReductionCodegenInfo true ⟨1, 1, 4096⟩ ⟨1, 1, 16⟩ 1 32 7 false false false =
        some info ∧
      ∀ block_order : List Nat,
        block_order.Perm (List.range info.mapping_scheme.GetNumberOfBlocks) →
        rowReductionKernel info.mapping_scheme .i32 (fun a b : Int => a + b) 0
            (fun index => (index.x : Int)) block_order (fun _ => 0) 0 =
          ((List.range 4096).map (fun x => ((⟨0, 0, x⟩ : Dim3).x : Int))).foldl
            (fun a b : Int => a + b) 0 :=
  (row_reduction_two_phase_combine (fun a b : Int => a + b) 0
    ⟨fun a b => Int.add_comm a b, fun a b c => Int.add_assoc a b c, fun a => Int.zero_add a⟩
    (fun index => (index.x : Int)) ⟨1, 1, 4096⟩ ⟨1, 1, 16⟩ 1 32 7 false false false .i32
    (by norm_num) (by norm_num) (by norm_num) (by norm_num) (by norm_num) (by norm_num)
    (fun _ => ⟨8, rfl⟩)).2

/-! ## Warp shuffle loop: the claim on its own -/

/-- C11: `EmitFullWarpShuffleDownLoopForReduce` performs exactly the five
shuffle-down-and-combine steps with distances 16, 8, 4, 2, 1 in that order, and
for every associative, commutative reducer and every assignment of starting
values to the 32 lanes, lane 0 afterwards holds the combination of the starting
values of all 32 lanes. -/
theorem EmitFullWarpShuffleDownLoopForReduce_lane_zero {α : Type} (reducer : α → α → α)
    (hcomm : ∀ a b, reducer a b = reducer b a)
    (hassoc : ∀ a b c, reducer (reducer a b) c = reducer a (reducer b c))
    (lanes : Nat → α) :
    EmitFullWarpShuffleDownLoopForReduce reducer lanes =
        shuffleDownStep reducer 1 (shuffleDownStep reducer 2 (shuffleDownStep reducer 4
          (shuffleDownStep reducer 8 (shuffleDownStep reducer 16 lanes)))) ∧
      EmitFullWarpShuffleDownLoopForReduce reducer lanes 0 =
        ((List.range 31).map (fun l => lanes (l + 1))).foldl reducer (lanes 0) :=
  ⟨EmitFullWarpShuffleDownLoopForReduce_steps reducer lanes,
    shuffle_lane_zero reducer hcomm hassoc lanes⟩

theorem EmitFullWarpShuffleDownLoopForReduce_lane_zero_witness :
    EmitFullWarpShuffleDownLoopForReduce (fun a b : Nat => a + b) (fun lane => lane * lane) =
        shuffleDownStep (fun a b : Nat => a + b) 1 (shuffleDownStep (fun a b : Nat => a + b) 2
          (shuffleDownStep (fun a b : Nat => a + b) 4 (shuffleDownStep (fun a b : Nat => a + b) 8
            (shuffleDownStep (fun a b : Nat => a + b) 16 (fun lane => lane * lane))))) ∧
      EmitFullWarpShuffleDownLoopForReduce (fun a b : Nat => a + b) (fun lane => lane * lane) 0 =
        ((List.range 31).map (fun l => (l + 1) * (l + 1))).foldl (fun a b : Nat => a + b)
          (0 * 0) :=
  EmitFullWarpShuffleDownLoopForReduce_lane_zero (fun a b : Nat => a + b)
    (fun a b => Nat.add_comm a b) (fun a b c => Nat.add_assoc a b c) (fun lane => lane * lane)

/-! ## Reduction emitter: proofs -/

theorem push_back_fold_members (ps : List (Nat × Nat)) : ∀ (g : GroupMap) (k : Nat),
    (ps.foldl (fun g p => g.push_back p.1 p.2) g).members k =
      g.members k ++ (ps.filter (fun p => decide (p.1 = k))).map Prod.snd := by
  induction ps with
  | nil => intro g k; simp
  | cons p ps ih =>
    intro g k
    rw [List.foldl_cons, ih]
    by_cases hk : p.1 = k
    · subst hk
      simp [GroupMap.push_back]
    · have hk2 : k ≠ p.1 := fun h => hk h.symm
      simp [GroupMap.push_back, Function.update_noteq hk2, hk]

theorem push_back_fold_keys_mem (ps : List (Nat × Nat)) : ∀ (g : GroupMap) (k : Nat),
    k ∈ (ps.foldl (fun g p => g.push_back p.1 p.2) g).keys ↔
      k ∈ g.keys ∨ k ∈ ps.map Prod.fst := by
  induction ps with
  | nil => intro g k; simp
  | cons p ps ih =>
    intro g k
    rw [List.foldl_cons, ih]
    simp only [GroupMap.push_back, List.map_cons, List.mem_cons]
    by_cases hp : p.1 ∈ g.keys
    · rw [if_pos hp]
      constructor
      · rintro (h | h)
        · exact Or.inl h
        · exact Or.inr (Or.inr h)
      · rintro (h | h | h)
        · exact Or.inl h
        · exact Or.inl (h ▸ hp)
        · exact Or.inr h
    · rw [if_neg hp]
      simp only [List.mem_append, List.mem_singleton]
      tauto

theorem push_back_fold_keys_nodup (ps : List (Nat × Nat)) : ∀ (g : GroupMap),
    g.keys.Nodup → (ps.foldl (fun g p => g.push_back p.1 p.2) g).keys.Nodup := by
  induction ps with
  | nil => intro g h; exact h
  | cons p ps ih =>
    intro g h
    rw [List.foldl_cons]
    apply ih
    simp only [GroupMap.push_back]
    by_cases hp : p.1 ∈ g.keys
    · rw [if_pos hp]; exact h
    · rw [if_neg hp]
      exact List.Nodup.append h (List.nodup_singleton _) (by simpa using hp)

/-- The map `groups` after the loop: its keys are distinct, they are the values
of `Get()` of the output ids, and under a key lie, in order, the outputs whose
set has that value. -/
theorem outputGroupMap_spec (output_instructions disjoint_sets : List Nat) :
    (outputGroupMap output_instructions disjoint_sets).keys.Nodup ∧
      (∀ k, k ∈ (outputGroupMap output_instructions disjoint_sets).keys ↔
        ∃ oid, oid < output_instructions.length ∧
          output_instructions.getD (disjoint_sets.getD oid oid) 0 = k) ∧
      ∀ k, (outputGroupMap output_instructions disjoint_sets).members k =
        ((List.range output_instructions.length).filter (fun oid =>
          decide (output_instructions.getD (disjoint_sets.getD oid oid) 0 = k))).map
          (fun oid => output_instructions.getD oid 0) := by
  have hfold : outputGroupMap output_instructions disjoint_sets =
      (((List.range output_instructions.length).map (fun oid =>
        (output_instructions.getD (disjoint_sets.getD oid oid) 0,
          output_instructions.getD oid 0))).foldl
        (fun g p => g.push_back p.1 p.2) ⟨[], fun _ => []⟩) := by
    unfold outputGroupMap
    rw [List.foldl_map]
  refine ⟨?_, ?_, ?_⟩
  · rw [hfold]
    exact push_back_fold_keys_nodup _ _ List.nodup_nil
  · intro k
    rw [hfold, push_back_fold_keys_mem]
    simp only [List.not_mem_nil, false_or, List.map_map, List.mem_map, List.mem_range,
      Function.comp]
  · intro k
    rw [hfold, push_back_fold_members]
    simp only [List.nil_append, List.filter_map, List.map_map]
    rfl

theorem eqvGen_of_subset {P Q : Nat → Nat → Prop} (h : ∀ x y, P x y → Relation.EqvGen Q x y)
    (a b : Nat) (hab : Relation.EqvGen P a b) : Relation.EqvGen Q a b := by
  induction hab with
  | rel x y hxy => exact h x y hxy
  | refl x => exact Relation.EqvGen.refl x
  | symm x y _ ih => exact Relation.EqvGen.symm _ _ ih
  | trans x y z _ _ ih1 ih2 => exact Relation.EqvGen.trans _ _ _ ih1 ih2

theorem eqvGen_bounded {P : Nat → Nat → Prop} (n : Nat) (hP : ∀ x y, P x y → x < n ∧ y < n)
    (a b : Nat) (hab : Relation.EqvGen P a b) : (a < n ↔ b < n) := by
  induction hab with
  | rel x y hxy => exact ⟨fun _ => (hP x y hxy).2, fun _ => (hP x y hxy).1⟩
  | refl x => exact Iff.rfl
  | symm x y _ ih => exact ih.symm
  | trans x y z _ _ ih1 ih2 => exact ih1.trans ih2

theorem Merge_length (disjoint_sets : List Nat) (a b : Nat) :
    (UnionFind.Merge disjoint_sets a b).length = disjoint_sets.length := by
  unfold UnionFind.Merge
  simp only []
  split <;> simp

theorem Merge_getD (disjoint_sets : List Nat) (a b i : Nat) (hi : i < disjoint_sets.length) :
    (UnionFind.Merge disjoint_sets a b).getD i i =
      if disjoint_sets.getD i i = disjoint_sets.getD b b then disjoint_sets.getD a a
      else disjoint_sets.getD i i := by
  unfold UnionFind.Merge
  simp only []
  by_cases hab : disjoint_sets.getD a a = disjoint_sets.getD b b
  · rw [if_pos hab]
    by_cases hib : disjoint_sets.getD i i = disjoint_sets.getD b b
    · rw [if_pos hib, hib, hab]
    · rw [if_neg hib]
  · rw [if_neg hab]
    simp only [List.getD_eq_getElem?_getD, List.getElem?_map, List.getElem?_eq_getElem hi,
      Option.map_some', Option.getD_some]

theorem Merge_represents (n : Nat) (disjoint_sets : List Nat) (P Q : Nat → Nat → Prop)
    (a b : Nat) (ha : a < n) (hb : b < n)
    (hP : ∀ x y, P x y → x < n ∧ y < n)
    (hQ : ∀ x y, Q x y ↔ P x y ∨ (x = a ∧ y = b))
    (h : SetsRepresent n disjoint_sets (Relation.EqvGen P)) :
    SetsRepresent n (UnionFind.Merge disjoint_sets a b) (Relation.EqvGen Q) := by
  obtain ⟨hlen, hlt, hrep⟩ := h
  have hQb : ∀ x y, Q x y → x < n ∧ y < n := by
    intro x y hxy
    rcases (hQ x y).mp hxy with h1 | ⟨rfl, rfl⟩
    · exact hP x y h1
    · exact ⟨ha, hb⟩
  have hPQ : ∀ x y, Relation.EqvGen P x y → Relation.EqvGen Q x y :=
    fun x y hxy => eqvGen_of_subset (fun u v huv => Relation.EqvGen.rel _ _ ((hQ u v).mpr (Or.inl huv)))
      x y hxy
  have hpair : Relation.EqvGen Q a b := Relation.EqvGen.rel _ _ ((hQ a b).mpr (Or.inr ⟨rfl, rfl⟩))
  refine ⟨by rw [Merge_length, hlen], ?_, ?_⟩
  · intro i hi
    rw [Merge_getD _ _ _ _ (by omega)]
    split
    · exact hlt a ha
    · exact hlt i hi
  · intro i j hi hj
    rw [Merge_getD _ _ _ _ (by omega), Merge_getD _ _ _ _ (by omega)]
    constructor
    · intro heq
      by_cases hib : disjoint_sets.getD i i = disjoint_sets.getD b b
      · have h1 : Relation.EqvGen Q i b := hPQ _ _ ((hrep i b hi hb).mp hib)
        by_cases hjb : disjoint_sets.getD j j = disjoint_sets.getD b b
        · exact Relation.EqvGen.trans _ _ _ h1 (Relation.EqvGen.symm _ _ (hPQ _ _ ((hrep j b hj hb).mp hjb)))
        · rw [if_pos hib, if_neg hjb] at heq
          have h2 : Relation.EqvGen Q a j := hPQ _ _ ((hrep a j ha hj).mp heq)
          exact Relation.EqvGen.trans _ _ _ h1 (Relation.EqvGen.trans _ _ _ (Relation.EqvGen.symm _ _ hpair) h2)
      · by_cases hjb : disjoint_sets.getD j j = disjoint_sets.getD b b
        · rw [if_neg hib, if_pos hjb] at heq
          have h1 : Relation.EqvGen Q i a := hPQ _ _ ((hrep i a hi ha).mp heq)
          have h2 : Relation.EqvGen Q b j := Relation.EqvGen.symm _ _ (hPQ _ _ ((hrep j b hj hb).mp hjb))
          exact Relation.EqvGen.trans _ _ _ h1 (Relation.EqvGen.trans _ _ _ hpair h2)
        · rw [if_neg hib, if_neg hjb] at heq
          exact hPQ _ _ ((hrep i j hi hj).mp heq)
    · intro hij
      have key : ∀ x y, Relation.EqvGen Q x y → x < n → y < n →
          (if disjoint_sets.getD x x = disjoint_sets.getD b b then disjoint_sets.getD a a
            else disjoint_sets.getD x x) =
          (if disjoint_sets.getD y y = disjoint_sets.getD b b then disjoint_sets.getD a a
            else disjoint_sets.getD y y) := by
        intro x y hxy
        induction hxy with
        | rel u v huv =>
          intro hu hv
          rcases (hQ u v).mp huv with h1 | ⟨rfl, rfl⟩
          · have := (hrep u v hu hv).mpr (Relation.EqvGen.rel _ _ h1)
            rw [this]
          · rw [if_pos rfl]
            split
            · rfl
            · rfl
        | refl u => intro _ _; rfl
        | symm u v _ ih => intro hu hv; exact (ih hv hu).symm
        | trans u v w huv _ ih1 ih2 =>
          intro hu hw
          have hv : v < n := (eqvGen_bounded n hQb u v huv).mp hu
          exact (ih1 hu hv).trans (ih2 hv hw)
      exact key i j hij hi hj

theorem range_represents (n : Nat) :
    SetsRepresent n (List.range n) (Relation.EqvGen (fun _ _ => False)) := by
  have hget : ∀ i, i < n → (List.range n).getD i i = i := by
    intro i hi
    rw [List.getD_eq_getElem?_getD, List.getElem?_range hi]
    rfl
  refine ⟨List.length_range n, fun i hi => by rw [hget i hi]; exact hi, ?_⟩
  intro i j hi hj
  rw [hget i hi, hget j hj]
  constructor
  · rintro rfl
    exact Relation.EqvGen.refl _
  · intro h
    clear hi hj
    induction h with
    | rel x y hxy => exact absurd hxy id
    | refl x => rfl
    | symm x y _ ih => exact ih.symm
    | trans x y z _ _ ih1 ih2 => exact ih1.trans ih2

theorem SetsRepresent_congr (n : Nat) (disjoint_sets : List Nat) (P Q : Nat → Nat → Prop)
    (hPQ : ∀ x y, P x y → Relation.EqvGen Q x y) (hQP : ∀ x y, Q x y → Relation.EqvGen P x y)
    (h : SetsRepresent n disjoint_sets (Relation.EqvGen P)) :
    SetsRepresent n disjoint_sets (Relation.EqvGen Q) := by
  obtain ⟨hlen, hlt, hrep⟩ := h
  refine ⟨hlen, hlt, fun i j hi hj => ?_⟩
  rw [hrep i j hi hj]
  exact ⟨eqvGen_of_subset hPQ i j, eqvGen_of_subset hQP i j⟩

theorem merge_loop_represents (n first : Nat) (hfirst : first < n) :
    ∀ (rest : List Nat) (disjoint_sets : List Nat) (P : Nat → Nat → Prop),
      (∀ r ∈ rest, r < n) → (∀ x y, P x y → x < n ∧ y < n) →
      SetsRepresent n disjoint_sets (Relation.EqvGen P) →
      SetsRepresent n
        (rest.foldl (fun sets other => UnionFind.Merge sets first other) disjoint_sets)
        (Relation.EqvGen (fun x y => P x y ∨ (x = first ∧ y ∈ rest))) := by
  intro rest
  induction rest with
  | nil =>
    intro sets P _ _ h
    refine SetsRepresent_congr n sets P _ (fun x y hxy => Relation.EqvGen.rel _ _ (Or.inl hxy)) ?_ h
    intro x y hxy
    rcases hxy with h1 | ⟨_, h2⟩
    · exact Relation.EqvGen.rel _ _ h1
    · cases h2
  | cons r rest ih =>
    intro sets P hrest hP h
    rw [List.foldl_cons]
    have hr : r < n := hrest r (List.mem_cons_self _ _)
    have h1 := Merge_represents n sets P (fun x y => P x y ∨ (x = first ∧ y = r)) first r
      hfirst hr hP (fun _ _ => Iff.rfl) h
    have h2 := ih (UnionFind.Merge sets first r) (fun x y => P x y ∨ (x = first ∧ y = r))
      (fun q hq => hrest q (List.mem_cons_of_mem _ hq))
      (by
        intro x y hxy
        rcases hxy with h3 | ⟨rfl, rfl⟩
        · exact hP x y h3
        · exact ⟨hfirst, hr⟩)
      h1
    refine SetsRepresent_congr n _ _ _ ?_ ?_ h2
    · intro x y hxy
      apply Relation.EqvGen.rel
      rcases hxy with (h3 | ⟨h3, h4⟩) | ⟨h3, h4⟩
      · exact Or.inl h3
      · exact Or.inr ⟨h3, h4 ▸ List.mem_cons_self _ _⟩
      · exact Or.inr ⟨h3, List.mem_cons_of_mem _ h4⟩
    · intro x y hxy
      apply Relation.EqvGen.rel
      rcases hxy with h3 | ⟨h3, h4⟩
      · exact Or.inl (Or.inl h3)
      · rcases List.mem_cons.mp h4 with h5 | h5
        · exact Or.inl (Or.inr ⟨h3, h5⟩)
        · exact Or.inr ⟨h3, h5⟩

theorem mergeReached_represents (n : Nat) (reached : List Nat) (disjoint_sets : List Nat)
    (P : Nat → Nat → Prop) (hreached : ∀ r ∈ reached, r < n)
    (hP : ∀ x y, P x y → x < n ∧ y < n) (h : SetsRepresent n disjoint_sets (Relation.EqvGen P)) :
    SetsRepresent n (mergeReached disjoint_sets reached)
      (Relation.EqvGen (fun x y => P x y ∨ (x ∈ reached ∧ y ∈ reached))) := by
  cases reached with
  | nil =>
    refine SetsRepresent_congr n _ P _ (fun x y hxy => Relation.EqvGen.rel _ _ (Or.inl hxy)) ?_ h
    intro x y hxy
    rcases hxy with h1 | ⟨h2, _⟩
    · exact Relation.EqvGen.rel _ _ h1
    · cases h2
  | cons first rest =>
    have hfirst : first < n := hreached first (List.mem_cons_self _ _)
    have h1 := merge_loop_represents n first hfirst rest disjoint_sets P
      (fun r hr => hreached r (List.mem_cons_of_mem _ hr)) hP h
    refine SetsRepresent_congr n _ _ _ ?_ ?_ h1
    · intro x y hxy
      apply Relation.EqvGen.rel
      rcases hxy with h3 | ⟨h3, h4⟩
      · exact Or.inl h3
      · exact Or.inr ⟨h3 ▸ List.mem_cons_self _ _, List.mem_cons_of_mem _ h4⟩
    · intro x y hxy
      rcases hxy with h3 | ⟨h3, h4⟩
      · exact Relation.EqvGen.rel _ _ (Or.inl h3)
      · have star : ∀ z, z ∈ first :: rest →
            Relation.EqvGen (fun x y => P x y ∨ (x = first ∧ y ∈ rest)) first z := by
          intro z hz
          rcases List.mem_cons.mp hz with h5 | h5
          · rw [h5]; exact Relation.EqvGen.refl _
          · exact Relation.EqvGen.rel _ _ (Or.inr ⟨rfl, h5⟩)
        exact Relation.EqvGen.trans _ _ _ (Relation.EqvGen.symm _ _ (star x h3)) (star y h4)

theorem mem_reached_output_ids (computation : List FusedInstruction)
    (IsReachable : Nat → Nat → Bool) (output_instructions : List Nat) (instr oid : Nat) :
    oid ∈ reached_output_ids computation IsReachable output_instructions instr ↔
      ReachesOutput computation IsReachable output_instructions instr oid := by
  unfold reached_output_ids ReachesOutput
  rw [List.mem_filter, List.mem_range]
  constructor
  · rintro ⟨h1, h2⟩
    refine ⟨h1, ?_⟩
    split at h2
    · cases h2
    · rename_i hc
      refine ⟨?_, h2⟩
      intro hcon
      apply hc
      simp [hcon.1, hcon.2]
  · rintro ⟨h1, h2, h3⟩
    refine ⟨h1, ?_⟩
    split
    · rename_i hc
      exfalso
      apply h2
      simpa using hc
    · exact h3

theorem instr_loop_represents (computation : List FusedInstruction)
    (IsReachable : Nat → Nat → Bool) (output_instructions : List Nat) :
    ∀ (instrs done : List Nat) (disjoint_sets : List Nat),
      SetsRepresent output_instructions.length disjoint_sets
        (Relation.EqvGen (fun x y => ∃ instr ∈ done,
          ReachesOutput computation IsReachable output_instructions instr x ∧
          ReachesOutput computation IsReachable output_instructions instr y)) →
      SetsRepresent output_instructions.length
        (instrs.foldl (fun sets instr => mergeReached sets
          (reached_output_ids computation IsReachable output_instructions instr)) disjoint_sets)
        (Relation.EqvGen (fun x y => ∃ instr ∈ done ++ instrs,
          ReachesOutput computation IsReachable output_instructions instr x ∧
          ReachesOutput computation IsReachable output_instructions instr y)) := by
  intro instrs
  induction instrs with
  | nil => intro done sets h; simpa using h
  | cons instr instrs ih =>
    intro done sets h
    rw [List.foldl_cons]
    have h1 := mergeReached_represents output_instructions.length
      (reached_output_ids computation IsReachable output_instructions instr) sets _
      (fun r hr => ((mem_reached_output_ids _ _ _ _ _).mp hr).1)
      (fun x y hxy => by
        obtain ⟨_, _, hx, hy⟩ := hxy
        exact ⟨hx.1, hy.1⟩) h
    have h2 : SetsRepresent output_instructions.length
        (mergeReached sets (reached_output_ids computation IsReachable output_instructions instr))
        (Relation.EqvGen (fun x y => ∃ i ∈ done ++ [instr],
          ReachesOutput computation IsReachable output_instructions i x ∧
          ReachesOutput computation IsReachable output_instructions i y)) := by
      refine SetsRepresent_congr _ _ _ _ ?_ ?_ h1
      · intro x y hxy
        apply Relation.EqvGen.rel
        rcases hxy with ⟨i, hi, hx, hy⟩ | ⟨hx, hy⟩
        · exact ⟨i, List.mem_append_left _ hi, hx, hy⟩
        · exact ⟨instr, by simp, (mem_reached_output_ids _ _ _ _ _).mp hx,
            (mem_reached_output_ids _ _ _ _ _).mp hy⟩
      · rintro x y ⟨i, hi, hx, hy⟩
        apply Relation.EqvGen.rel
        rcases List.mem_append.mp hi with h3 | h3
        · exact Or.inl ⟨i, h3, hx, hy⟩
        · simp only [List.mem_singleton] at h3
          subst h3
          exact Or.inr ⟨(mem_reached_output_ids _ _ _ _ _).mpr hx,
            (mem_reached_output_ids _ _ _ _ _).mpr hy⟩
    have h3 := ih (done ++ [instr]) _ h2
    simpa [List.append_assoc] using h3

/-- After the loop over the fused instructions two output ids have the same
value of `Get()` exactly when a chain of linked outputs connects them. -/
theorem mergedOutputSets_represents (computation : List FusedInstruction)
    (IsReachable : Nat → Nat → Bool) (output_instructions : List Nat) :
    SetsRepresent output_instructions.length
      (mergedOutputSets computation IsReachable output_instructions)
      (Relation.EqvGen (LinkedOutputs computation IsReachable output_instructions)) := by
  have h0 : SetsRepresent output_instructions.length (List.range output_instructions.length)
      (Relation.EqvGen (fun x y => ∃ instr ∈ ([] : List Nat),
        ReachesOutput computation IsReachable output_instructions instr x ∧
        ReachesOutput computation IsReachable output_instructions instr y)) := by
    refine SetsRepresent_congr _ _ _ _ ?_ ?_ (range_represents _)
    · intro x y h; exact absurd h id
    · rintro x y ⟨i, hi, _⟩; cases hi
  have h1 := instr_loop_represents computation IsReachable output_instructions
    (List.range computation.length) [] _ h0
  unfold mergedOutputSets
  refine SetsRepresent_congr _ _ _ _ ?_ ?_ h1
  · rintro x y ⟨i, hi, hx, hy⟩
    exact Relation.EqvGen.rel _ _ ⟨i, by simpa using hi, hx, hy⟩
  · rintro x y ⟨i, hi, hx, hy⟩
    exact Relation.EqvGen.rel _ _ ⟨i, by simpa using hi, hx, hy⟩

theorem nodup_getD_inj (l : List Nat) (hnd : l.Nodup) (i j : Nat) (hi : i < l.length)
    (hj : j < l.length) (h : l.getD i 0 = l.getD j 0) : i = j := by
  simp only [List.getD_eq_getElem?_getD, List.getElem?_eq_getElem hi,
    List.getElem?_eq_getElem hj, Option.getD_some] at h
  exact (List.Nodup.getElem_inj_iff hnd).mp h

theorem mem_outputGroupMap_members (output_instructions disjoint_sets : List Nat)
    (hnd : output_instructions.Nodup) (a k : Nat) (ha : a < output_instructions.length) :
    output_instructions.getD a 0 ∈
        (outputGroupMap output_instructions disjoint_sets).members k ↔
      output_instructions.getD (disjoint_sets.getD a a) 0 = k := by
  obtain ⟨_, _, hmem⟩ := outputGroupMap_spec output_instructions disjoint_sets
  rw [hmem k]
  simp only [List.mem_map, List.mem_filter, List.mem_range, decide_eq_true_eq]
  constructor
  · rintro ⟨oid, ⟨hoid, hkey⟩, hout⟩
    have := nodup_getD_inj output_instructions hnd oid a hoid ha hout
    rw [← this]
    exact hkey
  · intro hkey
    exact ⟨a, ⟨ha, hkey⟩, rfl⟩

/-- C14 (amended): for distinct outputs, two outputs lie in the same group exactly
when a chain of outputs connects them in which every two neighbours are reached
by a common fused instruction, where a fused instruction that is a (broadcasted)
constant or scalar does not count as reaching a reduce output. -/
theorem DivideOutputInstructionsIntoGroups_components (computation : List FusedInstruction)
    (IsReachable : Nat → Nat → Bool) (iteration_order : List Nat → List Nat)
    (output_instructions : List Nat)
    (horder : ∀ keys, (iteration_order keys).Perm keys)
    (hne : output_instructions ≠ []) (hnd : output_instructions.Nodup) :
    ∃ instr_groups, DivideOutputInstructionsIntoGroups computation IsReachable
        iteration_order output_instructions = some instr_groups ∧
      ∀ a b, a < output_instructions.length → b < output_instructions.length →
        ((∃ group ∈ instr_groups, output_instructions.getD a 0 ∈ group ∧
            output_instructions.getD b 0 ∈ group) ↔
          Relation.EqvGen (LinkedOutputs computation IsReachable output_instructions) a b) := by
  match output_instructions, hne, hnd with
  | [output], _, _ =>
    refine ⟨[[output]], rfl, ?_⟩
    intro a b ha hb
    simp only [List.length_singleton, Nat.lt_one_iff] at ha hb
    subst ha
    subst hb
    constructor
    · intro _
      exact Relation.EqvGen.refl _
    · intro _
      exact ⟨[output], by simp, by simp, by simp⟩
  | o1 :: o2 :: rest, _, hnd =>
    refine ⟨_, rfl, ?_⟩
    intro a b ha hb
    obtain ⟨hlen, hlt, hrep⟩ := mergedOutputSets_represents computation IsReachable
      (o1 :: o2 :: rest)
    obtain ⟨_, hkeys, _⟩ := outputGroupMap_spec (o1 :: o2 :: rest)
      (mergedOutputSets computation IsReachable (o1 :: o2 :: rest))
    rw [← hrep a b ha hb]
    constructor
    · rintro ⟨group, hgroup, hma, hmb⟩
      simp only [List.mem_map] at hgroup
      obtain ⟨k, _, rfl⟩ := hgroup
      have h1 := (mem_outputGroupMap_members _ _ hnd a k ha).mp hma
      have h2 := (mem_outputGroupMap_members _ _ hnd b k hb).mp hmb
      exact nodup_getD_inj _ hnd _ _ (hlt a ha) (hlt b hb) (h1.trans h2.symm)
    · intro heq
      refine ⟨_, List.mem_map.mpr ⟨(o1 :: o2 :: rest).getD
        ((mergedOutputSets computation IsReachable (o1 :: o2 :: rest)).getD a a) 0,
        (horder _).mem_iff.mpr ((hkeys _).mpr ⟨a, ha, rfl⟩), rfl⟩, ?_, ?_⟩
      · exact (mem_outputGroupMap_members _ _ hnd a _ ha).mpr rfl
      · exact (mem_outputGroupMap_members _ _ hnd b _ hb).mpr (by rw [heq])

theorem DivideOutputInstructionsIntoGroups_components_witness :
    ∃ instr_groups, DivideOutputInstructionsIntoGroups twoReducesAndSum
        (operandReachable twoReducesAndSum twoReducesAndSum.length) (fun keys => keys)
        [3, 4, 2] = some instr_groups ∧
      ∀ a b, a < [3, 4, 2].length → b < [3, 4, 2].length →
        ((∃ group ∈ instr_groups, [3, 4, 2].getD a 0 ∈ group ∧ [3, 4, 2].getD b 0 ∈ group) ↔
          Relation.EqvGen (LinkedOutputs twoReducesAndSum
            (operandReachable twoReducesAndSum twoReducesAndSum.length) [3, 4, 2]) a b) :=
  DivideOutputInstructionsIntoGroups_components twoReducesAndSum
    (operandReachable twoReducesAndSum twoReducesAndSum.length) (fun keys => keys) [3, 4, 2]
    (fun keys => List.Perm.refl keys) (by decide) (by decide)

/-- C14 (counterexample): the two reduce outputs at positions 3 and 4 share no
predecessor but the scalar constant, and still lie in one group, because each
shares a parameter with the third output. -/
theorem DivideOutputInstructionsIntoGroups_chain_joins_reduces :
    DivideOutputInstructionsIntoGroups twoReducesAndSum
        (operandReachable twoReducesAndSum twoReducesAndSum.length) (fun keys => keys)
        [3, 4, 2] = some [[3, 4, 2]] ∧
      (instructionAt twoReducesAndSum 3).opcode = .kReduce ∧
      (instructionAt twoReducesAndSum 4).opcode = .kReduce ∧
      ∀ instr, instr < twoReducesAndSum.length →
        operandReachable twoReducesAndSum twoReducesAndSum.length instr 3 = true →
        operandReachable twoReducesAndSum twoReducesAndSum.length instr 4 = true →
        IsBroadcastedConstantOrScalar twoReducesAndSum (instructionAt twoReducesAndSum instr) =
          true := by
  refine ⟨by rfl, rfl, rfl, ?_⟩
  decide

theorem buildInitializers_ok (IsReductionFromOrToContiguousDimensions : Nat → Bool)
    (BuildInitializerThunk : List Nat → EmitStatus) (returns_tuple : Bool) :
    ∀ (output_instructions : List Nat) (i : Nat) (built result : List (List Nat)),
      buildInitializers IsReductionFromOrToContiguousDimensions BuildInitializerThunk
          returns_tuple output_instructions i built = (.OK, result) →
        result = built ++ initializerIndices IsReductionFromOrToContiguousDimensions
          returns_tuple output_instructions i := by
  intro output_instructions
  induction output_instructions with
  | nil =>
    intro i built result h
    simp only [buildInitializers, Prod.mk.injEq, true_and] at h
    simp [initializerIndices, h]
  | cons output rest ih =>
    intro i built result h
    unfold buildInitializers at h
    by_cases hred : IsReductionFromOrToContiguousDimensions output = true
    · simp only [hred, Bool.not_true, Bool.false_eq_true, if_false] at h
      by_cases hok : BuildInitializerThunk (if returns_tuple = true then [i] else []) = .OK
      · rw [if_pos hok] at h
        rw [ih (i + 1) _ result h]
        simp [initializerIndices, List.enumFrom_cons, hred]
      · rw [if_neg hok] at h
        simp only [Prod.mk.injEq] at h
        exact absurd h.1 hok
    · have hred2 : IsReductionFromOrToContiguousDimensions output = false := by
        simpa using hred
      simp only [hred2, Bool.not_false, if_true] at h
      rw [ih (i + 1) built result h]
      simp [initializerIndices, List.enumFrom_cons, hred2]

theorem buildInitializers_all_ok (IsReductionFromOrToContiguousDimensions : Nat → Bool)
    (BuildInitializerThunk : List Nat → EmitStatus) (returns_tuple : Bool)
    (hok : ∀ idx, BuildInitializerThunk idx = .OK) :
    ∀ (output_instructions : List Nat) (i : Nat) (built : List (List Nat)),
      buildInitializers IsReductionFromOrToContiguousDimensions BuildInitializerThunk
          returns_tuple output_instructions i built =
        (.OK, built ++ initializerIndices IsReductionFromOrToContiguousDimensions
          returns_tuple output_instructions i) := by
  intro output_instructions
  induction output_instructions with
  | nil => intro i built; simp [buildInitializers, initializerIndices]
  | cons output rest ih =>
    intro i built
    unfold buildInitializers
    by_cases hred : IsReductionFromOrToContiguousDimensions output = true
    · simp only [hred, Bool.not_true, Bool.false_eq_true, if_false, hok, if_true]
      rw [ih]
      simp [initializerIndices, List.enumFrom_cons, hred]
    · have hred2 : IsReductionFromOrToContiguousDimensions output = false := by
        simpa using hred
      simp only [hred2, Bool.not_false, if_true]
      rw [ih]
      simp [initializerIndices, List.enumFrom_cons, hred2]

/-- What a successful run of `EmitReductionFromOrToContiguousDimensions` has
done: the groups exist, every initializer was built, and one sequential thunk was
appended whose children are the initializers followed by the kernel thunk with
`block_y` equal to the number of groups and group `i` guarded by `i`. -/
theorem EmitReduction_ok_inv (c : ReductionCollaborators) (output_instructions : List Nat)
    (state state1 : EmitterState)
    (h : EmitReductionFromOrToContiguousDimensions c output_instructions state =
      (.OK, state1)) :
    ∃ instr_groups reduction_info,
      DivideOutputInstructionsIntoGroups c.computation c.IsReachable c.iteration_order
        output_instructions = some instr_groups ∧
      c.reduction_info = some reduction_info ∧
      state1.thunk_sequence = state.thunk_sequence ++
        [.Sequential
          ((initializerIndices c.IsReductionFromOrToContiguousDimensions
              (decide (output_instructions.length > 1)) output_instructions 0).map
            EmittedThunk.Initializer ++
          [.ReductionKernel
            { block_x := reduction_info.mapping_scheme.GetNumberOfBlocks
              block_y := instr_groups.length
              block_z := 1
              thread_x := reduction_info.mapping_scheme.GetThreadsPerBlock
              thread_y := 1
              thread_z := 1 }
            instr_groups.enum])] := by
  unfold EmitReductionFromOrToContiguousDimensions at h
  simp only [] at h
  split at h
  · simp only [Prod.mk.injEq] at h
    rename_i hne
    exact absurd h.1 hne
  · rename_i hbuilt
    have hbuilt2 : (buildInitializers c.IsReductionFromOrToContiguousDimensions
        c.BuildInitializerThunk (decide (output_instructions.length > 1))
        output_instructions 0 []).1 = .OK := by simpa using hbuilt
    have hres := buildInitializers_ok c.IsReductionFromOrToContiguousDimensions
      c.BuildInitializerThunk (decide (output_instructions.length > 1)) output_instructions 0 []
      _ (Prod.ext hbuilt2 rfl)
    simp only [List.nil_append] at hres
    split at h
    · simp at h
    · split at h
      · simp at h
      · split at h
        · simp at h
        · split at h
          · simp at h
          · rename_i instr_groups hgroups
            split at h
            · simp at h
            · rename_i reduction_info hinfo
              split at h
              · simp at h
              · simp only [Prod.mk.injEq, true_and] at h
                refine ⟨instr_groups, reduction_info, hgroups, hinfo, ?_⟩
                have hseq := congrArg EmitterState.thunk_sequence h
                simp only [hres] at hseq
                exact hseq.symm

/-- C12: on success `EmitReductionFromOrToContiguousDimensions` appends exactly
one sequential thunk to the thunk sequence; its children are one initializer
thunk for each reduction output, in output order and none for the other outputs,
followed by exactly one kernel thunk as the last child. -/
theorem EmitReduction_appends_one_sequential_thunk (c : ReductionCollaborators)
    (output_instructions : List Nat) (state state1 : EmitterState)
    (h : EmitReductionFromOrToContiguousDimensions c output_instructions state =
      (.OK, state1)) :
    ∃ launch_dimensions guarded_groups,
      state1.thunk_sequence = state.thunk_sequence ++
        [.Sequential
          ((((output_instructions.enum.filter
                (fun p => c.IsReductionFromOrToContiguousDimensions p.2)).map
              (fun p => if output_instructions.length > 1 then [p.1] else [])).map
            EmittedThunk.Initializer) ++
          [.ReductionKernel launch_dimensions guarded_groups])] := by
  obtain ⟨instr_groups, reduction_info, _, _, hseq⟩ :=
    EmitReduction_ok_inv c output_instructions state state1 h
  refine ⟨{ block_x := reduction_info.mapping_scheme.GetNumberOfBlocks
            block_y := instr_groups.length
            block_z := 1
            thread_x := reduction_info.mapping_scheme.GetThreadsPerBlock
            thread_y := 1
            thread_z := 1 }, instr_groups.enum, ?_⟩
  rw [hseq]
  simp [initializerIndices, List.enum]

theorem EmitReduction_appends_one_sequential_thunk_witness :
    ∃ launch_dimensions guarded_groups,
      (⟨[.Sequential [.Initializer [0], .Initializer [1],
            .ReductionKernel ⟨64, 1, 1, 32, 1, 1⟩ [(0, [3, 4, 2])]]],
          [[0], [1]], 1⟩ : EmitterState).thunk_sequence =
        (⟨[], [], 0⟩ : EmitterState).thunk_sequence ++
        [.Sequential
          (((([3, 4, 2].enum.filter
                (fun p => (twoReducesAndSumCollaborators
                  true).IsReductionFromOrToContiguousDimensions p.2)).map
              (fun p => if [3, 4, 2].length > 1 then [p.1] else [])).map
            EmittedThunk.Initializer) ++
          [.ReductionKernel launch_dimensions guarded_groups])] :=
  EmitReduction_appends_one_sequential_thunk (twoReducesAndSumCollaborators true) [3, 4, 2]
    ⟨[], [], 0⟩ _ rfl

/-- C15 (counterexample): with two reduction outputs that are not consistent the
emitter returns `InternalError` after it has built the two initializer thunks. -/
theorem EmitReduction_inconsistent_after_initializers :
    (EmitReductionFromOrToContiguousDimensions (twoReducesAndSumCollaborators false)
        [3, 4, 2] ⟨[], [], 0⟩).1 = .InternalError ∧
      (EmitReductionFromOrToContiguousDimensions (twoReducesAndSumCollaborators false)
        [3, 4, 2] ⟨[], [], 0⟩).2.initializers_built = [[0], [1]] ∧
      ([[0], [1]] : List (List Nat)) ≠ [] :=
  ⟨rfl, rfl, by decide⟩

/-- C15 (amended): when the outputs of a multi-output reduction fusion are not
consistent (and every initializer builds and some output is a reduction),
`EmitReductionFromOrToContiguousDimensions` returns `InternalError` before the
reduction kernel is built: no kernel thunk has been built and the thunk sequence
is unchanged, while the initializer thunks of the reduction outputs have been
built at that point. -/
theorem EmitReduction_inconsistent_rejected (c : ReductionCollaborators)
    (output_instructions : List Nat) (state : EmitterState)
    (hmulti : output_instructions.length > 1)
    (hinconsistent : c.AreFusedReductionOutputsConsistent = false)
    (hinit : ∀ idx, c.BuildInitializerThunk idx = .OK)
    (hreduce : ∃ output ∈ output_instructions,
      c.IsReductionFromOrToContiguousDimensions output = true) :
    EmitReductionFromOrToContiguousDimensions c output_instructions state =
      (.InternalError,
        { thunk_sequence := state.thunk_sequence
          initializers_built := state.initializers_built ++
            (output_instructions.enum.filter
              (fun p => c.IsReductionFromOrToContiguousDimensions p.2)).map (fun p => [p.1])
          kernels_built := state.kernels_built }) := by
  unfold EmitReductionFromOrToContiguousDimensions
  simp only []
  rw [buildInitializers_all_ok _ _ _ hinit]
  simp only [List.nil_append, ne_eq, not_true_eq_false, if_false]
  obtain ⟨output, hmem, hred⟩ := hreduce
  cases hfind : output_instructions.find? c.IsReductionFromOrToContiguousDimensions with
  | none =>
    rw [List.find?_eq_none] at hfind
    exact absurd hred (hfind output hmem)
  | some first_reduce =>
    simp only [hmulti, decide_True, hinconsistent, Bool.not_false, Bool.and_self, if_true,
      initializerIndices, List.enum]

theorem EmitReduction_inconsistent_rejected_witness :
    EmitReductionFromOrToContiguousDimensions (twoReducesAndSumCollaborators false)
        [3, 4, 2] ⟨[], [], 0⟩ =
      (.InternalError,
        { thunk_sequence := (⟨[], [], 0⟩ : EmitterState).thunk_sequence
          initializers_built := (⟨[], [], 0⟩ : EmitterState).initializers_built ++
            ([3, 4, 2].enum.filter
              (fun p => (twoReducesAndSumCollaborators
                false).IsReductionFromOrToContiguousDimensions p.2)).map (fun p => [p.1])
          kernels_built := (⟨[], [], 0⟩ : EmitterState).kernels_built }) :=
  EmitReduction_inconsistent_rejected (twoReducesAndSumCollaborators false) [3, 4, 2]
    ⟨[], [], 0⟩ (by decide) rfl (fun _ => rfl) ⟨3, by decide, rfl⟩

theorem allUsersSafe_spec (safe : Nat → Option Bool) (Q : Nat → Prop) :
    ∀ (users : List Nat),
      (∀ u ∈ users, ∃ b, safe u = some b ∧ (b = true ↔ Q u)) →
      ∃ b, allUsersSafe safe users = some b ∧ (b = true ↔ ∀ u ∈ users, Q u) := by
  intro users
  induction users with
  | nil => intro _; exact ⟨true, rfl, by simp⟩
  | cons u rest ih =>
    intro h
    obtain ⟨b, hb, hq⟩ := h u (List.mem_cons_self _ _)
    obtain ⟨b2, hb2, hq2⟩ := ih (fun v hv => h v (List.mem_cons_of_mem _ hv))
    cases b with
    | false =>
      refine ⟨false, by simp [allUsersSafe, hb], ?_⟩
      constructor
      · intro hcon; cases hcon
      · intro hall
        exact absurd (hq.mpr (hall u (List.mem_cons_self _ _))) (by simp)
    | true =>
      refine ⟨b2, by simp [allUsersSafe, hb, hb2], ?_⟩
      rw [hq2]
      constructor
      · intro hall v hv
        rcases List.mem_cons.mp hv with rfl | hv
        · exact hq.mp rfl
        · exact hall v hv
      · intro hall v hv
        exact hall v (List.mem_cons_of_mem _ hv)

theorem inspected_iff (IsOpElementwise : HloOpcode → Bool) (region : List MlirOperation)
    (op c : Nat) :
    Inspected IsOpElementwise region op c ↔
      c = op ∨ (usersInspected IsOpElementwise (operationAt region op).kind = true ∧
        ∃ u ∈ (operationAt region op).users, Inspected IsOpElementwise region u c) := by
  constructor
  · intro h
    cases h with
    | start => exact Or.inl rfl
    | user _ u _ h1 h2 h3 => exact Or.inr ⟨h1, u, h2, h3⟩
  · rintro (rfl | ⟨h1, u, h2, h3⟩)
    · exact Inspected.start _
    · exact Inspected.user _ u _ h1 h2 h3

theorem all_inspected_allowed_iff (IsOpElementwise : HloOpcode → Bool)
    (region : List MlirOperation) (op : Nat) :
    (∀ c, Inspected IsOpElementwise region op c →
        kindAllowed IsOpElementwise (operationAt region c).kind = true) ↔
      kindAllowed IsOpElementwise (operationAt region op).kind = true ∧
        (usersInspected IsOpElementwise (operationAt region op).kind = true →
          ∀ u ∈ (operationAt region op).users, ∀ c, Inspected IsOpElementwise region u c →
            kindAllowed IsOpElementwise (operationAt region c).kind = true) := by
  constructor
  · intro h
    refine ⟨h op (Inspected.start _), fun hins u hu c hc => h c (Inspected.user _ u _ hins hu hc)⟩
  · rintro ⟨h1, h2⟩ c hc
    rcases (inspected_iff _ _ _ _).mp hc with rfl | ⟨hins, u, hu, huc⟩
    · exact h1
    · exact h2 hins u hu c huc

/-- With enough fuel for the depth of the operation the walk returns, and it
returns `true` exactly when every inspected operation is of an allowed kind. -/
theorem IsInstructionSafeForShmemTranspose_spec (IsOpElementwise : HloOpcode → Bool)
    (region : List MlirOperation) (depth : Nat → Nat)
    (hacyclic : ∀ op u, u ∈ (operationAt region op).users → depth u < depth op) :
    ∀ (fuel op : Nat), depth op < fuel →
      ∃ safe, IsInstructionSafeForShmemTranspose IsOpElementwise region fuel op = some safe ∧
        (safe = true ↔ ∀ c, Inspected IsOpElementwise region op c →
          kindAllowed IsOpElementwise (operationAt region c).kind = true) := by
  intro fuel
  induction fuel with
  | zero => intro op h; omega
  | succ fuel ih =>
    intro op hdepth
    have husers : ∀ u ∈ (operationAt region op).users,
        ∃ b, IsInstructionSafeForShmemTranspose IsOpElementwise region fuel u = some b ∧
          (b = true ↔ ∀ c, Inspected IsOpElementwise region u c →
            kindAllowed IsOpElementwise (operationAt region c).kind = true) := by
      intro u hu
      exact ih u (by have := hacyclic op u hu; omega)
    obtain ⟨b, hb, hq⟩ := allUsersSafe_spec
      (IsInstructionSafeForShmemTranspose IsOpElementwise region fuel)
      (fun u => ∀ c, Inspected IsOpElementwise region u c →
        kindAllowed IsOpElementwise (operationAt region c).kind = true)
      (operationAt region op).users husers
    rw [all_inspected_allowed_iff]
    unfold IsInstructionSafeForShmemTranspose
    cases hkind : (operationAt region op).kind with
    | TensorStoreOp =>
      refine ⟨true, rfl, ?_⟩
      simp [kindAllowed, usersInspected]
    | TensorLoadOp =>
      simp only [opcodeOfKind]
      by_cases hel : IsOpElementwise .kParameter = true
      · rw [if_pos hel]
        refine ⟨b, hb, ?_⟩
        rw [hq]
        simp [kindAllowed, usersInspected, opcodeOfKind, hel]
      · rw [if_neg hel]
        refine ⟨b, hb, ?_⟩
        rw [hq]
        simp [kindAllowed, usersInspected, opcodeOfKind]
    | Mhlo opcode =>
      simp only [opcodeOfKind]
      by_cases hel : IsOpElementwise opcode = true
      · rw [if_pos hel]
        refine ⟨b, hb, ?_⟩
        rw [hq]
        simp [kindAllowed, usersInspected, opcodeOfKind, hel]
      · rw [if_neg hel]
        have hel2 : IsOpElementwise opcode = false := by simpa using hel
        cases opcode <;>
          first
          | (refine ⟨b, hb, ?_⟩
             rw [hq]
             simp [kindAllowed, usersInspected, opcodeOfKind, hel2])
          | (refine ⟨true, rfl, ?_⟩
             simp [kindAllowed, usersInspected, opcodeOfKind, hel2])
          | (refine ⟨false, rfl, ?_⟩
             simp [kindAllowed, usersInspected, opcodeOfKind, hel2])

theorem filterInputIds_spec (IsOpElementwise : HloOpcode → Bool)
    (region : List MlirOperation) (fuel : Nat) (params : List Nat)
    (hreturns : ∀ input ∈ params,
      ∃ safe, IsInstructionSafeForShmemTranspose IsOpElementwise region fuel input = some safe) :
    ∀ (input_ids : List Nat), (∀ id ∈ input_ids, id < params.length) →
      filterInputIds IsOpElementwise region fuel params input_ids =
        some (input_ids.filter (fun id =>
          IsInstructionSafeForShmemTranspose IsOpElementwise region fuel (params.getD id 0) ==
            some true)) := by
  intro input_ids
  induction input_ids with
  | nil => intro _; rfl
  | cons id rest ih =>
    intro hids
    have hid : id < params.length := hids id (List.mem_cons_self _ _)
    have hget : params[id]? = some params[id] := List.getElem?_eq_getElem hid
    have hgetD : params.getD id 0 = params[id] := by
      rw [List.getD_eq_getElem?_getD, hget]
      rfl
    obtain ⟨safe, hsafe⟩ := hreturns params[id] (List.getElem_mem _)
    unfold filterInputIds
    rw [hget]
    simp only [hsafe, ih (fun j hj => hids j (List.mem_cons_of_mem _ hj))]
    rw [List.filter_cons, hgetD, hsafe]
    cases safe <;> simp

/-- C18 (counterexample): the input of `dimensionSizeRegion` has a bitcast among
its transitive consumers, and a bitcast is neither elementwise nor one of tuple,
get-tuple-element, map and parameter; the input is kept all the same, because
the walk ends at the get-dimension-size. -/
theorem FilterInputsForShmemTranspose_keeps_input_before_bitcast :
    FilterInputsForShmemTranspose elementwiseOpcodes dimensionSizeRegion 4 [0] = some [0] ∧
      TransitiveConsumer dimensionSizeRegion 0 2 ∧
      (operationAt dimensionSizeRegion 2).kind = .Mhlo .kBitcast ∧
      elementwiseOpcodes .kBitcast = false ∧
      HloOpcode.kBitcast ∉ [HloOpcode.kTuple, .kGetTupleElement, .kMap, .kParameter] := by
  refine ⟨by decide, ?_, rfl, by decide, by decide⟩
  exact TransitiveConsumer.later 0 1 2 (by decide) (TransitiveConsumer.direct 1 2 (by decide))

/-- C18 (amended): in an acyclic fusion region, with the recursion depth bounded
beyond the depth of the region, `FilterInputsForShmemTranspose` returns, it keeps
the input ids in their order, and it keeps an input exactly when every operation
that the walk inspects is a store, elementwise, or one of get-dimension-size,
get-tuple-element, map, parameter, tuple and tuple-select; the walk inspects the
input and the users of every inspected operation that is elementwise or one of
get-tuple-element, map, parameter, tuple and tuple-select. The result does not
depend on the bound. -/
theorem FilterInputsForShmemTranspose_keeps_iff (IsOpElementwise : HloOpcode → Bool)
    (region : List MlirOperation) (depth : Nat → Nat) (fuel : Nat) (input_ids : List Nat)
    (hacyclic : ∀ op u, u ∈ (operationAt region op).users → depth u < depth op)
    (hfuel : ∀ op, depth op < fuel)
    (hids : ∀ id ∈ input_ids, id < (regionParams region).length) :
    ∃ kept, FilterInputsForShmemTranspose IsOpElementwise region fuel input_ids = some kept ∧
      kept.Sublist input_ids ∧
      (∀ id ∈ input_ids, (id ∈ kept ↔
        ∀ c, Inspected IsOpElementwise region ((regionParams region).getD id 0) c →
          kindAllowed IsOpElementwise (operationAt region c).kind = true)) ∧
      ∀ fuel1, (∀ op, depth op < fuel1) →
        FilterInputsForShmemTranspose IsOpElementwise region fuel1 input_ids = some kept := by
  have hspec := fun (f : Nat) (hf : ∀ op, depth op < f) (op : Nat) =>
    IsInstructionSafeForShmemTranspose_spec IsOpElementwise region depth hacyclic f op (hf op)
  have hfilter := fun (f : Nat) (hf : ∀ op, depth op < f) =>
    filterInputIds_spec IsOpElementwise region f (regionParams region)
      (fun input _ => (hspec f hf input).imp (fun _ h => h.1)) input_ids hids
  have hiff : ∀ (f : Nat) (hf : ∀ op, depth op < f) (id : Nat),
      (IsInstructionSafeForShmemTranspose IsOpElementwise region f
          ((regionParams region).getD id 0) == some true) = true ↔
        ∀ c, Inspected IsOpElementwise region ((regionParams region).getD id 0) c →
          kindAllowed IsOpElementwise (operationAt region c).kind = true := by
    intro f hf id
    obtain ⟨safe, hsafe, hq⟩ := hspec f hf ((regionParams region).getD id 0)
    rw [hsafe, ← hq]
    cases safe <;> simp
  refine ⟨_, hfilter fuel hfuel, List.filter_sublist _, ?_, ?_⟩
  · intro id hid
    rw [List.mem_filter, hiff fuel hfuel id]
    exact ⟨fun h => h.2, fun h => ⟨hid, h⟩⟩
  · intro fuel1 hfuel1
    unfold FilterInputsForShmemTranspose
    rw [hfilter fuel1 hfuel1]
    congr 1
    apply List.filter_congr
    intro id _
    rw [Bool.eq_iff_iff, hiff fuel1 hfuel1 id, hiff fuel hfuel id]

theorem FilterInputsForShmemTranspose_keeps_iff_witness :
    ∃ kept, FilterInputsForShmemTranspose elementwiseOpcodes dimensionSizeRegion 5 [0] =
        some kept ∧
      kept.Sublist [0] ∧
      (∀ id ∈ [0], (id ∈ kept ↔
        ∀ c, Inspected elementwiseOpcodes dimensionSizeRegion
            ((regionParams dimensionSizeRegion).getD id 0) c →
          kindAllowed elementwiseOpcodes (operationAt dimensionSizeRegion c).kind = true)) ∧
      ∀ fuel1, (∀ op, (fun op => 4 - op) op < fuel1) →
        FilterInputsForShmemTranspose elementwiseOpcodes dimensionSizeRegion fuel1 [0] =
          some kept :=
  FilterInputsForShmemTranspose_keeps_iff elementwiseOpcodes dimensionSizeRegion
    (fun op => 4 - op) 5 [0]
    (by
      intro op u hu
      have hop : op < 3 := by
        by_contra hge
        have : (operationAt dimensionSizeRegion op).users = [] := by
          rcases Nat.lt_or_ge op 4 with h4 | h4
          · have : op = 3 := by omega
            subst this
            rfl
          · have hnone : dimensionSizeRegion[op]? = none :=
              List.getElem?_eq_none (by simpa [dimensionSizeRegion] using h4)
            simp [operationAt, List.getD_eq_getElem?_getD, hnone]
        rw [this] at hu
        cases hu
      have hu2 : u = op + 1 := by
        interval_cases op <;> simpa [operationAt, dimensionSizeRegion] using hu
      show 4 - u < 4 - op
      omega)
    (by intro op; show 4 - op < 5; omega)
    (by decide)

theorem findParams012_spec (FindTranspose021 : Shape → Shape → Option (List Nat))
    (output_shape : Shape) :
    ∀ (operand_shapes : List Shape) (operand_idx : Nat) (params_012 : List Nat)
      (reduced_dims_021 : Option (List Nat)) (result_params : List Nat)
      (result_dims : Option (List Nat)),
      findParams012 FindTranspose021 output_shape operand_shapes operand_idx params_012
          reduced_dims_021 = some (result_params, result_dims) →
        (∀ dims, reduced_dims_021 = some dims → result_dims = some dims) ∧
        (∀ operand ∈ operand_shapes, ∀ dims,
          FindTranspose021 operand output_shape = some dims → result_dims = some dims) ∧
        (∀ dims, result_dims = some dims → reduced_dims_021 = some dims ∨
          ∃ operand ∈ operand_shapes, FindTranspose021 operand output_shape = some dims) := by
  intro operand_shapes
  induction operand_shapes with
  | nil =>
    intro operand_idx params_012 reduced_dims_021 result_params result_dims h
    simp only [findParams012, Option.some.injEq, Prod.mk.injEq] at h
    obtain ⟨_, rfl⟩ := h
    exact ⟨fun dims hd => hd, fun operand ho => absurd ho (List.not_mem_nil _),
      fun dims hd => Or.inl hd⟩
  | cons shape rest ih =>
    intro operand_idx params_012 reduced_dims_021 result_params result_dims h
    unfold findParams012 at h
    cases hfind : FindTranspose021 shape output_shape with
    | none =>
      rw [hfind] at h
      simp only [] at h
      obtain ⟨h1, h2, h3⟩ := ih _ _ _ _ _ h
      refine ⟨h1, ?_, ?_⟩
      · intro operand ho dims hd
        rcases List.mem_cons.mp ho with rfl | ho
        · rw [hfind] at hd; cases hd
        · exact h2 operand ho dims hd
      · intro dims hd
        rcases h3 dims hd with h4 | ⟨operand, ho, h4⟩
        · exact Or.inl h4
        · exact Or.inr ⟨operand, List.mem_cons_of_mem _ ho, h4⟩
    | some curr =>
      rw [hfind] at h
      simp only [] at h
      split at h
      · cases h
      · rename_i heq
        have heq2 : reduced_dims_021.getD curr = curr := by simpa using heq
        obtain ⟨h1, h2, h3⟩ := ih _ _ _ _ _ h
        have hres : result_dims = some curr := by
          have := h1 (reduced_dims_021.getD curr) rfl
          rw [heq2] at this
          exact this
        refine ⟨?_, ?_, ?_⟩
        · intro dims hd
          rw [hd] at heq2
          simp only [Option.getD_some] at heq2
          rw [heq2]
          exact hres
        · intro operand ho dims hd
          rcases List.mem_cons.mp ho with rfl | ho
          · rw [hfind] at hd
            cases hd
            exact hres
          · exact h2 operand ho dims hd
        · intro dims hd
          rw [hres] at hd
          cases hd
          exact Or.inr ⟨shape, List.mem_cons_self _ _, hfind⟩

/-- When the part before the budget gives eligible parameters, some operand is a
0-2-1 transpose of the first output, all such operands agree on the reduced
dimensions, and the two minor reduced dimensions are at least 16. -/
theorem tile021Candidates_eligible (c : Tile021Collaborators)
    (operand_shapes output_shapes : List Shape) (reduced_dims_021 params_012 : List Nat)
    (h : tile021Candidates c operand_shapes output_shapes =
      .eligible reduced_dims_021 params_012) :
    ∃ output_shape rest dim0 dim1 dim2,
      output_shapes = output_shape :: rest ∧
      (∃ operand ∈ operand_shapes,
        c.FindTranspose021 operand output_shape = some reduced_dims_021) ∧
      (∀ operand ∈ operand_shapes, ∀ dims,
        c.FindTranspose021 operand output_shape = some dims → dims = reduced_dims_021) ∧
      reduced_dims_021 = [dim0, dim1, dim2] ∧
      kMinDimensionToTransposeTiled ≤ dim1 ∧ kMinDimensionToTransposeTiled ≤ dim2 := by
  unfold tile021Candidates at h
  cases output_shapes with
  | nil => cases h
  | cons output_shape rest =>
    simp only [] at h
    cases hfind : findParams012 c.FindTranspose021 output_shape operand_shapes 0 [] none with
    | none => rw [hfind] at h; cases h
    | some res =>
      obtain ⟨params, dims⟩ := res
      rw [hfind] at h
      cases dims with
      | none => cases h
      | some dims =>
        simp only [] at h
        obtain ⟨_, h2, h3⟩ := findParams012_spec _ _ _ _ _ _ _ _ hfind
        have hex : ∃ operand ∈ operand_shapes,
            c.FindTranspose021 operand output_shape = some dims := by
          rcases h3 dims rfl with h4 | h4
          · cases h4
          · exact h4
        have hall : ∀ operand ∈ operand_shapes, ∀ d,
            c.FindTranspose021 operand output_shape = some d → d = dims := by
          intro operand ho d hd
          have := h2 operand ho d hd
          cases this
          rfl
        match dims, h, hex, hall with
        | [dim0, dim1, dim2], h, hex, hall =>
          simp only [] at h
          split at h
          · cases h
          · rename_i hmin
            have hdims : reduced_dims_021 = [dim0, dim1, dim2] := by
              cases hreg : c.fusion_region with
              | none =>
                rw [hreg] at h
                simp only [Tile021Candidates.eligible.injEq] at h
                exact h.1.symm
              | some region =>
                rw [hreg] at h
                simp only [] at h
                split at h
                · cases h
                · split at h
                  · cases h
                  · simp only [Tile021Candidates.eligible.injEq] at h
                    exact h.1.symm
            subst hdims
            exact ⟨output_shape, rest, dim0, dim1, dim2, rfl, hex, hall, rfl, by omega,
              by omega⟩
        | [], h, _, _ => cases h
        | [_], h, _, _ => cases h
        | [_, _], h, _, _ => cases h
        | _ :: _ :: _ :: _ :: _, h, _, _ => cases h

/-- C17: `CheckAndEmitHloWithTile021` returns `true`, having appended exactly one
kernel thunk, only if some operand's shape is a 0-2-1 transpose of the first
output's shape, all such operands agree on the reduced dimensions, and both minor
reduced dimensions are at least 16; whenever it returns `false` the thunk
sequence is as it was. -/
theorem CheckAndEmitHloWithTile021_true_only_if (c : Tile021Collaborators)
    (operand_shapes output_shapes : List Shape) (state : EmitterState) :
    (∀ state1, CheckAndEmitHloWithTile021 c operand_shapes output_shapes state =
        (.ok true, state1) →
      ∃ output_shape rest reduced_dims_021 dim0 dim1 dim2 tiled_param_ids,
        output_shapes = output_shape :: rest ∧
        (∃ operand ∈ operand_shapes,
          c.FindTranspose021 operand output_shape = some reduced_dims_021) ∧
        (∀ operand ∈ operand_shapes, ∀ dims,
          c.FindTranspose021 operand output_shape = some dims → dims = reduced_dims_021) ∧
        reduced_dims_021 = [dim0, dim1, dim2] ∧ 16 ≤ dim1 ∧ 16 ≤ dim2 ∧
        state1.thunk_sequence = state.thunk_sequence ++
          [.Hlo021TileKernel reduced_dims_021 tiled_param_ids]) ∧
    (∀ state1, CheckAndEmitHloWithTile021 c operand_shapes output_shapes state =
        (.ok false, state1) →
      state1.thunk_sequence = state.thunk_sequence ∧
        state1.kernels_built = state.kernels_built) := by
  constructor
  · intro state1 h
    unfold CheckAndEmitHloWithTile021 at h
    cases hcand : tile021Candidates c operand_shapes output_shapes with
    | decline => rw [hcand] at h; simp at h
    | abort => rw [hcand] at h; simp at h
    | eligible reduced_dims_021 params_012 =>
      rw [hcand] at h
      simp only [] at h
      obtain ⟨output_shape, rest, dim0, dim1, dim2, hout, hex, hall, hdims, h1, h2⟩ :=
        tile021Candidates_eligible c operand_shapes output_shapes _ _ hcand
      split at h
      · simp at h
      · split at h
        · simp at h
        · simp only [Prod.mk.injEq, true_and] at h
          refine ⟨output_shape, rest, reduced_dims_021, dim0, dim1, dim2,
            params_012.take (shmemBudgetLoop
              (operandElementByteSize c.ByteSizeOfPrimitiveType operand_shapes) params_012 0 0),
            hout, hex, hall, hdims, h1, h2, ?_⟩
          rw [← h]
  · intro state1 h
    unfold CheckAndEmitHloWithTile021 at h
    cases hcand : tile021Candidates c operand_shapes output_shapes with
    | decline =>
      rw [hcand] at h
      simp only [Prod.mk.injEq, true_and] at h
      rw [← h]
      exact ⟨rfl, rfl⟩
    | abort => rw [hcand] at h; simp at h
    | eligible reduced_dims_021 params_012 =>
      rw [hcand] at h
      simp only [] at h
      split at h
      · simp only [Prod.mk.injEq, true_and] at h
        rw [← h]
        exact ⟨rfl, rfl⟩
      · split at h
        · simp at h
        · simp at h

theorem CheckAndEmitHloWithTile021_true_only_if_witness :
    (∀ state1, CheckAndEmitHloWithTile021 copyTransposeCollaborators
        [.array .F32 [2, 40, 50]] [.array .F32 [2, 50, 40]] ⟨[], [], 0⟩ = (.ok true, state1) →
      ∃ output_shape rest reduced_dims_021 dim0 dim1 dim2 tiled_param_ids,
        [Shape.array .F32 [2, 50, 40]] = output_shape :: rest ∧
        (∃ operand ∈ [Shape.array .F32 [2, 40, 50]],
          copyTransposeCollaborators.FindTranspose021 operand output_shape =
            some reduced_dims_021) ∧
        (∀ operand ∈ [Shape.array .F32 [2, 40, 50]], ∀ dims,
          copyTransposeCollaborators.FindTranspose021 operand output_shape = some dims →
            dims = reduced_dims_021) ∧
        reduced_dims_021 = [dim0, dim1, dim2] ∧ 16 ≤ dim1 ∧ 16 ≤ dim2 ∧
        state1.thunk_sequence = (⟨[], [], 0⟩ : EmitterState).thunk_sequence ++
          [.Hlo021TileKernel reduced_dims_021 tiled_param_ids]) ∧
    (∀ state1, CheckAndEmitHloWithTile021 copyTransposeCollaborators
        [.array .F32 [2, 40, 50]] [.array .F32 [2, 50, 40]] ⟨[], [], 0⟩ = (.ok false, state1) →
      state1.thunk_sequence = (⟨[], [], 0⟩ : EmitterState).thunk_sequence ∧
        state1.kernels_built = (⟨[], [], 0⟩ : EmitterState).kernels_built) :=
  CheckAndEmitHloWithTile021_true_only_if copyTransposeCollaborators
    [.array .F32 [2, 40, 50]] [.array .F32 [2, 50, 40]] ⟨[], [], 0⟩

/-- The copy of a `[2, 40, 50]` operand into a `[2, 50, 40]` output is emitted as
a tiled transpose, and a copy whose minor dimension is 8 is not. -/
theorem CheckAndEmitHloWithTile021_examples :
    CheckAndEmitHloWithTile021 copyTransposeCollaborators
        [.array .F32 [2, 40, 50]] [.array .F32 [2, 50, 40]] ⟨[], [], 0⟩ =
      (.ok true, ⟨[.Hlo021TileKernel [2, 50, 40] [0]], [], 1⟩) ∧
    CheckAndEmitHloWithTile021 copyTransposeCollaborators
        [.array .F32 [2, 8, 50]] [.array .F32 [2, 50, 8]] ⟨[], [], 0⟩ =
      (.ok false, ⟨[], [], 0⟩) :=
  ⟨rfl, rfl⟩

/-- Of five eligible inputs with four-byte elements the first three get a
shared-memory tile. -/
theorem CheckAndEmitHloWithTile021_keeps_three_of_five :
    CheckAndEmitHloWithTile021 fiveInputCollaborators fiveOperandShapes
        [.array .F32 [2, 50, 40]] ⟨[], [], 0⟩ =
      (.ok true, ⟨[.Hlo021TileKernel [2, 50, 40] [0, 1, 2]], [], 1⟩) :=
  rfl

/-! ## Tiled transpose kernel: proofs -/

theorem y_loop_bound (ty : IndexType) (H q : Nat) (hH : H ≤ 32) (hq : q < 4) :
    ceil_of_ratio ty (subWrapped ty H q) 4 = (H + 3 - q) / 4 := by
  cases ty <;> simp only [ceil_of_ratio, subWrapped, IndexType.bits] <;> omega

theorem y_loc_value (ty : IndexType) (q k : Nat) (hq : q < 4) (hk : k < 9) :
    (q + (k * 4) % 2 ^ ty.bits) % 2 ^ ty.bits = q + 4 * k := by
  cases ty <;> simp only [IndexType.bits] <;> omega

/-- The calls made by the thread in row `q` and column `i` of the block for a
tile of height `H` and width `W`: the rows `q`, `q + 4`, ... below `H`, each at
column `i` when `i` is below `W`. -/
theorem EmitTile_hlo021 (dims : Dim3) (ty : IndexType) (o : Dim3) (q i H W : Nat)
    (hq : q < 4) (hi : i < 32) (hH : H ≤ 32) :
    EmitTile (hlo021MappingScheme dims) ty o (EmitThreadIdInfo kWarpSize (q * 32 + i)) H W =
      (List.range ((H + 3 - q) / 4)).flatMap (fun k =>
        if i < W then
          [({ index := ⟨o.z, o.y + (q + 4 * k), o.x + i⟩, y_loc := q + 4 * k, x_loc := i,
              x_iter_num := 0 } : TileElement)]
        else []) := by
  have hx : (q * 32 + i) % 32 = i := by omega
  have hy : (q * 32 + i) / 32 = q := by omega
  unfold EmitTile
  simp only [hlo021MappingScheme, EmitThreadIdInfo, kWarpSize, kNumRows, hx, hy,
    GetStartOffsetX, y_loop_bound ty H q hH hq, UnrollInnerTileLoop]
  apply List.flatMap_congr
  intro k hk
  have hk9 : k < 9 := by
    have := List.mem_range.mp hk
    omega
  rw [y_loc_value ty q k hq hk9]
  have hrange1 : List.range 1 = [0] := rfl
  by_cases hiW : i < W
  · have hnot : ¬ W ≤ i := by omega
    simp [hiW, hrange1, hnot]
  · have hle : W ≤ i := by omega
    simp [hiW, hrange1, hle]

theorem flatMap_if_singleton {β γ : Type} (l : List β) (c : β → Prop) [DecidablePred c]
    (g : β → γ) :
    l.flatMap (fun i => if c i then [g i] else []) = (l.filter (fun i => decide (c i))).map g := by
  induction l with
  | nil => rfl
  | cons b rest ih =>
    rw [List.flatMap_cons, ih, List.filter_cons]
    by_cases hc : c b
    · simp [hc]
    · simp [hc]

/-- The rows visited by the four thread rows together are the rows of the tile,
each once. -/
theorem strided_rows_perm (H : Nat) :
    ((List.range 4).flatMap (fun q =>
      (List.range ((H + 3 - q) / 4)).map (fun k => q + 4 * k))).Perm (List.range H) := by
  rw [List.perm_ext_iff_of_nodup _ (List.nodup_range H)]
  · intro y
    simp only [List.mem_flatMap, List.mem_map, List.mem_range]
    constructor
    · rintro ⟨q, hq, k, hk, rfl⟩
      omega
    · intro hy
      exact ⟨y % 4, by omega, y / 4, by omega, by omega⟩
  · rw [List.nodup_flatMap]
    constructor
    · intro q _
      apply List.Nodup.map _ (List.nodup_range _)
      intro a b hab
      simp only at hab
      omega
    · apply (List.pairwise_lt_range 4).imp_of_mem
      intro a b ha hb hlt
      have ha4 : a < 4 := List.mem_range.mp ha
      have hb4 : b < 4 := List.mem_range.mp hb
      simp only [Function.onFun, List.disjoint_left, List.mem_map, List.mem_range]
      rintro y ⟨k, hk, rfl⟩ ⟨k2, hk2, heq⟩
      omega

/-- The calls of all threads of a block for one tile: every row below the tile
height and column below the tile width, each once. -/
theorem EmitTile_hlo021_block (dims : Dim3) (ty : IndexType) (o : Dim3) (H W : Nat)
    (hH : H ≤ 32) (hW : W ≤ 32) :
    ((List.range (hlo021MappingScheme dims).GetThreadsPerBlock).flatMap (fun thread_id =>
      EmitTile (hlo021MappingScheme dims) ty o
        (EmitThreadIdInfo (hlo021MappingScheme dims).num_threads_x thread_id) H W)).Perm
      ((List.range H).flatMap (fun y => (List.range W).map (fun x => tileElementAt o y x))) := by
  have hthreads : (hlo021MappingScheme dims).GetThreadsPerBlock = 4 * 32 := rfl
  have hnx : (hlo021MappingScheme dims).num_threads_x = kWarpSize := rfl
  rw [hthreads, hnx, ← range_row_major 4 32, List.flatMap_assoc]
  have hstep : ∀ q ∈ List.range 4,
      (((List.range 32).map (fun i => q * 32 + i)).flatMap (fun thread_id =>
        EmitTile (hlo021MappingScheme dims) ty o (EmitThreadIdInfo kWarpSize thread_id) H W)).Perm
      (((List.range ((H + 3 - q) / 4)).map (fun k => q + 4 * k)).flatMap (fun y =>
        (List.range W).map (fun x => tileElementAt o y x))) := by
    intro q hq
    have hq4 : q < 4 := List.mem_range.mp hq
    rw [List.flatMap_map, List.flatMap_map]
    have hcongr : (List.range 32).flatMap (fun i =>
        EmitTile (hlo021MappingScheme dims) ty o (EmitThreadIdInfo kWarpSize (q * 32 + i)) H W) =
        (List.range 32).flatMap (fun i => (List.range ((H + 3 - q) / 4)).flatMap (fun k =>
          if i < W then [tileElementAt o (q + 4 * k) i] else [])) := by
      apply List.flatMap_congr
      intro i hi
      exact EmitTile_hlo021 dims ty o q i H W hq4 (List.mem_range.mp hi) hH
    rw [hcongr]
    refine (flatMap_swap_perm _ _ _).trans ?_
    apply List.Perm.of_eq
    apply List.flatMap_congr
    intro k _
    rw [flatMap_if_singleton (List.range 32) (fun i => i < W) (fun i => tileElementAt o (q + 4 * k) i),
      range_filter_lt 32 W hW]
  refine (List.Perm.flatMap_left _ hstep).trans ?_
  rw [← List.flatMap_assoc]
  exact List.Perm.flatMap_right _ (strided_rows_perm H)

theorem foldl_flatMap_eq {β γ δ : Type} (l : List β) (f : β → List γ) (g : δ → γ → δ) (init : δ) :
    (l.flatMap f).foldl g init = l.foldl (fun acc b => (f b).foldl g acc) init := by
  induction l generalizing init with
  | nil => rfl
  | cons b rest ih => rw [List.flatMap_cons, List.foldl_append, ih, List.foldl_cons]

/-- A cell of the buffer after a sequence of stores: when some store of the
sequence goes to the cell (or the cell held the value before) and every store to
the cell stores `v`, the cell holds `v`. -/
theorem stores_cell {α : Type} (es : List TileElement) (val : TileElement → α)
    (shmem_buffer : ShmemTile α) (row col : Nat) (v : α)
    (hex : shmem_buffer row col = some v ∨ ∃ e ∈ es, e.y_loc = row ∧ e.x_loc = col)
    (hval : ∀ e ∈ es, e.y_loc = row → e.x_loc = col → val e = v) :
    (es.foldl (fun buffer e => ShmemTile.Store buffer e.y_loc e.x_loc (val e)) shmem_buffer)
      row col = some v := by
  induction es generalizing shmem_buffer with
  | nil =>
    rcases hex with h | ⟨e, he, _⟩
    · exact h
    · cases he
  | cons e rest ih =>
    rw [List.foldl_cons]
    apply ih
    · by_cases hcell : row = e.y_loc ∧ col = e.x_loc
      · left
        have hv := hval e (List.mem_cons_self _ _) hcell.1.symm hcell.2.symm
        simp [ShmemTile.Store, hcell, hv]
      · rcases hex with h | ⟨e2, he2, hy, hx⟩
        · left
          simp [ShmemTile.Store, hcell, h]
        · rcases List.mem_cons.mp he2 with rfl | hrest
          · exact absurd ⟨hy.symm, hx.symm⟩ hcell
          · exact Or.inr ⟨e2, hrest, hy, hx⟩
    · intro e2 he2
      exact hval e2 (List.mem_cons_of_mem _ he2)

/-- The buffer at the barrier: the cell `[row][col]` with `row` below the tile
width and `col` below the tile height holds the input element at offset `row` in
the input's Y and `col` in the input's X from the permuted tile origin. -/
theorem shmemAtBarrier_cell {α : Type} (dims : Dim3) (ty : IndexType) (input : Dim3 → α)
    (o : Dim3) (H W row col : Nat) (hH : H ≤ 32) (hW : W ≤ 32) (hrow : row < W)
    (hcol : col < H) :
    shmemAtBarrier (hlo021MappingScheme dims) ty input o H W row col =
      some (input ⟨o.z, o.x + row, o.y + col⟩) := by
  have hperm := EmitTile_hlo021_block dims ty (Permute021 o) W H hW hH
  unfold shmemAtBarrier
  have hfold : (List.range (hlo021MappingScheme dims).GetThreadsPerBlock).foldl
      (copyInputToShmem (hlo021MappingScheme dims) ty input o H W) (fun _ _ => none) =
      ((List.range (hlo021MappingScheme dims).GetThreadsPerBlock).flatMap (fun thread_id =>
        EmitTile (hlo021MappingScheme dims) ty (Permute021 o)
          (EmitThreadIdInfo (hlo021MappingScheme dims).num_threads_x thread_id) W H)).foldl
        (fun buffer e => ShmemTile.Store buffer e.y_loc e.x_loc (input e.index))
        (fun _ _ => none) := by
    rw [foldl_flatMap_eq]
    rfl
  rw [hfold]
  apply stores_cell
  · right
    refine ⟨tileElementAt (Permute021 o) row col, ?_, rfl, rfl⟩
    rw [hperm.mem_iff]
    simp only [List.mem_flatMap, List.mem_map, List.mem_range]
    exact ⟨row, hrow, col, hcol, rfl⟩
  · intro e he hy hx
    rw [hperm.mem_iff] at he
    simp only [List.mem_flatMap, List.mem_map, List.mem_range] at he
    obtain ⟨y, _, x, _, rfl⟩ := he
    simp only [tileElementAt] at hy hx
    subst hy
    subst hx
    rfl

/-- The writes of a block for its tile: the value written at an output position
is the input element at the position with Y and X exchanged. -/
theorem writeOutputTile_value {α : Type} (dims : Dim3) (ty : IndexType) (input : Dim3 → α)
    (o : Dim3) (H W : Nat) (hH : H ≤ 32) (hW : W ≤ 32) (w : Dim3 × Option α)
    (hw : w ∈ writeOutputTile (hlo021MappingScheme dims) ty
      (shmemAtBarrier (hlo021MappingScheme dims) ty input o H W) o H W) :
    w.2 = some (input (Permute021 w.1)) := by
  have hperm := EmitTile_hlo021_block dims ty o H W hH hW
  unfold writeOutputTile at hw
  rw [← List.map_flatMap, List.mem_map] at hw
  obtain ⟨e, he, rfl⟩ := hw
  rw [hperm.mem_iff] at he
  simp only [List.mem_flatMap, List.mem_map, List.mem_range] at he
  obtain ⟨y, hy, x, hx, rfl⟩ := he
  simp only [EmitTileElementForCopy, tileElementAt, Permute021]
  exact shmemAtBarrier_cell dims ty input o H W x y hH hW hx hy

/-- The output positions written by a block for its tile: every position of the
tile, each once. -/
theorem writeOutputTile_positions {α : Type} (dims : Dim3) (ty : IndexType)
    (shmem_buffer : ShmemTile α) (o : Dim3) (H W : Nat) (hH : H ≤ 32) (hW : W ≤ 32) :
    ((writeOutputTile (hlo021MappingScheme dims) ty shmem_buffer o H W).map Prod.fst).Perm
      ((List.range H).flatMap (fun y =>
        (List.range W).map (fun x => (⟨o.z, o.y + y, o.x + x⟩ : Dim3)))) := by
  have hperm := (EmitTile_hlo021_block dims ty o H W hH hW).map (fun e => e.index)
  unfold writeOutputTile
  rw [← List.map_flatMap, List.map_map]
  have hfst : (Prod.fst ∘ EmitTileElementForCopy shmem_buffer) = fun e => e.index := rfl
  rw [hfst]
  refine hperm.trans (List.Perm.of_eq ?_)
  rw [List.map_flatMap]
  apply List.flatMap_congr
  intro y _
  rw [List.map_map]
  rfl

theorem ceilOfRatio_by_one (n : Nat) : ceilOfRatio n 1 = n := by
  unfold ceilOfRatio
  rw [Nat.div_one]
  omega

theorem block_id_coords (ny nx z y x : Nat) (hy : y < ny) (hx : x < nx) :
    ((z * ny + y) * nx + x) / (ny * nx) = z ∧ (((z * ny + y) * nx + x) / nx) % ny = y ∧
      ((z * ny + y) * nx + x) % nx = x := by
  have hnx : 0 < nx := by omega
  have hny : 0 < ny := by omega
  have h1 : ((z * ny + y) * nx + x) / nx = z * ny + y := by
    rw [Nat.add_comm, Nat.add_mul_div_right _ _ hnx, Nat.div_eq_of_lt hx, Nat.zero_add]
  have h2 : ((z * ny + y) * nx + x) % nx = x := by
    rw [Nat.add_comm, Nat.add_mul_mod_self_right, Nat.mod_eq_of_lt hx]
  have h3 : (z * ny + y) % ny = y := by
    rw [Nat.add_comm, Nat.add_mul_mod_self_right, Nat.mod_eq_of_lt hy]
  have h4 : (z * ny + y) / ny = z := by
    rw [Nat.add_comm, Nat.add_mul_div_right _ _ hny, Nat.div_eq_of_lt hy, Nat.zero_add]
  refine ⟨?_, ?_, h2⟩
  · rw [Nat.mul_comm ny nx, ← Nat.div_div_eq_div_mul, h1, h4]
  · rw [h1, h3]

/-- `EmitTilingKernel` for the block with the coordinates `z`, `y`, `x` of the
transpose scheme: one tile, at `[z, 32 y, 32 x]`, of the height and width of that
block. -/
theorem EmitTilingKernel_hlo021 (dims : Dim3) (z y x : Nat)
    (hy : y < ceilOfRatio dims.y 32) (hx : x < ceilOfRatio dims.x 32) :
    EmitTilingKernel (hlo021MappingScheme dims)
        ((z * ceilOfRatio dims.y 32 + y) * ceilOfRatio dims.x 32 + x) =
      { output_tile_bounds_y := tileWidth dims.y 32 y
        output_tile_bounds_x := tileWidth dims.x 32 x
        tile_origin := ⟨z, y * 32, x * 32⟩
        tiles := [⟨z, y * 32, x * 32⟩] } := by
  obtain ⟨h1, h2, h3⟩ := block_id_coords _ _ z y x hy hx
  unfold EmitTilingKernel
  simp only [hlo021MappingScheme, KernelMappingScheme.dims_in_blocks, kWarpSize, h1, h2, h3,
    Nat.mul_one, if_true, tileWidth]

/-- The blocks of the transpose scheme, by their coordinates. -/
theorem hlo021_blocks (dims : Dim3) :
    List.range (hlo021MappingScheme dims).GetNumberOfBlocks =
      (List.range dims.z).flatMap (fun z =>
        (List.range (ceilOfRatio dims.y 32)).flatMap (fun y =>
          (List.range (ceilOfRatio dims.x 32)).map (fun x =>
            (z * ceilOfRatio dims.y 32 + y) * ceilOfRatio dims.x 32 + x))) := by
  have hn : (hlo021MappingScheme dims).GetNumberOfBlocks =
      dims.z * ceilOfRatio dims.y 32 * ceilOfRatio dims.x 32 := by
    simp only [KernelMappingScheme.GetNumberOfBlocks, KernelMappingScheme.dims_in_blocks,
      hlo021MappingScheme, kWarpSize, ceilOfRatio_by_one]
  rw [hn, ← range_row_major (dims.z * ceilOfRatio dims.y 32) (ceilOfRatio dims.x 32),
    ← range_row_major dims.z (ceilOfRatio dims.y 32), List.flatMap_assoc]
  apply List.flatMap_congr
  intro z _
  rw [List.flatMap_map]

/-- The positions of the tiles of one slice `z`, tile by tile, are the positions
of the slice. -/
theorem tiles_cover_slice (Y X z : Nat) (hY : 1 ≤ Y) (hX : 1 ≤ X) :
    ((List.range (ceilOfRatio Y 32)).flatMap (fun y =>
      (List.range (ceilOfRatio X 32)).flatMap (fun x =>
        (List.range (tileWidth Y 32 y)).flatMap (fun yy =>
          (List.range (tileWidth X 32 x)).map (fun xx =>
            (⟨z, y * 32 + yy, x * 32 + xx⟩ : Dim3)))))).Perm
      ((List.range Y).flatMap (fun y => (List.range X).map (fun x => (⟨z, y, x⟩ : Dim3)))) := by
  have hrow : ∀ yrow : Nat, (List.range (ceilOfRatio X 32)).flatMap (fun x =>
      (List.range (tileWidth X 32 x)).map (fun xx => (⟨z, yrow, x * 32 + xx⟩ : Dim3))) =
      (List.range X).map (fun x => (⟨z, yrow, x⟩ : Dim3)) := by
    intro yrow
    rw [← blocks_cover_range X 32 hX (by omega), List.map_flatMap]
    apply List.flatMap_congr
    intro x _
    rw [List.map_map]
    rfl
  have hstep : ∀ y ∈ List.range (ceilOfRatio Y 32),
      ((List.range (ceilOfRatio X 32)).flatMap (fun x =>
        (List.range (tileWidth Y 32 y)).flatMap (fun yy =>
          (List.range (tileWidth X 32 x)).map (fun xx =>
            (⟨z, y * 32 + yy, x * 32 + xx⟩ : Dim3))))).Perm
      (((List.range (tileWidth Y 32 y)).map (fun yy => y * 32 + yy)).flatMap (fun yrow =>
        (List.range X).map (fun x => (⟨z, yrow, x⟩ : Dim3)))) := by
    intro y _
    refine (flatMap_swap_perm _ _ _).trans (List.Perm.of_eq ?_)
    rw [List.flatMap_map]
    apply List.flatMap_congr
    intro yy _
    exact hrow (y * 32 + yy)
  refine (List.Perm.flatMap_left _ hstep).trans (List.Perm.of_eq ?_)
  rw [← List.flatMap_assoc, blocks_cover_range Y 32 hY (by omega)]

/-- The output positions written by the copy kernel: every position of the
normalized output, each once. -/
theorem EmitHlo021Tile_positions {α : Type} (dims : Dim3) (ty : IndexType) (input : Dim3 → α)
    (hy : 1 ≤ dims.y) (hx : 1 ≤ dims.x) :
    ((EmitHlo021Tile dims ty input).map Prod.fst).Perm (allPositions dims) := by
  unfold EmitHlo021Tile allPositions
  simp only
  rw [hlo021_blocks, List.flatMap_assoc, List.map_flatMap]
  apply List.Perm.flatMap_left
  intro z _
  refine List.Perm.trans ?_ (tiles_cover_slice dims.y dims.x z hy hx)
  rw [List.flatMap_assoc, List.map_flatMap]
  apply List.Perm.flatMap_left
  intro y hyb
  rw [List.flatMap_map, List.map_flatMap]
  apply List.Perm.flatMap_left
  intro x hxb
  rw [EmitTilingKernel_hlo021 dims z y x (List.mem_range.mp hyb) (List.mem_range.mp hxb)]
  simp only [List.flatMap_cons, List.flatMap_nil, List.append_nil]
  exact writeOutputTile_positions dims ty _ _ _ _ (tileWidth_le _ _ _ hy (by omega))
    (tileWidth_le _ _ _ hx (by omega))

/-- The values written by the copy kernel: at every output position the input
element at the position with Y and X exchanged, read from a cell of the buffer
that was stored to before the barrier of the same tile. -/
theorem EmitHlo021Tile_values {α : Type} (dims : Dim3) (ty : IndexType) (input : Dim3 → α)
    (hy : 1 ≤ dims.y) (hx : 1 ≤ dims.x) (w : Dim3 × Option α)
    (hw : w ∈ EmitHlo021Tile dims ty input) :
    w.2 = some (input (Permute021 w.1)) := by
  unfold EmitHlo021Tile at hw
  simp only at hw
  rw [hlo021_blocks] at hw
  simp only [List.mem_flatMap, List.mem_map, List.mem_range] at hw
  obtain ⟨b, ⟨z, _, y, hyb, x, hxb, rfl⟩, o, ho, hwo⟩ := hw
  rw [EmitTilingKernel_hlo021 dims z y x hyb hxb] at ho hwo
  simp only [List.mem_singleton] at ho
  subst ho
  exact writeOutputTile_value dims ty input _ _ _ (tileWidth_le _ _ _ hy (by omega))
    (tileWidth_le _ _ _ hx (by omega)) w hwo

theorem allPositions_nodup (dims : Dim3) : (allPositions dims).Nodup := by
  unfold allPositions
  rw [List.nodup_flatMap]
  constructor
  · intro z _
    rw [List.nodup_flatMap]
    constructor
    · intro y _
      apply List.Nodup.map _ (List.nodup_range _)
      intro a b hab
      simp only [Dim3.mk.injEq, true_and] at hab
      exact hab
    · apply (List.nodup_range _).imp
      intro a b hne
      simp only [Function.onFun, List.disjoint_left, List.mem_map, List.mem_range]
      rintro p ⟨x, _, rfl⟩ ⟨x2, _, heq⟩
      simp only [Dim3.mk.injEq, true_and] at heq
      exact hne heq.1.symm
  · apply (List.nodup_range _).imp
    intro a b hne
    simp only [Function.onFun, List.disjoint_left, List.mem_flatMap, List.mem_map, List.mem_range]
    rintro p ⟨y, _, x, _, rfl⟩ ⟨y2, _, x2, _, heq⟩
    simp only [Dim3.mk.injEq] at heq
    exact hne heq.1.symm

theorem mem_allPositions (dims p : Dim3) :
    p ∈ allPositions dims ↔ p.z < dims.z ∧ p.y < dims.y ∧ p.x < dims.x := by
  unfold allPositions
  simp only [List.mem_flatMap, List.mem_map, List.mem_range]
  constructor
  · rintro ⟨z, hz, y, hy, x, hx, rfl⟩
    exact ⟨hz, hy, hx⟩
  · rintro ⟨hz, hy, hx⟩
    exact ⟨p.z, hz, p.y, hy, p.x, hx, rfl⟩

/-- C20: for a normalized input shape `[d0, d1, d2]` with `d1` and `d2` at least 1
(and any `d0`, so in particular `d0` at least 1), the copy kernel of `EmitHlo021Tile` (tiles of 32 x 32, 4 thread rows)
writes the output positions `[i, k, j]` with `i < d0`, `k < d2`, `j < d1` and no
other, each exactly once, partial last tiles included; and the value of every
write to `[i, k, j]` is the input element `[i, j, k]`, loaded from a cell of the
shared-memory buffer that was stored to before the barrier of the same tile (a
cell never stored to would give `none`). -/
theorem EmitHlo021Tile_transposes {α : Type} (d0 d1 d2 : Nat) (h1 : 1 ≤ d1) (h2 : 1 ≤ d2) (ty : IndexType) (input : Dim3 → α) :
    ((EmitHlo021Tile ⟨d0, d2, d1⟩ ty input).map Prod.fst).Perm (allPositions ⟨d0, d2, d1⟩) ∧
    (∀ i j k, i < d0 → j < d1 → k < d2 →
      ((EmitHlo021Tile ⟨d0, d2, d1⟩ ty input).map Prod.fst).count ⟨i, k, j⟩ = 1) ∧
    (∀ w ∈ EmitHlo021Tile ⟨d0, d2, d1⟩ ty input,
      w.1.z < d0 ∧ w.1.y < d2 ∧ w.1.x < d1 ∧ w.2 = some (input ⟨w.1.z, w.1.x, w.1.y⟩)) := by
  have hperm := EmitHlo021Tile_positions ⟨d0, d2, d1⟩ ty input h2 h1
  refine ⟨hperm, ?_, ?_⟩
  · intro i j k hi hj hk
    rw [hperm.count_eq]
    exact List.count_eq_one_of_mem (allPositions_nodup _)
      ((mem_allPositions _ _).mpr ⟨hi, hk, hj⟩)
  · intro w hw
    have hmem : w.1 ∈ allPositions ⟨d0, d2, d1⟩ :=
      hperm.mem_iff.mp (List.mem_map.mpr ⟨w, hw, rfl⟩)
    obtain ⟨hz, hy, hx⟩ := (mem_allPositions _ _).mp hmem
    exact ⟨hz, hy, hx, EmitHlo021Tile_values ⟨d0, d2, d1⟩ ty input h2 h1 w hw⟩

theorem EmitHlo021Tile_transposes_witness :
    1 ≤ 40 ∧ 1 ≤ 33 ∧
    ((EmitHlo021Tile ⟨2, 33, 40⟩ .i32 (fun p => p)).map Prod.fst).Perm
      (allPositions ⟨2, 33, 40⟩) ∧
    (∀ i j k, i < 2 → j < 40 → k < 33 →
      ((EmitHlo021Tile ⟨2, 33, 40⟩ .i32 (fun p => p)).map Prod.fst).count ⟨i, k, j⟩ = 1) ∧
    (∀ w ∈ EmitHlo021Tile ⟨2, 33, 40⟩ .i32 (fun p => p),
      w.1.z < 2 ∧ w.1.y < 33 ∧ w.1.x < 40 ∧ w.2 = some (⟨w.1.z, w.1.x, w.1.y⟩ : Dim3)) :=
  ⟨by decide, by decide,
    EmitHlo021Tile_transposes 2 40 33 (by decide) (by decide) .i32 (fun p => p)⟩

/-- The copy kernel for the input shape `[1, 3, 2]`, one partial tile: the six
writes, in the order of the threads. -/
theorem EmitHlo021Tile_example :
    EmitHlo021Tile ⟨1, 2, 3⟩ .i64 (fun p => p) =
      [(⟨0, 0, 0⟩, some ⟨0, 0, 0⟩), (⟨0, 0, 1⟩, some ⟨0, 1, 0⟩), (⟨0, 0, 2⟩, some ⟨0, 2, 0⟩),
       (⟨0, 1, 0⟩, some ⟨0, 0, 1⟩), (⟨0, 1, 1⟩, some ⟨0, 1, 1⟩), (⟨0, 1, 2⟩, some ⟨0, 2, 1⟩)] := by
  decide

/-! ## Unroll factor: proofs -/

theorem unrollFactorLoop_total (num_elements : Int) (fuel : Nat) (i : Int)
    (hfuel : i.toNat < fuel) : ∃ r, unrollFactorLoop num_elements fuel i = some r := by
  induction fuel generalizing i with
  | zero => omega
  | succ n ih =>
    unfold unrollFactorLoop
    by_cases hi : i > 1
    · rw [if_pos hi]
      by_cases hdiv : num_elements % i = 0
      · exact ⟨i, by rw [if_pos hdiv]⟩
      · rw [if_neg hdiv]
        apply ih
        omega
    · exact ⟨1, by rw [if_neg hi]⟩

/-- `ComputeMaxUnrollFactor` returns for every shape and every configured
maximum. -/
theorem ComputeMaxUnrollFactor_total (shape : Shape) (max_unroll_factor : Int) :
    ∃ r, ComputeMaxUnrollFactor shape max_unroll_factor = some r :=
  unrollFactorLoop_total _ _ _ (by omega)

/-- The loop started at a power of two: the result is the largest power of two
up to the start that divides the number of elements. -/
theorem unrollFactorLoop_pow (num_elements : Int) (k fuel : Nat) (hfuel : k < fuel) :
    ∃ j, j ≤ k ∧ unrollFactorLoop num_elements fuel ((2 : Int) ^ k) = some ((2 : Int) ^ j) ∧
      (2 : Int) ^ j ∣ num_elements ∧
      ∀ m, m ≤ k → (2 : Int) ^ m ∣ num_elements → m ≤ j := by
  induction k generalizing fuel with
  | zero =>
    obtain ⟨n, rfl⟩ : ∃ n, fuel = n + 1 := ⟨fuel - 1, by omega⟩
    refine ⟨0, le_refl _, ?_, by simp, fun m hm _ => hm⟩
    simp [unrollFactorLoop]
  | succ k ih =>
    obtain ⟨n, rfl⟩ : ∃ n, fuel = n + 1 := ⟨fuel - 1, by omega⟩
    have hpos : (1 : Int) < 2 ^ (k + 1) := by
      have : (0 : Int) < 2 ^ k := by positivity
      rw [pow_succ]
      omega
    have hhalf : (2 : Int) ^ (k + 1) / 2 = 2 ^ k := by
      rw [pow_succ]
      exact Int.mul_ediv_cancel _ (by norm_num)
    unfold unrollFactorLoop
    rw [if_pos hpos]
    by_cases hdiv : num_elements % (2 : Int) ^ (k + 1) = 0
    · rw [if_pos hdiv]
      exact ⟨k + 1, le_refl _, rfl, Int.dvd_of_emod_eq_zero hdiv, fun m hm _ => hm⟩
    · rw [if_neg hdiv, hhalf]
      obtain ⟨j, hj, hres, hdvd, hmax⟩ := ih n (by omega)
      refine ⟨j, by omega, hres, hdvd, ?_⟩
      intro m hm hmdvd
      rcases Nat.lt_or_ge m (k + 1) with hlt | hge
      · exact hmax m (by omega) hmdvd
      · have hmk : m = k + 1 := by omega
        subst hmk
        exact absurd (Int.emod_eq_zero_of_dvd hmdvd) hdiv

/-- C25 (failing input): with the configured maximum 6, which is not a power of
two, `ComputeMaxUnrollFactor` does not return the largest power of two that
divides the number of elements: a shape of 4 elements gets the factor 1 although
the power of two 4 is at most 6 and divides the number of elements, and a shape
of 6 elements gets the factor 6, which is not a power of two. -/
theorem ComputeMaxUnrollFactor_maximum_six :
    ComputeMaxUnrollFactor (.array .F32 [4]) 6 = some 1 ∧
    ((2 : Int) ^ 2 ≤ 6 ∧ (2 : Int) ^ 2 ∣ ElementsIn (.array .F32 [4])) ∧
    ComputeMaxUnrollFactor (.array .F32 [6]) 6 = some 6 ∧
    (∀ j : Nat, j ≤ 3 → (6 : Int) ≠ 2 ^ j) := by
  refine ⟨by decide, ⟨by decide, by decide⟩, by decide, by decide⟩

/-- The unroll factor for a configured maximum that is a power of two: for every
shape, `ComputeMaxUnrollFactor` returns the largest power of two that does not
exceed the configured maximum and divides the number of elements of the shape;
this is 1 when no such value greater than 1 exists. -/
theorem ComputeMaxUnrollFactor_power_of_two (shape : Shape) (max_unroll_factor : Int)
    (hpow : ∃ k : Nat, max_unroll_factor = 2 ^ k) :
    ∃ j : Nat, ComputeMaxUnrollFactor shape max_unroll_factor = some ((2 : Int) ^ j) ∧
      (2 : Int) ^ j ≤ max_unroll_factor ∧ (2 : Int) ^ j ∣ ElementsIn shape ∧
      ∀ m : Nat, (2 : Int) ^ m ≤ max_unroll_factor → (2 : Int) ^ m ∣ ElementsIn shape →
        (2 : Int) ^ m ≤ 2 ^ j := by
  obtain ⟨k, rfl⟩ := hpow
  have hk : k < ((2 : Int) ^ k).toNat + 1 := by
    have h1 : ((2 : Int) ^ k).toNat = 2 ^ k := by
      have : ((2 : Int) ^ k) = ((2 ^ k : Nat) : Int) := by push_cast; rfl
      rw [this, Int.toNat_natCast]
    rw [h1]
    have := Nat.lt_two_pow k
    omega
  obtain ⟨j, hj, hres, hdvd, hmax⟩ := unrollFactorLoop_pow (ElementsIn shape) k _ hk
  refine ⟨j, hres, ?_, hdvd, ?_⟩
  · exact pow_le_pow_right₀ (by norm_num) hj
  · intro m hm hmdvd
    have hmk : m ≤ k := by
      by_contra hcon
      have hlt : (2 : Int) ^ k < 2 ^ m := pow_lt_pow_right₀ (by norm_num) (by omega)
      omega
    exact pow_le_pow_right₀ (by norm_num) (hmax m hmk hmdvd)

theorem ComputeMaxUnrollFactor_power_of_two_witness :
    (∃ k : Nat, (4 : Int) = 2 ^ k) ∧
    ∃ j : Nat, ComputeMaxUnrollFactor (.array .F32 [3, 6]) 4 = some ((2 : Int) ^ j) ∧
      (2 : Int) ^ j ≤ 4 ∧ (2 : Int) ^ j ∣ ElementsIn (.array .F32 [3, 6]) ∧
      ∀ m : Nat, (2 : Int) ^ m ≤ 4 → (2 : Int) ^ m ∣ ElementsIn (.array .F32 [3, 6]) →
        (2 : Int) ^ m ≤ 2 ^ j :=
  ⟨⟨2, by norm_num⟩, ComputeMaxUnrollFactor_power_of_two (.array .F32 [3, 6]) 4 ⟨2, by norm_num⟩⟩

/-- The unroll factor for a configured maximum below 2 is 1. -/
theorem ComputeMaxUnrollFactor_small_maximum (shape : Shape) (max_unroll_factor : Int)
    (hsmall : max_unroll_factor ≤ 1) : ComputeMaxUnrollFactor shape max_unroll_factor = some 1 := by
  unfold ComputeMaxUnrollFactor unrollFactorLoop
  rw [if_neg (by omega)]

/-- The unroll factor of a shape of 18 elements for the default maximum 4. -/
theorem ComputeMaxUnrollFactor_example :
    ComputeMaxUnrollFactor (.array .F32 [3, 6]) 4 = some 2 := by
  decide

/-! ## The loops of `EmitTile`: proofs -/

/-- `EmitTile` is its loop over `y_loc` around the body for one `y_loc`. -/
theorem EmitTile_eq_flatMap_y_locs (scheme : KernelMappingScheme) (ty : IndexType)
    (tile_origin_index : Dim3) (thread_id_info : ThreadIdInfo) (tile_height tile_width : Nat) :
    EmitTile scheme ty tile_origin_index thread_id_info tile_height tile_width =
      (EmitTile.y_locs ty scheme.num_threads_y thread_id_info.thread_id_y tile_height).flatMap
        (EmitTile.y_body scheme tile_origin_index thread_id_info.thread_id_x tile_width) := by
  unfold EmitTile EmitTile.y_locs
  rw [List.flatMap_map]
  rfl

/-- The number of iterations of the reference loop and its values. -/
theorem yLoopReference_eq (n H : Nat) (hn : 1 ≤ n) : ∀ (fuel t : Nat),
    (H + n - 1 - t) / n ≤ fuel →
    yLoopReference n H fuel t = (List.range ((H + n - 1 - t) / n)).map (fun k => t + k * n) := by
  intro fuel
  induction fuel with
  | zero =>
    intro t hfuel
    have h0 : (H + n - 1 - t) / n = 0 := Nat.le_zero.mp hfuel
    rw [h0]
    rfl
  | succ m ih =>
    intro t hfuel
    unfold yLoopReference
    by_cases hlt : t < H
    · rw [if_pos hlt]
      have hsplit : H + n - 1 - t = (H + n - 1 - (t + n)) + n := by omega
      have hcount : (H + n - 1 - t) / n = (H + n - 1 - (t + n)) / n + 1 := by
        rw [hsplit, Nat.add_div_right _ (by omega)]
      rw [hcount] at hfuel ⊢
      rw [ih (t + n) (by omega), List.range_succ_eq_map, List.map_cons, List.map_map]
      have hhead : t + 0 * n = t := by omega
      rw [hhead]
      have htail : (List.range ((H + n - 1 - (t + n)) / n)).map (fun k => t + n + k * n) =
          (List.range ((H + n - 1 - (t + n)) / n)).map
            ((fun k => t + k * n) ∘ Nat.succ) := by
        apply List.map_congr_left
        intro k _
        simp only [Function.comp, Nat.succ_eq_add_one]
        ring
      rw [htail]
    · rw [if_neg hlt]
      have h0 : (H + n - 1 - t) / n = 0 := Nat.div_eq_of_lt (by omega)
      rw [h0]
      rfl

/-- The bound of the loop over `y_indvar`, computed with wrap-around and an
unsigned division, for a thread row below the number of thread rows. -/
theorem ceil_of_ratio_wrapped (ty : IndexType) (n t H : Nat) (ht : t < n)
    (hH : H < 2 ^ (ty.bits - 1)) (hn : n ≤ 2 ^ (ty.bits - 1)) :
    ceil_of_ratio ty (subWrapped ty H t) n = (H + n - 1 - t) / n := by
  unfold ceil_of_ratio subWrapped
  congr 1
  cases ty <;> simp only [IndexType.bits] at hH hn ⊢ <;> norm_num at hH hn ⊢ <;> omega

theorem y_locs_eq (ty : IndexType) (n t H : Nat) (ht : t < n)
    (hH : H < 2 ^ (ty.bits - 1)) (hn : n ≤ 2 ^ (ty.bits - 1)) :
    EmitTile.y_locs ty n t H = (List.range ((H + n - 1 - t) / n)).map (fun k => t + k * n) := by
  unfold EmitTile.y_locs
  rw [ceil_of_ratio_wrapped ty n t H ht hH hn]
  apply List.map_congr_left
  intro k hk
  have hk2 : k < (H + n - 1 - t) / n := List.mem_range.mp hk
  have hmul : (k + 1) * n ≤ H + n - 1 - t :=
    le_trans (Nat.mul_le_mul_right n hk2) (Nat.div_mul_le_self _ _)
  have hexp : (k + 1) * n = k * n + n := by ring
  have hlt : t + k * n < H := by omega
  have hM : H < 2 ^ ty.bits := by
    cases ty <;> simp only [IndexType.bits] at hH ⊢ <;> norm_num at hH ⊢ <;> omega
  rw [Nat.mod_eq_of_lt (by omega : k * n < 2 ^ ty.bits), Nat.mod_eq_of_lt (by omega)]

/-- C27: for a thread row `thread_id_y` below `num_threads_y` and a tile height
and a number of thread rows that are non-negative values of the index type (below
`2 ^ (bits - 1)`), the loop of `EmitTile` over `y_indvar`, with its bound computed
with wrap-around and an unsigned division, visits the values of `y_loc` of the
loop `for (y_loc = thread_id_y; y_loc < tile_height; y_loc += num_threads_y)` in
the same order, for every fuel of at least `tile_height` iterations; it runs no
iteration when `thread_id_y` is not below `tile_height`; and `EmitTile` makes the
calls of that reference loop around the same body. -/
theorem EmitTile_y_loop_refines (ty : IndexType) (num_threads_y thread_id_y tile_height : Nat)
    (hy : thread_id_y < num_threads_y) (hH : tile_height < 2 ^ (ty.bits - 1))
    (hn : num_threads_y ≤ 2 ^ (ty.bits - 1)) :
    (∀ fuel, tile_height ≤ fuel →
      EmitTile.y_locs ty num_threads_y thread_id_y tile_height =
        yLoopReference num_threads_y tile_height fuel thread_id_y) ∧
    (tile_height ≤ thread_id_y →
      EmitTile.y_locs ty num_threads_y thread_id_y tile_height = []) ∧
    (∀ (scheme : KernelMappingScheme) (tile_origin_index : Dim3) (thread_id_info : ThreadIdInfo)
        (tile_width : Nat),
      scheme.num_threads_y = num_threads_y → thread_id_info.thread_id_y = thread_id_y →
      EmitTile scheme ty tile_origin_index thread_id_info tile_height tile_width =
        (yLoopReference num_threads_y tile_height tile_height thread_id_y).flatMap
          (EmitTile.y_body scheme tile_origin_index thread_id_info.thread_id_x tile_width)) := by
  have hn1 : 1 ≤ num_threads_y := by omega
  have hcount : (tile_height + num_threads_y - 1 - thread_id_y) / num_threads_y ≤ tile_height := by
    rcases Nat.lt_or_ge thread_id_y tile_height with hlt | hge
    · apply Nat.div_le_of_le_mul
      have h3 : num_threads_y * tile_height =
          num_threads_y * (tile_height - 1) + num_threads_y := by
        conv_lhs => rw [show tile_height = (tile_height - 1) + 1 by omega]
        ring
      have h4 : tile_height - 1 ≤ num_threads_y * (tile_height - 1) :=
        Nat.le_mul_of_pos_left _ hn1
      omega
    · have h0 : (tile_height + num_threads_y - 1 - thread_id_y) / num_threads_y = 0 :=
        Nat.div_eq_of_lt (by omega)
      omega
  have hlocs := y_locs_eq ty num_threads_y thread_id_y tile_height hy hH hn
  refine ⟨?_, ?_, ?_⟩
  · intro fuel hfuel
    rw [hlocs, yLoopReference_eq num_threads_y tile_height hn1 fuel thread_id_y (by omega)]
  · intro hge
    rw [hlocs]
    have h0 : (tile_height + num_threads_y - 1 - thread_id_y) / num_threads_y = 0 :=
      Nat.div_eq_of_lt (by omega)
    rw [h0]
    rfl
  · intro scheme o tinfo W hsn htn
    rw [EmitTile_eq_flatMap_y_locs, hsn, htn, hlocs,
      yLoopReference_eq num_threads_y tile_height hn1 tile_height thread_id_y hcount]

theorem EmitTile_y_loop_refines_witness :
    (1 < 4) ∧ (10 < 2 ^ (IndexType.i32.bits - 1)) ∧ (4 ≤ 2 ^ (IndexType.i32.bits - 1)) ∧
    (∀ fuel, 10 ≤ fuel → EmitTile.y_locs .i32 4 1 10 = yLoopReference 4 10 fuel 1) ∧
    (10 ≤ 1 → EmitTile.y_locs .i32 4 1 10 = []) ∧
    (∀ (scheme : KernelMappingScheme) (tile_origin_index : Dim3) (thread_id_info : ThreadIdInfo)
        (tile_width : Nat),
      scheme.num_threads_y = 4 → thread_id_info.thread_id_y = 1 →
      EmitTile scheme .i32 tile_origin_index thread_id_info 10 tile_width =
        (yLoopReference 4 10 10 1).flatMap
          (EmitTile.y_body scheme tile_origin_index thread_id_info.thread_id_x tile_width)) :=
  ⟨by decide, by decide, by decide,
    EmitTile_y_loop_refines .i32 4 1 10 (by decide) (by decide) (by decide)⟩

/-- The loop of `EmitTile` over `y_indvar` for thread row 1 of 4 and a tile of
height 10, and for thread row 3 and a tile of height 2. -/
theorem EmitTile_y_locs_examples :
    EmitTile.y_locs .i32 4 1 10 = [1, 5, 9] ∧ yLoopReference 4 10 10 1 = [1, 5, 9] ∧
    EmitTile.y_locs .i64 4 3 2 = [] ∧ yLoopReference 4 2 2 3 = [] := by
  refine ⟨?_, by decide, ?_, by decide⟩
  · rw [y_locs_eq .i32 4 1 10 (by decide) (by decide) (by decide)]
    decide
  · rw [y_locs_eq .i64 4 3 2 (by decide) (by decide) (by decide)]
    decide

/-- C29: for a row reduction with a reduced extent, a tile size and a fan-out of
at least 1, `NearestPowerOfTwo(fan_out)` is not 0 and
`ComputeReductionCodegenInfo` returns a scheme with one thread row whose thread
count in X is a multiple of 32 between 32 and 512; for every thread of such a
block the warp id is below 32, so the slot `[j][warp_id]` lies inside the shared
cache `[num_partial_results][32]`; thread 0 is the only thread that updates the
output, its warp exists, and the address it reduces from is the slot `[j][0]` of
the shared cache, not the copy of the initial value. -/
theorem row_reduction_thread_count (dimensions reduction_tiling : Dim3) (fan_out : Int)
    (smallest_input_dtype_bits cc_major : Nat)
    (unrolling_column_reduction_beneficial may_prevent_vectorization row_contiguous : Bool)
    (h1 : 1 ≤ fan_out) (h63 : fan_out < 2 ^ 63) (hdx : 1 ≤ dimensions.x)
    (htx : 1 ≤ reduction_tiling.x) :
    NearestPowerOfTwo fan_out ≠ 0 ∧
    ∃ info, ComputeReductionCodegenInfo true dimensions reduction_tiling fan_out
        smallest_input_dtype_bits cc_major unrolling_column_reduction_beneficial
        may_prevent_vectorization row_contiguous = some info ∧
      info.mapping_scheme.num_threads_y = 1 ∧
      info.mapping_scheme.num_threads_x % 32 = 0 ∧
      32 ≤ info.mapping_scheme.num_threads_x ∧ info.mapping_scheme.num_threads_x ≤ 512 ∧
      (∀ thread_id j, thread_id < info.mapping_scheme.GetThreadsPerBlock →
        j < info.num_partial_results →
        j < (rowSharedCacheExtents info.num_partial_results).1 ∧
        EmitEpilogueForReduction.warp_id
            (EmitThreadIdInfo info.mapping_scheme.num_threads_x thread_id) <
          (rowSharedCacheExtents info.num_partial_results).2) ∧
      (∀ thread_id, thread_id < info.mapping_scheme.GetThreadsPerBlock →
        (EmitEpilogueForReduction.updates_output
            (EmitThreadIdInfo info.mapping_scheme.num_threads_x thread_id) = true ↔
          thread_id = 0)) ∧
      EmitEpilogueForReduction.warp_exists info.mapping_scheme.num_threads_x
        (EmitThreadIdInfo info.mapping_scheme.num_threads_x 0) = true ∧
      (∀ j, EmitEpilogueForReduction.selected_value info.mapping_scheme.num_threads_x j
        (EmitThreadIdInfo info.mapping_scheme.num_threads_x 0) = .sharedCache j 0) := by
  obtain ⟨hne, _⟩ := max_block_size_cases fan_out h1 h63
  obtain ⟨W, o, v, hW1, hW16, _, hinfo⟩ := ComputeReductionCodegenInfo_row dimensions
    reduction_tiling fan_out smallest_input_dtype_bits cc_major
    unrolling_column_reduction_beneficial may_prevent_vectorization row_contiguous h1 h63 hdx htx
  refine ⟨hne, _, hinfo, rfl, ?_, ?_, ?_, ?_, ?_, ?_, ?_⟩
  · simp only [kWarpSize]
    omega
  · simp only [kWarpSize]
    omega
  · simp only [kWarpSize]
    omega
  · intro thread_id j hthread hj
    simp only [KernelMappingScheme.GetThreadsPerBlock, kWarpSize] at hthread
    refine ⟨hj, ?_⟩
    simp only [rowSharedCacheExtents, EmitEpilogueForReduction.warp_id, EmitThreadIdInfo,
      kWarpSize]
    have hmod : thread_id % (W * 32) = thread_id := Nat.mod_eq_of_lt (by omega)
    rw [hmod]
    omega
  · intro thread_id hthread
    simp only [KernelMappingScheme.GetThreadsPerBlock, kWarpSize] at hthread
    simp only [EmitEpilogueForReduction.updates_output, EmitEpilogueForReduction.warp_id,
      EmitThreadIdInfo, kWarpSize, Bool.and_eq_true, decide_eq_true_eq]
    have hmod : thread_id % (W * 32) = thread_id := Nat.mod_eq_of_lt (by omega)
    rw [hmod]
    omega
  · simp only [EmitEpilogueForReduction.warp_exists, EmitThreadIdInfo, kWarpSize,
      decide_eq_true_eq, Nat.zero_mod]
    have : W * 32 / 32 = W := Nat.mul_div_cancel _ (by norm_num)
    omega
  · intro j
    have hex : EmitEpilogueForReduction.warp_exists (W * kWarpSize)
        (EmitThreadIdInfo (W * kWarpSize) 0) = true := by
      simp only [EmitEpilogueForReduction.warp_exists, EmitThreadIdInfo, kWarpSize,
        decide_eq_true_eq, Nat.zero_mod]
      have : W * 32 / 32 = W := Nat.mul_div_cancel _ (by norm_num)
      omega
    unfold EmitEpilogueForReduction.selected_value
    rw [if_pos hex]
    rfl

theorem row_reduction_thread_count_witness :
    (1 : Int) ≤ 3 ∧ (3 : Int) < 2 ^ 63 ∧ 1 ≤ (⟨1, 7, 1000⟩ : Dim3).x ∧
    1 ≤ (⟨1, 1, 16⟩ : Dim3).x ∧
    NearestPowerOfTwo 3 ≠ 0 ∧
    ∃ info, ComputeReductionCodegenInfo true ⟨1, 7, 1000⟩ ⟨1, 1, 16⟩ 3 32 7 false false false =
        some info ∧
      info.mapping_scheme.num_threads_y = 1 ∧
      info.mapping_scheme.num_threads_x % 32 = 0 ∧
      32 ≤ info.mapping_scheme.num_threads_x ∧ info.mapping_scheme.num_threads_x ≤ 512 ∧
      (∀ thread_id j, thread_id < info.mapping_scheme.GetThreadsPerBlock →
        j < info.num_partial_results →
        j < (rowSharedCacheExtents info.num_partial_results).1 ∧
        EmitEpilogueForReduction.warp_id
            (EmitThreadIdInfo info.mapping_scheme.num_threads_x thread_id) <
          (rowSharedCacheExtents info.num_partial_results).2) ∧
      (∀ thread_id, thread_id < info.mapping_scheme.GetThreadsPerBlock →
        (EmitEpilogueForReduction.updates_output
            (EmitThreadIdInfo info.mapping_scheme.num_threads_x thread_id) = true ↔
          thread_id = 0)) ∧
      EmitEpilogueForReduction.warp_exists info.mapping_scheme.num_threads_x
        (EmitThreadIdInfo info.mapping_scheme.num_threads_x 0) = true ∧
      (∀ j, EmitEpilogueForReduction.selected_value info.mapping_scheme.num_threads_x j
        (EmitThreadIdInfo info.mapping_scheme.num_threads_x 0) = .sharedCache j 0) :=
  ⟨by decide, by decide, by decide, by decide,
    row_reduction_thread_count ⟨1, 7, 1000⟩ ⟨1, 1, 16⟩ 3 32 7 false false false
      (by decide) (by decide) (by decide) (by decide)⟩

/-- The thread counts chosen for a row of 1000 elements with tile size 16: 64
threads for any fan-out, since 63 steps round up to 64; and for a row of 100000
elements 512 threads for fan-out 1 and 256 for fan-out 3. -/
theorem row_reduction_thread_count_examples :
    (ComputeReductionCodegenInfo true ⟨1, 7, 1000⟩ ⟨1, 1, 16⟩ 3 32 7 false false false).map
      (fun info => info.mapping_scheme.num_threads_x) = some 64 ∧
    (ComputeReductionCodegenInfo true ⟨1, 7, 100000⟩ ⟨1, 1, 16⟩ 1 32 7 false false false).map
      (fun info => info.mapping_scheme.num_threads_x) = some 512 ∧
    (ComputeReductionCodegenInfo true ⟨1, 7, 100000⟩ ⟨1, 1, 16⟩ 3 32 7 false false false).map
      (fun info => info.mapping_scheme.num_threads_x) = some 256 := by
  decide

/-! ## Normalized and unnormalized indices: proofs -/

/-- The unnormalized coordinates of the normalized index `(1, 2, 3)` of
`[2, 3, 4]` in the shape `[6, 2, 2]`, and of `(0, 2, 3)` of `[1, 3, 4]` in the
row-major shape `[3, 4]` by the rank-2 branch. -/
theorem GetUnnormalizedIndex_examples :
    GetUnnormalizedIndex ⟨⟨1, 2, 3⟩, ⟨2, 3, 4⟩⟩ ⟨[6, 2, 2], true, [2, 1, 0]⟩ ⟨2, 3, 4⟩ =
      some [5, 1, 1] ∧
    GetUnnormalizedIndex ⟨⟨0, 2, 3⟩, ⟨1, 3, 4⟩⟩ ⟨[3, 4], true, [1, 0]⟩ ⟨1, 3, 4⟩ =
      some [2, 3] ∧
    Delinearize ((⟨⟨0, 2, 3⟩, ⟨1, 3, 4⟩⟩ : IrArrayIndex3).Linearize ⟨1, 3, 4⟩)
      ⟨[3, 4], true, [1, 0]⟩ = [2, 3] := by
  decide

/-! ## Slice input fusion: proofs -/

/-- The loop over the remaining slices returns the first shape when every slice
has an operand of an equal shape, ignoring the element type. -/
theorem rootSlicesLoop_ok (E : Shape → Shape → Bool) (computation : List FusedInstruction)
    (first : Shape) (rest : List Nat)
    (h : ∀ slice ∈ rest, ∃ operand tl,
      (instructionAt computation slice).operands = operand :: tl ∧
        E first (instructionAt computation operand).shape = true) :
    rootSlicesLoop E computation first rest = .ok first := by
  induction rest with
  | nil => rfl
  | cons slice rest ih =>
    obtain ⟨operand, tl, hops, hE⟩ := h slice (List.mem_cons_self _ _)
    unfold rootSlicesLoop
    rw [hops]
    simp only [hE, Bool.not_true, Bool.false_eq_true, if_false]
    exact ih (fun s hs => h s (List.mem_cons_of_mem _ hs))

/-- The loop over the remaining slices returns `FailedPrecondition` when some
slice has an operand of a different shape, every slice having an operand. -/
theorem rootSlicesLoop_failed (E : Shape → Shape → Bool) (computation : List FusedInstruction)
    (first : Shape) (rest : List Nat)
    (hops : ∀ slice ∈ rest, (instructionAt computation slice).operands ≠ [])
    (h : ∃ slice ∈ rest, ∃ operand tl,
      (instructionAt computation slice).operands = operand :: tl ∧
        E first (instructionAt computation operand).shape = false) :
    rootSlicesLoop E computation first rest = .FailedPrecondition .differentInputShapes := by
  induction rest with
  | nil =>
    obtain ⟨_, hmem, _⟩ := h
    cases hmem
  | cons slice rest ih =>
    unfold rootSlicesLoop
    cases hslice : (instructionAt computation slice).operands with
    | nil => exact absurd hslice (hops slice (List.mem_cons_self _ _))
    | cons operand tl =>
      simp only
      cases hE : E first (instructionAt computation operand).shape with
      | false => simp
      | true =>
        simp only [Bool.not_true, Bool.false_eq_true, if_false]
        apply ih (fun s hs => hops s (List.mem_cons_of_mem _ hs))
        obtain ⟨s, hs, op, tl2, hsops, hsE⟩ := h
        rcases List.mem_cons.mp hs with rfl | hrest
        · rw [hslice] at hsops
          injection hsops with h1 _
          subst h1
          rw [hE] at hsE
          cases hsE
        · exact ⟨s, hrest, op, tl2, hsops, hsE⟩

/-- C22: `GetConsistentInputShapeForRootSlices` returns the shape of the operand
of the root when the root is a non-strided slice, and the shape of the operand of
the first slice when the root is a tuple of non-strided slices whose operands
all have the shape of the first one's, ignoring the element type; it returns
`FailedPrecondition` when the root is not a non-strided slice or a tuple of
non-strided slices, and when the operand of some slice of the root tuple has a
shape that differs from the first one's. -/
theorem GetConsistentInputShapeForRootSlices_spec (E : Shape → Shape → Bool)
    (fusion : SliceFusion) :
    (IsInputFusibleSlices fusion true = true ↔
      ((instructionAt fusion.computation fusion.root).opcode = .kSlice ∧
          IsInputFusibleSlices.is_slice fusion true fusion.root = true) ∨
        ((instructionAt fusion.computation fusion.root).opcode = .kTuple ∧
          ∀ slice ∈ (instructionAt fusion.computation fusion.root).operands,
            IsInputFusibleSlices.is_slice fusion true slice = true)) ∧
    (IsInputFusibleSlices fusion true = false →
      GetConsistentInputShapeForRootSlices E fusion = .FailedPrecondition .unsupportedRoot) ∧
    ((instructionAt fusion.computation fusion.root).opcode = .kSlice →
      IsInputFusibleSlices.is_slice fusion true fusion.root = true →
      ∀ operand tl, (instructionAt fusion.computation fusion.root).operands = operand :: tl →
        GetConsistentInputShapeForRootSlices E fusion =
          .ok (instructionAt fusion.computation operand).shape) ∧
    ((instructionAt fusion.computation fusion.root).opcode = .kTuple →
      (∀ slice ∈ (instructionAt fusion.computation fusion.root).operands,
        IsInputFusibleSlices.is_slice fusion true slice = true) →
      ∀ first_slice rest first_operand tl,
        (instructionAt fusion.computation fusion.root).operands = first_slice :: rest →
        (instructionAt fusion.computation first_slice).operands = first_operand :: tl →
        ((∀ slice ∈ rest, ∃ operand tl2,
            (instructionAt fusion.computation slice).operands = operand :: tl2 ∧
              E (instructionAt fusion.computation first_operand).shape
                (instructionAt fusion.computation operand).shape = true) →
          GetConsistentInputShapeForRootSlices E fusion =
            .ok (instructionAt fusion.computation first_operand).shape) ∧
        ((∀ slice ∈ rest, (instructionAt fusion.computation slice).operands ≠ []) →
          (∃ slice ∈ rest, ∃ operand tl2,
            (instructionAt fusion.computation slice).operands = operand :: tl2 ∧
              E (instructionAt fusion.computation first_operand).shape
                (instructionAt fusion.computation operand).shape = false) →
          GetConsistentInputShapeForRootSlices E fusion =
            .FailedPrecondition .differentInputShapes)) := by
  refine ⟨?_, ?_, ?_, ?_⟩
  · unfold IsInputFusibleSlices
    simp only
    by_cases hs : (instructionAt fusion.computation fusion.root).opcode = .kSlice
    · simp [hs]
    · by_cases ht : (instructionAt fusion.computation fusion.root).opcode = .kTuple
      · simp [hs, ht, List.all_eq_true]
      · simp [hs, ht]
  · intro hfalse
    unfold GetConsistentInputShapeForRootSlices
    simp [hfalse]
  · intro hs hslice operand tl hops
    have hfus : IsInputFusibleSlices fusion true = true := by
      unfold IsInputFusibleSlices
      simp [hs, hslice]
    unfold GetConsistentInputShapeForRootSlices
    simp [hfus, hs, hops]
  · intro ht hall first_slice rest first_operand tl hops hfirst
    have hs : (instructionAt fusion.computation fusion.root).opcode ≠ .kSlice := by
      rw [ht]
      decide
    have hfus : IsInputFusibleSlices fusion true = true := by
      unfold IsInputFusibleSlices
      simp only
      rw [if_neg hs, if_neg (by rw [ht]; simp), List.all_eq_true]
      exact hall
    have hresult : GetConsistentInputShapeForRootSlices E fusion =
        rootSlicesLoop E fusion.computation
          (instructionAt fusion.computation first_operand).shape rest := by
      unfold GetConsistentInputShapeForRootSlices
      simp [hfus, hs, ht, hops, hfirst]
    rw [hresult]
    exact ⟨rootSlicesLoop_ok E _ _ _, rootSlicesLoop_failed E _ _ _⟩

/-- The result for a root tuple of two non-strided slices of `f32[8]` and
`s32[8]` is the shape `f32[8]` of the first operand; with the second operand of
shape `s32[9]`, and with a stride of 2 in the second slice, it is
`FailedPrecondition`. -/
theorem GetConsistentInputShapeForRootSlices_examples :
    GetConsistentInputShapeForRootSlices sameDimensions twoSlicesFusion =
      .ok (.array .F32 [8]) ∧
    GetConsistentInputShapeForRootSlices sameDimensions mismatchedSlicesFusion =
      .FailedPrecondition .differentInputShapes ∧
    GetConsistentInputShapeForRootSlices sameDimensions stridedSlicesFusion =
      .FailedPrecondition .unsupportedRoot := by
  refine ⟨rfl, rfl, rfl⟩

/-! ## While loops: proofs -/

theorem CheckHloBuffersShareAllocation_ok_iff (G : Nat → List Nat → Option Slice)
    (a b : Nat) (index : List Nat) :
    CheckHloBuffersShareAllocation G a b index = .OK ↔
      ∃ slice, G a index = some slice ∧ G b index = some slice := by
  unfold CheckHloBuffersShareAllocation
  cases ha : G a index with
  | none => simp
  | some sa =>
    cases hb : G b index with
    | none => simp
    | some sb =>
      by_cases heq : sa = sb
      · simp [heq]
      · simp [heq, Ne.symm heq]

theorem CheckHloBuffersShareAllocation_cases (G : Nat → List Nat → Option Slice)
    (a b : Nat) (index : List Nat) (ha : (G a index).isSome = true)
    (hb : (G b index).isSome = true) :
    CheckHloBuffersShareAllocation G a b index = .OK ∨
      CheckHloBuffersShareAllocation G a b index = .InternalError := by
  unfold CheckHloBuffersShareAllocation
  cases hga : G a index with
  | none => rw [hga] at ha; cases ha
  | some sa =>
    cases hgb : G b index with
    | none => rw [hgb] at hb; cases hb
    | some sb =>
      by_cases heq : sa = sb
      · left; simp [heq]
      · right; simp [heq]

/-- The check at one shape index succeeds exactly when the while instruction, its
init operand, the parameters of the condition and the body, and the result of
the body all have the same unique slice at that index. -/
theorem checkWhileBuffersAt_ok_iff (G : Nat → List Nat → Option Slice) (w : WhileInstruction)
    (index : List Nat) :
    checkWhileBuffersAt G w index = .OK ↔
      ∃ slice, G w.xla_while index = some slice ∧ G w.init index = some slice ∧
        G w.condition_parameter index = some slice ∧ G w.body_parameter index = some slice ∧
        G w.body_result index = some slice := by
  unfold checkWhileBuffersAt
  constructor
  · intro h
    cases h1 : CheckHloBuffersShareAllocation G w.xla_while w.init index <;>
      rw [h1] at h <;> try (cases h)
    cases h2 : CheckHloBuffersShareAllocation G w.xla_while w.condition_parameter index <;>
      rw [h2] at h <;> try (cases h)
    cases h3 : CheckHloBuffersShareAllocation G w.xla_while w.body_parameter index <;>
      rw [h3] at h <;> try (cases h)
    simp only at h
    obtain ⟨s1, hw1, hi⟩ := (CheckHloBuffersShareAllocation_ok_iff _ _ _ _).mp h1
    obtain ⟨s2, hw2, hc⟩ := (CheckHloBuffersShareAllocation_ok_iff _ _ _ _).mp h2
    obtain ⟨s3, hw3, hp⟩ := (CheckHloBuffersShareAllocation_ok_iff _ _ _ _).mp h3
    obtain ⟨s4, hw4, hr⟩ := (CheckHloBuffersShareAllocation_ok_iff _ _ _ _).mp h
    rw [hw1] at hw2 hw3 hw4
    injection hw2 with e2
    injection hw3 with e3
    injection hw4 with e4
    subst e2
    subst e3
    subst e4
    exact ⟨s1, hw1, hi, hc, hp, hr⟩
  · rintro ⟨s, hw, hi, hc, hp, hr⟩
    rw [(CheckHloBuffersShareAllocation_ok_iff _ _ _ _).mpr ⟨s, hw, hi⟩]
    simp only
    rw [(CheckHloBuffersShareAllocation_ok_iff _ _ _ _).mpr ⟨s, hw, hc⟩]
    simp only
    rw [(CheckHloBuffersShareAllocation_ok_iff _ _ _ _).mpr ⟨s, hw, hp⟩]
    simp only
    exact (CheckHloBuffersShareAllocation_ok_iff _ _ _ _).mpr ⟨s, hw, hr⟩

theorem checkWhileBuffersAt_cases (G : Nat → List Nat → Option Slice) (w : WhileInstruction)
    (index : List Nat)
    (hsome : ∀ instr ∈ [w.xla_while, w.init, w.condition_parameter, w.body_parameter,
      w.body_result], (G instr index).isSome = true) :
    checkWhileBuffersAt G w index = .OK ∨ checkWhileBuffersAt G w index = .InternalError := by
  have hw := hsome w.xla_while (by simp)
  unfold checkWhileBuffersAt
  rcases CheckHloBuffersShareAllocation_cases G w.xla_while w.init index hw
    (hsome _ (by simp)) with h1 | h1
  · rw [h1]
    simp only
    rcases CheckHloBuffersShareAllocation_cases G w.xla_while w.condition_parameter index hw
      (hsome _ (by simp)) with h2 | h2
    · rw [h2]
      simp only
      rcases CheckHloBuffersShareAllocation_cases G w.xla_while w.body_parameter index hw
        (hsome _ (by simp)) with h3 | h3
      · rw [h3]
        simp only
        exact CheckHloBuffersShareAllocation_cases G w.xla_while w.body_result index hw
          (hsome _ (by simp))
      · rw [h3]
        right
        rfl
    · rw [h2]
      right
      rfl
  · rw [h1]
    right
    rfl

theorem forEachIndexWithStatus_ok_iff (f : List Nat → EmitStatus) (indices : List (List Nat)) :
    forEachIndexWithStatus f indices = .OK ↔ ∀ index ∈ indices, f index = .OK := by
  induction indices with
  | nil => simp [forEachIndexWithStatus]
  | cons index rest ih =>
    unfold forEachIndexWithStatus
    cases h : f index <;> simp [h, ih]

theorem forEachIndexWithStatus_cases (f : List Nat → EmitStatus) (indices : List (List Nat))
    (h : ∀ index ∈ indices, f index = .OK ∨ f index = .InternalError) :
    forEachIndexWithStatus f indices = .OK ∨
      forEachIndexWithStatus f indices = .InternalError := by
  induction indices with
  | nil => left; rfl
  | cons index rest ih =>
    unfold forEachIndexWithStatus
    rcases h index (List.mem_cons_self _ _) with h1 | h1
    · rw [h1]
      exact ih (fun i hi => h i (List.mem_cons_of_mem _ hi))
    · rw [h1]
      right
      rfl

/-- The check of the while buffers succeeds exactly when at every shape index of
the while result the five instructions have one and the same unique slice. -/
theorem CheckWhileBuffersShareAllocation_ok_iff (G : Nat → List Nat → Option Slice)
    (w : WhileInstruction) :
    CheckWhileBuffersShareAllocation G w = .OK ↔
      ∀ index ∈ w.shape.shapeIndices, ∃ slice,
        G w.xla_while index = some slice ∧ G w.init index = some slice ∧
        G w.condition_parameter index = some slice ∧ G w.body_parameter index = some slice ∧
        G w.body_result index = some slice := by
  unfold CheckWhileBuffersShareAllocation
  rw [forEachIndexWithStatus_ok_iff]
  constructor
  · intro h index hindex
    exact (checkWhileBuffersAt_ok_iff G w index).mp (h index hindex)
  · intro h index hindex
    exact (checkWhileBuffersAt_ok_iff G w index).mpr (h index hindex)

/-- A while loop whose init operand lies in another slice than its result: the
check returns an `InternalError`, and `HandleWhile` does not return it but ends
in the failed `TF_CHECK_OK`, with the thunk sequence unchanged. -/
theorem HandleWhile_unshared_check_failure :
    CheckWhileBuffersShareAllocation unsharedWhileSlices unsharedWhile = .InternalError ∧
    HandleWhile unsharedWhileSlices (.ok [7]) (.ok [8]) unsharedWhile [] = (.checkFailure, []) ∧
    HandleWhile unsharedWhileSlices (.ok [7]) (.ok [8])
      { unsharedWhile with known_trip_count := some 10 } [] = (.checkFailure, []) ∧
    HandleWhile sharedWhileSlices (.ok [7]) (.ok [8]) unsharedWhile [] =
      (.OK, [.WhileThunk [7] [8]]) := by
  decide

/-- C23 (amended): if every instruction of the loop has a unique slice at every
shape index of the while result and at some index the slice of the result
differs from that of the init operand, the condition parameter, the body
parameter or the body result, `CheckWhileBuffersShareAllocation` returns an
`InternalError`; whenever that check does not return `OK`, `BuildWhileThunk` and
`BuildForThunk` end in the failed `TF_CHECK_OK` instead of returning a status,
and `HandleWhile` appends no thunk; if all five share the same slice at every
shape index the check succeeds. -/
theorem CheckWhileBuffersShareAllocation_spec (GetUniqueSlice : Nat → List Nat → Option Slice)
    (emit_condition emit_body : Except EmitStatus (List Nat)) (xla_while : WhileInstruction)
    (hunique : ∀ index ∈ xla_while.shape.shapeIndices,
      ∀ instr ∈ [xla_while.xla_while, xla_while.init, xla_while.condition_parameter,
        xla_while.body_parameter, xla_while.body_result],
      (GetUniqueSlice instr index).isSome = true) :
    ((∃ index ∈ xla_while.shape.shapeIndices,
        ∃ instr ∈ [xla_while.init, xla_while.condition_parameter, xla_while.body_parameter,
          xla_while.body_result],
        GetUniqueSlice xla_while.xla_while index ≠ GetUniqueSlice instr index) →
      CheckWhileBuffersShareAllocation GetUniqueSlice xla_while = .InternalError ∧
      BuildWhileThunk GetUniqueSlice emit_condition emit_body xla_while =
        .error .checkFailure ∧
      (∀ loop_limit, BuildForThunk GetUniqueSlice emit_body xla_while loop_limit =
        .error .checkFailure) ∧
      (∀ thunk_sequence, xla_while.condition_root_is_scalar_pred = true →
        HandleWhile GetUniqueSlice emit_condition emit_body xla_while thunk_sequence =
          (.checkFailure, thunk_sequence))) ∧
    ((∀ index ∈ xla_while.shape.shapeIndices,
        ∀ instr ∈ [xla_while.init, xla_while.condition_parameter, xla_while.body_parameter,
          xla_while.body_result],
        GetUniqueSlice xla_while.xla_while index = GetUniqueSlice instr index) →
      CheckWhileBuffersShareAllocation GetUniqueSlice xla_while = .OK) := by
  constructor
  · rintro ⟨index, hindex, instr, hinstr, hne⟩
    have hnot : CheckWhileBuffersShareAllocation GetUniqueSlice xla_while ≠ .OK := by
      intro hok
      obtain ⟨slice, hw, hi, hc, hp, hr⟩ :=
        (CheckWhileBuffersShareAllocation_ok_iff _ _).mp hok index hindex
      simp only [List.mem_cons, List.mem_singleton, List.not_mem_nil, or_false] at hinstr
      rcases hinstr with rfl | rfl | rfl | rfl
      · exact hne (hw.trans hi.symm)
      · exact hne (hw.trans hc.symm)
      · exact hne (hw.trans hp.symm)
      · exact hne (hw.trans hr.symm)
    have hcases : CheckWhileBuffersShareAllocation GetUniqueSlice xla_while = .OK ∨
        CheckWhileBuffersShareAllocation GetUniqueSlice xla_while = .InternalError :=
      forEachIndexWithStatus_cases _ _
        (fun i hi => checkWhileBuffersAt_cases GetUniqueSlice xla_while i (hunique i hi))
    have herr : CheckWhileBuffersShareAllocation GetUniqueSlice xla_while = .InternalError := by
      rcases hcases with h | h
      · exact absurd h hnot
      · exact h
    have hwhile : BuildWhileThunk GetUniqueSlice emit_condition emit_body xla_while =
        .error .checkFailure := by
      unfold BuildWhileThunk
      rw [herr]
    have hfor : ∀ loop_limit, BuildForThunk GetUniqueSlice emit_body xla_while loop_limit =
        .error .checkFailure := by
      intro loop_limit
      unfold BuildForThunk
      rw [herr]
    refine ⟨herr, hwhile, hfor, ?_⟩
    intro thunk_sequence hpred
    unfold HandleWhile
    rw [hpred]
    cases hk : xla_while.known_trip_count with
    | none => simp [hwhile]
    | some n => simp [hfor n]
  · intro hall
    rw [CheckWhileBuffersShareAllocation_ok_iff]
    intro index hindex
    have hw := hunique index hindex xla_while.xla_while (by simp)
    obtain ⟨slice, hslice⟩ := Option.isSome_iff_exists.mp hw
    refine ⟨slice, hslice, ?_, ?_, ?_, ?_⟩
    · rw [← hall index hindex xla_while.init (by simp)]; exact hslice
    · rw [← hall index hindex xla_while.condition_parameter (by simp)]; exact hslice
    · rw [← hall index hindex xla_while.body_parameter (by simp)]; exact hslice
    · rw [← hall index hindex xla_while.body_result (by simp)]; exact hslice

theorem CheckWhileBuffersShareAllocation_spec_witness :
    (∀ index ∈ unsharedWhile.shape.shapeIndices,
      ∀ instr ∈ [unsharedWhile.xla_while, unsharedWhile.init, unsharedWhile.condition_parameter,
        unsharedWhile.body_parameter, unsharedWhile.body_result],
      (unsharedWhileSlices instr index).isSome = true) ∧
    (((∃ index ∈ unsharedWhile.shape.shapeIndices,
        ∃ instr ∈ [unsharedWhile.init, unsharedWhile.condition_parameter,
          unsharedWhile.body_parameter, unsharedWhile.body_result],
        unsharedWhileSlices unsharedWhile.xla_while index ≠ unsharedWhileSlices instr index) →
      CheckWhileBuffersShareAllocation unsharedWhileSlices unsharedWhile = .InternalError ∧
      BuildWhileThunk unsharedWhileSlices (.ok [7]) (.ok [8]) unsharedWhile =
        .error .checkFailure ∧
      (∀ loop_limit, BuildForThunk unsharedWhileSlices (.ok [8]) unsharedWhile loop_limit =
        .error .checkFailure) ∧
      (∀ thunk_sequence, unsharedWhile.condition_root_is_scalar_pred = true →
        HandleWhile unsharedWhileSlices (.ok [7]) (.ok [8]) unsharedWhile thunk_sequence =
          (.checkFailure, thunk_sequence))) ∧
    ((∀ index ∈ unsharedWhile.shape.shapeIndices,
        ∀ instr ∈ [unsharedWhile.init, unsharedWhile.condition_parameter,
          unsharedWhile.body_parameter, unsharedWhile.body_result],
        unsharedWhileSlices unsharedWhile.xla_while index = unsharedWhileSlices instr index) →
      CheckWhileBuffersShareAllocation unsharedWhileSlices unsharedWhile = .OK)) :=
  ⟨by decide,
    CheckWhileBuffersShareAllocation_spec unsharedWhileSlices (.ok [7]) (.ok [8]) unsharedWhile
      (by decide)⟩

/-- The shape indices of a tuple of an array and a tuple of two arrays. -/
theorem shapeIndices_example :
    (Shape.tuple [.array .F32 [2], .tuple [.array .S32 [], .array .F32 [3]]]).shapeIndices =
      [[], [0], [1], [1, 0], [1, 1]] := by
  decide

/-! ## Initializers: proofs -/

theorem lor_shiftLeft_eq_add (a c s : Nat) (ha : a < 2 ^ s) : a ||| (c <<< s) = a + c * 2 ^ s := by
  rw [Nat.lor_comm, Nat.shiftLeft_eq, Nat.mul_comm c, ← Nat.mul_add_lt_is_or ha]
  omega

theorem flatten_replicate_mul {β : Type} (a b : Nat) (l : List β) :
    (List.replicate (a * b) l).flatten =
      (List.replicate a (List.replicate b l).flatten).flatten := by
  induction a with
  | zero => simp
  | succ n ih =>
    rw [Nat.succ_mul, Nat.add_comm, List.replicate_add, List.flatten_append, ih,
      List.replicate_succ, List.flatten_cons]

/-- The bytes in memory of the value read from four bytes are those bytes. -/
theorem wordBytes_littleEndianValue (b0 b1 b2 b3 : Nat) (h0 : b0 < 256) (h1 : b1 < 256)
    (h2 : b2 < 256) (h3 : b3 < 256) :
    wordBytes (littleEndianValue [b0, b1, b2, b3]) = [b0, b1, b2, b3] := by
  simp only [wordBytes, littleEndianValue, List.foldr_cons, List.foldr_nil]
  refine congrArg₂ _ (by omega) (congrArg₂ _ (by omega) (congrArg₂ _ (by omega)
    (congrArg₂ _ (by omega) rfl)))

/-- The pattern built from a literal of one byte is the byte four times. -/
theorem pattern32_one_byte (b : Nat) (hb : b < 256) :
    wordBytes ((((b ||| (b <<< 8)) % 2 ^ 16) ||| (((b ||| (b <<< 8)) % 2 ^ 16) <<< 16)) %
      2 ^ 32) = [b, b, b, b] := by
  have h16 : (b ||| (b <<< 8)) % 2 ^ 16 = b + b * 256 := by
    rw [lor_shiftLeft_eq_add b b 8 (by norm_num; omega)]
    norm_num
    omega
  have h32 : ((b + b * 256) ||| ((b + b * 256) <<< 16)) % 2 ^ 32 =
      littleEndianValue [b, b, b, b] := by
    rw [lor_shiftLeft_eq_add _ _ 16 (by norm_num; omega)]
    simp only [littleEndianValue, List.foldr_cons, List.foldr_nil]
    norm_num
    omega
  rw [h16, h32]
  exact wordBytes_littleEndianValue b b b b hb hb hb hb

/-- The pattern built from a literal of two bytes is the two bytes twice. -/
theorem pattern32_two_bytes (b0 b1 : Nat) (h0 : b0 < 256) (h1 : b1 < 256) :
    wordBytes ((littleEndianValue [b0, b1] ||| (littleEndianValue [b0, b1] <<< 16)) % 2 ^ 32) =
      [b0, b1, b0, b1] := by
  have hval : littleEndianValue [b0, b1] = b0 + 256 * b1 := by
    simp [littleEndianValue]
  have h32 : ((b0 + 256 * b1) ||| ((b0 + 256 * b1) <<< 16)) % 2 ^ 32 =
      littleEndianValue [b0, b1, b0, b1] := by
    rw [lor_shiftLeft_eq_add _ _ 16 (by norm_num; omega)]
    simp only [littleEndianValue, List.foldr_cons, List.foldr_nil]
    norm_num
    omega
  rw [hval, h32]
  exact wordBytes_littleEndianValue b0 b1 b0 b1 h0 h1 h0 h1

/-- The comparison `memcmp(data, data + 4, size - 4) == 0` holds exactly when
every byte equals the byte four positions later, that is, when all 32-bit words
of the literal are equal. -/
theorem memcmp_shifted_iff (L : List Nat) (h4 : 4 ≤ L.length) :
    L.take (L.length - 4) = (L.drop 4).take (L.length - 4) ↔
      ∀ i, i + 4 < L.length → L.getD i 0 = L.getD (i + 4) 0 := by
  constructor
  · intro h i hi
    have h1 : (L.take (L.length - 4))[i]? = ((L.drop 4).take (L.length - 4))[i]? := by rw [h]
    rw [List.getElem?_take_of_lt (by omega), List.getElem?_take_of_lt (by omega),
      List.getElem?_drop] at h1
    rw [List.getD_eq_getElem?_getD, List.getD_eq_getElem?_getD, h1, Nat.add_comm]
  · intro h
    apply List.ext_getElem?
    intro i
    by_cases hi : i < L.length - 4
    · rw [List.getElem?_take_of_lt hi, List.getElem?_take_of_lt hi, List.getElem?_drop]
      have hi4 : i + 4 < L.length := by omega
      have hlt : i < L.length := by omega
      have hget := h i hi4
      rw [List.getD_eq_getElem?_getD, List.getD_eq_getElem?_getD,
        List.getElem?_eq_getElem hlt, List.getElem?_eq_getElem hi4] at hget
      simp only [Option.getD_some] at hget
      rw [Nat.add_comm 4 i, List.getElem?_eq_getElem hlt, List.getElem?_eq_getElem hi4, hget]
    · have hle : L.length - 4 ≤ i := by omega
      rw [List.getElem?_take_eq_none hle, List.getElem?_take_eq_none hle]

/-- A literal of `4 (q + 1)` bytes that equals itself shifted by four bytes is
its first word repeated. -/
theorem periodic_eq_replicate : ∀ (q : Nat) (L : List Nat), L.length = 4 * (q + 1) →
    L.take (4 * q) = (L.drop 4).take (4 * q) →
    L = (List.replicate (q + 1) (L.take 4)).flatten := by
  intro q
  induction q with
  | zero =>
    intro L hlen _
    rw [List.replicate_succ, List.replicate_zero, List.flatten_cons, List.flatten_nil,
      List.append_nil, List.take_of_length_le (by omega)]
  | succ q ih =>
    intro L hlen hshift
    have hR : (L.drop 4).length = 4 * (q + 1) := by rw [List.length_drop]; omega
    have hRtake : (L.drop 4).take (4 * (q + 1)) = L.drop 4 :=
      List.take_of_length_le (by omega)
    rw [hRtake] at hshift
    have hfirst : (L.drop 4).take 4 = L.take 4 := by
      have h1 : (L.drop 4).take 4 = (L.take (4 * (q + 1))).take 4 := by rw [hshift]
      rw [h1, List.take_take]
      congr 1
      omega
    have hdrop : (L.drop 4).drop 4 = (L.drop 4).take (4 * q) := by
      have h1 : (L.drop 4).drop 4 = (L.take (4 * (q + 1))).drop 4 := by rw [hshift]
      rw [h1, List.drop_take]
      congr 1
    have hRshift : (L.drop 4).take (4 * q) = ((L.drop 4).drop 4).take (4 * q) := by
      rw [hdrop, List.take_take, Nat.min_self]
    have hrec := ih (L.drop 4) hR hRshift
    rw [hfirst] at hrec
    have hsplit : L = L.take 4 ++ L.drop 4 := (List.take_append_drop 4 L).symm
    rw [List.replicate_succ, List.flatten_cons, ← hrec]
    exact hsplit

theorem take4_eq (L : List Nat) (h4 : 4 ≤ L.length) :
    L.take 4 = [L.getD 0 0, L.getD 1 0, L.getD 2 0, L.getD 3 0] := by
  match L, h4 with
  | b0 :: b1 :: b2 :: b3 :: rest, _ => rfl

theorem getD_lt_of_bytes (L : List Nat) (hbytes : ∀ b ∈ L, b < 256) (i : Nat)
    (hi : i < L.length) : L.getD i 0 < 256 := by
  rw [List.getD_eq_getElem _ _ hi]
  exact hbytes _ (List.getElem_mem hi)

/-- The memset for a literal whose 32-bit words are all equal fills the buffer
as the elements do. -/
theorem memset_of_equal_words (L : List Nat) (n : Nat) (hbytes : ∀ b ∈ L, b < 256)
    (h4 : 4 ≤ L.length) (hmod : L.length % 4 = 0)
    (hcmp : L.take (L.length - 4) = (L.drop 4).take (L.length - 4)) :
    wordBytes (littleEndianValue (L.take 4)) = L.take 4 ∧
    memset32Buffer (littleEndianValue (L.take 4)) (n * L.length / 4) = elementsBuffer L n := by
  obtain ⟨q, hq⟩ : ∃ q, L.length = 4 * (q + 1) := ⟨L.length / 4 - 1, by omega⟩
  have hword : wordBytes (littleEndianValue (L.take 4)) = L.take 4 := by
    rw [take4_eq L h4]
    exact wordBytes_littleEndianValue _ _ _ _ (getD_lt_of_bytes L hbytes 0 (by omega))
      (getD_lt_of_bytes L hbytes 1 (by omega)) (getD_lt_of_bytes L hbytes 2 (by omega))
      (getD_lt_of_bytes L hbytes 3 (by omega))
  refine ⟨hword, ?_⟩
  have hsub : L.length - 4 = 4 * q := by omega
  rw [hsub] at hcmp
  have hL := periodic_eq_replicate q L hq hcmp
  have hcount : n * L.length / 4 = n * (q + 1) := by
    rw [hq, Nat.mul_left_comm, Nat.mul_div_cancel_left _ (by norm_num)]
  unfold memset32Buffer elementsBuffer
  rw [hword, hcount, flatten_replicate_mul, ← hL]

/-- The memset for a literal of one or two bytes fills a buffer whose byte size
is a multiple of 4 as the elements do. -/
theorem memset_of_short_literal (L : List Nat) (n value : Nat)
    (hshort : L.length = 1 ∨ L.length = 2) (hsize : (n * L.length) % 4 = 0)
    (hpattern : wordBytes value = (List.replicate (4 / L.length) L).flatten) :
    memset32Buffer value (n * L.length / 4) = elementsBuffer L n := by
  unfold memset32Buffer elementsBuffer
  rw [hpattern, ← flatten_replicate_mul]
  congr 2
  rcases hshort with h | h
  · rw [h] at hsize ⊢
    omega
  · rw [h] at hsize ⊢
    omega

/-- The value of the memset for a literal of one or two bytes. -/
theorem short_pattern_bytes (L : List Nat) (hbytes : ∀ b ∈ L, b < 256)
    (hshort : L.length = 1 ∨ L.length = 2) :
    wordBytes
      (((if L.length = 1 then (L.headD 0 ||| (L.headD 0 <<< 8)) % 2 ^ 16
          else littleEndianValue (L.take 2)) |||
        ((if L.length = 1 then (L.headD 0 ||| (L.headD 0 <<< 8)) % 2 ^ 16
          else littleEndianValue (L.take 2)) <<< 16)) % 2 ^ 32) =
      (List.replicate (4 / L.length) L).flatten := by
  rcases hshort with h1 | h2
  · match L, h1, hbytes with
    | [b], _, hb =>
      simp only [List.length_singleton, if_true, List.headD_cons, Nat.div_one]
      rw [pattern32_one_byte b (hb b (List.mem_singleton_self b))]
      simp [List.replicate]
  · match L, h2, hbytes with
    | [b0, b1], _, hb =>
      have hne : ¬ ([b0, b1].length = 1) := by simp
      simp only [hne, if_false, List.take]
      rw [pattern32_two_bytes b0 b1 (hb b0 (by simp)) (hb b1 (by simp))]
      simp [List.replicate]

/-- C26: for a constant scalar initial value whose literal has the bytes `L`
(`k` of them) and an output of `n` elements of `k` bytes, `BuildInitializerThunk`
returns a memzero when every byte of `L` is 0; otherwise, when `k` is 1 or 2 and
the byte size of the output is a multiple of 4, a 32-bit memset whose value has
the bytes of `L` repeated 4 or 2 times; otherwise, when `k` is at least 4 and a
multiple of 4 and all 32-bit words of `L` are equal, which is what the `memcmp`
of `L` against itself shifted by 4 bytes decides, a 32-bit memset of the first
word; in each of these cases the buffer after the memzero or memset is byte for
byte the buffer in which every element holds `L`. In every other case, and for
an initial value that is not a constant, the initializer kernel is returned. -/
theorem BuildInitializerThunk_constant (L : List Nat) (n : Nat)
    (hbytes : ∀ b ∈ L, b < 256) :
    ((∀ b ∈ L, b = 0) →
      BuildInitializerThunk true L (n * L.length) = .Memzero ∧
      memzeroBuffer (n * L.length) = elementsBuffer L n) ∧
    (¬ (∀ b ∈ L, b = 0) → (L.length = 1 ∨ L.length = 2) → (n * L.length) % 4 = 0 →
      ∃ value, BuildInitializerThunk true L (n * L.length) = .Memset32BitValue value ∧
        wordBytes value = (List.replicate (4 / L.length) L).flatten ∧
        memset32Buffer value (n * L.length / 4) = elementsBuffer L n) ∧
    (4 ≤ L.length →
      (L.take (L.length - 4) = (L.drop 4).take (L.length - 4) ↔
        ∀ i, i + 4 < L.length → L.getD i 0 = L.getD (i + 4) 0)) ∧
    (¬ (∀ b ∈ L, b = 0) → 4 ≤ L.length → L.length % 4 = 0 →
      (∀ i, i + 4 < L.length → L.getD i 0 = L.getD (i + 4) 0) →
      BuildInitializerThunk true L (n * L.length) =
        .Memset32BitValue (littleEndianValue (L.take 4)) ∧
      wordBytes (littleEndianValue (L.take 4)) = L.take 4 ∧
      memset32Buffer (littleEndianValue (L.take 4)) (n * L.length / 4) = elementsBuffer L n) ∧
    (¬ (∀ b ∈ L, b = 0) → ¬ ((L.length = 1 ∨ L.length = 2) ∧ (n * L.length) % 4 = 0) →
      ¬ (4 ≤ L.length ∧ L.length % 4 = 0 ∧
        ∀ i, i + 4 < L.length → L.getD i 0 = L.getD (i + 4) 0) →
      BuildInitializerThunk true L (n * L.length) = .Kernel) ∧
    (∀ output_byte_size, BuildInitializerThunk false L output_byte_size = .Kernel) := by
  have hall : (L.all (fun byte => decide (byte = 0)) = true) ↔ ∀ b ∈ L, b = 0 := by
    simp [List.all_eq_true]
  refine ⟨?_, ?_, ?_, ?_, ?_, ?_⟩
  · intro hzero
    refine ⟨?_, ?_⟩
    · unfold BuildInitializerThunk
      simp only
      rw [if_pos trivial, if_pos (hall.mpr hzero)]
    · have hL : L = List.replicate L.length 0 := List.eq_replicate_iff.mpr ⟨rfl, hzero⟩
      unfold memzeroBuffer elementsBuffer
      conv_rhs => rw [hL]
      rw [List.flatten_replicate_replicate]
  · intro hnz hshort hsize
    have hnall : ¬ (L.all (fun byte => decide (byte = 0)) = true) := fun h => hnz (hall.mp h)
    have hthunk : BuildInitializerThunk true L (n * L.length) =
        .Memset32BitValue
          (((if L.length = 1 then (L.headD 0 ||| (L.headD 0 <<< 8)) % 2 ^ 16
              else littleEndianValue (L.take 2)) |||
            ((if L.length = 1 then (L.headD 0 ||| (L.headD 0 <<< 8)) % 2 ^ 16
              else littleEndianValue (L.take 2)) <<< 16)) % 2 ^ 32) := by
      unfold BuildInitializerThunk
      simp only
      rw [if_pos trivial, if_neg hnall, if_pos ⟨hshort, hsize⟩]
    have hpattern := short_pattern_bytes L hbytes hshort
    exact ⟨_, hthunk, hpattern, memset_of_short_literal L n _ hshort hsize hpattern⟩
  · intro h4
    exact memcmp_shifted_iff L h4
  · intro hnz h4 hmod hwords
    have hnall : ¬ (L.all (fun byte => decide (byte = 0)) = true) := fun h => hnz (hall.mp h)
    have hcmp := (memcmp_shifted_iff L h4).mpr hwords
    have hnshort : ¬ ((L.length = 1 ∨ L.length = 2) ∧ (n * L.length) % 4 = 0) := by
      rintro ⟨h | h, _⟩ <;> omega
    obtain ⟨hword, hbuffer⟩ := memset_of_equal_words L n hbytes h4 hmod hcmp
    refine ⟨?_, hword, hbuffer⟩
    unfold BuildInitializerThunk
    simp only
    rw [if_pos trivial, if_neg hnall, if_neg hnshort, if_pos ⟨h4, hmod, hcmp⟩]
  · intro hnz hnshort hnwords
    have hnall : ¬ (L.all (fun byte => decide (byte = 0)) = true) := fun h => hnz (hall.mp h)
    have hncmp : ¬ (L.length ≥ 4 ∧ L.length % 4 = 0 ∧
        L.take (L.length - 4) = (L.drop 4).take (L.length - 4)) := by
      rintro ⟨h4, hmod, hcmp⟩
      exact hnwords ⟨h4, hmod, (memcmp_shifted_iff L h4).mp hcmp⟩
    unfold BuildInitializerThunk
    simp only
    rw [if_pos trivial, if_neg hnall, if_neg hnshort, if_neg hncmp]
  · intro output_byte_size
    unfold BuildInitializerThunk
    simp

theorem BuildInitializerThunk_constant_witness :
    (∀ b ∈ [52, 18], b < 256) ∧
    (((∀ b ∈ [52, 18], b = 0) →
      BuildInitializerThunk true [52, 18] (2 * [52, 18].length) = .Memzero ∧
      memzeroBuffer (2 * [52, 18].length) = elementsBuffer [52, 18] 2) ∧
    (¬ (∀ b ∈ [52, 18], b = 0) → ([52, 18].length = 1 ∨ [52, 18].length = 2) → (2 * [52, 18].length) % 4 = 0 →
      ∃ value, BuildInitializerThunk true [52, 18] (2 * [52, 18].length) = .Memset32BitValue value ∧
        wordBytes value = (List.replicate (4 / [52, 18].length) [52, 18]).flatten ∧
        memset32Buffer value (2 * [52, 18].length / 4) = elementsBuffer [52, 18] 2) ∧
    (4 ≤ [52, 18].length →
      ([52, 18].take ([52, 18].length - 4) = ([52, 18].drop 4).take ([52, 18].length - 4) ↔
        ∀ i, i + 4 < [52, 18].length → [52, 18].getD i 0 = [52, 18].getD (i + 4) 0)) ∧
    (¬ (∀ b ∈ [52, 18], b = 0) → 4 ≤ [52, 18].length → [52, 18].length % 4 = 0 →
      (∀ i, i + 4 < [52, 18].length → [52, 18].getD i 0 = [52, 18].getD (i + 4) 0) →
      BuildInitializerThunk true [52, 18] (2 * [52, 18].length) =
        .Memset32BitValue (littleEndianValue ([52, 18].take 4)) ∧
      wordBytes (littleEndianValue ([52, 18].take 4)) = [52, 18].take 4 ∧
      memset32Buffer (littleEndianValue ([52, 18].take 4)) (2 * [52, 18].length / 4) = elementsBuffer [52, 18] 2) ∧
    (¬ (∀ b ∈ [52, 18], b = 0) → ¬ (([52, 18].length = 1 ∨ [52, 18].length = 2) ∧ (2 * [52, 18].length) % 4 = 0) →
      ¬ (4 ≤ [52, 18].length ∧ [52, 18].length % 4 = 0 ∧
        ∀ i, i + 4 < [52, 18].length → [52, 18].getD i 0 = [52, 18].getD (i + 4) 0) →
      BuildInitializerThunk true [52, 18] (2 * [52, 18].length) = .Kernel) ∧
    (∀ output_byte_size, BuildInitializerThunk false [52, 18] output_byte_size = .Kernel)) :=
  ⟨by decide, BuildInitializerThunk_constant [52, 18] 2 (by decide)⟩

/-- The thunks for some literals: the 16-bit value `0x1234` with an output of 8
bytes and of 6 bytes, the 32-bit float 1.0, a 64-bit value with two equal words
and one with different words, and a 64-bit zero. -/
theorem BuildInitializerThunk_examples :
    BuildInitializerThunk true [0x34, 0x12] 8 = .Memset32BitValue 0x12341234 ∧
    BuildInitializerThunk true [0x34, 0x12] 6 = .Kernel ∧
    BuildInitializerThunk true [0, 0, 0x80, 0x3f] 8 = .Memset32BitValue 0x3f800000 ∧
    BuildInitializerThunk true [0, 0, 0x80, 0x3f, 0, 0, 0x80, 0x3f] 8 =
      .Memset32BitValue 0x3f800000 ∧
    BuildInitializerThunk true [0, 0, 0x80, 0x3f, 0, 0, 0, 0] 8 = .Kernel ∧
    BuildInitializerThunk true [0, 0, 0, 0, 0, 0, 0, 0] 8 = .Memzero ∧
    memset32Buffer 0x12341234 2 = elementsBuffer [0x34, 0x12] 4 := by
  decide

/-! ## Kernel arguments: proofs -/

theorem bindSlices_eq_map (buffer_assn : BufferAssignment) (args : List Nat)
    (slices : List BufferSlice)
    (h : ∀ slice ∈ slices, buffer_assn.is_constant slice.buffer_slice.allocation = false →
      slice.buffer_slice.allocation ∈ args) :
    bindSlices buffer_assn args slices = some (slices.map (boundValueOf buffer_assn args)) := by
  induction slices with
  | nil => rfl
  | cons slice rest ih =>
    have hrest := ih (fun s hs => h s (List.mem_cons_of_mem _ hs))
    have hslice : bindSlice buffer_assn args slice = some (boundValueOf buffer_assn args slice) := by
      unfold bindSlice boundValueOf
      cases hc : buffer_assn.is_constant slice.buffer_slice.allocation with
      | true => simp
      | false =>
        have hmem := h slice (List.mem_cons_self _ _) hc
        simp [kernelArgAt, hmem]
    unfold bindSlices
    rw [hslice, hrest]
    rfl

/-- The kernel arguments: the allocations that are needed and not constant. -/
theorem mem_non_constant_buffers (buffer_assn : BufferAssignment)
    (iteration_order : List Nat → List Nat) (slices : List BufferSlice)
    (hperm : ∀ l, (iteration_order l).Perm l) (a : Nat) :
    a ∈ ((iteration_order (buffers_needed buffer_assn slices)).filter
        (fun allocation => !buffer_assn.is_constant allocation)).insertionSort
        (fun a b => a ≤ b) ↔
      buffer_assn.is_constant a = false ∧
        ((∃ slice ∈ slices, slice.buffer_slice.allocation = a) ∨
          buffer_assn.temp_buffer = some a) := by
  rw [(List.perm_insertionSort _ _).mem_iff, List.mem_filter, (hperm _).mem_iff]
  unfold buffers_needed
  rw [List.mem_dedup, List.mem_append, List.mem_map, Option.mem_toList]
  constructor
  · rintro ⟨hmem, hc⟩
    refine ⟨by simpa using hc, ?_⟩
    rcases hmem with ⟨s, hs, rfl⟩ | ht
    · exact Or.inl ⟨s, hs, rfl⟩
    · exact Or.inr ht
  · rintro ⟨hc, hmem⟩
    refine ⟨?_, by simp [hc]⟩
    rcases hmem with ⟨s, hs, rfl⟩ | ht
    · exact Or.inl ⟨s, hs, rfl⟩
    · exact Or.inr ht

/-- The kernel arguments are in strictly increasing order of allocation index. -/
theorem non_constant_buffers_sorted (buffer_assn : BufferAssignment)
    (iteration_order : List Nat → List Nat) (slices : List BufferSlice)
    (hperm : ∀ l, (iteration_order l).Perm l) :
    (((iteration_order (buffers_needed buffer_assn slices)).filter
        (fun allocation => !buffer_assn.is_constant allocation)).insertionSort
        (fun a b => a ≤ b)).Sorted (fun a b => a < b) := by
  apply List.Sorted.lt_of_le
  · exact List.sorted_insertionSort (fun a b : Nat => a ≤ b) _
  · rw [(List.perm_insertionSort _ _).nodup_iff]
    apply List.Nodup.filter
    rw [(hperm _).nodup_iff]
    exact List.nodup_dedup _

/-- The kernel arguments do not depend on the order in which the set of needed
allocations is walked. -/
theorem non_constant_buffers_order_independent (buffer_assn : BufferAssignment)
    (iteration_order : List Nat → List Nat) (slices : List BufferSlice)
    (hperm : ∀ l, (iteration_order l).Perm l) :
    ((iteration_order (buffers_needed buffer_assn slices)).filter
        (fun allocation => !buffer_assn.is_constant allocation)).insertionSort
        (fun a b => a ≤ b) =
      ((buffers_needed buffer_assn slices).filter
        (fun allocation => !buffer_assn.is_constant allocation)).insertionSort
        (fun a b => a ≤ b) := by
  apply List.eq_of_perm_of_sorted (r := fun a b : Nat => a ≤ b)
  · exact (List.perm_insertionSort _ _).trans
      (((hperm _).filter _).trans (List.perm_insertionSort _ _).symm)
  · exact List.sorted_insertionSort _ _
  · exact List.sorted_insertionSort _ _

/-- A slice in a constant allocation: the allocation is referenced by the slice
and is not among the kernel arguments, and the slice is bound to the global of
the allocation, not to an argument plus its byte offset. -/
theorem BuildKernelThunkFromBufferSlices_constant_allocation :
    BuildKernelThunkFromBufferSlices exampleAssignment id [⟨⟨1, 8, 4⟩, []⟩] =
      some { non_constant_buffers := [2]
             bound_values := [.constantGlobal 1 []]
             temp_buffer_base := some 0 } ∧
    BuildKernelThunkFromBufferSlices exampleAssignment id exampleSlices =
      some { non_constant_buffers := [2, 3]
             bound_values := [.kernelArgument 1 0 [], .constantGlobal 1 [],
               .kernelArgument 1 16 [1]]
             temp_buffer_base := some 0 } := by
  decide

/-- C21 (amended): the kernel built by `BuildKernelThunkFromBufferSlices` has
exactly one pointer argument for each distinct allocation that is not constant
and is referenced by the given slices or is the preallocated temp buffer of the
buffer assignment (also when no slice references it); the arguments are in
strictly increasing order of allocation index, whatever the order in which the
set of needed allocations is walked; every slice of an allocation that is not
constant is bound to the argument of its allocation plus the byte offset of the
slice, and every slice of a constant allocation to the global of the allocation,
in both cases followed by a load per entry of its tuple indices; the temp buffer
base is the argument of the temp buffer, or null when there is none. -/
theorem BuildKernelThunkFromBufferSlices_arguments (buffer_assn : BufferAssignment)
    (iteration_order : List Nat → List Nat) (slices : List BufferSlice)
    (hperm : ∀ l, (iteration_order l).Perm l)
    (htemp : ∀ a, buffer_assn.temp_buffer = some a → buffer_assn.is_constant a = false) :
    ∃ kernel, BuildKernelThunkFromBufferSlices buffer_assn iteration_order slices = some kernel ∧
      kernel.non_constant_buffers.Sorted (fun a b => a < b) ∧
      (∀ a, a ∈ kernel.non_constant_buffers ↔
        buffer_assn.is_constant a = false ∧
          ((∃ slice ∈ slices, slice.buffer_slice.allocation = a) ∨
            buffer_assn.temp_buffer = some a)) ∧
      kernel.bound_values =
        slices.map (boundValueOf buffer_assn kernel.non_constant_buffers) ∧
      (∀ slice ∈ slices, buffer_assn.is_constant slice.buffer_slice.allocation = false →
        kernel.non_constant_buffers[kernel.non_constant_buffers.indexOf
          slice.buffer_slice.allocation]? = some slice.buffer_slice.allocation) ∧
      (∀ t, buffer_assn.temp_buffer = some t →
        ∃ argument, kernel.temp_buffer_base = some argument ∧
          kernel.non_constant_buffers[argument]? = some t) ∧
      (buffer_assn.temp_buffer = none → kernel.temp_buffer_base = none) := by
  have hmem := mem_non_constant_buffers buffer_assn iteration_order slices hperm
  have hsorted := non_constant_buffers_sorted buffer_assn iteration_order slices hperm
  have hbind := bindSlices_eq_map buffer_assn
    (((iteration_order (buffers_needed buffer_assn slices)).filter
      (fun allocation => !buffer_assn.is_constant allocation)).insertionSort
      (fun a b => a ≤ b)) slices
    (fun slice hs hc => (hmem _).mpr ⟨hc, Or.inl ⟨slice, hs, rfl⟩⟩)
  have hget : ∀ slice ∈ slices, buffer_assn.is_constant slice.buffer_slice.allocation = false →
      (((iteration_order (buffers_needed buffer_assn slices)).filter
        (fun allocation => !buffer_assn.is_constant allocation)).insertionSort
        (fun a b => a ≤ b))[(((iteration_order (buffers_needed buffer_assn slices)).filter
        (fun allocation => !buffer_assn.is_constant allocation)).insertionSort
        (fun a b => a ≤ b)).indexOf slice.buffer_slice.allocation]? =
        some slice.buffer_slice.allocation :=
    fun slice hs hc => List.getElem?_indexOf ((hmem _).mpr ⟨hc, Or.inl ⟨slice, hs, rfl⟩⟩)
  unfold BuildKernelThunkFromBufferSlices
  simp only [hbind]
  cases ht : buffer_assn.temp_buffer with
  | none =>
    refine ⟨_, rfl, hsorted, ?_, rfl, hget, ?_, fun _ => rfl⟩
    · intro a
      rw [hmem a, ht]
    · intro t h
      cases h
  | some t =>
    have htmem : t ∈ ((iteration_order (buffers_needed buffer_assn slices)).filter
        (fun allocation => !buffer_assn.is_constant allocation)).insertionSort
        (fun a b => a ≤ b) := (hmem t).mpr ⟨htemp t ht, Or.inr ht⟩
    simp only [kernelArgAt, htmem, if_true]
    refine ⟨_, rfl, hsorted, ?_, rfl, hget, ?_, fun h => by cases h⟩
    · intro a
      rw [hmem a, ht]
    · intro t2 h
      injection h with h
      subst h
      exact ⟨_, rfl, List.getElem?_indexOf htmem⟩

theorem BuildKernelThunkFromBufferSlices_arguments_witness :
    (∀ l : List Nat, (id l).Perm l) ∧
    (∀ a, exampleAssignment.temp_buffer = some a → exampleAssignment.is_constant a = false) ∧
    (∃ kernel, BuildKernelThunkFromBufferSlices exampleAssignment id exampleSlices = some kernel ∧
      kernel.non_constant_buffers.Sorted (fun a b => a < b) ∧
      (∀ a, a ∈ kernel.non_constant_buffers ↔
        exampleAssignment.is_constant a = false ∧
          ((∃ slice ∈ exampleSlices, slice.buffer_slice.allocation = a) ∨
            exampleAssignment.temp_buffer = some a)) ∧
      kernel.bound_values =
        exampleSlices.map (boundValueOf exampleAssignment kernel.non_constant_buffers) ∧
      (∀ slice ∈ exampleSlices, exampleAssignment.is_constant slice.buffer_slice.allocation = false →
        kernel.non_constant_buffers[kernel.non_constant_buffers.indexOf
          slice.buffer_slice.allocation]? = some slice.buffer_slice.allocation) ∧
      (∀ t, exampleAssignment.temp_buffer = some t →
        ∃ argument, kernel.temp_buffer_base = some argument ∧
          kernel.non_constant_buffers[argument]? = some t) ∧
      (exampleAssignment.temp_buffer = none → kernel.temp_buffer_base = none)) :=
  ⟨fun l => List.Perm.refl l,
    fun a h => by
      have h2 : exampleAssignment.temp_buffer = some 2 := by decide
      rw [h2] at h
      injection h with h
      subst h
      rfl,
    BuildKernelThunkFromBufferSlices_arguments exampleAssignment id exampleSlices
      (fun l => List.Perm.refl l)
      (fun a h => by
        have h2 : exampleAssignment.temp_buffer = some 2 := by decide
        rw [h2] at h
        injection h with h
        subst h
        rfl)⟩

/-! ## Buffer lookup: proofs -/

/-- The lookup of an instruction that has a unique slice at the index: that
slice with no index to follow. -/
theorem find_slice_for_direct (g : HloGraph) (G : Nat → List Nat → Option Slice)
    (fuel instr : Nat) (index : List Nat) (slice : Slice) (h : G instr index = some slice) :
    find_slice_for g G fuel instr index = some (some (slice, [])) := by
  unfold find_slice_for
  rw [h]

/-- The last loop: a result is a unique slice of the instruction at a proper
prefix of the index, and its indices are the dropped part of the index, in
order, followed by the indices the loop started with. -/
theorem lastElementLoop_spec (G : Nat → List Nat → Option Slice) (instr : Nat) :
    ∀ (reversed_index gte_indices : List Nat) (slice : Slice) (path : List Nat),
      lastElementLoop G instr reversed_index gte_indices = some (slice, path) →
      ∃ kept dropped, reversed_index.reverse = kept ++ dropped ∧ dropped ≠ [] ∧
        G instr kept = some slice ∧ path = dropped ++ gte_indices := by
  intro reversed_index
  induction reversed_index with
  | nil =>
    intro gte_indices slice path h
    simp [lastElementLoop] at h
  | cons back rest ih =>
    intro gte_indices slice path h
    unfold lastElementLoop at h
    cases hG : G instr rest.reverse with
    | some found =>
      rw [hG] at h
      simp only [Option.some.injEq, Prod.mk.injEq] at h
      obtain ⟨h1, h2⟩ := h
      subst h1
      subst h2
      exact ⟨rest.reverse, [back], by simp, by simp, hG, rfl⟩
    | none =>
      rw [hG] at h
      obtain ⟨kept, dropped, hsplit, _, hkept, hpath⟩ := ih _ _ _ h
      refine ⟨kept, dropped ++ [back], ?_, by simp, hkept, ?_⟩
      · rw [List.reverse_cons, hsplit, List.append_assoc]
      · rw [hpath, List.append_assoc]
        rfl

/-- The last loop finds a slice when the instruction has a unique slice at some
proper prefix of the index. -/
theorem lastElementLoop_isSome (G : Nat → List Nat → Option Slice) (instr : Nat) :
    ∀ (reversed_index gte_indices kept dropped : List Nat) (slice : Slice),
      reversed_index.reverse = kept ++ dropped → dropped ≠ [] → G instr kept = some slice →
      (lastElementLoop G instr reversed_index gte_indices).isSome = true := by
  intro reversed_index
  induction reversed_index with
  | nil =>
    intro gte_indices kept dropped slice hsplit hne _
    simp only [List.reverse_nil] at hsplit
    have := List.append_eq_nil.mp hsplit.symm
    exact absurd this.2 hne
  | cons back rest ih =>
    intro gte_indices kept dropped slice hsplit hne hkept
    unfold lastElementLoop
    cases hG : G instr rest.reverse with
    | some found => rfl
    | none =>
      simp only
      rw [List.reverse_cons] at hsplit
      rcases List.eq_nil_or_concat dropped with hnil | ⟨shorter, last, hconcat⟩
      · exact absurd hnil hne
      · rw [hconcat, List.concat_eq_append, ← List.append_assoc] at hsplit
        have hrest : rest.reverse = kept ++ shorter := (List.append_inj' hsplit rfl).1
        by_cases hshort : shorter = []
        · rw [hshort, List.append_nil] at hrest
          rw [hrest, hkept] at hG
          cases hG
        · exact ih _ kept shorter slice hrest hshort hkept

/-- The lookup for an instruction that is neither an effective bitcast nor a
get-tuple-element and has no unique slice at the index: the last loop alone, so a
result is a unique slice at a proper prefix of the index together with exactly
the dropped part of the index. -/
theorem find_slice_for_last_fallback (g : HloGraph) (G : Nat → List Nat → Option Slice)
    (fuel instr : Nat) (index : List Nat) (hbitcast : g.IsEffectiveBitcast instr = false)
    (hgte : g.opcode instr ≠ .kGetTupleElement) (hnone : G instr index = none) :
    find_slice_for g G (fuel + 1) instr index =
      some (lastElementLoop G instr index.reverse []) ∧
    ∀ slice path, find_slice_for g G (fuel + 1) instr index = some (some (slice, path)) →
      ∃ kept, index = kept ++ path ∧ path ≠ [] ∧ G instr kept = some slice := by
  have hresult : find_slice_for g G (fuel + 1) instr index =
      some (lastElementLoop G instr index.reverse []) := by
    unfold find_slice_for
    rw [hnone]
    simp only [walkBitcasts, hbitcast, Bool.false_eq_true, if_false, walkGetTupleElements, hgte]
  refine ⟨hresult, ?_⟩
  intro slice path h
  rw [hresult] at h
  injection h with h
  obtain ⟨kept, dropped, hsplit, hne, hkept, hpath⟩ := lastElementLoop_spec G instr _ _ _ _ h
  rw [List.reverse_reverse] at hsplit
  rw [List.append_nil] at hpath
  subst hpath
  exact ⟨kept, hsplit, hne, hkept⟩

/-- The lookup for a get-tuple-element whose operand has a unique top-level
slice and which has no unique slice at the index: the slice of the operand with
the tuple index of the instruction, whatever the index asked for. -/
theorem find_slice_for_gte_ignores_index (g : HloGraph) (G : Nat → List Nat → Option Slice)
    (fuel instr : Nat) (index : List Nat) (slice : Slice)
    (hbitcast : g.IsEffectiveBitcast instr = false)
    (hgte : g.opcode instr = .kGetTupleElement) (hnone : G instr index = none)
    (hparent : G (g.operand0 instr) [] = some slice) :
    find_slice_for g G (fuel + 1) instr index = some (some (slice, [g.tuple_index instr])) := by
  unfold find_slice_for
  rw [hnone]
  simp only [walkBitcasts, hbitcast, Bool.false_eq_true, if_false, walkGetTupleElements, hgte,
    if_true, hparent]

/-- The lookup for a get-tuple-element whose operand is not a get-tuple-element
and has no unique top-level slice: the last loop goes on with the tuple index of
the instruction, so the indices of a result are the dropped part of the index
followed by that tuple index. -/
theorem find_slice_for_after_gte_walk (g : HloGraph) (G : Nat → List Nat → Option Slice)
    (fuel instr : Nat) (index : List Nat)
    (hbitcast : g.IsEffectiveBitcast instr = false)
    (hgte : g.opcode instr = .kGetTupleElement) (hnone : G instr index = none)
    (hparent : G (g.operand0 instr) [] = none)
    (hstop : g.opcode (g.operand0 instr) ≠ .kGetTupleElement) :
    find_slice_for g G (fuel + 2) instr index =
      some (lastElementLoop G instr index.reverse [g.tuple_index instr]) ∧
    ∀ slice path, find_slice_for g G (fuel + 2) instr index = some (some (slice, path)) →
      ∃ kept dropped, index = kept ++ dropped ∧ dropped ≠ [] ∧ G instr kept = some slice ∧
        path = dropped ++ [g.tuple_index instr] := by
  have hresult : find_slice_for g G (fuel + 2) instr index =
      some (lastElementLoop G instr index.reverse [g.tuple_index instr]) := by
    unfold find_slice_for
    rw [hnone]
    simp only [walkBitcasts, hbitcast, Bool.false_eq_true, if_false, walkGetTupleElements, hgte,
      if_true, hparent, hstop]
  refine ⟨hresult, ?_⟩
  intro slice path h
  rw [hresult] at h
  injection h with h
  obtain ⟨kept, dropped, hsplit, hne, hkept, hpath⟩ := lastElementLoop_spec G instr _ _ _ _ h
  rw [List.reverse_reverse] at hsplit
  exact ⟨kept, dropped, hsplit, hne, hkept, hpath⟩

theorem walkBitcasts_fuel (g : HloGraph) (G : Nat → List Nat → Option Slice)
    (horder : ∀ p, g.IsEffectiveBitcast p = true → g.operand0 p < p) :
    ∀ (fuel parent : Nat), parent < fuel →
      (∃ slice path, walkBitcasts g G fuel parent = .found slice path) ∨
      (∃ stop path, stop ≤ parent ∧ walkBitcasts g G fuel parent = .stopped stop path) := by
  intro fuel
  induction fuel with
  | zero => intro parent h; omega
  | succ n ih =>
    intro parent hlt
    unfold walkBitcasts
    cases hb : g.IsEffectiveBitcast parent with
    | false => exact Or.inr ⟨parent, [], le_refl _, by simp⟩
    | true =>
      have hop := horder parent hb
      simp only [if_true]
      cases hG : G (g.operand0 parent) [] with
      | some slice => exact Or.inl ⟨slice, [], rfl⟩
      | none =>
        simp only
        rcases ih (g.operand0 parent) (by omega) with h | ⟨stop, path, hle, h⟩
        · exact Or.inl h
        · exact Or.inr ⟨stop, path, by omega, h⟩

theorem walkGetTupleElements_fuel (g : HloGraph) (G : Nat → List Nat → Option Slice)
    (horder : ∀ p, g.opcode p = .kGetTupleElement → g.operand0 p < p) :
    ∀ (fuel parent : Nat) (gte_indices : List Nat), parent < fuel →
      walkGetTupleElements g G fuel parent gte_indices ≠ .outOfFuel := by
  intro fuel
  induction fuel with
  | zero => intro parent _ h; omega
  | succ n ih =>
    intro parent gte_indices hlt
    unfold walkGetTupleElements
    by_cases hop : g.opcode parent = .kGetTupleElement
    · have hlt2 := horder parent hop
      rw [if_pos hop]
      cases hG : G (g.operand0 parent) [] with
      | some slice => simp
      | none =>
        simp only
        exact ih _ _ (by omega)
    · rw [if_neg hop]
      simp

/-- The lookup returns when the fuel exceeds the number of the instruction, in a
computation whose effective bitcasts and get-tuple-elements come after their
operand. -/
theorem find_slice_for_returns (g : HloGraph) (G : Nat → List Nat → Option Slice)
    (horder : ∀ p, (g.IsEffectiveBitcast p = true ∨ g.opcode p = .kGetTupleElement) →
      g.operand0 p < p)
    (fuel instr : Nat) (index : List Nat) (hfuel : instr < fuel) :
    ∃ result, find_slice_for g G fuel instr index = some result := by
  unfold find_slice_for
  cases hG : G instr index with
  | some slice => exact ⟨_, rfl⟩
  | none =>
    simp only
    rcases walkBitcasts_fuel g G (fun p hp => horder p (Or.inl hp)) fuel instr hfuel with
      ⟨slice, path, h⟩ | ⟨stop, path, hle, h⟩
    · rw [h]
      exact ⟨_, rfl⟩
    · rw [h]
      simp only
      have hne := walkGetTupleElements_fuel g G (fun p hp => horder p (Or.inr hp)) fuel stop []
        (by omega)
      cases hw : walkGetTupleElements g G fuel stop [] with
      | outOfFuel => exact absurd hw hne
      | found slice gte_indices => exact ⟨_, rfl⟩
      | stopped parent gte_indices => exact ⟨_, rfl⟩


theorem followGteIndex_address {α : Type} (m : BufferLayout α) (g : HloGraph)
    (G : Nat → List Nat → Option Slice) (hm : m.Consistent g G) (instr : Nat) :
    ∀ (path index : List Nat),
      followGteIndex m.load (m.address instr index) path = m.address instr (index ++ path) := by
  intro path
  induction path with
  | nil => intro index; simp [followGteIndex]
  | cons i rest ih =>
    intro index
    have h := ih (index ++ [i])
    unfold followGteIndex at h ⊢
    rw [List.foldl_cons, hm.2.1, h, List.append_assoc]
    rfl

theorem walkBitcasts_address {α : Type} (m : BufferLayout α) (g : HloGraph)
    (G : Nat → List Nat → Option Slice) (hm : m.Consistent g G) :
    ∀ (fuel parent : Nat),
      (∀ slice path, walkBitcasts g G fuel parent = .found slice path →
        path = [] ∧ m.slice_address slice = m.address parent []) ∧
      (∀ stop path, walkBitcasts g G fuel parent = .stopped stop path →
        m.address stop [] = m.address parent []) := by
  intro fuel
  induction fuel with
  | zero =>
    intro parent
    constructor
    · intro slice path h
      simp [walkBitcasts] at h
    · intro stop path h
      simp [walkBitcasts] at h
  | succ n ih =>
    intro parent
    unfold walkBitcasts
    cases hb : g.IsEffectiveBitcast parent with
    | false =>
      constructor
      · intro slice path h
        simp at h
      · intro stop path h
        simp only [Bool.false_eq_true, if_false, WalkResult.stopped.injEq] at h
        rw [h.1]
    | true =>
      have heq := hm.2.2.2 parent hb
      simp only [if_true]
      cases hG : G (g.operand0 parent) [] with
      | some found =>
        constructor
        · intro slice path h
          simp only [WalkResult.found.injEq] at h
          obtain ⟨h1, h2⟩ := h
          subst h1
          subst h2
          exact ⟨rfl, by rw [hm.1 _ _ _ hG, heq]⟩
        · intro stop path h
          simp at h
      | none =>
        simp only
        obtain ⟨ih1, ih2⟩ := ih (g.operand0 parent)
        constructor
        · intro slice path h
          obtain ⟨hp, ha⟩ := ih1 slice path h
          exact ⟨hp, by rw [ha, heq]⟩
        · intro stop path h
          rw [ih2 stop path h, heq]

theorem walkGetTupleElements_address {α : Type} (m : BufferLayout α) (g : HloGraph)
    (G : Nat → List Nat → Option Slice) (hm : m.Consistent g G) (target : α) :
    ∀ (fuel parent : Nat) (gte_indices : List Nat) (slice : Slice) (path : List Nat),
      followGteIndex m.load (m.address parent []) gte_indices = target →
      walkGetTupleElements g G fuel parent gte_indices = .found slice path →
      followGteIndex m.load (m.slice_address slice) path = target := by
  intro fuel
  induction fuel with
  | zero =>
    intro parent gte_indices slice path _ h
    simp [walkGetTupleElements] at h
  | succ n ih =>
    intro parent gte_indices slice path hinv h
    unfold walkGetTupleElements at h
    by_cases hop : g.opcode parent = .kGetTupleElement
    · rw [if_pos hop] at h
      have hstep : followGteIndex m.load (m.address (g.operand0 parent) [])
          (g.tuple_index parent :: gte_indices) = target := by
        unfold followGteIndex at hinv ⊢
        rw [List.foldl_cons, hm.2.1, List.nil_append, ← hm.2.2.1 parent [] hop]
        exact hinv
      cases hG : G (g.operand0 parent) [] with
      | some found =>
        rw [hG] at h
        simp only [WalkResult.found.injEq] at h
        obtain ⟨h1, h2⟩ := h
        subst h1
        subst h2
        rw [hm.1 _ _ _ hG]
        exact hstep
      | none =>
        rw [hG] at h
        exact ih _ _ _ _ hstep h
    · rw [if_neg hop] at h
      cases h

/-- The pairs returned by the lookup that lead to the buffer asked for: in a
consistent layout, following the returned indices from the start of the returned
slice reaches the buffer of the instruction at the index whenever the
instruction has a unique slice at the index, or the index is empty, or the
instruction is neither an effective bitcast nor a get-tuple-element. -/
theorem find_slice_for_denotes {α : Type} (m : BufferLayout α) (g : HloGraph)
    (G : Nat → List Nat → Option Slice) (hm : m.Consistent g G) (fuel instr : Nat)
    (index : List Nat) (slice : Slice) (path : List Nat)
    (hcase : (G instr index).isSome = true ∨ index = [] ∨
      (g.IsEffectiveBitcast instr = false ∧ g.opcode instr ≠ .kGetTupleElement))
    (h : find_slice_for g G fuel instr index = some (some (slice, path))) :
    followGteIndex m.load (m.slice_address slice) path = m.address instr index := by
  cases hG : G instr index with
  | some found =>
    rw [find_slice_for_direct g G fuel instr index found hG] at h
    simp only [Option.some.injEq, Prod.mk.injEq] at h
    obtain ⟨h1, h2⟩ := h
    subst h1
    subst h2
    rw [hm.1 _ _ _ hG]
    rfl
  | none =>
    rw [hG] at hcase
    rcases hcase with hsome | hnil | ⟨hb, hop⟩
    · cases hsome
    · subst hnil
      unfold find_slice_for at h
      rw [hG] at h
      simp only at h
      obtain ⟨hb1, hb2⟩ := walkBitcasts_address m g G hm fuel instr
      cases hw : walkBitcasts g G fuel instr with
      | outOfFuel => rw [hw] at h; cases h
      | found s p =>
        rw [hw] at h
        simp only [Option.some.injEq, Prod.mk.injEq] at h
        obtain ⟨h1, h2⟩ := h
        subst h1
        subst h2
        obtain ⟨hp, ha⟩ := hb1 _ _ hw
        rw [hp, ha]
        rfl
      | stopped stop p =>
        rw [hw] at h
        simp only at h
        have hstop := hb2 _ _ hw
        cases hw2 : walkGetTupleElements g G fuel stop [] with
        | outOfFuel => rw [hw2] at h; cases h
        | found s p2 =>
          rw [hw2] at h
          simp only [Option.some.injEq, Prod.mk.injEq] at h
          obtain ⟨h1, h2⟩ := h
          subst h1
          subst h2
          exact walkGetTupleElements_address m g G hm (m.address instr []) fuel stop [] _ _
            (by rw [← hstop]; rfl) hw2
        | stopped stop2 p2 =>
          rw [hw2] at h
          simp [lastElementLoop] at h
    · cases fuel with
      | zero =>
        unfold find_slice_for at h
        rw [hG] at h
        simp [walkBitcasts] at h
      | succ n =>
        obtain ⟨kept, hsplit, _, hkept⟩ :=
          (find_slice_for_last_fallback g G n instr index hb hop hG).2 slice path h
        rw [hm.1 _ _ _ hkept, followGteIndex_address m g G hm instr path kept, hsplit]

/-- The layout `staleLayout` agrees with `staleGraph` and `staleSlices`. -/
theorem staleLayout_consistent : staleLayout.Consistent staleGraph staleSlices := by
  refine ⟨?_, ?_, ?_, ?_⟩
  · intro instr index slice h
    unfold staleSlices at h
    split at h
    · rename_i hcond
      obtain ⟨h1, h2⟩ := hcond
      subst h1
      subst h2
      rfl
    · cases h
  · intro instr index i
    by_cases h1 : instr = 1
    · simp [staleLayout, h1]
    · simp [staleLayout, h1]
  · intro p index hop
    have hp : p = 1 := by
      by_contra hne
      simp [staleGraph, hne] at hop
    subst hp
    simp [staleLayout, staleGraph]
  · intro p hb
    simp [staleGraph] at hb

/-- The layout `selectLayout` agrees with `selectGraph` and `selectSlices`. -/
theorem selectLayout_consistent : selectLayout.Consistent selectGraph selectSlices := by
  refine ⟨?_, ?_, ?_, ?_⟩
  · intro instr index slice h
    unfold selectSlices at h
    split at h
    · rename_i hcond
      obtain ⟨h1, h2⟩ := hcond
      subst h1
      subst h2
      injection h with h
      subst h
      rfl
    · split at h
      · rename_i hcond
        obtain ⟨h1, h2⟩ := hcond
        subst h1
        subst h2
        injection h with h
        subst h
        rfl
      · split at h
        · rename_i hcond
          obtain ⟨h1, h2⟩ := hcond
          subst h2
          injection h with h
          subst h
          rcases h1 with h1 | h1 <;> subst h1 <;> rfl
        · cases h
  · intro instr index i
    by_cases h3 : instr = 3
    · simp [selectLayout, h3]
    · by_cases h2 : instr = 2
      · by_cases hnil : index = []
        · simp [selectLayout, h2, hnil]
        · simp [selectLayout, h2, hnil]
      · simp [selectLayout, h2, h3]
  · intro p index hop
    have hp : p = 3 := by
      by_contra hne
      by_cases h2 : p = 2
      · simp [selectGraph, h2] at hop
      · simp [selectGraph, hne, h2] at hop
    subst hp
    simp [selectLayout, selectGraph]
  · intro p hb
    simp [selectGraph] at hb

/-- C30 (failing inputs): the pair returned by the lookup does not always denote
the buffer asked for. For the get-tuple-element of `staleGraph`, whose operand
has no unique slice, the lookup at index `{0, 1}` succeeds through the last loop
with the slice at the prefix `{0}`, and its indices are `[1, 2]`: the dropped
part `[1]` of the index followed by the tuple index 2 left over from the walk
over the operand; in the consistent layout `staleLayout` these indices lead away
from the buffer at `{0, 1}`, which `[1]` reaches. For the get-tuple-element of the
tuple-shaped select of `selectGraph` the lookups at the indices `{}`, `{0}` and
`{1}` all return the top-level slice of the select with the indices `[1]`; in the
consistent layout `selectLayout` these lead to the buffer at `{}` and not to the
one at `{0}`, which `[1, 0]` reaches. -/
theorem find_slice_for_stale_gte_indices :
    (staleLayout.Consistent staleGraph staleSlices ∧
      staleSlices 1 [0, 1] = none ∧ staleSlices 1 [0] = some ⟨5, 0, 16⟩ ∧
      find_slice_for staleGraph staleSlices 2 1 [0, 1] = some (some (⟨5, 0, 16⟩, [1, 2])) ∧
      followGteIndex staleLayout.load (staleLayout.slice_address ⟨5, 0, 16⟩) [1, 2] ≠
        staleLayout.address 1 [0, 1] ∧
      followGteIndex staleLayout.load (staleLayout.slice_address ⟨5, 0, 16⟩) [1] =
        staleLayout.address 1 [0, 1]) ∧
    (selectLayout.Consistent selectGraph selectSlices ∧
      find_slice_for selectGraph selectSlices 4 3 [] = some (some (⟨2, 0, 16⟩, [1])) ∧
      find_slice_for selectGraph selectSlices 4 3 [0] = some (some (⟨2, 0, 16⟩, [1])) ∧
      find_slice_for selectGraph selectSlices 4 3 [1] = some (some (⟨2, 0, 16⟩, [1])) ∧
      followGteIndex selectLayout.load (selectLayout.slice_address ⟨2, 0, 16⟩) [1] =
        selectLayout.address 3 [] ∧
      followGteIndex selectLayout.load (selectLayout.slice_address ⟨2, 0, 16⟩) [1] ≠
        selectLayout.address 3 [0] ∧
      followGteIndex selectLayout.load (selectLayout.slice_address ⟨2, 0, 16⟩) [1, 0] =
        selectLayout.address 3 [0]) := by
  refine ⟨⟨staleLayout_consistent, ?_⟩, ⟨selectLayout_consistent, ?_⟩⟩
  · decide
  · decide

/-- The select of `selectGraph` itself, which is no get-tuple-element: the last
loop gives the dropped part of the index, `[1]` at index `{1}` and `[1, 0]` at
index `{1, 0}`. -/
theorem find_slice_for_select_example :
    find_slice_for selectGraph selectSlices 4 2 [1] = some (some (⟨2, 0, 16⟩, [1])) ∧
    find_slice_for selectGraph selectSlices 4 2 [1, 0] = some (some (⟨2, 0, 16⟩, [1, 0])) := by
  decide

/-- The entries of `GetHloBufferSlices` for the consumer of the get-tuple-element
in `selectGraph`: its own buffer, and for the operand three entries with the same
slice and the same indices. -/
theorem GetHloBufferSlices_example :
    GetHloBufferSlices selectGraph selectSlices 5 4 =
      some [⟨4, [], ⟨4, 0, 8⟩, []⟩, ⟨3, [], ⟨2, 0, 16⟩, [1]⟩, ⟨3, [0], ⟨2, 0, 16⟩, [1]⟩,
        ⟨3, [1], ⟨2, 0, 16⟩, [1]⟩] := by
  decide

end XlaGpu
